import Mathlib

/-!
# CT-String: compile-time hashing, hex rendering and string helpers

A shallow embedding of `include/details/hash.hpp`, `byte_store.hpp`,
`fixed_string.hpp`, `string_fns.hpp` and `path_fns.hpp`, together with the
FIPS 180-4 reference definitions the hash code is compared with.

Conventions of the embedding.

* Machine integers are natural numbers; every operation that can leave the width of its
  C++ type is followed by an explicit reduction (`u32`, `u64`, `% 256`, `% 2 ^ 64`).
* C++ arrays are lists of fixed length.  All the functions embedded here are `consteval`
  (or only used in constant expressions), so an out-of-range array access is not silent
  undefined behaviour: constant evaluation must reject it and no value is produced.
  Reads and writes are therefore bounds-checked and the functions return `Option`;
  `none` is "the constant expression is rejected".
* The element type of a string is not a part of `FixedString`.  Two embedded functions take
  what they need of it as a parameter: `compare` the reading `key` of the elements, and
  `extension_logic` the element type `CharT`, as one of its branches is well-formed for
  `char` only.
* A `for` loop with a counter running over `lo, lo + 1, ..., lo + n - 1` is `forLoop lo n`;
  a loop that can be left by `return` or `break` is `forUntil lo n`; a `while` loop is
  `whileLoop fuel`, with a bound on the number of passes that every run respects.
-/

set_option maxRecDepth 100000

namespace CtStr

/-! ## Loops and arrays -/

/-- Counted loop: `forLoop lo n body s` runs `body lo`, `body (lo + 1)`, ...,
`body (lo + n - 1)` on the state, stopping at the first failure. -/
def forLoop {σ : Type} (lo : Nat) : Nat → (Nat → σ → Option σ) → σ → Option σ
  | 0, _, s => some s
  | n + 1, body, s => (forLoop lo n body s).bind (body (lo + n))

/-- Array store `a[i] = v`.  In a constant expression a store outside the array is not
undefined behaviour that goes unnoticed: the evaluation is not a constant expression and
the call of the `consteval` function is ill-formed, so the store is rejected (`none`). -/
def arrWrite (a : List Nat) (i v : Nat) : Option (List Nat) :=
  if i < a.length then some (a.set i v) else none

/-- Counted loop with an early exit: `forUntil lo n body s` runs `body lo`, `body (lo + 1)`,
..., at most `n` times.  A body that yields `Sum.inl s` goes on with the state `s`; a body
that yields `Sum.inr r` leaves the loop with `r` (a `return` or a `break` in the source);
`none` is a rejected evaluation. -/
def forUntil {σ ρ : Type} : Nat → Nat → (Nat → σ → Option (σ ⊕ ρ)) → σ → Option (σ ⊕ ρ)
  | _, 0, _, s => some (Sum.inl s)
  | lo, n + 1, body, s =>
    match body lo s with
    | none => none
    | some (Sum.inr r) => some (Sum.inr r)
    | some (Sum.inl t) => forUntil (lo + 1) n body t

/-- A `while` loop.  The source has no iteration bound; `fuel` bounds the number of passes of
the embedding and is chosen, at each use, above the number of passes any run of the loop can
make.  `none` is a rejected evaluation (or exhausted fuel). -/
def whileLoop {σ : Type} : Nat → (σ → Bool) → (σ → Option σ) → σ → Option σ
  | 0, _, _, _ => none
  | fuel + 1, cond, body, s =>
    if cond s then (body s).bind (whileLoop fuel cond body) else some s

/-- Subtraction of two `std::size_t` values (64 bits, wrapping around). -/
def size_sub (a b : Nat) : Nat := (a + 2 ^ 64 - b) % 2 ^ 64

/-- Conversion to `uint32_t`. -/
def u32 (x : Nat) : Nat := x % 2 ^ 32

/-- Conversion to `uint64_t`. -/
def u64 (x : Nat) : Nat := x % 2 ^ 64

/-! ## `fixed_string.hpp` -/

/-- Embedding of `FixedString<CharT, N>`: the `N` stored elements (for a literal, the characters and
the terminator), as unsigned element values. -/
structure FixedString where
  data : List Nat
deriving DecidableEq, Repr

/-- Embedding of `FixedString::size()`: `N > 0 ? N - 1 : 0`. -/
def FixedString.size (s : FixedString) : Nat :=
  if s.data.length > 0 then s.data.length - 1 else 0

/-- The `FixedString` deduced from a narrow string literal of ASCII characters: its
characters followed by the terminating zero.  A literal of ASCII characters with another
element type (`L"..."`, `u8"..."`, `u"..."`, `U"..."`) has the same elements. -/
def FixedString.lit (s : String) : FixedString :=
  ⟨s.toList.map Char.toNat ++ [0]⟩

/-- Embedding of `FixedString::operator[]`: the element at index `i` of `data`; a read outside
the array is rejected in a constant expression. -/
def FixedString.get (s : FixedString) (i : Nat) : Option Nat := s.data[i]?

/-- Embedding of the constructor `FixedString<CharT, N>(const CharT* str, std::size_t len)`:
the zero-initialised `data[N]` receives `str[0 .. len)` and then `data[len] = CharT{}`. -/
def FixedString.from_buffer (N : Nat) (str : List Nat) (len : Nat) : Option FixedString := do
  let data ← forLoop 0 len (fun i data => do
    let c ← str[i]?
    arrWrite data i c) (List.replicate N 0)
  let data ← arrWrite data len 0
  some ⟨data⟩

/-! ## `hash.hpp`: CRC-32 -/

/-- The table-building loop of `crc32_compute`. -/
def crc32_table : Option (List Nat) :=
  forLoop 0 256 (fun i table => do
    let crc ← forLoop 0 8 (fun _ crc =>
      some (if crc &&& 1 ≠ 0 then (crc >>> 1) ^^^ 0xEDB88320 else crc >>> 1)) i
    arrWrite table i crc) (List.replicate 256 0)

/-- Embedding of `crc32_compute(data, len)`. -/
def crc32_compute (data : List Nat) (len : Nat) : Option Nat := do
  let table ← crc32_table
  let crc ← forLoop 0 len (fun i crc => do
    let d ← data[i]?
    let byte := d % 256
    let t ← table[(crc ^^^ byte) &&& 0xFF]?
    some (t ^^^ (crc >>> 8))) 0xFFFFFFFF
  some (crc ^^^ 0xFFFFFFFF)

/-- Embedding of `crc32<Str>()`. -/
def crc32 (Str : FixedString) : Option Nat :=
  crc32_compute Str.data Str.size

/-! ## `hash.hpp`: SHA-256 -/

/-- The hash words `h0 .. h7`. -/
structure Hash8 where
  h0 : Nat
  h1 : Nat
  h2 : Nat
  h3 : Nat
  h4 : Nat
  h5 : Nat
  h6 : Nat
  h7 : Nat
deriving DecidableEq, Repr

/-- The working variables `a .. h` of the compression loop. -/
structure Work8 where
  a : Nat
  b : Nat
  c : Nat
  d : Nat
  e : Nat
  f : Nat
  g : Nat
  h : Nat
deriving DecidableEq, Repr

/-- The table `K[64]` of `sha256_compute`. -/
def sha256_K : List Nat := [
  0x428A2F98, 0x71374491, 0xB5C0FBCF, 0xE9B5DBA5, 0x3956C25B, 0x59F111F1, 0x923F82A4, 0xAB1C5ED5,
  0xD807AA98, 0x12835B01, 0x243185BE, 0x550C7DC3, 0x72BE5D74, 0x80DEB1FE, 0x9BDC06A7, 0xC19BF174,
  0xE49B69C1, 0xEFBE4786, 0x0FC19DC6, 0x240CA1CC, 0x2DE92C6F, 0x4A7484AA, 0x5CB0A9DC, 0x76F988DA,
  0x983E5152, 0xA831C66D, 0xB00327C8, 0xBF597FC7, 0xC6E00BF3, 0xD5A79147, 0x06CA6351, 0x14292967,
  0x27B70A85, 0x2E1B2138, 0x4D2C6DFC, 0x53380D13, 0x650A7354, 0x766A0ABB, 0x81C2C92E, 0x92722C85,
  0xA2BFE8A1, 0xA81A664B, 0xC24B8B70, 0xC76C51A3, 0xD192E819, 0xD6990624, 0xF40E3585, 0x106AA070,
  0x19A4C116, 0x1E376C08, 0x2748774C, 0x34B0BCB5, 0x391C0CB3, 0x4ED8AA4A, 0x5B9CCA4F, 0x682E6FF3,
  0x748F82EE, 0x78A5636F, 0x84C87814, 0x8CC70208, 0x90BEFFFA, 0xA4506CEB, 0xBEF9A3F7, 0xC67178F2]

/-- The initial values of `h0 .. h7` in `sha256_compute`. -/
def sha256_init : Hash8 :=
  ⟨0x6A09E667, 0xBB67AE85, 0x3C6EF372, 0xA54FF53A, 0x510E527F, 0x9B05688C, 0x1F83D9AB, 0x5BE0CD19⟩

/-- The "Prepare message" and "Append length" part of `sha256_compute`: the scratch buffer
`msg` and `padded_len`. -/
def sha256_prepare (data : List Nat) (len : Nat) : Option (List Nat × Nat) := do
  let bit_len := u64 (len * 8)
  let padded_len := u64 (u64 (u64 (len + 8) / 64 + 1) * 64)
  let msg ← forLoop 0 len (fun i msg => do
    let d ← data[i]?
    arrWrite msg i (d % 256)) (List.replicate 1024 0)
  let msg ← arrWrite msg len 0x80
  let msg ← forLoop 0 8 (fun i msg =>
    arrWrite msg (padded_len - 1 - i) ((bit_len >>> (i * 8)) % 256)) msg
  some (msg, padded_len)

/-- Section "Copy chunk into w[0..15]" in `sha256_compute`, from the zero-initialised `w[64]`. -/
def sha256_copy_chunk (msg : List Nat) (chunk : Nat) : Option (List Nat) :=
  forLoop 0 16 (fun i w => do
    let b0 ← msg[chunk * 64 + i * 4]?
    let b1 ← msg[chunk * 64 + i * 4 + 1]?
    let b2 ← msg[chunk * 64 + i * 4 + 2]?
    let b3 ← msg[chunk * 64 + i * 4 + 3]?
    arrWrite w i (u32 (b0 <<< 24) ||| u32 (b1 <<< 16) ||| u32 (b2 <<< 8) ||| b3))
    (List.replicate 64 0)

/-- Section "Extend w[16..63]" in `sha256_compute`. -/
def sha256_extend (w : List Nat) : Option (List Nat) :=
  forLoop 16 48 (fun i w => do
    let x ← w[i - 15]?
    let y ← w[i - 2]?
    let w16 ← w[i - 16]?
    let w7 ← w[i - 7]?
    let s0 := ((x >>> 7) ||| u32 (x <<< 25)) ^^^ ((x >>> 18) ||| u32 (x <<< 14)) ^^^ (x >>> 3)
    let s1 := ((y >>> 17) ||| u32 (y <<< 15)) ^^^ ((y >>> 19) ||| u32 (y <<< 13)) ^^^ (y >>> 10)
    arrWrite w i (u32 (u32 (u32 (w16 + s0) + w7) + s1))) w

/-- Section "Compression" in `sha256_compute`: the 64 rounds on `a .. h` and the update of
`h0 .. h7`. -/
def sha256_compress (w : List Nat) (H : Hash8) : Option Hash8 := do
  let v ← forLoop 0 64 (fun i (v : Work8) => do
    let k ← sha256_K[i]?
    let wi ← w[i]?
    let S1 := ((v.e >>> 6) ||| u32 (v.e <<< 26)) ^^^ ((v.e >>> 11) ||| u32 (v.e <<< 21)) ^^^
      ((v.e >>> 25) ||| u32 (v.e <<< 7))
    let ch := (v.e &&& v.f) ^^^ ((v.e ^^^ 0xFFFFFFFF) &&& v.g)
    let temp1 := u32 (u32 (u32 (u32 (v.h + S1) + ch) + k) + wi)
    let S0 := ((v.a >>> 2) ||| u32 (v.a <<< 30)) ^^^ ((v.a >>> 13) ||| u32 (v.a <<< 19)) ^^^
      ((v.a >>> 22) ||| u32 (v.a <<< 10))
    let maj := (v.a &&& v.b) ^^^ (v.a &&& v.c) ^^^ (v.b &&& v.c)
    let temp2 := u32 (S0 + maj)
    some { h := v.g, g := v.f, f := v.e, e := u32 (v.d + temp1), d := v.c, c := v.b, b := v.a,
           a := u32 (temp1 + temp2) }) ⟨H.h0, H.h1, H.h2, H.h3, H.h4, H.h5, H.h6, H.h7⟩
  some ⟨u32 (H.h0 + v.a), u32 (H.h1 + v.b), u32 (H.h2 + v.c), u32 (H.h3 + v.d),
        u32 (H.h4 + v.e), u32 (H.h5 + v.f), u32 (H.h6 + v.g), u32 (H.h7 + v.h)⟩

/-- The body of the "Process chunks" loop of `sha256_compute` for one value of `chunk`. -/
def sha256_chunk (msg : List Nat) (chunk : Nat) (H : Hash8) : Option Hash8 := do
  let w ← sha256_copy_chunk msg chunk
  let w ← sha256_extend w
  sha256_compress w H

/-- The "Produce final hash" loop of `sha256_compute`. -/
def sha256_output (H : Hash8) : Option (List Nat) :=
  forLoop 0 4 (fun i r => do
    let r ← arrWrite r i ((H.h0 >>> (24 - i * 8)) &&& 0xFF)
    let r ← arrWrite r (4 + i) ((H.h1 >>> (24 - i * 8)) &&& 0xFF)
    let r ← arrWrite r (8 + i) ((H.h2 >>> (24 - i * 8)) &&& 0xFF)
    let r ← arrWrite r (12 + i) ((H.h3 >>> (24 - i * 8)) &&& 0xFF)
    let r ← arrWrite r (16 + i) ((H.h4 >>> (24 - i * 8)) &&& 0xFF)
    let r ← arrWrite r (20 + i) ((H.h5 >>> (24 - i * 8)) &&& 0xFF)
    let r ← arrWrite r (24 + i) ((H.h6 >>> (24 - i * 8)) &&& 0xFF)
    arrWrite r (28 + i) ((H.h7 >>> (24 - i * 8)) &&& 0xFF)) (List.replicate 32 0)

/-- Embedding of `sha256_compute(data, len)`: the 32 bytes of the returned `FixedBytes<32>`. -/
def sha256_compute (data : List Nat) (len : Nat) : Option (List Nat) := do
  let (msg, padded_len) ← sha256_prepare data len
  let H ← forLoop 0 (padded_len / 64) (fun chunk H => sha256_chunk msg chunk H) sha256_init
  sha256_output H

/-- Embedding of `sha256_logic<Str>()`. -/
def sha256_logic (Str : FixedString) : Option (List Nat) :=
  sha256_compute Str.data Str.size

/-! ## `hash.hpp`: SHA-512 -/

/-- The table `K[80]` of `sha512_compute`. -/
def sha512_K : List Nat := [
  0x428A2F98D728AE22, 0x7137449123EF65CD, 0xB5C0FBCFEC4D3B2F, 0xE9B5DBA58189DBBC,
  0x3956C25BF348B538, 0x59F111F1B605D019, 0x923F82A4AF194F9B, 0xAB1C5ED5DA6D8118,
  0xD807AA98A3030242, 0x12835B0145706FBE, 0x243185BE4EE4B28C, 0x550C7DC3D5FFB4E2,
  0x72BE5D74F27B896F, 0x80DEB1FE3B1696B1, 0x9BDC06A725C71235, 0xC19BF174CF692694,
  0xE49B69C19EF14AD2, 0xEFBE4786384F25E3, 0x0FC19DC68B8CD5B5, 0x240CA1CC77AC9C65,
  0x2DE92C6F592B0275, 0x4A7484AA6EA6E483, 0x5CB0A9DCBD41FBD4, 0x76F988DA831153B5,
  0x983E5152EE66DFAB, 0xA831C66D2DB43210, 0xB00327C898FB213F, 0xBF597FC7BEEF0EE4,
  0xC6E00BF33DA88FC2, 0xD5A79147930AA725, 0x06CA6351E003826F, 0x142929670A0E6E70,
  0x27B70A8546D22FFC, 0x2E1B21385C26C926, 0x4D2C6DFC5AC42AED, 0x53380D139D95B3DF,
  0x650A73548BAF63DE, 0x766A0ABB3C77B2A8, 0x81C2C92E47EDAEE6, 0x92722C851482353B,
  0xA2BFE8A14CF10364, 0xA81A664BBC423001, 0xC24B8B70D0F89791, 0xC76C51A30654BE30,
  0xD192E819D6EF5218, 0xD69906245565A910, 0xF40E35855771202A, 0x106AA07032BBD1B8,
  0x19A4C116B8D2D0C8, 0x1E376C085141AB53, 0x2748774CDF8EEB99, 0x34B0BCB5E19B48A8,
  0x391C0CB3C5C95A63, 0x4ED8AA4AE3418ACB, 0x5B9CCA4F7763E373, 0x682E6FF3D6B2B8A3,
  0x748F82EE5DEFB2FC, 0x78A5636F43172F60, 0x84C87814A1F0AB72, 0x8CC702081A6439EC,
  0x90BEFFFA23631E28, 0xA4506CEBDE82BDE9, 0xBEF9A3F7B2C67915, 0xC67178F2E372532B,
  0xCA273ECEEA26619C, 0xD186B8C721C0C207, 0xEADA7DD6CDE0EB1E, 0xF57D4F7FEE6ED178,
  0x06F067AA72176FBA, 0x0A637DC5A2C898A6, 0x113F9804BEF90DAE, 0x1B710B35131C471B,
  0x28DB77F523047D84, 0x32CAAB7B40C72493, 0x3C9EBE0A15C9BEBC, 0x431D67C49C100D4C,
  0x4CC5D4BECB3E42B6, 0x597F299CFC657E2A, 0x5FCB6FAB3AD6FAEC, 0x6C44198C4A475817]

/-- The initial values of `h0 .. h7` in `sha512_compute`. -/
def sha512_init : Hash8 :=
  ⟨0x6A09E667F3BCC908, 0xBB67AE8584CAA73B, 0x3C6EF372FE94F82B, 0xA54FF53A5F1D36F1,
   0x510E527FADE682D1, 0x9B05688C2B3E6C1F, 0x1F83D9ABFB41BD6B, 0x5BE0CD19137E2179⟩

/-- The "Prepare message" and "Append length" part of `sha512_compute`: the scratch buffer
`msg` and `padded_len`. -/
def sha512_prepare (data : List Nat) (len : Nat) : Option (List Nat × Nat) := do
  let bit_len := u64 (len * 8)
  let padded_len := u64 (u64 (u64 (len + 16) / 128 + 1) * 128)
  let msg ← forLoop 0 len (fun i msg => do
    let d ← data[i]?
    arrWrite msg i (d % 256)) (List.replicate 2048 0)
  let msg ← arrWrite msg len 0x80
  let msg ← forLoop 0 8 (fun i msg =>
    arrWrite msg (padded_len - 1 - i) ((bit_len >>> (i * 8)) % 256)) msg
  some (msg, padded_len)

/-- Section "Copy chunk into w[0..15]" in `sha512_compute`, from the zero-initialised `w[80]`. -/
def sha512_copy_chunk (msg : List Nat) (chunk : Nat) : Option (List Nat) :=
  forLoop 0 16 (fun i w => do
    let b0 ← msg[chunk * 128 + i * 8]?
    let b1 ← msg[chunk * 128 + i * 8 + 1]?
    let b2 ← msg[chunk * 128 + i * 8 + 2]?
    let b3 ← msg[chunk * 128 + i * 8 + 3]?
    let b4 ← msg[chunk * 128 + i * 8 + 4]?
    let b5 ← msg[chunk * 128 + i * 8 + 5]?
    let b6 ← msg[chunk * 128 + i * 8 + 6]?
    let b7 ← msg[chunk * 128 + i * 8 + 7]?
    arrWrite w i (u64 (b0 <<< 56) ||| u64 (b1 <<< 48) ||| u64 (b2 <<< 40) ||| u64 (b3 <<< 32) |||
      u64 (b4 <<< 24) ||| u64 (b5 <<< 16) ||| u64 (b6 <<< 8) ||| b7))
    (List.replicate 80 0)

/-- Section "Extend w[16..79]" in `sha512_compute`. -/
def sha512_extend (w : List Nat) : Option (List Nat) :=
  forLoop 16 64 (fun i w => do
    let x ← w[i - 15]?
    let y ← w[i - 2]?
    let w16 ← w[i - 16]?
    let w7 ← w[i - 7]?
    let s0 := ((x >>> 1) ||| u64 (x <<< 63)) ^^^ ((x >>> 8) ||| u64 (x <<< 56)) ^^^ (x >>> 7)
    let s1 := ((y >>> 19) ||| u64 (y <<< 45)) ^^^ ((y >>> 61) ||| u64 (y <<< 3)) ^^^ (y >>> 6)
    arrWrite w i (u64 (u64 (u64 (w16 + s0) + w7) + s1))) w

/-- Section "Compression" in `sha512_compute`: the 80 rounds on `a .. h` and the update of
`h0 .. h7`. -/
def sha512_compress (w : List Nat) (H : Hash8) : Option Hash8 := do
  let v ← forLoop 0 80 (fun i (v : Work8) => do
    let k ← sha512_K[i]?
    let wi ← w[i]?
    let S1 := ((v.e >>> 14) ||| u64 (v.e <<< 50)) ^^^ ((v.e >>> 18) ||| u64 (v.e <<< 46)) ^^^
      ((v.e >>> 41) ||| u64 (v.e <<< 23))
    let ch := (v.e &&& v.f) ^^^ ((v.e ^^^ 0xFFFFFFFFFFFFFFFF) &&& v.g)
    let temp1 := u64 (u64 (u64 (u64 (v.h + S1) + ch) + k) + wi)
    let S0 := ((v.a >>> 28) ||| u64 (v.a <<< 36)) ^^^ ((v.a >>> 34) ||| u64 (v.a <<< 30)) ^^^
      ((v.a >>> 39) ||| u64 (v.a <<< 25))
    let maj := (v.a &&& v.b) ^^^ (v.a &&& v.c) ^^^ (v.b &&& v.c)
    let temp2 := u64 (S0 + maj)
    some { h := v.g, g := v.f, f := v.e, e := u64 (v.d + temp1), d := v.c, c := v.b, b := v.a,
           a := u64 (temp1 + temp2) }) ⟨H.h0, H.h1, H.h2, H.h3, H.h4, H.h5, H.h6, H.h7⟩
  some ⟨u64 (H.h0 + v.a), u64 (H.h1 + v.b), u64 (H.h2 + v.c), u64 (H.h3 + v.d),
        u64 (H.h4 + v.e), u64 (H.h5 + v.f), u64 (H.h6 + v.g), u64 (H.h7 + v.h)⟩

/-- The body of the "Process chunks" loop of `sha512_compute` for one value of `chunk`. -/
def sha512_chunk (msg : List Nat) (chunk : Nat) (H : Hash8) : Option Hash8 := do
  let w ← sha512_copy_chunk msg chunk
  let w ← sha512_extend w
  sha512_compress w H

/-- The "Produce final hash" loop of `sha512_compute`. -/
def sha512_output (H : Hash8) : Option (List Nat) :=
  forLoop 0 8 (fun i r => do
    let r ← arrWrite r i ((H.h0 >>> (56 - i * 8)) &&& 0xFF)
    let r ← arrWrite r (8 + i) ((H.h1 >>> (56 - i * 8)) &&& 0xFF)
    let r ← arrWrite r (16 + i) ((H.h2 >>> (56 - i * 8)) &&& 0xFF)
    let r ← arrWrite r (24 + i) ((H.h3 >>> (56 - i * 8)) &&& 0xFF)
    let r ← arrWrite r (32 + i) ((H.h4 >>> (56 - i * 8)) &&& 0xFF)
    let r ← arrWrite r (40 + i) ((H.h5 >>> (56 - i * 8)) &&& 0xFF)
    let r ← arrWrite r (48 + i) ((H.h6 >>> (56 - i * 8)) &&& 0xFF)
    arrWrite r (56 + i) ((H.h7 >>> (56 - i * 8)) &&& 0xFF)) (List.replicate 64 0)

/-- Embedding of `sha512_compute(data, len)`: the 64 bytes of the returned `FixedBytes<64>`. -/
def sha512_compute (data : List Nat) (len : Nat) : Option (List Nat) := do
  let (msg, padded_len) ← sha512_prepare data len
  let H ← forLoop 0 (padded_len / 128) (fun chunk H => sha512_chunk msg chunk H) sha512_init
  sha512_output H

/-- Embedding of `sha512_logic<Str>()`. -/
def sha512_logic (Str : FixedString) : Option (List Nat) :=
  sha512_compute Str.data Str.size

/-! ## `byte_store.hpp` -/

/-- The literal `"0123456789abcdef"` of `ByteStore::hex`, with its terminator. -/
def hex_chars : List Nat :=
  [48, 49, 50, 51, 52, 53, 54, 55, 56, 57, 97, 98, 99, 100, 101, 102, 0]

/-- Embedding of `ByteStore<Bytes>::hex()`: the `N * 2 + 1` characters of `HexStorage::data`. -/
def ByteStore_hex (Bytes : List Nat) : Option (List Nat) := do
  let N := Bytes.length
  let data ← forLoop 0 N (fun i data => do
    let b ← Bytes[i]?
    let hi ← hex_chars[(b >>> 4) &&& 0x0F]?
    let lo ← hex_chars[b &&& 0x0F]?
    let data ← arrWrite data (i * 2) hi
    arrWrite data (i * 2 + 1) lo) (List.replicate (N * 2 + 1) 0)
  arrWrite data (N * 2) 0

/-- Embedding of `std::string(p)` for a character pointer `p`: the characters before the first zero. -/
def std_string (p : List Nat) : String :=
  String.mk ((p.takeWhile (fun c => c ≠ 0)).map Char.ofNat)

/-- Embedding of `ByteStore<Bytes>::size()`: `N = sizeof(Bytes.data)`. -/
def ByteStore_size (Bytes : List Nat) : Nat := Bytes.length


/-! ## `string_fns.hpp`: queries -/

/-- The value `static_cast<std::size_t>(-1)` for a 64-bit `std::size_t`. -/
def npos : Nat := 2 ^ 64 - 1

/-- Embedding of `at<Str, Pos>()` (written `at_`, the word `at` being reserved): the
`static_assert(Pos < Str.size())` rejects the instantiation (`none`), otherwise `Str[Pos]`. -/
def at_ (Str : FixedString) (Pos : Nat) : Option Nat :=
  if Pos < Str.size then Str.get Pos else none

/-- The inner loop shared by `find` and `rfind`: `match` starts as `true`, and the first `j`
with `Str[base + j] != Pattern[j]` sets it to `false` and breaks. -/
def pattern_match (Str Pattern : FixedString) (base : Nat) : Option Bool :=
  (forUntil 0 Pattern.size (fun j (m : Bool) => do
    let a ← Str.get (base + j)
    let b ← Pattern.get j
    if a ≠ b then some (Sum.inr false) else some (Sum.inl m)) true).map
    (fun r => match r with
      | Sum.inl m => m
      | Sum.inr m => m)

/-- Embedding of `find<Str, Pattern, StartPos>()`. -/
def find (Str Pattern : FixedString) (StartPos : Nat) : Option Nat :=
  let str_len := Str.size
  let pat_len := Pattern.size
  if pat_len = 0 then some StartPos
  else if pat_len > str_len ∨ StartPos ≥ str_len then some str_len
  else
    (forUntil StartPos (str_len - pat_len + 1 - StartPos) (fun i (_ : Unit) => do
      let m ← pattern_match Str Pattern i
      if m then some (Sum.inr i) else some (Sum.inl ())) ()).map
      (fun r => match r with
        | Sum.inl _ => npos
        | Sum.inr i => i)

/-- Embedding of `rfind<Str, Pattern>()`: the loop variable `i` runs from
`str_len - pat_len + 1` down to `1`; the `k`-th pass has `i = str_len - pat_len + 1 - k`. -/
def rfind (Str Pattern : FixedString) : Option Nat :=
  let str_len := Str.size
  let pat_len := Pattern.size
  if pat_len = 0 then some npos
  else if pat_len > str_len then some npos
  else
    (forUntil 0 (str_len - pat_len + 1) (fun k (_ : Unit) => do
      let i := str_len - pat_len + 1 - k
      let m ← pattern_match Str Pattern (i - 1)
      if m then some (Sum.inr (i - 1)) else some (Sum.inl ())) ()).map
      (fun r => match r with
        | Sum.inl _ => npos
        | Sum.inr i => i)

/-- Embedding of `starts_with<Str, Pattern>()`. -/
def starts_with (Str Pattern : FixedString) : Option Bool :=
  if Pattern.size > Str.size then some false
  else
    (forUntil 0 Pattern.size (fun i (_ : Unit) => do
      let a ← Str.get i
      let b ← Pattern.get i
      if a ≠ b then some (Sum.inr false) else some (Sum.inl ())) ()).map
      (fun r => match r with
        | Sum.inl _ => true
        | Sum.inr b => b)

/-- Embedding of `ends_with<Str, Pattern>()`. -/
def ends_with (Str Pattern : FixedString) : Option Bool :=
  if Pattern.size > Str.size then some false
  else
    let offset := Str.size - Pattern.size
    (forUntil 0 Pattern.size (fun i (_ : Unit) => do
      let a ← Str.get (offset + i)
      let b ← Pattern.get i
      if a ≠ b then some (Sum.inr false) else some (Sum.inl ())) ()).map
      (fun r => match r with
        | Sum.inl _ => true
        | Sum.inr b => b)

/-- Embedding of `contains<Str, Pattern>()`: `find<Str, Pattern>() < Str.size()`. -/
def contains (Str Pattern : FixedString) : Option Bool :=
  (find Str Pattern 0).map (fun r => decide (r < Str.size))

/-- Embedding of `compare<Str1, Str2>()`.  The elements are compared as values of the element
type: `key` gives the value of a stored element (the identity for an unsigned element type,
the two's complement reading for a signed one). -/
def compare (key : Nat → Int) (Str1 Str2 : FixedString) : Option Int :=
  let len1 := Str1.size
  let len2 := Str2.size
  let min_len := if len1 < len2 then len1 else len2
  (forUntil 0 min_len (fun i (_ : Unit) => do
    let a ← Str1.get i
    let b ← Str2.get i
    if key a < key b then some (Sum.inr (-1))
    else if key a > key b then some (Sum.inr 1)
    else some (Sum.inl ())) ()).map
    (fun r => match r with
      | Sum.inl _ => if len1 < len2 then -1 else if len1 > len2 then 1 else 0
      | Sum.inr c => c)

/-! ## `string_fns.hpp`: helpers for size calculation -/

/-- Embedding of `find_first_non_space<Str>()`. -/
def find_first_non_space (Str : FixedString) : Option Nat :=
  (forUntil 0 Str.size (fun i (_ : Unit) => do
    let c ← Str.get i
    if c ≠ 32 ∧ c ≠ 9 ∧ c ≠ 10 ∧ c ≠ 13 then some (Sum.inr i) else some (Sum.inl ())) ()).map
    (fun r => match r with
      | Sum.inl _ => Str.size
      | Sum.inr i => i)

/-- Embedding of `find_last_non_space<Str>()`: the loop variable `i` runs from `Str.size()`
down to `1`; the `k`-th pass has `i = Str.size() - k`. -/
def find_last_non_space (Str : FixedString) : Option Nat :=
  (forUntil 0 Str.size (fun k (_ : Unit) => do
    let i := Str.size - k
    let c ← Str.get (i - 1)
    if c ≠ 32 ∧ c ≠ 9 ∧ c ≠ 10 ∧ c ≠ 13 then some (Sum.inr i) else some (Sum.inl ())) ()).map
    (fun r => match r with
      | Sum.inl _ => 0
      | Sum.inr i => i)

/-- Embedding of `count_occurrences<Str, Pattern>()`.  The loop state is `(count, pos)`;
`pos` grows in every pass and an element of `Str` is read in every pass, so there are at most
as many passes as `Str` has elements. -/
def count_occurrences (Str Pattern : FixedString) : Option Nat :=
  let str_len := Str.size
  let pat_len := Pattern.size
  if pat_len = 0 then some 0
  else
    (whileLoop (Str.data.length + 1)
      (fun (st : Nat × Nat) => decide (st.2 ≤ size_sub str_len pat_len))
      (fun (st : Nat × Nat) => do
        let m ← pattern_match Str Pattern st.2
        if m then some (st.1 + 1, st.2 + pat_len) else some (st.1, st.2 + 1))
      (0, 0)).map (fun st => st.1)

/-- Embedding of `count_n_occurrences<Str, Pattern, N>()`, with the loop state
`(count, pos)`. -/
def count_n_occurrences (Str Pattern : FixedString) (N : Nat) : Option Nat :=
  let str_len := Str.size
  let pat_len := Pattern.size
  if pat_len = 0 then some 0
  else
    (whileLoop (Str.data.length + 1)
      (fun (st : Nat × Nat) => decide (st.2 ≤ size_sub str_len pat_len) && decide (st.1 < N))
      (fun (st : Nat × Nat) => do
        let m ← pattern_match Str Pattern st.2
        if m then some (st.1 + 1, st.2 + pat_len) else some (st.1, st.2 + 1))
      (0, 0)).map (fun st => st.1)

/-! ## `string_fns.hpp`: transformations -/

/-- Embedding of `substr_logic<Str, Start, Length>()`. -/
def substr_logic (Str : FixedString) (Start Length : Nat) : Option FixedString := do
  let str_len := Str.size
  let actual_start := if Start < str_len then Start else str_len
  let max_len := str_len - actual_start
  let actual_len := if Length < max_len then Length else max_len
  let buf ← forLoop 0 actual_len (fun i buf => do
    let c ← Str.get (actual_start + i)
    arrWrite buf i c) (List.replicate (actual_len + 1) 0)
  FixedString.from_buffer (actual_len + 1) buf actual_len

/-- Embedding of `to_upper_logic<Str>()`; `c - 32` is only computed for `c` from `'a'` to
`'z'`. -/
def to_upper_logic (Str : FixedString) : Option FixedString := do
  let N := Str.data.length
  let len := Str.size
  let buf ← forLoop 0 len (fun i buf => do
    let c ← Str.get i
    arrWrite buf i (if c ≥ 97 ∧ c ≤ 122 then c - 32 else c)) (List.replicate N 0)
  FixedString.from_buffer N buf len

/-- Embedding of `to_lower_logic<Str>()`. -/
def to_lower_logic (Str : FixedString) : Option FixedString := do
  let N := Str.data.length
  let len := Str.size
  let buf ← forLoop 0 len (fun i buf => do
    let c ← Str.get i
    arrWrite buf i (if c ≥ 65 ∧ c ≤ 90 then c + 32 else c)) (List.replicate N 0)
  FixedString.from_buffer N buf len

/-- Embedding of `trim_logic<Str>()`. -/
def trim_logic (Str : FixedString) : Option FixedString := do
  let start ← find_first_non_space Str
  let end_ ← find_last_non_space Str
  let len := if end_ > start then end_ - start else 0
  let buf ← forLoop 0 len (fun i buf => do
    let c ← Str.get (start + i)
    arrWrite buf i c) (List.replicate (len + 1) 0)
  FixedString.from_buffer (len + 1) buf len

/-- Embedding of `replace_all_logic<Str, Pattern, Replacement>()`.  The state of the `while`
loop is `(src_pos, dst_pos, buf)`; `src_pos` grows in every pass, so there are at most
`str_len` passes. -/
def replace_all_logic (Str Pattern Replacement : FixedString) : Option FixedString := do
  let str_len := Str.size
  let pat_len := Pattern.size
  let rep_len := Replacement.size
  let count ← count_occurrences Str Pattern
  let result_len := u64 (size_sub str_len (u64 (count * pat_len)) + u64 (count * rep_len))
  let st ← whileLoop (str_len + 1)
    (fun (st : Nat × Nat × List Nat) => decide (st.1 < str_len))
    (fun (st : Nat × Nat × List Nat) => do
      let src_pos := st.1
      let dst_pos := st.2.1
      let buf := st.2.2
      let m ←
        if pat_len > 0 ∧ src_pos ≤ size_sub str_len pat_len then
          pattern_match Str Pattern src_pos
        else some false
      if m then do
        let w ← forLoop 0 rep_len (fun i (w : Nat × List Nat) => do
          let c ← Replacement.get i
          let b ← arrWrite w.2 w.1 c
          some (w.1 + 1, b)) (dst_pos, buf)
        some (src_pos + pat_len, w.1, w.2)
      else do
        let c ← Str.get src_pos
        let b ← arrWrite buf dst_pos c
        some (src_pos + 1, dst_pos + 1, b))
    (0, 0, List.replicate (result_len + 1) 0)
  FixedString.from_buffer (result_len + 1) st.2.2 result_len

/-- Embedding of `replace_n_logic<Str, Pattern, Replacement, N>()`.  The state of the
`while` loop is `(src_pos, dst_pos, replacements, buf)`. -/
def replace_n_logic (Str Pattern Replacement : FixedString) (N : Nat) : Option FixedString := do
  let str_len := Str.size
  let pat_len := Pattern.size
  let rep_len := Replacement.size
  let count ← count_n_occurrences Str Pattern N
  let result_len := u64 (size_sub str_len (u64 (count * pat_len)) + u64 (count * rep_len))
  let st ← whileLoop (str_len + 1)
    (fun (st : Nat × Nat × Nat × List Nat) => decide (st.1 < str_len))
    (fun (st : Nat × Nat × Nat × List Nat) => do
      let src_pos := st.1
      let dst_pos := st.2.1
      let replacements := st.2.2.1
      let buf := st.2.2.2
      let m ←
        if pat_len > 0 ∧ src_pos ≤ size_sub str_len pat_len ∧ replacements < N then
          pattern_match Str Pattern src_pos
        else some false
      if m then do
        let w ← forLoop 0 rep_len (fun i (w : Nat × List Nat) => do
          let c ← Replacement.get i
          let b ← arrWrite w.2 w.1 c
          some (w.1 + 1, b)) (dst_pos, buf)
        some (src_pos + pat_len, w.1, replacements + 1, w.2)
      else do
        let c ← Str.get src_pos
        let b ← arrWrite buf dst_pos c
        some (src_pos + 1, dst_pos + 1, replacements, b))
    (0, 0, 0, List.replicate (result_len + 1) 0)
  FixedString.from_buffer (result_len + 1) st.2.2.2 result_len

/-! ## `path_fns.hpp` -/

/-- Embedding of `find_last_separator<Path>()`: the loop variable `i` runs from
`Path.size()` down to `1`; the `k`-th pass has `i = Path.size() - k`. -/
def find_last_separator (Path : FixedString) : Option Nat :=
  (forUntil 0 Path.size (fun k (_ : Unit) => do
    let i := Path.size - k
    let c ← Path.get (i - 1)
    if c = 47 ∨ c = 92 then some (Sum.inr i) else some (Sum.inl ())) ()).map
    (fun r => match r with
      | Sum.inl _ => 0
      | Sum.inr i => i)

/-- Embedding of `find_last_dot<Path>()`: the loop variable `i` runs from `Path.size()`
down to `last_sep + 1`. -/
def find_last_dot (Path : FixedString) : Option Nat := do
  let last_sep ← find_last_separator Path
  (forUntil 0 (Path.size - last_sep) (fun k (_ : Unit) => do
    let i := Path.size - k
    let c ← Path.get (i - 1)
    if c = 46 then some (Sum.inr (i - 1)) else some (Sum.inl ())) ()).map
    (fun r => match r with
      | Sum.inl _ => Path.size
      | Sum.inr i => i)

/-- Embedding of `filename_logic<Path>()`. -/
def filename_logic (Path : FixedString) : Option FixedString := do
  let pos ← find_last_separator Path
  let len := Path.size - pos
  let buf ← forLoop 0 len (fun i buf => do
    let c ← Path.get (pos + i)
    arrWrite buf i c) (List.replicate (len + 1) 0)
  FixedString.from_buffer (len + 1) buf len

/-- Embedding of `stem_logic<Path>()`. -/
def stem_logic (Path : FixedString) : Option FixedString := do
  let sep_pos ← find_last_separator Path
  let dot_pos ← find_last_dot Path
  let start := sep_pos
  let end_ := if dot_pos > sep_pos ∧ dot_pos ≠ Path.size then dot_pos else Path.size
  let len := end_ - start
  let buf ← forLoop 0 len (fun i buf => do
    let c ← Path.get (start + i)
    arrWrite buf i c) (List.replicate (len + 1) 0)
  FixedString.from_buffer (len + 1) buf len

/-- The element types of a `FixedString` that the deduction guides of `fixed_string.hpp`
provide. -/
inductive CharT where
  | char
  | char8_t
  | wchar_t
  | char16_t
  | char32_t
deriving DecidableEq, Repr

/-- Embedding of `extension_logic<Path>()`, where `T` is the element type `CharT` of `Path`.
The first branch is `FixedString<CharT, 1>("", 0)`: the argument `""` is an array of `char`,
and the constructor `FixedString(const CharT*, std::size_t)` takes it only when `CharT` is
`char`.  For another element type there is no matching constructor, so the instantiation
with a path that takes this branch is rejected.  The branch is under `if constexpr`, so it
is not instantiated for a path that takes the second branch. -/
def extension_logic (T : CharT) (Path : FixedString) : Option FixedString := do
  let dot_pos ← find_last_dot Path
  let sep_pos ← find_last_separator Path
  if dot_pos = Path.size ∨ dot_pos ≤ sep_pos then
    if T = CharT.char then FixedString.from_buffer 1 [0] 0 else none
  else do
    let len := Path.size - dot_pos
    let buf ← forLoop 0 len (fun i buf => do
      let c ← Path.get (dot_pos + i)
      arrWrite buf i c) (List.replicate (len + 1) 0)
    FixedString.from_buffer (len + 1) buf len

/-- Embedding of `replace_extension_logic<Path, NewExt>()`. -/
def replace_extension_logic (Path NewExt : FixedString) : Option FixedString := do
  let dot_pos ← find_last_dot Path
  let sep_pos ← find_last_separator Path
  let base_len := if dot_pos > sep_pos ∧ dot_pos ≠ Path.size then dot_pos else Path.size
  let needs_dot ←
    if NewExt.size > 0 then (NewExt.get 0).map (fun c => decide (c ≠ 46)) else some false
  let len := base_len + (if needs_dot then 1 else 0) + NewExt.size
  let buf ← forLoop 0 base_len (fun i buf => do
    let c ← Path.get i
    arrWrite buf i c) (List.replicate (len + 1) 0)
  let write_pos := base_len
  let (write_pos, buf) ←
    if needs_dot then (arrWrite buf write_pos 46).map (fun b => (write_pos + 1, b))
    else some (write_pos, buf)
  let buf ← forLoop 0 NewExt.size (fun i buf => do
    let c ← NewExt.get i
    arrWrite buf (write_pos + i) c) buf
  FixedString.from_buffer (len + 1) buf len

/-! ## `string_fns.hpp`: further helpers and transformations -/

/-- Embedding of `find_first_occurrence<Str, Pattern>()`: the index of the first occurrence,
and `str_len` when there is none, when the pattern is empty or when it is longer than the
string. -/
def find_first_occurrence (Str Pattern : FixedString) : Option Nat :=
  let str_len := Str.size
  let pat_len := Pattern.size
  if pat_len = 0 ∨ pat_len > str_len then some str_len
  else
    (forUntil 0 (str_len - pat_len + 1) (fun i (_ : Unit) => do
      let m ← pattern_match Str Pattern i
      if m then some (Sum.inr i) else some (Sum.inl ())) ()).map
      (fun r => match r with
        | Sum.inl _ => str_len
        | Sum.inr i => i)

/-- Embedding of `reverse_logic<Str>()`. -/
def reverse_logic (Str : FixedString) : Option FixedString := do
  let N := Str.data.length
  let len := Str.size
  let buf ← forLoop 0 len (fun i buf => do
    let c ← Str.get (len - 1 - i)
    arrWrite buf i c) (List.replicate N 0)
  FixedString.from_buffer N buf len

/-- Embedding of `left_logic<Str, NChars>()`. -/
def left_logic (Str : FixedString) (NChars : Nat) : Option FixedString := do
  let len := Str.size
  let actual_len := if NChars < len then NChars else len
  let buf ← forLoop 0 actual_len (fun i buf => do
    let c ← Str.get i
    arrWrite buf i c) (List.replicate (actual_len + 1) 0)
  FixedString.from_buffer (actual_len + 1) buf actual_len

/-- Embedding of `right_logic<Str, NChars>()`. -/
def right_logic (Str : FixedString) (NChars : Nat) : Option FixedString := do
  let len := Str.size
  let actual_len := if NChars < len then NChars else len
  let start := len - actual_len
  let buf ← forLoop 0 actual_len (fun i buf => do
    let c ← Str.get (start + i)
    arrWrite buf i c) (List.replicate (actual_len + 1) 0)
  FixedString.from_buffer (actual_len + 1) buf actual_len

/-- The lambda `append_one` of `append_logic` for one string `S`, on the captured
`(offset, buf)`: `buf[offset++] = S[i]` for every `i < S.size()`. -/
def append_one (S : FixedString) (st : Nat × List Nat) : Option (Nat × List Nat) :=
  forLoop 0 S.size (fun i (w : Nat × List Nat) => do
    let c ← S.get i
    let b ← arrWrite w.2 w.1 c
    some (w.1 + 1, b)) st

/-- The fold `(append_one.template operator()<Strs>(), ...)` of `append_logic`: `append_one`
for each string of the pack, from left to right. -/
def append_each : List FixedString → Nat × List Nat → Option (Nat × List Nat)
  | [], st => some st
  | S :: rest, st => (append_one S st).bind (append_each rest)

/-- Embedding of `append_logic<Strs...>()`.  The fold `(Strs.size() + ...)` has no value for
an empty pack, so an instantiation without strings is rejected. -/
def append_logic (Strs : List FixedString) : Option FixedString :=
  if Strs.isEmpty then none
  else do
    let total := (Strs.map FixedString.size).sum
    let st ← append_each Strs (0, List.replicate (total + 1) 0)
    FixedString.from_buffer (total + 1) st.2 total

/-- Embedding of `trim_left_logic<Str>()`. -/
def trim_left_logic (Str : FixedString) : Option FixedString := do
  let start ← find_first_non_space Str
  let len := Str.size - start
  let buf ← forLoop 0 len (fun i buf => do
    let c ← Str.get (start + i)
    arrWrite buf i c) (List.replicate (len + 1) 0)
  FixedString.from_buffer (len + 1) buf len

/-- Embedding of `trim_right_logic<Str>()`. -/
def trim_right_logic (Str : FixedString) : Option FixedString := do
  let end_ ← find_last_non_space Str
  let buf ← forLoop 0 end_ (fun i buf => do
    let c ← Str.get i
    arrWrite buf i c) (List.replicate (end_ + 1) 0)
  FixedString.from_buffer (end_ + 1) buf end_

/-- Embedding of `replace_logic<Str, Pattern, Replacement>()`.  The third copy loop has `i`
from `pos + pat_len` up to `str_len - 1`. -/
def replace_logic (Str Pattern Replacement : FixedString) : Option FixedString := do
  let str_len := Str.size
  let pat_len := Pattern.size
  let rep_len := Replacement.size
  let pos ← find_first_occurrence Str Pattern
  let result_len := if pos < str_len then u64 (size_sub str_len pat_len + rep_len) else str_len
  let buf ←
    if pos < str_len then do
      let buf ← forLoop 0 pos (fun i buf => do
        let c ← Str.get i
        arrWrite buf i c) (List.replicate (result_len + 1) 0)
      let buf ← forLoop 0 rep_len (fun i buf => do
        let c ← Replacement.get i
        arrWrite buf (pos + i) c) buf
      forLoop (pos + pat_len) (str_len - (pos + pat_len)) (fun i buf => do
        let c ← Str.get i
        arrWrite buf (u64 (size_sub i pat_len + rep_len)) c) buf
    else
      forLoop 0 str_len (fun i buf => do
        let c ← Str.get i
        arrWrite buf i c) (List.replicate (result_len + 1) 0)
  FixedString.from_buffer (result_len + 1) buf result_len

/-! ## `path_fns.hpp`: further transformations and queries -/

/-- Embedding of `has_drive_letter<Path>()`; the `&&` chain reads `Path[0]` and `Path[1]`
only when `Path.size() >= 2`. -/
def has_drive_letter (Path : FixedString) : Option Bool :=
  if Path.size ≥ 2 then do
    let c0 ← Path.get 0
    if (c0 ≥ 65 ∧ c0 ≤ 90) ∨ (c0 ≥ 97 ∧ c0 ≤ 122) then do
      let c1 ← Path.get 1
      some (decide (c1 = 58))
    else some false
  else some false

/-- Embedding of `remove_filename_logic<Path>()`. -/
def remove_filename_logic (Path : FixedString) : Option FixedString := do
  let pos ← find_last_separator Path
  let buf ← forLoop 0 pos (fun i buf => do
    let c ← Path.get i
    arrWrite buf i c) (List.replicate (pos + 1) 0)
  FixedString.from_buffer (pos + 1) buf pos

/-- Embedding of `replace_filename_logic<Path, NewFilename>()`. -/
def replace_filename_logic (Path NewFilename : FixedString) : Option FixedString := do
  let pos ← find_last_separator Path
  let len := pos + NewFilename.size
  let buf ← forLoop 0 pos (fun i buf => do
    let c ← Path.get i
    arrWrite buf i c) (List.replicate (len + 1) 0)
  let buf ← forLoop 0 NewFilename.size (fun i buf => do
    let c ← NewFilename.get i
    arrWrite buf (pos + i) c) buf
  FixedString.from_buffer (len + 1) buf len

/-- Embedding of `has_root_path<Path>()`. -/
def has_root_path (Path : FixedString) : Option Bool := do
  let d ← has_drive_letter Path
  if d then some true
  else if Path.size > 0 then do
    let c ← Path.get 0
    some (decide (c = 47 ∨ c = 92))
  else some false

/-- Embedding of `has_root_name<Path>()`. -/
def has_root_name (Path : FixedString) : Option Bool :=
  has_drive_letter Path

/-- Embedding of `has_root_directory<Path>()`. -/
def has_root_directory (Path : FixedString) : Option Bool := do
  let d ← has_drive_letter Path
  if d then
    if Path.size > 2 then do
      let c ← Path.get 2
      some (decide (c = 47 ∨ c = 92))
    else some false
  else
    if Path.size > 0 then do
      let c ← Path.get 0
      some (decide (c = 47 ∨ c = 92))
    else some false

/-- Embedding of `has_stem<Path>()`. -/
def has_stem (Path : FixedString) : Option Bool := do
  let sep_pos ← find_last_separator Path
  let dot_pos ← find_last_dot Path
  some (decide (sep_pos < Path.size ∧ (dot_pos = Path.size ∨ dot_pos > sep_pos)))

/-- Embedding of `has_extension<Path>()`. -/
def has_extension (Path : FixedString) : Option Bool := do
  let dot_pos ← find_last_dot Path
  let sep_pos ← find_last_separator Path
  some (decide (dot_pos ≠ Path.size ∧ dot_pos > sep_pos))

/-- Embedding of `is_absolute<Path>()`. -/
def is_absolute (Path : FixedString) : Option Bool := do
  let d ← has_drive_letter Path
  if d then has_root_directory Path
  else if Path.size > 0 then do
    let c ← Path.get 0
    some (decide (c = 47 ∨ c = 92))
  else some false

/-- Embedding of `is_relative<Path>()`. -/
def is_relative (Path : FixedString) : Option Bool := do
  let a ← is_absolute Path
  some (!a)

/-! ## FIPS 180-4 reference definitions

The reference the hash code is compared with, written from the text of FIPS 180-4
(Secure Hash Standard): §2.2.2 and §3.2 (operations on words), §4.1.2/§4.1.3 (functions),
§4.2.2/§4.2.3 (constants), §5.1 (padding), §5.2 (parsing), §5.3 (initial hash values),
§6.2 and §6.4 (the hash computations).  Messages are byte strings, so all bit strings
of the standard have a length that is a multiple of 8 and are handled as byte lists,
most significant bit first inside each byte. -/

/-- The `k`-byte big-endian representation of `n` (most significant byte first). -/
def toBE (k n : Nat) : List Nat :=
  (List.range k).map fun j => n / 256 ^ (k - 1 - j) % 256

/-- The number whose big-endian representation is the byte list. -/
def ofBE (bs : List Nat) : Nat :=
  bs.foldl (fun acc b => acc * 256 + b) 0

/-- Integer root by bisection: with `r` a multiple of `2 ^ b` such that `r ^ k ≤ n`,
set the lower `b` bits of `r` as long as the `k`-th power stays at most `n`. -/
def irootAux (k n : Nat) : Nat → Nat → Nat
  | 0, r => r
  | b + 1, r => irootAux k n b (if (r + 2 ^ b) ^ k ≤ n then r + 2 ^ b else r)

/-- Trial division by the numbers below 21: a primality test for the numbers below
`21 * 21 = 441`. -/
def isPrimeTD (n : Nat) : Bool :=
  decide (2 ≤ n) &&
    (List.range 21).all fun d => decide (d < 2) || decide (n ≤ d) || decide (n % d ≠ 0)

/-- The first eighty prime numbers (the prime numbers below 410). -/
def fips_primes : List Nat := [
  2, 3, 5, 7, 11, 13, 17, 19, 23, 29, 31, 37, 41, 43, 47, 53,
  59, 61, 67, 71, 73, 79, 83, 89, 97, 101, 103, 107, 109, 113, 127, 131,
  137, 139, 149, 151, 157, 163, 167, 173, 179, 181, 191, 193, 197, 199, 211, 223,
  227, 229, 233, 239, 241, 251, 257, 263, 269, 271, 277, 281, 283, 293, 307, 311,
  313, 317, 331, 337, 347, 349, 353, 359, 367, 373, 379, 383, 389, 397, 401, 409]

/-- The first `bits` bits of the fractional part of the `k`-th root of `p`:
`floor (p ^ (1/k) * 2 ^ bits) mod 2 ^ bits`, where `floor (p ^ (1/k) * 2 ^ bits)` is the
integer `k`-th root of `p * 2 ^ (k * bits)` (at most `bits + 16` binary digits here). -/
def fracRootBits (k bits p : Nat) : Nat :=
  irootAux k (p * 2 ^ (k * bits)) (bits + 16) 0 % 2 ^ bits

/-- FIPS 180-4 §3.2: `ROTR n x` on `w`-bit words, `(x >> n) ∨ (x << w - n)`. -/
def fips_rotr (w n x : Nat) : Nat := (x >>> n) ||| (x <<< (w - n)) % 2 ^ w

/-- FIPS 180-4 §3.2: `SHR n x`. -/
def fips_shr (n x : Nat) : Nat := x >>> n

/-- FIPS 180-4 §4.1.2 (4.2), §4.1.3 (4.8): `Ch(x, y, z) = (x ∧ y) ⊕ (¬x ∧ z)` on `w`-bit words. -/
def fips_Ch (w x y z : Nat) : Nat := (x &&& y) ^^^ ((x ^^^ (2 ^ w - 1)) &&& z)

/-- FIPS 180-4 §4.1.2 (4.3), §4.1.3 (4.9): `Maj(x, y, z) = (x ∧ y) ⊕ (x ∧ z) ⊕ (y ∧ z)`. -/
def fips_Maj (x y z : Nat) : Nat := (x &&& y) ^^^ (x &&& z) ^^^ (y &&& z)

/-- FIPS 180-4 §5.1: the padded message for block size `B` bytes and a length field of `L` bytes:
the message, the bit `1`, `k` zero bits with `k` the smallest non-negative solution of
`l + 1 + k ≡ 8 * (B - L) (mod 8 * B)`, and the bit length `l` as an `8 * L`-bit
big-endian integer.  `l = 8 * length`, so `k ≡ 7 (mod 8)`: the bit `1` and the first
seven zero bits are the byte `0x80`, the other `k - 7` zero bits are `(k - 7) / 8` zero
bytes. -/
def fips_zero_bits (B L l : Nat) : Nat :=
  (8 * (B - L) + 8 * B - (l + 1) % (8 * B)) % (8 * B)

/-- Padding of a byte string (§5.1.1 with `B = 64`, `L = 8`; §5.1.2 with `B = 128`,
`L = 16`). -/
def fips_pad (B L : Nat) (m : List Nat) : List Nat :=
  m ++ [0x80] ++ List.replicate ((fips_zero_bits B L (8 * m.length) - 7) / 8) 0 ++
    toBE L (8 * m.length)

/-! ### SHA-256 -/

/-- FIPS 180-4 §4.1.2 (4.4). -/
def fips256_Sigma0 (x : Nat) : Nat := fips_rotr 32 2 x ^^^ fips_rotr 32 13 x ^^^ fips_rotr 32 22 x

/-- FIPS 180-4 §4.1.2 (4.5). -/
def fips256_Sigma1 (x : Nat) : Nat := fips_rotr 32 6 x ^^^ fips_rotr 32 11 x ^^^ fips_rotr 32 25 x

/-- FIPS 180-4 §4.1.2 (4.6). -/
def fips256_sigma0 (x : Nat) : Nat := fips_rotr 32 7 x ^^^ fips_rotr 32 18 x ^^^ fips_shr 3 x

/-- FIPS 180-4 §4.1.2 (4.7). -/
def fips256_sigma1 (x : Nat) : Nat := fips_rotr 32 17 x ^^^ fips_rotr 32 19 x ^^^ fips_shr 10 x

/-- FIPS 180-4 §4.2.2: the first 32 bits of the fractional parts of the cube roots of the first 64
primes. -/
def fips256_K : List Nat := (fips_primes.take 64).map (fracRootBits 3 32)

/-- FIPS 180-4 §5.3.3: the first 32 bits of the fractional parts of the square roots of the first 8
primes. -/
def fips256_H0 : Hash8 :=
  let h := (fips_primes.take 8).map (fracRootBits 2 32)
  ⟨h.getD 0 0, h.getD 1 0, h.getD 2 0, h.getD 3 0, h.getD 4 0, h.getD 5 0, h.getD 6 0, h.getD 7 0⟩

/-- FIPS 180-4 §5.2.1: word `t` of block `i` of the padded message (blocks counted from 0). -/
def fips256_block (padded : List Nat) (i t : Nat) : Nat :=
  ofBE ((List.range 4).map fun r => padded.getD (64 * i + 4 * t + r) 0)

/-- FIPS 180-4 §6.2.2 step 1: the first `n` words of the message schedule of a block `M`. -/
def fips256_schedule (M : Nat → Nat) : Nat → List Nat
  | 0 => []
  | t + 1 =>
    let W := fips256_schedule M t
    W ++ [if t < 16 then M t
          else (fips256_sigma1 (W.getD (t - 2) 0) + W.getD (t - 7) 0 +
                fips256_sigma0 (W.getD (t - 15) 0) + W.getD (t - 16) 0) % 2 ^ 32]

/-- FIPS 180-4 §6.2.2 step 3: one round on the working variables. -/
def fips256_round (v : Work8) (Kt Wt : Nat) : Work8 :=
  let T1 := (v.h + fips256_Sigma1 v.e + fips_Ch 32 v.e v.f v.g + Kt + Wt) % 2 ^ 32
  let T2 := (fips256_Sigma0 v.a + fips_Maj v.a v.b v.c) % 2 ^ 32
  { a := (T1 + T2) % 2 ^ 32, b := v.a, c := v.b, d := v.c,
    e := (v.d + T1) % 2 ^ 32, f := v.e, g := v.f, h := v.g }

/-- FIPS 180-4 §6.2.2 steps 1-4: the hash value after one more block. -/
def fips256_compress (H : Hash8) (M : Nat → Nat) : Hash8 :=
  let W := fips256_schedule M 64
  let v := (List.range 64).foldl
    (fun v t => fips256_round v (fips256_K.getD t 0) (W.getD t 0))
    ⟨H.h0, H.h1, H.h2, H.h3, H.h4, H.h5, H.h6, H.h7⟩
  ⟨(v.a + H.h0) % 2 ^ 32, (v.b + H.h1) % 2 ^ 32, (v.c + H.h2) % 2 ^ 32, (v.d + H.h3) % 2 ^ 32,
   (v.e + H.h4) % 2 ^ 32, (v.f + H.h5) % 2 ^ 32, (v.g + H.h6) % 2 ^ 32, (v.h + H.h7) % 2 ^ 32⟩

/-- FIPS 180-4 §6.2: the SHA-256 message digest of a byte string, as 32 bytes. -/
def fips256 (m : List Nat) : List Nat :=
  let padded := fips_pad 64 8 m
  let H := (List.range (padded.length / 64)).foldl
    (fun H i => fips256_compress H (fips256_block padded i)) fips256_H0
  toBE 4 H.h0 ++ toBE 4 H.h1 ++ toBE 4 H.h2 ++ toBE 4 H.h3 ++
    toBE 4 H.h4 ++ toBE 4 H.h5 ++ toBE 4 H.h6 ++ toBE 4 H.h7

/-! ### SHA-512 -/

/-- FIPS 180-4 §4.1.3 (4.10). -/
def fips512_Sigma0 (x : Nat) : Nat := fips_rotr 64 28 x ^^^ fips_rotr 64 34 x ^^^ fips_rotr 64 39 x

/-- FIPS 180-4 §4.1.3 (4.11). -/
def fips512_Sigma1 (x : Nat) : Nat := fips_rotr 64 14 x ^^^ fips_rotr 64 18 x ^^^ fips_rotr 64 41 x

/-- FIPS 180-4 §4.1.3 (4.12). -/
def fips512_sigma0 (x : Nat) : Nat := fips_rotr 64 1 x ^^^ fips_rotr 64 8 x ^^^ fips_shr 7 x

/-- FIPS 180-4 §4.1.3 (4.13). -/
def fips512_sigma1 (x : Nat) : Nat := fips_rotr 64 19 x ^^^ fips_rotr 64 61 x ^^^ fips_shr 6 x

/-- FIPS 180-4 §4.2.3: the first 64 bits of the fractional parts of the cube roots of the first 80
primes. -/
def fips512_K : List Nat := fips_primes.map (fracRootBits 3 64)

/-- FIPS 180-4 §5.3.5: the first 64 bits of the fractional parts of the square roots of the first 8
primes. -/
def fips512_H0 : Hash8 :=
  let h := (fips_primes.take 8).map (fracRootBits 2 64)
  ⟨h.getD 0 0, h.getD 1 0, h.getD 2 0, h.getD 3 0, h.getD 4 0, h.getD 5 0, h.getD 6 0, h.getD 7 0⟩

/-- FIPS 180-4 §5.2.2: word `t` of block `i` of the padded message (blocks counted from 0). -/
def fips512_block (padded : List Nat) (i t : Nat) : Nat :=
  ofBE ((List.range 8).map fun r => padded.getD (128 * i + 8 * t + r) 0)

/-- FIPS 180-4 §6.4.2 step 1: the first `n` words of the message schedule of a block `M`. -/
def fips512_schedule (M : Nat → Nat) : Nat → List Nat
  | 0 => []
  | t + 1 =>
    let W := fips512_schedule M t
    W ++ [if t < 16 then M t
          else (fips512_sigma1 (W.getD (t - 2) 0) + W.getD (t - 7) 0 +
                fips512_sigma0 (W.getD (t - 15) 0) + W.getD (t - 16) 0) % 2 ^ 64]

/-- FIPS 180-4 §6.4.2 step 3: one round on the working variables. -/
def fips512_round (v : Work8) (Kt Wt : Nat) : Work8 :=
  let T1 := (v.h + fips512_Sigma1 v.e + fips_Ch 64 v.e v.f v.g + Kt + Wt) % 2 ^ 64
  let T2 := (fips512_Sigma0 v.a + fips_Maj v.a v.b v.c) % 2 ^ 64
  { a := (T1 + T2) % 2 ^ 64, b := v.a, c := v.b, d := v.c,
    e := (v.d + T1) % 2 ^ 64, f := v.e, g := v.f, h := v.g }

/-- FIPS 180-4 §6.4.2 steps 1-4: the hash value after one more block. -/
def fips512_compress (H : Hash8) (M : Nat → Nat) : Hash8 :=
  let W := fips512_schedule M 80
  let v := (List.range 80).foldl
    (fun v t => fips512_round v (fips512_K.getD t 0) (W.getD t 0))
    ⟨H.h0, H.h1, H.h2, H.h3, H.h4, H.h5, H.h6, H.h7⟩
  ⟨(v.a + H.h0) % 2 ^ 64, (v.b + H.h1) % 2 ^ 64, (v.c + H.h2) % 2 ^ 64, (v.d + H.h3) % 2 ^ 64,
   (v.e + H.h4) % 2 ^ 64, (v.f + H.h5) % 2 ^ 64, (v.g + H.h6) % 2 ^ 64, (v.h + H.h7) % 2 ^ 64⟩

/-- FIPS 180-4 §6.4: the SHA-512 message digest of a byte string, as 64 bytes. -/
def fips512 (m : List Nat) : List Nat :=
  let padded := fips_pad 128 16 m
  let H := (List.range (padded.length / 128)).foldl
    (fun H i => fips512_compress H (fips512_block padded i)) fips512_H0
  toBE 8 H.h0 ++ toBE 8 H.h1 ++ toBE 8 H.h2 ++ toBE 8 H.h3 ++
    toBE 8 H.h4 ++ toBE 8 H.h5 ++ toBE 8 H.h6 ++ toBE 8 H.h7

/-! ## Definitions used in the proofs -/

/-- The pure counterpart of `forLoop`: `n` rounds of `g`, round `k` being `g k`. -/
def iterFrom {σ : Type} (g : Nat → σ → σ) : Nat → σ → σ
  | 0, s => s
  | n + 1, s => g n (iterFrom g n s)

/-- The array of length `n` whose element `j` is `f j`. -/
def tab (n : Nat) (f : Nat → Nat) : List Nat := (List.range n).map f

/-- The three message-preparation steps shared by `sha256_compute` and `sha512_compute`,
for a scratch buffer of `cap` bytes and a given `padded_len`. -/
def fillMsg (cap padded_len : Nat) (data : List Nat) (len : Nat) : Option (List Nat) := do
  let msg ← forLoop 0 len (fun i msg => do
    let d ← data[i]?
    arrWrite msg i (d % 256)) (List.replicate cap 0)
  let msg ← arrWrite msg len 0x80
  forLoop 0 8 (fun i msg =>
    arrWrite msg (padded_len - 1 - i) ((u64 (len * 8) >>> (i * 8)) % 256)) msg

/-- The 256 table entries computed by the table-building loop. -/
def crc32_table_values : List Nat := [
  0x00000000, 0x77073096, 0xee0e612c, 0x990951ba, 0x076dc419, 0x706af48f,
  0xe963a535, 0x9e6495a3, 0x0edb8832, 0x79dcb8a4, 0xe0d5e91e, 0x97d2d988,
  0x09b64c2b, 0x7eb17cbd, 0xe7b82d07, 0x90bf1d91, 0x1db71064, 0x6ab020f2,
  0xf3b97148, 0x84be41de, 0x1adad47d, 0x6ddde4eb, 0xf4d4b551, 0x83d385c7,
  0x136c9856, 0x646ba8c0, 0xfd62f97a, 0x8a65c9ec, 0x14015c4f, 0x63066cd9,
  0xfa0f3d63, 0x8d080df5, 0x3b6e20c8, 0x4c69105e, 0xd56041e4, 0xa2677172,
  0x3c03e4d1, 0x4b04d447, 0xd20d85fd, 0xa50ab56b, 0x35b5a8fa, 0x42b2986c,
  0xdbbbc9d6, 0xacbcf940, 0x32d86ce3, 0x45df5c75, 0xdcd60dcf, 0xabd13d59,
  0x26d930ac, 0x51de003a, 0xc8d75180, 0xbfd06116, 0x21b4f4b5, 0x56b3c423,
  0xcfba9599, 0xb8bda50f, 0x2802b89e, 0x5f058808, 0xc60cd9b2, 0xb10be924,
  0x2f6f7c87, 0x58684c11, 0xc1611dab, 0xb6662d3d, 0x76dc4190, 0x01db7106,
  0x98d220bc, 0xefd5102a, 0x71b18589, 0x06b6b51f, 0x9fbfe4a5, 0xe8b8d433,
  0x7807c9a2, 0x0f00f934, 0x9609a88e, 0xe10e9818, 0x7f6a0dbb, 0x086d3d2d,
  0x91646c97, 0xe6635c01, 0x6b6b51f4, 0x1c6c6162, 0x856530d8, 0xf262004e,
  0x6c0695ed, 0x1b01a57b, 0x8208f4c1, 0xf50fc457, 0x65b0d9c6, 0x12b7e950,
  0x8bbeb8ea, 0xfcb9887c, 0x62dd1ddf, 0x15da2d49, 0x8cd37cf3, 0xfbd44c65,
  0x4db26158, 0x3ab551ce, 0xa3bc0074, 0xd4bb30e2, 0x4adfa541, 0x3dd895d7,
  0xa4d1c46d, 0xd3d6f4fb, 0x4369e96a, 0x346ed9fc, 0xad678846, 0xda60b8d0,
  0x44042d73, 0x33031de5, 0xaa0a4c5f, 0xdd0d7cc9, 0x5005713c, 0x270241aa,
  0xbe0b1010, 0xc90c2086, 0x5768b525, 0x206f85b3, 0xb966d409, 0xce61e49f,
  0x5edef90e, 0x29d9c998, 0xb0d09822, 0xc7d7a8b4, 0x59b33d17, 0x2eb40d81,
  0xb7bd5c3b, 0xc0ba6cad, 0xedb88320, 0x9abfb3b6, 0x03b6e20c, 0x74b1d29a,
  0xead54739, 0x9dd277af, 0x04db2615, 0x73dc1683, 0xe3630b12, 0x94643b84,
  0x0d6d6a3e, 0x7a6a5aa8, 0xe40ecf0b, 0x9309ff9d, 0x0a00ae27, 0x7d079eb1,
  0xf00f9344, 0x8708a3d2, 0x1e01f268, 0x6906c2fe, 0xf762575d, 0x806567cb,
  0x196c3671, 0x6e6b06e7, 0xfed41b76, 0x89d32be0, 0x10da7a5a, 0x67dd4acc,
  0xf9b9df6f, 0x8ebeeff9, 0x17b7be43, 0x60b08ed5, 0xd6d6a3e8, 0xa1d1937e,
  0x38d8c2c4, 0x4fdff252, 0xd1bb67f1, 0xa6bc5767, 0x3fb506dd, 0x48b2364b,
  0xd80d2bda, 0xaf0a1b4c, 0x36034af6, 0x41047a60, 0xdf60efc3, 0xa867df55,
  0x316e8eef, 0x4669be79, 0xcb61b38c, 0xbc66831a, 0x256fd2a0, 0x5268e236,
  0xcc0c7795, 0xbb0b4703, 0x220216b9, 0x5505262f, 0xc5ba3bbe, 0xb2bd0b28,
  0x2bb45a92, 0x5cb36a04, 0xc2d7ffa7, 0xb5d0cf31, 0x2cd99e8b, 0x5bdeae1d,
  0x9b64c2b0, 0xec63f226, 0x756aa39c, 0x026d930a, 0x9c0906a9, 0xeb0e363f,
  0x72076785, 0x05005713, 0x95bf4a82, 0xe2b87a14, 0x7bb12bae, 0x0cb61b38,
  0x92d28e9b, 0xe5d5be0d, 0x7cdcefb7, 0x0bdbdf21, 0x86d3d2d4, 0xf1d4e242,
  0x68ddb3f8, 0x1fda836e, 0x81be16cd, 0xf6b9265b, 0x6fb077e1, 0x18b74777,
  0x88085ae6, 0xff0f6a70, 0x66063bca, 0x11010b5c, 0x8f659eff, 0xf862ae69,
  0x616bffd3, 0x166ccf45, 0xa00ae278, 0xd70dd2ee, 0x4e048354, 0x3903b3c2,
  0xa7672661, 0xd06016f7, 0x4969474d, 0x3e6e77db, 0xaed16a4a, 0xd9d65adc,
  0x40df0b66, 0x37d83bf0, 0xa9bcae53, 0xdebb9ec5, 0x47b2cf7f, 0x30b5ffe9,
  0xbdbdf21c, 0xcabac28a, 0x53b39330, 0x24b4a3a6, 0xbad03605, 0xcdd70693,
  0x54de5729, 0x23d967bf, 0xb3667a2e, 0xc4614ab8, 0x5d681b02, 0x2a6f2b94,
  0xb40bbe37, 0xc30c8ea1, 0x5a05df1b, 0x2d02ef8d]

/-- For each value of the top byte, the index of the table entry with that top byte. -/
def crc32_top_byte_index : List Nat := [
  0, 65, 195, 130, 134, 199, 69, 4, 77, 12, 142, 207, 203, 138, 8, 73,
  154, 219, 89, 24, 28, 93, 223, 158, 215, 150, 20, 85, 81, 16, 146, 211,
  117, 52, 182, 247, 243, 178, 48, 113, 56, 121, 251, 186, 190, 255, 125, 60,
  239, 174, 44, 109, 105, 40, 170, 235, 162, 227, 97, 32, 36, 101, 231, 166,
  234, 171, 41, 104, 108, 45, 175, 238, 167, 230, 100, 37, 33, 96, 226, 163,
  112, 49, 179, 242, 246, 183, 53, 116, 61, 124, 254, 191, 187, 250, 120, 57,
  159, 222, 92, 29, 25, 88, 218, 155, 210, 147, 17, 80, 84, 21, 151, 214,
  5, 68, 198, 135, 131, 194, 64, 1, 72, 9, 139, 202, 206, 143, 13, 76,
  149, 212, 86, 23, 19, 82, 208, 145, 216, 153, 27, 90, 94, 31, 157, 220,
  15, 78, 204, 141, 137, 200, 74, 11, 66, 3, 129, 192, 196, 133, 7, 70,
  224, 161, 35, 98, 102, 39, 165, 228, 173, 236, 110, 47, 43, 106, 232, 169,
  122, 59, 185, 248, 252, 189, 63, 126, 55, 118, 244, 181, 177, 240, 114, 51,
  127, 62, 188, 253, 249, 184, 58, 123, 50, 115, 241, 176, 180, 245, 119, 54,
  229, 164, 38, 103, 99, 34, 160, 225, 168, 233, 107, 42, 46, 111, 237, 172,
  10, 75, 201, 136, 140, 205, 79, 14, 71, 6, 132, 197, 193, 128, 2, 67,
  144, 209, 83, 18, 22, 87, 213, 148, 221, 156, 30, 95, 91, 26, 152, 217]

/-- One iteration of the "Compute CRC" loop, as a function of the running value and the
byte. -/
def crcStep (s b : Nat) : Nat :=
  crc32_table_values.getD ((s ^^^ b) &&& 0xFF) 0 ^^^ (s >>> 8)

/-- The running value of the "Compute CRC" loop after `k` bytes. -/
def crcState (data : List Nat) (k : Nat) : Nat :=
  iterFrom (fun j s => crcStep s (data.getD j 0 % 256)) k 0xFFFFFFFF

/-- The raw byte representation of elements that are `w` bytes wide, as the
specification describes the input of the SHA functions for multi-byte element types:
`w` bytes per element, least significant byte first. -/
def raw_bytes_le (w : Nat) (elems : List Nat) : List Nat :=
  elems.flatMap fun e => (toBE w e).reverse

/-- The raw byte representation of elements that are `w` bytes wide, most significant
byte first. -/
def raw_bytes_be (w : Nat) (elems : List Nat) : List Nat :=
  elems.flatMap fun e => toBE w e

/-- The logical content of a `FixedString`: its first `size()` elements. -/
def FixedString.str (s : FixedString) : List Nat := s.data.take s.size

/-- The pattern `P` occurs in `S` at index `i`: it fits there and every element agrees. -/
def occurs_at (S P : List Nat) (i : Nat) : Prop :=
  i + P.length ≤ S.length ∧ ∀ j, j < P.length → S.getD (i + j) 0 = P.getD j 0

instance occurs_at_decidable (S P : List Nat) (i : Nat) : Decidable (occurs_at S P i) :=
  inferInstanceAs (Decidable (i + P.length ≤ S.length ∧ ∀ j, j < P.length → S.getD (i + j) 0 = P.getD j 0))

/-- The lowercase hexadecimal digit (as a character code) of a value below 16:
the digits 0 to 9, then the letters a to f. -/
def lower_hex_digit (n : Nat) : Nat :=
  if n < 10 then 48 + n else 97 + (n - 10)

/-- A character code in the ranges 0 to 9 and a to f. -/
def is_lower_hex (c : Nat) : Prop :=
  (48 ≤ c ∧ c ≤ 57) ∨ (97 ≤ c ∧ c ≤ 102)

instance is_lower_hex_decidable (c : Nat) : Decidable (is_lower_hex c) :=
  inferInstanceAs (Decidable ((48 ≤ c ∧ c ≤ 57) ∨ (97 ≤ c ∧ c ≤ 102)))

/-- The value of a hexadecimal digit given as a character code. -/
def hex_digit_value (c : Nat) : Option Nat :=
  if 48 ≤ c ∧ c ≤ 57 then some (c - 48)
  else if 97 ≤ c ∧ c ≤ 102 then some (c - 97 + 10)
  else none

/-- Decoding of a hexadecimal string two digits at a time: each pair gives the byte
whose high nibble is the first digit and whose low nibble is the second. -/
def hex_decode : List Nat → Option (List Nat)
  | [] => some []
  | [_] => none
  | c :: d :: rest => do
    let hi ← hex_digit_value c
    let lo ← hex_digit_value d
    let tl ← hex_decode rest
    some ((hi * 16 + lo) :: tl)

/-- The characters of a C string: those before the first zero. -/
def c_str_chars (p : List Nat) : List Nat := p.takeWhile (fun c => c ≠ 0)

/-- The two hexadecimal digits of a byte, high nibble first. -/
def hex_pair (b : Nat) : List Nat := [lower_hex_digit (b / 16 % 16), lower_hex_digit (b % 16)]

/-- The character at index `j` of the hexadecimal rendering of `Bytes`: an even index holds
the digit of the high nibble of byte `j / 2`, an odd index the digit of its low nibble. -/
def hex_char_at (Bytes : List Nat) (j : Nat) : Nat :=
  if j % 2 = 0 then lower_hex_digit (Bytes.getD (j / 2) 0 / 16 % 16)
  else lower_hex_digit (Bytes.getD (j / 2) 0 % 16)

/-- Three-way lexicographic comparison of two lists: the first differing element decides;
when one list is a proper prefix of the other the shorter one is less. -/
def lex_compare : List Int → List Int → Int
  | [], [] => 0
  | [], _ :: _ => -1
  | _ :: _, [] => 1
  | a :: as, b :: bs => if a < b then -1 else if a > b then 1 else lex_compare as bs

/-- The element stored by `to_upper_logic` for the element `c`. -/
def ascii_upper (c : Nat) : Nat := if c ≥ 97 ∧ c ≤ 122 then c - 32 else c

/-- The element stored by `to_lower_logic` for the element `c`. -/
def ascii_lower (c : Nat) : Nat := if c ≥ 65 ∧ c ≤ 90 then c + 32 else c

/-- The backward scans of `string_fns.hpp` and `path_fns.hpp`: `i` runs from `Str.size()`
down to `lo + 1`, and the first `i` with `p (Str[i - 1])` returns `g i`; `dflt` is returned
when there is none. -/
def scan_back (Str : FixedString) (p : Nat → Prop) [DecidablePred p] (g : Nat → Nat)
    (dflt lo : Nat) : Option Nat :=
  (forUntil 0 (Str.size - lo) (fun k (_ : Unit) => do
    let i := Str.size - k
    let c ← Str.get (i - 1)
    if p c then some (Sum.inr (g i)) else some (Sum.inl ())) ()).map
    (fun r => match r with
      | Sum.inl _ => dflt
      | Sum.inr i => i)

/-- A path separator: `'/'` or `'\\'`. -/
def is_separator (c : Nat) : Prop := c = 47 ∨ c = 92

instance is_separator_decidable (c : Nat) : Decidable (is_separator c) :=
  inferInstanceAs (Decidable (c = 47 ∨ c = 92))

/-- A whitespace character: space, tab, line feed or carriage return. -/
def is_space (c : Nat) : Prop := c = 32 ∨ c = 9 ∨ c = 10 ∨ c = 13

instance is_space_decidable (c : Nat) : Decidable (is_space c) :=
  inferInstanceAs (Decidable (c = 32 ∨ c = 9 ∨ c = 10 ∨ c = 13))

/-- One step of the bit-serial reflected CRC-32: shift right by one, and XOR with the
polynomial `0xEDB88320` when the bit shifted out was set. -/
def crc_bit_step (v : Nat) : Nat :=
  if v % 2 = 1 then (v >>> 1) ^^^ 0xEDB88320 else v >>> 1

/-- Processing of one byte by the bit-serial CRC-32: XOR the byte into the low 8 bits, then
eight bit steps. -/
def crc_bitwise_byte (v b : Nat) : Nat := Nat.iterate crc_bit_step 8 (v ^^^ b)

/-- The bit-serial reflected CRC-32 of a byte sequence: start from `0xFFFFFFFF`, process the
bytes in order, XOR the result with `0xFFFFFFFF`. -/
def crc32_bitwise (bytes : List Nat) : Nat :=
  bytes.foldl crc_bitwise_byte 0xFFFFFFFF ^^^ 0xFFFFFFFF

/-- The left-to-right rewrite of a list for a non-empty pattern `P`: at each position, if `P`
matches there, emit `R` and skip the `P.length` elements of the match, otherwise emit the
current element and advance by one.  The first argument is the number of elements still to
be skipped. -/
def rewrite_all (P R : List Nat) : Nat → List Nat → List Nat
  | _, [] => []
  | k + 1, _ :: s => rewrite_all P R k s
  | 0, c :: s =>
    if P.isPrefixOf (c :: s) then R ++ rewrite_all P R (P.length - 1) s
    else c :: rewrite_all P R 0 s

/-- The number of matches that `rewrite_all` replaces. -/
def count_matches (P : List Nat) : Nat → List Nat → Nat
  | _, [] => 0
  | k + 1, _ :: s => count_matches P k s
  | 0, c :: s =>
    if P.isPrefixOf (c :: s) then count_matches P (P.length - 1) s + 1
    else count_matches P 0 s

/-- The rewrite of `rewrite_all` limited to the first `n` matches: once `n` matches have been
replaced, the rest of the list is kept as it is.  The arguments are the number of matches
still allowed and the number of elements still to be skipped. -/
def rewrite_first (P R : List Nat) : Nat → Nat → List Nat → List Nat
  | _, _, [] => []
  | n, k + 1, _ :: s => rewrite_first P R n k s
  | 0, 0, c :: s => c :: s
  | n + 1, 0, c :: s =>
    if P.isPrefixOf (c :: s) then R ++ rewrite_first P R n (P.length - 1) s
    else c :: rewrite_first P R (n + 1) 0 s

/-- The number of matches that `rewrite_first` replaces. -/
def count_first (P : List Nat) : Nat → Nat → List Nat → Nat
  | _, _, [] => 0
  | n, k + 1, _ :: s => count_first P n k s
  | 0, 0, _ :: _ => 0
  | n + 1, 0, c :: s =>
    if P.isPrefixOf (c :: s) then count_first P n (P.length - 1) s + 1
    else count_first P (n + 1) 0 s

/-- A null-terminated string: the array has `size() + 1` elements and the element at index
`size()` is the zero element. -/
def null_terminated (s : FixedString) : Prop :=
  s.data.length = s.size + 1 ∧ s.data[s.size]? = some 0

instance null_terminated_decidable (s : FixedString) : Decidable (null_terminated s) :=
  inferInstanceAs (Decidable (s.data.length = s.size + 1 ∧ s.data[s.size]? = some 0))

/-- The `while` loop of `replace_all_logic` on its own, started on the buffer `buf`; the
result is the final `(src_pos, dst_pos, buf)`. -/
def replace_all_pass (Str Pattern Replacement : FixedString) (buf : List Nat) :
    Option (Nat × Nat × List Nat) :=
  let str_len := Str.size
  let pat_len := Pattern.size
  let rep_len := Replacement.size
  whileLoop (str_len + 1)
    (fun (st : Nat × Nat × List Nat) => decide (st.1 < str_len))
    (fun (st : Nat × Nat × List Nat) => do
      let src_pos := st.1
      let dst_pos := st.2.1
      let buf := st.2.2
      let m ←
        if pat_len > 0 ∧ src_pos ≤ size_sub str_len pat_len then
          pattern_match Str Pattern src_pos
        else some false
      if m then do
        let w ← forLoop 0 rep_len (fun i (w : Nat × List Nat) => do
          let c ← Replacement.get i
          let b ← arrWrite w.2 w.1 c
          some (w.1 + 1, b)) (dst_pos, buf)
        some (src_pos + pat_len, w.1, w.2)
      else do
        let c ← Str.get src_pos
        let b ← arrWrite buf dst_pos c
        some (src_pos + 1, dst_pos + 1, b))
    (0, 0, buf)

/-- The whitespace test of the trimming functions as a Boolean function. -/
def ws (c : Nat) : Bool := decide (is_space c)

/-! ## General lemmas -/

/-! ## Loops and arrays: general facts -/

theorem forLoop_zero {σ : Type} (lo : Nat) (body : Nat → σ → Option σ) (s : σ) :
    forLoop lo 0 body s = some s := rfl

theorem forLoop_succ {σ : Type} (lo n : Nat) (body : Nat → σ → Option σ) (s : σ) :
    forLoop lo (n + 1) body s = (forLoop lo n body s).bind (body (lo + n)) := rfl

/-- Loop rule: if the body succeeds with value `g k s` on every state `s` satisfying the
invariant at round `k`, and `g k` carries the invariant to round `k + 1`, the loop succeeds,
returns `iterFrom g n s`, and the invariant holds at round `n`. -/
theorem forLoop_inv {σ : Type} (I : Nat → σ → Prop) (g : Nat → σ → σ) (lo n : Nat)
    (body : Nat → σ → Option σ) (s : σ) (h0 : I 0 s)
    (hstep : ∀ k, k < n → ∀ t, I k t → body (lo + k) t = some (g k t) ∧ I (k + 1) (g k t)) :
    forLoop lo n body s = some (iterFrom g n s) ∧ I n (iterFrom g n s) := by
  induction n with
  | zero => exact ⟨rfl, h0⟩
  | succ n ih =>
    obtain ⟨h1, h2⟩ := ih (fun k hk t ht => hstep k (Nat.lt_succ_of_lt hk) t ht)
    obtain ⟨h3, h4⟩ := hstep n (Nat.lt_succ_self n) _ h2
    refine ⟨?_, h4⟩
    rw [forLoop_succ, h1, Option.some_bind, h3]
    rfl

/-- A loop whose body fails at round `k` on every state fails. -/
theorem forLoop_fail {σ : Type} (lo n k : Nat) (body : Nat → σ → Option σ) (s : σ)
    (hk : k < n) (hfail : ∀ t, body (lo + k) t = none) : forLoop lo n body s = none := by
  induction n with
  | zero => omega
  | succ n ih =>
    rw [forLoop_succ]
    by_cases h : k < n
    · rw [ih h]; rfl
    · have hkn : k = n := by omega
      subst hkn
      cases forLoop lo k body s with
      | none => rfl
      | some t => exact hfail t

theorem iterFrom_eq_foldl {σ : Type} (g : Nat → σ → σ) (n : Nat) (s : σ) :
    iterFrom g n s = (List.range n).foldl (fun t k => g k t) s := by
  induction n with
  | zero => rfl
  | succ n ih => rw [List.range_succ, List.foldl_append, ← ih]; rfl

theorem tab_length (n : Nat) (f : Nat → Nat) : (tab n f).length = n := by
  simp [tab]

theorem tab_get (n : Nat) (f : Nat → Nat) (j : Nat) (h : j < n) : (tab n f)[j]? = some (f j) := by
  simp [tab, List.getElem?_range h]

theorem tab_congr (n : Nat) (f g : Nat → Nat) (h : ∀ j, j < n → f j = g j) : tab n f = tab n g := by
  apply List.map_congr_left
  intro j hj
  exact h j (List.mem_range.mp hj)

theorem replicate_zero_eq_tab (n : Nat) : List.replicate n 0 = tab n (fun _ => 0) := by
  apply List.ext_getElem?
  intro j
  by_cases h : j < n
  · rw [tab_get n _ j h, List.getElem?_replicate, if_pos h]
  · rw [List.getElem?_eq_none (by simpa using h), List.getElem?_eq_none (by simpa [tab_length] using h)]

theorem eq_tab_getD (l : List Nat) : l = tab l.length (fun j => l.getD j 0) := by
  apply List.ext_getElem?
  intro j
  by_cases h : j < l.length
  · rw [tab_get _ _ j h, List.getD_eq_getElem?_getD, List.getElem?_eq_getElem h]; rfl
  · rw [List.getElem?_eq_none (by simpa using h), List.getElem?_eq_none (by simpa [tab_length] using h)]

theorem arrWrite_tab (n : Nat) (f : Nat → Nat) (i v : Nat) (h : i < n) :
    arrWrite (tab n f) i v = some (tab n (fun j => if j = i then v else f j)) := by
  unfold arrWrite
  rw [if_pos (by rw [tab_length]; exact h)]
  congr 1
  apply List.ext_getElem?
  intro j
  rw [List.getElem?_set]
  by_cases hj : j < n
  · rw [tab_get n _ j hj, tab_get n _ j hj, tab_length]
    by_cases hij : i = j
    · subst hij; simp [h]
    · have : ¬ j = i := fun e => hij e.symm
      simp [hij, this]
  · have h1 : (tab n f)[j]? = none := List.getElem?_eq_none (by simpa [tab_length] using hj)
    have h2 : (tab n (fun j => if j = i then v else f j))[j]? = none :=
      List.getElem?_eq_none (by simpa [tab_length] using hj)
    rw [h1, h2]
    have : ¬ i = j := by omega
    simp [this]

theorem arrWrite_out (a : List Nat) (i v : Nat) (h : a.length ≤ i) : arrWrite a i v = none := by
  unfold arrWrite
  rw [if_neg (by omega)]

theorem arrWrite_length (a b : List Nat) (i v : Nat) (h : arrWrite a i v = some b) :
    b.length = a.length := by
  unfold arrWrite at h
  split at h
  · cases h; simp
  · cases h

theorem forLoop_inv_ex {σ : Type} (I : Nat → σ → Prop) (lo n : Nat)
    (body : Nat → σ → Option σ) (s : σ) (h0 : I 0 s)
    (hstep : ∀ k, k < n → ∀ t, I k t → ∃ u, body (lo + k) t = some u ∧ I (k + 1) u) :
    ∃ u, forLoop lo n body s = some u ∧ I n u := by
  induction n with
  | zero => exact ⟨s, rfl, h0⟩
  | succ n ih =>
    obtain ⟨t, h1, h2⟩ := ih (fun k hk t ht => hstep k (Nat.lt_succ_of_lt hk) t ht)
    obtain ⟨u, h3, h4⟩ := hstep n (Nat.lt_succ_self n) t h2
    exact ⟨u, by rw [forLoop_succ, h1, Option.some_bind, h3], h4⟩

theorem tab_getD (n : Nat) (f : Nat → Nat) (j : Nat) (h : j < n) : (tab n f).getD j 0 = f j := by
  rw [List.getD_eq_getElem?_getD, tab_get n f j h]; rfl

theorem toBE_length (k n : Nat) : (toBE k n).length = k := by
  simp [toBE]

theorem toBE_getD (k n i : Nat) (h : i < k) :
    (toBE k n).getD i 0 = n / 256 ^ (k - 1 - i) % 256 :=
  tab_getD k _ i h

/-- Elementwise description of a padded message. -/
theorem pad_getD (m : List Nat) (z L x j : Nat) :
    (m ++ [0x80] ++ List.replicate z 0 ++ toBE L x).getD j 0 =
      if j < m.length then m.getD j 0
      else if j = m.length then 0x80
      else if j < m.length + 1 + z then 0
      else if j < m.length + 1 + z + L then x / 256 ^ (L - 1 - (j - (m.length + 1 + z))) % 256
      else 0 := by
  have hl1 : (m ++ [0x80]).length = m.length + 1 := by simp
  have hl2 : (m ++ [0x80] ++ List.replicate z 0).length = m.length + 1 + z := by simp; omega
  by_cases h1 : j < m.length
  · rw [if_pos h1, List.getD_append _ _ _ _ (by rw [hl2]; omega),
      List.getD_append _ _ _ _ (by rw [hl1]; omega), List.getD_append _ _ _ _ h1]
  rw [if_neg h1]
  by_cases h2 : j = m.length
  · rw [if_pos h2, List.getD_append _ _ _ _ (by rw [hl2]; omega),
      List.getD_append _ _ _ _ (by rw [hl1]; omega), List.getD_append_right _ _ _ _ (by omega)]
    subst h2
    simp
  rw [if_neg h2]
  by_cases h3 : j < m.length + 1 + z
  · rw [if_pos h3, List.getD_append _ _ _ _ (by rw [hl2]; omega),
      List.getD_append_right _ _ _ _ (by rw [hl1]; omega), List.getD_eq_getElem?_getD,
      List.getElem?_replicate]
    split <;> rfl
  rw [if_neg h3, List.getD_append_right _ _ _ _ (by rw [hl2]; omega), hl2]
  by_cases h4 : j < m.length + 1 + z + L
  · rw [if_pos h4, toBE_getD _ _ _ (by omega)]
  · rw [if_neg h4, List.getD_eq_default _ _ (by rw [toBE_length]; omega)]

theorem pad_length (m : List Nat) (z L x : Nat) :
    (m ++ [0x80] ++ List.replicate z 0 ++ toBE L x).length = m.length + 1 + z + L := by
  simp [toBE_length]; omega

theorem shiftRight_bytes (x i : Nat) : x >>> (i * 8) = x / 256 ^ i := by
  rw [Nat.shiftRight_eq_div_pow, Nat.mul_comm, Nat.pow_mul]

/-- Message preparation writes the padded message at the start of the zeroed scratch
buffer, provided it fits. -/
theorem fillMsg_eq (cap p z L : Nat) (data : List Nat) (len : Nat)
    (hlen : len ≤ data.length) (hp : len + 1 + z + L = p) (hcap : p ≤ cap) (hL : 8 ≤ L)
    (hbits : len * 8 < 2 ^ 64) :
    fillMsg cap p data len =
      some (tab cap (fun j =>
        (((data.take len).map (fun d => d % 256)) ++ [0x80] ++ List.replicate z 0 ++
          toBE L (8 * len)).getD j 0)) := by
  -- the copy loop
  have hcopy : ∃ u, forLoop 0 len (fun i msg => (data[i]?).bind fun d => arrWrite msg i (d % 256))
      (List.replicate cap 0) = some u ∧
      u = tab cap (fun j => if j < len then data.getD j 0 % 256 else 0) := by
    apply forLoop_inv_ex (fun k u => u = tab cap (fun j => if j < k then data.getD j 0 % 256 else 0))
    · rw [replicate_zero_eq_tab]
      apply tab_congr; intro j _; simp
    · intro k hk t ht
      have hd : data[0 + k]? = some (data.getD k 0) := by
        rw [Nat.zero_add, List.getD_eq_getElem?_getD, List.getElem?_eq_getElem (by omega)]; rfl
      refine ⟨_, ?_, rfl⟩
      rw [hd, Option.some_bind, ht, Nat.zero_add, arrWrite_tab _ _ _ _ (by omega)]
      congr 1
      apply tab_congr
      intro j _
      by_cases e : j = k
      · subst e; simp
      · by_cases e2 : j < k
        · have : j < k + 1 := by omega
          simp [e, e2, this]
        · have : ¬ j < k + 1 := by omega
          simp [e, e2, this]
  obtain ⟨u1, hu1, hu1eq⟩ := hcopy
  -- the length loop
  have hlenloop : ∀ u, u = tab cap (fun j => if j = len then 0x80 else
        if j < len then data.getD j 0 % 256 else 0) →
      ∃ v, forLoop 0 8 (fun i msg =>
        arrWrite msg (p - 1 - i) ((u64 (len * 8) >>> (i * 8)) % 256)) u = some v ∧
      v = tab cap (fun j => if p - 8 ≤ j ∧ j < p then (u64 (len * 8) >>> ((p - 1 - j) * 8)) % 256
        else if j = len then 0x80 else if j < len then data.getD j 0 % 256 else 0) := by
    intro u hu
    apply forLoop_inv_ex (fun k v => v = tab cap (fun j =>
      if p - k ≤ j ∧ j < p then (u64 (len * 8) >>> ((p - 1 - j) * 8)) % 256
      else if j = len then 0x80 else if j < len then data.getD j 0 % 256 else 0))
    · rw [hu]
      apply tab_congr; intro j _
      have : ¬ (p - 0 ≤ j ∧ j < p) := by omega
      rw [if_neg this]
    · intro k hk t ht
      refine ⟨_, ?_, rfl⟩
      rw [ht, Nat.zero_add, arrWrite_tab _ _ _ _ (by omega)]
      congr 1
      apply tab_congr
      intro j _
      by_cases e : j = p - 1 - k
      · have h1 : p - (k + 1) ≤ j ∧ j < p := by omega
        have h2 : p - 1 - j = k := by omega
        rw [if_pos e, if_pos h1, h2]
      · rw [if_neg e]
        by_cases e2 : p - k ≤ j ∧ j < p
        · have h1 : p - (k + 1) ≤ j ∧ j < p := by omega
          rw [if_pos e2, if_pos h1]
        · have h1 : ¬ (p - (k + 1) ≤ j ∧ j < p) := by omega
          rw [if_neg e2, if_neg h1]
  obtain ⟨u3, hu3, hu3eq⟩ := hlenloop _ rfl
  have hstep2 : arrWrite u1 len 0x80 = some (tab cap (fun j => if j = len then 0x80 else
        if j < len then data.getD j 0 % 256 else 0)) := by
    rw [hu1eq, arrWrite_tab _ _ _ _ (by omega)]
  unfold fillMsg
  show (forLoop 0 len (fun i msg => (data[i]?).bind fun d => arrWrite msg i (d % 256))
      (List.replicate cap 0)).bind (fun msg => (arrWrite msg len 0x80).bind fun msg =>
        forLoop 0 8 (fun i msg =>
          arrWrite msg (p - 1 - i) ((u64 (len * 8) >>> (i * 8)) % 256)) msg) = _
  rw [hu1, Option.some_bind, hstep2, Option.some_bind, hu3, hu3eq]
  congr 1
  apply tab_congr
  intro j _
  have hm : ((data.take len).map (fun d => d % 256)).length = len := by
    simp [List.length_take]; omega
  rw [pad_getD, hm]
  have hu64 : u64 (len * 8) = 8 * len := by
    unfold u64; rw [Nat.mod_eq_of_lt hbits]; omega
  by_cases c1 : j < len
  · have h1 : ¬ (p - 8 ≤ j ∧ j < p) := by omega
    have h2 : ¬ j = len := by omega
    simp only [if_neg h1, if_neg h2, if_pos c1]
    rw [List.getD_eq_getElem?_getD, List.getD_eq_getElem?_getD, List.getElem?_map,
      List.getElem?_take_of_lt c1, List.getElem?_eq_getElem (by omega)]
    rfl
  by_cases c2 : j = len
  · have h1 : ¬ (p - 8 ≤ j ∧ j < p) := by omega
    simp only [if_neg h1, if_pos c2, if_neg c1]
  by_cases c3 : j < len + 1 + z
  · have h1 : ¬ (p - 8 ≤ j ∧ j < p) := by omega
    simp only [if_neg h1, if_neg c2, if_neg c1, if_pos c3]
  by_cases c4 : j < len + 1 + z + L
  · have hidx : L - 1 - (j - (len + 1 + z)) = p - 1 - j := by omega
    simp only [if_neg c1, if_neg c2, if_neg c3, if_pos c4, hidx]
    by_cases c5 : p - 8 ≤ j
    · have h1 : p - 8 ≤ j ∧ j < p := ⟨c5, by omega⟩
      simp only [if_pos h1]
      rw [shiftRight_bytes, hu64]
    · have h1 : ¬ (p - 8 ≤ j ∧ j < p) := by omega
      simp only [if_neg h1]
      have hbig : 8 * len < 256 ^ (p - 1 - j) := by
        calc 8 * len < 2 ^ 64 := by omega
          _ = 256 ^ 8 := by norm_num
          _ ≤ 256 ^ (p - 1 - j) := Nat.pow_le_pow_right (by norm_num) (by omega)
      rw [Nat.div_eq_of_lt hbig]
  · have h1 : ¬ (p - 8 ≤ j ∧ j < p) := by omega
    simp only [if_neg h1, if_neg c2, if_neg c1, if_neg c3, if_neg c4]

theorem sha256_prepare_eq (data : List Nat) (len : Nat) :
    sha256_prepare data len =
      (fillMsg 1024 (u64 (u64 (u64 (len + 8) / 64 + 1) * 64)) data len).bind
        (fun msg => some (msg, u64 (u64 (u64 (len + 8) / 64 + 1) * 64))) := by
  unfold sha256_prepare fillMsg
  simp only [Option.bind_eq_bind, Option.bind_assoc]

theorem sha512_prepare_eq (data : List Nat) (len : Nat) :
    sha512_prepare data len =
      (fillMsg 2048 (u64 (u64 (u64 (len + 16) / 128 + 1) * 128)) data len).bind
        (fun msg => some (msg, u64 (u64 (u64 (len + 16) / 128 + 1) * 128))) := by
  unfold sha512_prepare fillMsg
  simp only [Option.bind_eq_bind, Option.bind_assoc]

theorem sha256_padded_len (len : Nat) (h : len ≤ 1015) :
    u64 (u64 (u64 (len + 8) / 64 + 1) * 64) = len + 1 + (fips_zero_bits 64 8 (8 * len) - 7) / 8 + 8 ∧
    u64 (u64 (u64 (len + 8) / 64 + 1) * 64) ≤ 1024 ∧
    u64 (u64 (u64 (len + 8) / 64 + 1) * 64) % 64 = 0 := by
  unfold u64 fips_zero_bits
  norm_num
  omega

theorem sha512_padded_len (len : Nat) (h : len ≤ 2031) :
    u64 (u64 (u64 (len + 16) / 128 + 1) * 128) =
      len + 1 + (fips_zero_bits 128 16 (8 * len) - 7) / 8 + 16 ∧
    u64 (u64 (u64 (len + 16) / 128 + 1) * 128) ≤ 2048 ∧
    u64 (u64 (u64 (len + 16) / 128 + 1) * 128) % 128 = 0 := by
  unfold u64 fips_zero_bits
  norm_num
  omega

/-- The zero-bit count of §5.1 is the smallest non-negative solution of the congruence. -/
theorem fips_zero_bits_least_256 (l : Nat) :
    (l + 1 + fips_zero_bits 64 8 l) % 512 = 448 ∧
    ∀ k, (l + 1 + k) % 512 = 448 → fips_zero_bits 64 8 l ≤ k := by
  unfold fips_zero_bits
  constructor
  · norm_num; omega
  · intro k hk; norm_num; omega

theorem fips_zero_bits_least_512 (l : Nat) :
    (l + 1 + fips_zero_bits 128 16 l) % 1024 = 896 ∧
    ∀ k, (l + 1 + k) % 1024 = 896 → fips_zero_bits 128 16 l ≤ k := by
  unfold fips_zero_bits
  constructor
  · norm_num; omega
  · intro k hk; norm_num; omega

theorem sha256_prepare_ok (data : List Nat) (len : Nat) (hlen : len ≤ data.length)
    (h : len ≤ 1015) :
    sha256_prepare data len =
      some (tab 1024 (fun j => (fips_pad 64 8 ((data.take len).map (fun d => d % 256))).getD j 0),
            (fips_pad 64 8 ((data.take len).map (fun d => d % 256))).length) := by
  have hm : ((data.take len).map (fun d => d % 256)).length = len := by
    simp [List.length_take]; omega
  obtain ⟨h1, h2, _⟩ := sha256_padded_len len h
  rw [sha256_prepare_eq, fillMsg_eq 1024 _ ((fips_zero_bits 64 8 (8 * len) - 7) / 8) 8 data len hlen
    h1.symm h2 (by omega) (by omega), Option.some_bind]
  unfold fips_pad
  rw [pad_length, hm, h1]

theorem sha512_prepare_ok (data : List Nat) (len : Nat) (hlen : len ≤ data.length)
    (h : len ≤ 2031) :
    sha512_prepare data len =
      some (tab 2048 (fun j => (fips_pad 128 16 ((data.take len).map (fun d => d % 256))).getD j 0),
            (fips_pad 128 16 ((data.take len).map (fun d => d % 256))).length) := by
  have hm : ((data.take len).map (fun d => d % 256)).length = len := by
    simp [List.length_take]; omega
  obtain ⟨h1, h2, _⟩ := sha512_padded_len len h
  rw [sha512_prepare_eq, fillMsg_eq 2048 _ ((fips_zero_bits 128 16 (8 * len) - 7) / 8) 16 data len hlen
    h1.symm h2 (by omega) (by omega), Option.some_bind]
  unfold fips_pad
  rw [pad_length, hm, h1]

theorem or_eq_add_of_lt (i a b : Nat) (hb : b < 2 ^ i) : 2 ^ i * a ||| b = 2 ^ i * a + b :=
  (Nat.mul_add_lt_is_or hb a).symm

theorem be32_or (b0 b1 b2 b3 : Nat) (h0 : b0 < 256) (h1 : b1 < 256) (h2 : b2 < 256)
    (h3 : b3 < 256) :
    u32 (b0 <<< 24) ||| u32 (b1 <<< 16) ||| u32 (b2 <<< 8) ||| b3 = ofBE [b0, b1, b2, b3] := by
  have e0 : u32 (b0 <<< 24) = 2 ^ 24 * b0 := by
    unfold u32; rw [Nat.shiftLeft_eq, Nat.mod_eq_of_lt (by omega)]; omega
  have e1 : u32 (b1 <<< 16) = 2 ^ 16 * b1 := by
    unfold u32; rw [Nat.shiftLeft_eq, Nat.mod_eq_of_lt (by omega)]; omega
  have e2 : u32 (b2 <<< 8) = 2 ^ 8 * b2 := by
    unfold u32; rw [Nat.shiftLeft_eq, Nat.mod_eq_of_lt (by omega)]; omega
  rw [e0, e1, e2, or_eq_add_of_lt 24 b0 _ (by omega)]
  have s1 : 2 ^ 24 * b0 + 2 ^ 16 * b1 = 2 ^ 16 * (2 ^ 8 * b0 + b1) := by omega
  rw [s1, or_eq_add_of_lt 16 _ _ (by omega)]
  have s2 : 2 ^ 16 * (2 ^ 8 * b0 + b1) + 2 ^ 8 * b2 = 2 ^ 8 * (2 ^ 16 * b0 + 2 ^ 8 * b1 + b2) := by
    omega
  rw [s2, or_eq_add_of_lt 8 _ _ (by omega)]
  simp only [ofBE, List.foldl]
  omega

theorem be64_or (b0 b1 b2 b3 b4 b5 b6 b7 : Nat) (h0 : b0 < 256) (h1 : b1 < 256) (h2 : b2 < 256)
    (h3 : b3 < 256) (h4 : b4 < 256) (h5 : b5 < 256) (h6 : b6 < 256) (h7 : b7 < 256) :
    u64 (b0 <<< 56) ||| u64 (b1 <<< 48) ||| u64 (b2 <<< 40) ||| u64 (b3 <<< 32) |||
      u64 (b4 <<< 24) ||| u64 (b5 <<< 16) ||| u64 (b6 <<< 8) ||| b7 =
    ofBE [b0, b1, b2, b3, b4, b5, b6, b7] := by
  have e0 : u64 (b0 <<< 56) = 2 ^ 56 * b0 := by
    unfold u64; rw [Nat.shiftLeft_eq, Nat.mod_eq_of_lt (by omega)]; omega
  have e1 : u64 (b1 <<< 48) = 2 ^ 48 * b1 := by
    unfold u64; rw [Nat.shiftLeft_eq, Nat.mod_eq_of_lt (by omega)]; omega
  have e2 : u64 (b2 <<< 40) = 2 ^ 40 * b2 := by
    unfold u64; rw [Nat.shiftLeft_eq, Nat.mod_eq_of_lt (by omega)]; omega
  have e3 : u64 (b3 <<< 32) = 2 ^ 32 * b3 := by
    unfold u64; rw [Nat.shiftLeft_eq, Nat.mod_eq_of_lt (by omega)]; omega
  have e4 : u64 (b4 <<< 24) = 2 ^ 24 * b4 := by
    unfold u64; rw [Nat.shiftLeft_eq, Nat.mod_eq_of_lt (by omega)]; omega
  have e5 : u64 (b5 <<< 16) = 2 ^ 16 * b5 := by
    unfold u64; rw [Nat.shiftLeft_eq, Nat.mod_eq_of_lt (by omega)]; omega
  have e6 : u64 (b6 <<< 8) = 2 ^ 8 * b6 := by
    unfold u64; rw [Nat.shiftLeft_eq, Nat.mod_eq_of_lt (by omega)]; omega
  rw [e0, e1, e2, e3, e4, e5, e6, or_eq_add_of_lt 56 b0 _ (by omega)]
  have s1 : 2 ^ 56 * b0 + 2 ^ 48 * b1 = 2 ^ 48 * (2 ^ 8 * b0 + b1) := by omega
  rw [s1, or_eq_add_of_lt 48 _ _ (by omega)]
  have s2 : 2 ^ 48 * (2 ^ 8 * b0 + b1) + 2 ^ 40 * b2 =
      2 ^ 40 * (2 ^ 16 * b0 + 2 ^ 8 * b1 + b2) := by omega
  rw [s2, or_eq_add_of_lt 40 _ _ (by omega)]
  have s3 : 2 ^ 40 * (2 ^ 16 * b0 + 2 ^ 8 * b1 + b2) + 2 ^ 32 * b3 =
      2 ^ 32 * (2 ^ 24 * b0 + 2 ^ 16 * b1 + 2 ^ 8 * b2 + b3) := by omega
  rw [s3, or_eq_add_of_lt 32 _ _ (by omega)]
  have s4 : 2 ^ 32 * (2 ^ 24 * b0 + 2 ^ 16 * b1 + 2 ^ 8 * b2 + b3) + 2 ^ 24 * b4 =
      2 ^ 24 * (2 ^ 32 * b0 + 2 ^ 24 * b1 + 2 ^ 16 * b2 + 2 ^ 8 * b3 + b4) := by omega
  rw [s4, or_eq_add_of_lt 24 _ _ (by omega)]
  have s5 : 2 ^ 24 * (2 ^ 32 * b0 + 2 ^ 24 * b1 + 2 ^ 16 * b2 + 2 ^ 8 * b3 + b4) + 2 ^ 16 * b5 =
      2 ^ 16 * (2 ^ 40 * b0 + 2 ^ 32 * b1 + 2 ^ 24 * b2 + 2 ^ 16 * b3 + 2 ^ 8 * b4 + b5) := by
    omega
  rw [s5, or_eq_add_of_lt 16 _ _ (by omega)]
  have s6 : 2 ^ 16 * (2 ^ 40 * b0 + 2 ^ 32 * b1 + 2 ^ 24 * b2 + 2 ^ 16 * b3 + 2 ^ 8 * b4 + b5) +
      2 ^ 8 * b6 =
      2 ^ 8 * (2 ^ 48 * b0 + 2 ^ 40 * b1 + 2 ^ 32 * b2 + 2 ^ 24 * b3 + 2 ^ 16 * b4 + 2 ^ 8 * b5 +
        b6) := by omega
  rw [s6, or_eq_add_of_lt 8 _ _ (by omega)]
  simp only [ofBE, List.foldl]
  omega

theorem getD_lt_of_forall (l : List Nat) (n j : Nat) (hn : 0 < n) (h : ∀ x ∈ l, x < n) :
    l.getD j 0 < n := by
  rw [List.getD_eq_getElem?_getD]
  by_cases hj : j < l.length
  · rw [List.getElem?_eq_getElem hj]
    exact h _ (List.getElem_mem hj)
  · rw [List.getElem?_eq_none (by omega)]
    exact hn

theorem fips_pad_getD_lt (B L : Nat) (m : List Nat) (j : Nat) (hm : ∀ x ∈ m, x < 256) :
    (fips_pad B L m).getD j 0 < 256 := by
  unfold fips_pad
  rw [pad_getD]
  split
  · exact getD_lt_of_forall m 256 j (by omega) hm
  · split
    · omega
    · split
      · omega
      · split
        · exact Nat.mod_lt _ (by omega)
        · omega

theorem map_mod_lt (l : List Nat) : ∀ x ∈ l.map (fun d => d % 256), x < 256 := by
  intro x hx
  obtain ⟨d, _, rfl⟩ := List.mem_map.mp hx
  exact Nat.mod_lt _ (by omega)

theorem fips256_schedule_length (M : Nat → Nat) (n : Nat) : (fips256_schedule M n).length = n := by
  induction n with
  | zero => rfl
  | succ n ih => simp [fips256_schedule, ih]

theorem fips256_schedule_getD_succ (M : Nat → Nat) (n t : Nat) :
    (fips256_schedule M (n + 1)).getD t 0 =
      if t = n then
        (if n < 16 then M n
         else (fips256_sigma1 ((fips256_schedule M n).getD (n - 2) 0) +
               (fips256_schedule M n).getD (n - 7) 0 +
               fips256_sigma0 ((fips256_schedule M n).getD (n - 15) 0) +
               (fips256_schedule M n).getD (n - 16) 0) % 2 ^ 32)
      else (fips256_schedule M n).getD t 0 := by
  have hl := fips256_schedule_length M n
  show ((fips256_schedule M n) ++ [_]).getD t 0 = _
  by_cases h : t < n
  · rw [List.getD_append _ _ _ _ (by omega), if_neg (by omega)]
  · by_cases h2 : t = n
    · rw [if_pos h2, List.getD_append_right _ _ _ _ (by omega), hl, h2, Nat.sub_self]
      rfl
    · rw [if_neg h2, List.getD_append_right _ _ _ _ (by omega),
        List.getD_eq_default _ _ (by simp; omega), List.getD_eq_default _ _ (by omega)]

theorem add4_u32 (a b c d : Nat) : u32 (u32 (u32 (a + b) + c) + d) = (d + c + b + a) % 2 ^ 32 := by
  unfold u32
  norm_num
  omega

theorem sha256_copy_chunk_eq (padded : List Nat) (chunk : Nat) (hc : chunk * 64 + 64 ≤ 1024)
    (hb : ∀ j, padded.getD j 0 < 256) :
    sha256_copy_chunk (tab 1024 (fun j => padded.getD j 0)) chunk =
      some (tab 64 (fun t => (fips256_schedule (fips256_block padded chunk) 16).getD t 0)) := by
  obtain ⟨u, hu, hueq⟩ := forLoop_inv_ex
    (fun k u => u = tab 64 (fun t => (fips256_schedule (fips256_block padded chunk) k).getD t 0))
    0 16 (fun i w =>
      ((tab 1024 (fun j => padded.getD j 0))[chunk * 64 + i * 4]?).bind fun b0 =>
      ((tab 1024 (fun j => padded.getD j 0))[chunk * 64 + i * 4 + 1]?).bind fun b1 =>
      ((tab 1024 (fun j => padded.getD j 0))[chunk * 64 + i * 4 + 2]?).bind fun b2 =>
      ((tab 1024 (fun j => padded.getD j 0))[chunk * 64 + i * 4 + 3]?).bind fun b3 =>
      arrWrite w i (u32 (b0 <<< 24) ||| u32 (b1 <<< 16) ||| u32 (b2 <<< 8) ||| b3))
    (List.replicate 64 0)
    (by rw [replicate_zero_eq_tab]; rfl)
    (by
      intro k hk t ht
      refine ⟨_, ?_, rfl⟩
      rw [Nat.zero_add]
      beta_reduce
      rw [tab_get _ _ _ (by omega), tab_get _ _ _ (by omega),
        tab_get _ _ _ (by omega), tab_get _ _ _ (by omega)]
      simp only [Option.some_bind]
      rw [ht, arrWrite_tab _ _ _ _ (by omega), be32_or _ _ _ _ (hb _) (hb _) (hb _) (hb _)]
      congr 1
      apply tab_congr
      intro j _
      rw [fips256_schedule_getD_succ, if_pos hk]
      have e : ofBE [padded.getD (chunk * 64 + k * 4) 0, padded.getD (chunk * 64 + k * 4 + 1) 0,
          padded.getD (chunk * 64 + k * 4 + 2) 0, padded.getD (chunk * 64 + k * 4 + 3) 0] =
          fips256_block padded chunk k := by
        unfold fips256_block
        have i0 : 64 * chunk + 4 * k + 0 = chunk * 64 + k * 4 := by omega
        have i1 : 64 * chunk + 4 * k + 1 = chunk * 64 + k * 4 + 1 := by omega
        have i2 : 64 * chunk + 4 * k + 2 = chunk * 64 + k * 4 + 2 := by omega
        have i3 : 64 * chunk + 4 * k + 3 = chunk * 64 + k * 4 + 3 := by omega
        simp only [List.range, List.range.loop, List.map, i0, i1, i2, i3]
      rw [e])
  exact hu.trans (congrArg some hueq)

theorem sha256_extend_eq (M : Nat → Nat) :
    sha256_extend (tab 64 (fun t => (fips256_schedule M 16).getD t 0)) =
      some (tab 64 (fun t => (fips256_schedule M 64).getD t 0)) := by
  obtain ⟨u, hu, hueq⟩ := forLoop_inv_ex
    (fun k u => u = tab 64 (fun t => (fips256_schedule M (16 + k)).getD t 0))
    16 48 (fun i w =>
      (w[i - 15]?).bind fun x => (w[i - 2]?).bind fun y => (w[i - 16]?).bind fun w16 =>
      (w[i - 7]?).bind fun w7 =>
      arrWrite w i (u32 (u32 (u32 (w16 +
        (((x >>> 7) ||| u32 (x <<< 25)) ^^^ ((x >>> 18) ||| u32 (x <<< 14)) ^^^ (x >>> 3))) + w7) +
        (((y >>> 17) ||| u32 (y <<< 15)) ^^^ ((y >>> 19) ||| u32 (y <<< 13)) ^^^ (y >>> 10)))))
    (tab 64 (fun t => (fips256_schedule M 16).getD t 0))
    rfl
    (by
      intro k hk t ht
      refine ⟨_, ?_, rfl⟩
      beta_reduce
      rw [ht, tab_get _ _ _ (by omega), tab_get _ _ _ (by omega), tab_get _ _ _ (by omega),
        tab_get _ _ _ (by omega)]
      simp only [Option.some_bind]
      rw [arrWrite_tab _ _ _ _ (by omega), add4_u32]
      congr 1
      apply tab_congr
      intro j _
      have hn : 16 + (k + 1) = (16 + k) + 1 := by omega
      rw [hn, fips256_schedule_getD_succ, if_neg (by omega : ¬ 16 + k < 16)]
      rfl)
  exact hu.trans (congrArg some hueq)

theorem sha256_K_length : sha256_K.length = 64 := rfl

theorem sha256_round_eq (v : Work8) (k wi : Nat) :
    ({ h := v.g, g := v.f, f := v.e,
       e := u32 (v.d + u32 (u32 (u32 (u32 (v.h + (((v.e >>> 6) ||| u32 (v.e <<< 26)) ^^^
         ((v.e >>> 11) ||| u32 (v.e <<< 21)) ^^^ ((v.e >>> 25) ||| u32 (v.e <<< 7)))) +
         ((v.e &&& v.f) ^^^ ((v.e ^^^ 0xFFFFFFFF) &&& v.g))) + k) + wi)),
       d := v.c, c := v.b, b := v.a,
       a := u32 (u32 (u32 (u32 (u32 (v.h + (((v.e >>> 6) ||| u32 (v.e <<< 26)) ^^^
         ((v.e >>> 11) ||| u32 (v.e <<< 21)) ^^^ ((v.e >>> 25) ||| u32 (v.e <<< 7)))) +
         ((v.e &&& v.f) ^^^ ((v.e ^^^ 0xFFFFFFFF) &&& v.g))) + k) + wi) +
         u32 ((((v.a >>> 2) ||| u32 (v.a <<< 30)) ^^^ ((v.a >>> 13) ||| u32 (v.a <<< 19)) ^^^
           ((v.a >>> 22) ||| u32 (v.a <<< 10))) +
           ((v.a &&& v.b) ^^^ (v.a &&& v.c) ^^^ (v.b &&& v.c)))) } : Work8) =
      fips256_round v k wi := by
  have hT1 : ∀ a b c d e : Nat, u32 (u32 (u32 (u32 (a + b) + c) + d) + e) =
      (a + b + c + d + e) % 2 ^ 32 := by
    intro a b c d e; unfold u32; omega
  unfold fips256_round fips256_Sigma0 fips256_Sigma1 fips_Ch fips_Maj fips_rotr
  simp only [hT1]
  rfl

theorem isPrimeTD_iff (n : Nat) (hn : n < 441) : isPrimeTD n = true ↔ Nat.Prime n := by
  unfold isPrimeTD
  simp only [Bool.and_eq_true, decide_eq_true_eq, List.all_eq_true, List.mem_range,
    Bool.or_eq_true]
  constructor
  · rintro ⟨h2, h⟩
    by_contra hp
    have hd := Nat.minFac_dvd n
    have hpr := Nat.minFac_prime (by omega : n ≠ 1)
    have hsq := Nat.minFac_sq_le_self (by omega : 0 < n) hp
    have hlt := (Nat.not_prime_iff_minFac_lt h2).mp hp
    have h21 : n.minFac < 21 := by
      by_contra hge
      have : 21 * 21 ≤ n.minFac ^ 2 := by
        rw [Nat.pow_two]
        exact Nat.mul_le_mul (by omega) (by omega)
      omega
    rcases h n.minFac h21 with (h1 | h1) | h1
    · have := hpr.two_le; omega
    · omega
    · exact h1 (Nat.mod_eq_zero_of_dvd hd)
  · intro hp
    refine ⟨hp.two_le, fun d _ => ?_⟩
    by_cases h1 : d < 2
    · exact Or.inl (Or.inl h1)
    · by_cases h2 : n ≤ d
      · exact Or.inl (Or.inr h2)
      · right
        intro hmod
        rcases (Nat.dvd_prime hp).mp (Nat.dvd_of_mod_eq_zero hmod) with e | e
        · omega
        · omega

/-- The list `fips_primes` holds, in increasing order, the numbers below 410 that pass trial
division, and there are eighty of them. -/
theorem fips_primes_eq :
    fips_primes = (List.range 410).filter isPrimeTD ∧ fips_primes.length = 80 := by decide!

/-- The members of `fips_primes` are the prime numbers below 410. -/
theorem mem_fips_primes (p : Nat) : p ∈ fips_primes ↔ p < 410 ∧ Nat.Prime p := by
  rw [fips_primes_eq.1, List.mem_filter, List.mem_range]
  constructor
  · rintro ⟨h1, h2⟩
    exact ⟨h1, (isPrimeTD_iff p (by omega)).mp h2⟩
  · rintro ⟨h1, h2⟩
    exact ⟨h1, (isPrimeTD_iff p (by omega)).mpr h2⟩

/-- Bisection keeps the root bracketed: it returns the integer `k`-th root of `n`. -/
theorem irootAux_spec (k n : Nat) (b r : Nat) (h1 : r ^ k ≤ n) (h2 : n < (r + 2 ^ b) ^ k) :
    irootAux k n b r ^ k ≤ n ∧ n < (irootAux k n b r + 1) ^ k := by
  induction b generalizing r with
  | zero => exact ⟨h1, by simpa using h2⟩
  | succ b ih =>
    unfold irootAux
    by_cases h : (r + 2 ^ b) ^ k ≤ n
    · rw [if_pos h]
      apply ih _ h
      have e : r + 2 ^ b + 2 ^ b = r + 2 ^ (b + 1) := by rw [Nat.pow_succ]; omega
      rw [e]; exact h2
    · rw [if_neg h]
      exact ih _ h1 (by omega)

/-- The value `fracRootBits k bits p` is `floor (p ^ (1/k) * 2 ^ bits) mod 2 ^ bits`: the number
`r = floor (p ^ (1/k) * 2 ^ bits)` is the one with `r ^ k ≤ p * 2 ^ (k * bits) < (r + 1) ^ k`. -/
theorem fracRootBits_spec (k bits p : Nat) (hk : 0 < k) (hp : p < 2 ^ (16 * k)) :
    ∃ r, r ^ k ≤ p * 2 ^ (k * bits) ∧ p * 2 ^ (k * bits) < (r + 1) ^ k ∧
      fracRootBits k bits p = r % 2 ^ bits := by
  refine ⟨irootAux k (p * 2 ^ (k * bits)) (bits + 16) 0, ?_, ?_, rfl⟩
  all_goals
    have hb : p * 2 ^ (k * bits) < (0 + 2 ^ (bits + 16)) ^ k := by
      rw [Nat.zero_add, ← Nat.pow_mul, Nat.add_mul, Nat.pow_add, Nat.mul_comm bits k,
        Nat.mul_comm]
      exact Nat.mul_lt_mul_of_pos_left hp (Nat.pow_pos (by omega))
    have h0 : 0 ^ k ≤ p * 2 ^ (k * bits) := by
      rw [Nat.zero_pow hk]; exact Nat.zero_le _
    first
      | exact (irootAux_spec k _ (bits + 16) 0 h0 hb).1
      | exact (irootAux_spec k _ (bits + 16) 0 h0 hb).2

theorem sha256_K_eq_fips : sha256_K = fips256_K := by decide!

theorem sha256_init_eq_fips : sha256_init = fips256_H0 := by decide!

theorem getElem?_eq_some_getD (l : List Nat) (i : Nat) (h : i < l.length) :
    l[i]? = some (l.getD i 0) := by
  rw [List.getD_eq_getElem?_getD, List.getElem?_eq_getElem h]; rfl

theorem sha256_compress_eq (M : Nat → Nat) (H : Hash8) :
    sha256_compress (tab 64 (fun t => (fips256_schedule M 64).getD t 0)) H =
      some (fips256_compress H M) := by
  obtain ⟨h1, -⟩ := forLoop_inv (fun _ (_ : Work8) => True)
    (fun k v => fips256_round v (fips256_K.getD k 0) ((fips256_schedule M 64).getD k 0))
    0 64 (fun i (v : Work8) =>
      (sha256_K[i]?).bind fun k =>
      ((tab 64 (fun t => (fips256_schedule M 64).getD t 0))[i]?).bind fun wi =>
      some ({ h := v.g, g := v.f, f := v.e,
               e := u32 (v.d + u32 (u32 (u32 (u32 (v.h + (((v.e >>> 6) ||| u32 (v.e <<< 26)) ^^^
                 ((v.e >>> 11) ||| u32 (v.e <<< 21)) ^^^ ((v.e >>> 25) ||| u32 (v.e <<< 7)))) +
                 ((v.e &&& v.f) ^^^ ((v.e ^^^ 0xFFFFFFFF) &&& v.g))) + k) + wi)),
               d := v.c, c := v.b, b := v.a,
               a := u32 (u32 (u32 (u32 (u32 (v.h + (((v.e >>> 6) ||| u32 (v.e <<< 26)) ^^^
                 ((v.e >>> 11) ||| u32 (v.e <<< 21)) ^^^ ((v.e >>> 25) ||| u32 (v.e <<< 7)))) +
                 ((v.e &&& v.f) ^^^ ((v.e ^^^ 0xFFFFFFFF) &&& v.g))) + k) + wi) +
                 u32 ((((v.a >>> 2) ||| u32 (v.a <<< 30)) ^^^ ((v.a >>> 13) ||| u32 (v.a <<< 19)) ^^^
                   ((v.a >>> 22) ||| u32 (v.a <<< 10))) +
                   ((v.a &&& v.b) ^^^ (v.a &&& v.c) ^^^ (v.b &&& v.c)))) } : Work8))
    ⟨H.h0, H.h1, H.h2, H.h3, H.h4, H.h5, H.h6, H.h7⟩ trivial
    (by
      intro k hk v _
      refine ⟨?_, trivial⟩
      beta_reduce
      rw [Nat.zero_add, getElem?_eq_some_getD sha256_K k (by rw [sha256_K_length]; exact hk),
        tab_get _ _ _ hk]
      simp only [Option.some_bind]
      rw [sha256_round_eq, sha256_K_eq_fips])
  unfold sha256_compress
  simp only [Option.bind_eq_bind]
  rw [h1, Option.some_bind, iterFrom_eq_foldl]
  unfold fips256_compress
  simp only [u32, Nat.add_comm]

theorem sha256_chunk_eq (padded : List Nat) (chunk : Nat) (H : Hash8)
    (hc : chunk * 64 + 64 ≤ 1024) (hb : ∀ j, padded.getD j 0 < 256) :
    sha256_chunk (tab 1024 (fun j => padded.getD j 0)) chunk H =
      some (fips256_compress H (fips256_block padded chunk)) := by
  unfold sha256_chunk
  show (sha256_copy_chunk _ chunk).bind (fun w => (sha256_extend w).bind fun w =>
    sha256_compress w H) = _
  rw [sha256_copy_chunk_eq padded chunk hc hb, Option.some_bind, sha256_extend_eq,
    Option.some_bind, sha256_compress_eq]

theorem and_255 (x : Nat) : x &&& 0xFF = x % 256 := Nat.and_pow_two_sub_one_eq_mod x 8

theorem sha256_output_eq (H : Hash8) :
    sha256_output H = some (toBE 4 H.h0 ++ toBE 4 H.h1 ++ toBE 4 H.h2 ++ toBE 4 H.h3 ++
      toBE 4 H.h4 ++ toBE 4 H.h5 ++ toBE 4 H.h6 ++ toBE 4 H.h7) := by
  unfold sha256_output
  simp only [forLoop, Option.bind_eq_bind, Option.some_bind, arrWrite, List.replicate,
    List.length, List.set, and_255, Nat.shiftRight_eq_div_pow, toBE, List.range, List.range.loop,
    List.map, List.cons_append, List.nil_append]
  norm_num

theorem fips_pad_length_256 (m : List Nat) (h : m.length ≤ 1015) :
    (fips_pad 64 8 m).length ≤ 1024 := by
  obtain ⟨h1, h2, _⟩ := sha256_padded_len m.length h
  unfold fips_pad
  rw [pad_length, ← h1]
  exact h2

theorem map_mod_of_lt (l : List Nat) (h : ∀ x ∈ l, x < 256) : l.map (fun d => d % 256) = l := by
  induction l with
  | nil => rfl
  | cons a l ih =>
    rw [List.map_cons, ih (fun x hx => h x (List.mem_cons_of_mem a hx)),
      Nat.mod_eq_of_lt (h a (List.mem_cons_self a l))]

theorem sha256_compute_unfold (data : List Nat) (len : Nat) :
    sha256_compute data len = (sha256_prepare data len).bind (fun r =>
      (forLoop 0 (r.2 / 64) (fun chunk H => sha256_chunk r.1 chunk H) sha256_init).bind
        sha256_output) := by
  unfold sha256_compute
  generalize sha256_prepare data len = o
  cases o with
  | none => rfl
  | some r => obtain ⟨msg, p⟩ := r; rfl

/-- The result of `sha256_compute` on at most 1015 elements: the FIPS 180-4 digest of the low-order bytes
of the elements. -/
theorem sha256_compute_eq (data : List Nat) (len : Nat) (hlen : len ≤ data.length)
    (hcap : len ≤ 1015) :
    sha256_compute data len = some (fips256 ((data.take len).map (fun d => d % 256))) := by
  have hm : ((data.take len).map (fun d => d % 256)).length = len := by
    simp [List.length_take]; omega
  have hpl := fips_pad_length_256 ((data.take len).map (fun d => d % 256)) (by omega)
  have hb : ∀ j, (fips_pad 64 8 ((data.take len).map (fun d => d % 256))).getD j 0 < 256 :=
    fun j => fips_pad_getD_lt 64 8 _ j (map_mod_lt _)
  obtain ⟨h1, -⟩ := forLoop_inv (fun _ (_ : Hash8) => True)
    (fun chunk H => fips256_compress H
      (fips256_block (fips_pad 64 8 ((data.take len).map (fun d => d % 256))) chunk))
    0 ((fips_pad 64 8 ((data.take len).map (fun d => d % 256))).length / 64)
    (fun chunk H => sha256_chunk
      (tab 1024 (fun j => (fips_pad 64 8 ((data.take len).map (fun d => d % 256))).getD j 0))
      chunk H)
    sha256_init trivial
    (by
      intro k hk H _
      refine ⟨?_, trivial⟩
      beta_reduce
      rw [Nat.zero_add, sha256_chunk_eq _ k H (by omega) hb])
  rw [sha256_compute_unfold, sha256_prepare_ok data len hlen hcap, Option.some_bind]
  show (forLoop 0 _ _ sha256_init).bind sha256_output = _
  rw [h1, Option.some_bind, iterFrom_eq_foldl, sha256_output_eq, sha256_init_eq_fips]
  rfl

theorem fips512_schedule_length (M : Nat → Nat) (n : Nat) : (fips512_schedule M n).length = n := by
  induction n with
  | zero => rfl
  | succ n ih => simp [fips512_schedule, ih]

theorem fips512_schedule_getD_succ (M : Nat → Nat) (n t : Nat) :
    (fips512_schedule M (n + 1)).getD t 0 =
      if t = n then
        (if n < 16 then M n
         else (fips512_sigma1 ((fips512_schedule M n).getD (n - 2) 0) +
               (fips512_schedule M n).getD (n - 7) 0 +
               fips512_sigma0 ((fips512_schedule M n).getD (n - 15) 0) +
               (fips512_schedule M n).getD (n - 16) 0) % 2 ^ 64)
      else (fips512_schedule M n).getD t 0 := by
  have hl := fips512_schedule_length M n
  show ((fips512_schedule M n) ++ [_]).getD t 0 = _
  by_cases h : t < n
  · rw [List.getD_append _ _ _ _ (by omega), if_neg (by omega)]
  · by_cases h2 : t = n
    · rw [if_pos h2, List.getD_append_right _ _ _ _ (by omega), hl, h2, Nat.sub_self]
      rfl
    · rw [if_neg h2, List.getD_append_right _ _ _ _ (by omega),
        List.getD_eq_default _ _ (by simp; omega), List.getD_eq_default _ _ (by omega)]

theorem add4_u64 (a b c d : Nat) : u64 (u64 (u64 (a + b) + c) + d) = (d + c + b + a) % 2 ^ 64 := by
  unfold u64
  omega

theorem sha512_copy_chunk_eq (padded : List Nat) (chunk : Nat) (hc : chunk * 128 + 128 ≤ 2048)
    (hb : ∀ j, padded.getD j 0 < 256) :
    sha512_copy_chunk (tab 2048 (fun j => padded.getD j 0)) chunk =
      some (tab 80 (fun t => (fips512_schedule (fips512_block padded chunk) 16).getD t 0)) := by
  obtain ⟨u, hu, hueq⟩ := forLoop_inv_ex
    (fun k u => u = tab 80 (fun t => (fips512_schedule (fips512_block padded chunk) k).getD t 0))
    0 16 (fun i w =>
      ((tab 2048 (fun j => padded.getD j 0))[chunk * 128 + i * 8]?).bind fun b0 =>
      ((tab 2048 (fun j => padded.getD j 0))[chunk * 128 + i * 8 + 1]?).bind fun b1 =>
      ((tab 2048 (fun j => padded.getD j 0))[chunk * 128 + i * 8 + 2]?).bind fun b2 =>
      ((tab 2048 (fun j => padded.getD j 0))[chunk * 128 + i * 8 + 3]?).bind fun b3 =>
      ((tab 2048 (fun j => padded.getD j 0))[chunk * 128 + i * 8 + 4]?).bind fun b4 =>
      ((tab 2048 (fun j => padded.getD j 0))[chunk * 128 + i * 8 + 5]?).bind fun b5 =>
      ((tab 2048 (fun j => padded.getD j 0))[chunk * 128 + i * 8 + 6]?).bind fun b6 =>
      ((tab 2048 (fun j => padded.getD j 0))[chunk * 128 + i * 8 + 7]?).bind fun b7 =>
      arrWrite w i (u64 (b0 <<< 56) ||| u64 (b1 <<< 48) ||| u64 (b2 <<< 40) |||
        u64 (b3 <<< 32) ||| u64 (b4 <<< 24) ||| u64 (b5 <<< 16) ||| u64 (b6 <<< 8) ||| b7))
    (List.replicate 80 0)
    (by rw [replicate_zero_eq_tab]; rfl)
    (by
      intro k hk t ht
      refine ⟨_, ?_, rfl⟩
      rw [Nat.zero_add]
      beta_reduce
      rw [tab_get _ _ _ (by omega), tab_get _ _ _ (by omega),
        tab_get _ _ _ (by omega), tab_get _ _ _ (by omega), tab_get _ _ _ (by omega),
        tab_get _ _ _ (by omega), tab_get _ _ _ (by omega), tab_get _ _ _ (by omega)]
      simp only [Option.some_bind]
      rw [ht, arrWrite_tab _ _ _ _ (by omega),
        be64_or _ _ _ _ _ _ _ _ (hb _) (hb _) (hb _) (hb _) (hb _) (hb _) (hb _) (hb _)]
      congr 1
      apply tab_congr
      intro j _
      rw [fips512_schedule_getD_succ, if_pos hk]
      have e : ofBE [padded.getD (chunk * 128 + k * 8) 0, padded.getD (chunk * 128 + k * 8 + 1) 0,
          padded.getD (chunk * 128 + k * 8 + 2) 0, padded.getD (chunk * 128 + k * 8 + 3) 0,
          padded.getD (chunk * 128 + k * 8 + 4) 0, padded.getD (chunk * 128 + k * 8 + 5) 0,
          padded.getD (chunk * 128 + k * 8 + 6) 0, padded.getD (chunk * 128 + k * 8 + 7) 0] =
          fips512_block padded chunk k := by
        unfold fips512_block
        have i0 : 128 * chunk + 8 * k + 0 = chunk * 128 + k * 8 := by omega
        have i1 : 128 * chunk + 8 * k + 1 = chunk * 128 + k * 8 + 1 := by omega
        have i2 : 128 * chunk + 8 * k + 2 = chunk * 128 + k * 8 + 2 := by omega
        have i3 : 128 * chunk + 8 * k + 3 = chunk * 128 + k * 8 + 3 := by omega
        have i4 : 128 * chunk + 8 * k + 4 = chunk * 128 + k * 8 + 4 := by omega
        have i5 : 128 * chunk + 8 * k + 5 = chunk * 128 + k * 8 + 5 := by omega
        have i6 : 128 * chunk + 8 * k + 6 = chunk * 128 + k * 8 + 6 := by omega
        have i7 : 128 * chunk + 8 * k + 7 = chunk * 128 + k * 8 + 7 := by omega
        simp only [List.range, List.range.loop, List.map, i0, i1, i2, i3, i4, i5, i6, i7]
      rw [e])
  exact hu.trans (congrArg some hueq)

theorem sha512_extend_eq (M : Nat → Nat) :
    sha512_extend (tab 80 (fun t => (fips512_schedule M 16).getD t 0)) =
      some (tab 80 (fun t => (fips512_schedule M 80).getD t 0)) := by
  obtain ⟨u, hu, hueq⟩ := forLoop_inv_ex
    (fun k u => u = tab 80 (fun t => (fips512_schedule M (16 + k)).getD t 0))
    16 64 (fun i w =>
      (w[i - 15]?).bind fun x => (w[i - 2]?).bind fun y => (w[i - 16]?).bind fun w16 =>
      (w[i - 7]?).bind fun w7 =>
      arrWrite w i (u64 (u64 (u64 (w16 +
        (((x >>> 1) ||| u64 (x <<< 63)) ^^^ ((x >>> 8) ||| u64 (x <<< 56)) ^^^ (x >>> 7))) + w7) +
        (((y >>> 19) ||| u64 (y <<< 45)) ^^^ ((y >>> 61) ||| u64 (y <<< 3)) ^^^ (y >>> 6)))))
    (tab 80 (fun t => (fips512_schedule M 16).getD t 0))
    rfl
    (by
      intro k hk t ht
      refine ⟨_, ?_, rfl⟩
      beta_reduce
      rw [ht, tab_get _ _ _ (by omega), tab_get _ _ _ (by omega), tab_get _ _ _ (by omega),
        tab_get _ _ _ (by omega)]
      simp only [Option.some_bind]
      rw [arrWrite_tab _ _ _ _ (by omega), add4_u64]
      congr 1
      apply tab_congr
      intro j _
      have hn : 16 + (k + 1) = (16 + k) + 1 := by omega
      rw [hn, fips512_schedule_getD_succ, if_neg (by omega : ¬ 16 + k < 16)]
      rfl)
  exact hu.trans (congrArg some hueq)

theorem sha512_K_length : sha512_K.length = 80 := rfl

theorem sha512_round_eq (v : Work8) (k wi : Nat) :
    ({ h := v.g, g := v.f, f := v.e,
       e := u64 (v.d + u64 (u64 (u64 (u64 (v.h + (((v.e >>> 14) ||| u64 (v.e <<< 50)) ^^^
         ((v.e >>> 18) ||| u64 (v.e <<< 46)) ^^^ ((v.e >>> 41) ||| u64 (v.e <<< 23)))) +
         ((v.e &&& v.f) ^^^ ((v.e ^^^ 0xFFFFFFFFFFFFFFFF) &&& v.g))) + k) + wi)),
       d := v.c, c := v.b, b := v.a,
       a := u64 (u64 (u64 (u64 (u64 (v.h + (((v.e >>> 14) ||| u64 (v.e <<< 50)) ^^^
         ((v.e >>> 18) ||| u64 (v.e <<< 46)) ^^^ ((v.e >>> 41) ||| u64 (v.e <<< 23)))) +
         ((v.e &&& v.f) ^^^ ((v.e ^^^ 0xFFFFFFFFFFFFFFFF) &&& v.g))) + k) + wi) +
         u64 ((((v.a >>> 28) ||| u64 (v.a <<< 36)) ^^^ ((v.a >>> 34) ||| u64 (v.a <<< 30)) ^^^
           ((v.a >>> 39) ||| u64 (v.a <<< 25))) +
           ((v.a &&& v.b) ^^^ (v.a &&& v.c) ^^^ (v.b &&& v.c)))) } : Work8) =
      fips512_round v k wi := by
  have hT1 : ∀ a b c d e : Nat, u64 (u64 (u64 (u64 (a + b) + c) + d) + e) =
      (a + b + c + d + e) % 2 ^ 64 := by
    intro a b c d e; unfold u64; omega
  unfold fips512_round fips512_Sigma0 fips512_Sigma1 fips_Ch fips_Maj fips_rotr
  simp only [hT1]
  rfl

theorem sha512_K_eq_fips : sha512_K = fips512_K := by decide!

theorem sha512_init_eq_fips : sha512_init = fips512_H0 := by decide!

theorem sha512_compress_eq (M : Nat → Nat) (H : Hash8) :
    sha512_compress (tab 80 (fun t => (fips512_schedule M 80).getD t 0)) H =
      some (fips512_compress H M) := by
  obtain ⟨h1, -⟩ := forLoop_inv (fun _ (_ : Work8) => True)
    (fun k v => fips512_round v (fips512_K.getD k 0) ((fips512_schedule M 80).getD k 0))
    0 80 (fun i (v : Work8) =>
      (sha512_K[i]?).bind fun k =>
      ((tab 80 (fun t => (fips512_schedule M 80).getD t 0))[i]?).bind fun wi =>
      some ({ h := v.g, g := v.f, f := v.e,
              e := u64 (v.d + u64 (u64 (u64 (u64 (v.h + (((v.e >>> 14) ||| u64 (v.e <<< 50)) ^^^
                ((v.e >>> 18) ||| u64 (v.e <<< 46)) ^^^ ((v.e >>> 41) ||| u64 (v.e <<< 23)))) +
                ((v.e &&& v.f) ^^^ ((v.e ^^^ 0xFFFFFFFFFFFFFFFF) &&& v.g))) + k) + wi)),
              d := v.c, c := v.b, b := v.a,
              a := u64 (u64 (u64 (u64 (u64 (v.h + (((v.e >>> 14) ||| u64 (v.e <<< 50)) ^^^
                ((v.e >>> 18) ||| u64 (v.e <<< 46)) ^^^ ((v.e >>> 41) ||| u64 (v.e <<< 23)))) +
                ((v.e &&& v.f) ^^^ ((v.e ^^^ 0xFFFFFFFFFFFFFFFF) &&& v.g))) + k) + wi) +
                u64 ((((v.a >>> 28) ||| u64 (v.a <<< 36)) ^^^
                  ((v.a >>> 34) ||| u64 (v.a <<< 30)) ^^^
                  ((v.a >>> 39) ||| u64 (v.a <<< 25))) +
                  ((v.a &&& v.b) ^^^ (v.a &&& v.c) ^^^ (v.b &&& v.c)))) } : Work8))
    ⟨H.h0, H.h1, H.h2, H.h3, H.h4, H.h5, H.h6, H.h7⟩ trivial
    (by
      intro k hk v _
      refine ⟨?_, trivial⟩
      beta_reduce
      rw [Nat.zero_add, getElem?_eq_some_getD sha512_K k (by rw [sha512_K_length]; exact hk),
        tab_get _ _ _ hk]
      simp only [Option.some_bind]
      rw [sha512_round_eq, sha512_K_eq_fips])
  unfold sha512_compress
  simp only [Option.bind_eq_bind]
  rw [h1, Option.some_bind, iterFrom_eq_foldl]
  unfold fips512_compress
  simp only [u64, Nat.add_comm]

theorem sha512_chunk_eq (padded : List Nat) (chunk : Nat) (H : Hash8)
    (hc : chunk * 128 + 128 ≤ 2048) (hb : ∀ j, padded.getD j 0 < 256) :
    sha512_chunk (tab 2048 (fun j => padded.getD j 0)) chunk H =
      some (fips512_compress H (fips512_block padded chunk)) := by
  unfold sha512_chunk
  show (sha512_copy_chunk _ chunk).bind (fun w => (sha512_extend w).bind fun w =>
    sha512_compress w H) = _
  rw [sha512_copy_chunk_eq padded chunk hc hb, Option.some_bind, sha512_extend_eq,
    Option.some_bind, sha512_compress_eq]

theorem sha512_output_eq (H : Hash8) :
    sha512_output H = some (toBE 8 H.h0 ++ toBE 8 H.h1 ++ toBE 8 H.h2 ++ toBE 8 H.h3 ++
      toBE 8 H.h4 ++ toBE 8 H.h5 ++ toBE 8 H.h6 ++ toBE 8 H.h7) := by
  unfold sha512_output
  simp only [forLoop, Option.bind_eq_bind, Option.some_bind, arrWrite, List.replicate,
    List.length, List.set, and_255, Nat.shiftRight_eq_div_pow, toBE, List.range, List.range.loop,
    List.map, List.cons_append, List.nil_append]
  norm_num

theorem fips_pad_length_512 (m : List Nat) (h : m.length ≤ 2031) :
    (fips_pad 128 16 m).length ≤ 2048 := by
  obtain ⟨h1, h2, _⟩ := sha512_padded_len m.length h
  unfold fips_pad
  rw [pad_length, ← h1]
  exact h2

theorem sha512_compute_unfold (data : List Nat) (len : Nat) :
    sha512_compute data len = (sha512_prepare data len).bind (fun r =>
      (forLoop 0 (r.2 / 128) (fun chunk H => sha512_chunk r.1 chunk H) sha512_init).bind
        sha512_output) := by
  unfold sha512_compute
  generalize sha512_prepare data len = o
  cases o with
  | none => rfl
  | some r => obtain ⟨msg, p⟩ := r; rfl

/-- The result of `sha512_compute` on at most 2031 elements: the FIPS 180-4 digest of the low-order bytes
of the elements. -/
theorem sha512_compute_eq (data : List Nat) (len : Nat) (hlen : len ≤ data.length)
    (hcap : len ≤ 2031) :
    sha512_compute data len = some (fips512 ((data.take len).map (fun d => d % 256))) := by
  have hm : ((data.take len).map (fun d => d % 256)).length = len := by
    simp [List.length_take]; omega
  have hpl := fips_pad_length_512 ((data.take len).map (fun d => d % 256)) (by omega)
  have hb : ∀ j, (fips_pad 128 16 ((data.take len).map (fun d => d % 256))).getD j 0 < 256 :=
    fun j => fips_pad_getD_lt 128 16 _ j (map_mod_lt _)
  obtain ⟨h1, -⟩ := forLoop_inv (fun _ (_ : Hash8) => True)
    (fun chunk H => fips512_compress H
      (fips512_block (fips_pad 128 16 ((data.take len).map (fun d => d % 256))) chunk))
    0 ((fips_pad 128 16 ((data.take len).map (fun d => d % 256))).length / 128)
    (fun chunk H => sha512_chunk
      (tab 2048 (fun j => (fips_pad 128 16 ((data.take len).map (fun d => d % 256))).getD j 0))
      chunk H)
    sha512_init trivial
    (by
      intro k hk H _
      refine ⟨?_, trivial⟩
      beta_reduce
      rw [Nat.zero_add, sha512_chunk_eq _ k H (by omega) hb])
  rw [sha512_compute_unfold, sha512_prepare_ok data len hlen hcap, Option.some_bind]
  show (forLoop 0 _ _ sha512_init).bind sha512_output = _
  rw [h1, Option.some_bind, iterFrom_eq_foldl, sha512_output_eq, sha512_init_eq_fips]
  rfl

theorem crc32_table_values_length : crc32_table_values.length = 256 := by decide!

/-- Every listed table value is what the eight inner iterations make of its index. -/
theorem crc32_table_entries :
    (crc32_table_values.enum.all fun p =>
      forLoop 0 8 (fun _ crc =>
        some (if crc &&& 1 ≠ 0 then (crc >>> 1) ^^^ 0xEDB88320 else crc >>> 1)) p.1 ==
        some p.2) = true := by decide!

/-- The table-building loop succeeds and builds `crc32_table_values`. -/
theorem crc32_table_eq : crc32_table = some crc32_table_values := by
  obtain ⟨u, hu, hueq⟩ := forLoop_inv_ex
    (fun k u => u = tab 256 (fun j => if j < k then crc32_table_values.getD j 0 else 0))
    0 256 (fun i table =>
      (forLoop 0 8 (fun _ crc =>
        some (if crc &&& 1 ≠ 0 then (crc >>> 1) ^^^ 0xEDB88320 else crc >>> 1)) i).bind
        fun crc => arrWrite table i crc)
    (List.replicate 256 0)
    (by
      rw [replicate_zero_eq_tab]
      apply tab_congr; intro j _; simp)
    (by
      intro k hk t ht
      have h := List.all_eq_true.mp crc32_table_entries (k, crc32_table_values.getD k 0)
        (List.mk_mem_enum_iff_getElem?.mpr
          (getElem?_eq_some_getD _ _ (by rw [crc32_table_values_length]; exact hk)))
      simp only [beq_iff_eq] at h
      refine ⟨_, ?_, rfl⟩
      beta_reduce
      rw [Nat.zero_add, h, Option.some_bind, ht, arrWrite_tab _ _ _ _ hk]
      congr 1
      apply tab_congr
      intro j _
      by_cases e : j = k
      · subst e; simp
      · by_cases e2 : j < k
        · have : j < k + 1 := by omega
          simp [e, e2, this]
        · have : ¬ j < k + 1 := by omega
          simp [e, e2, this])
  have hT : crc32_table_values = tab 256 (fun j => crc32_table_values.getD j 0) := by
    have h := eq_tab_getD crc32_table_values
    rwa [crc32_table_values_length] at h
  have e : crc32_table = some u := hu
  rw [e, hueq]
  exact congrArg some ((tab_congr 256 _ _ (fun j hj => if_pos hj)).trans hT.symm)

theorem crc32_compute_unfold (data : List Nat) (len : Nat) :
    crc32_compute data len =
      (forLoop 0 len (fun i crc =>
        (data[i]?).bind fun d =>
          (crc32_table_values[(crc ^^^ d % 256) &&& 0xFF]?).bind fun t =>
            some (t ^^^ (crc >>> 8))) 0xFFFFFFFF).bind fun crc => some (crc ^^^ 0xFFFFFFFF) := by
  unfold crc32_compute
  rw [crc32_table_eq]
  rfl

theorem crc32_table_values_lt_all : ∀ t ∈ crc32_table_values, t < 2 ^ 32 := by decide!

theorem crc32_table_values_lt (i : Nat) : crc32_table_values.getD i 0 < 2 ^ 32 :=
  getD_lt_of_forall _ _ i (by omega) crc32_table_values_lt_all

theorem crc32_top_byte_index_all :
    (crc32_table_values.enum.all fun p =>
      crc32_top_byte_index.getD (p.2 >>> 24) 0 == p.1) = true := by decide!

theorem crc32_top_byte_index_spec (i : Nat) (hi : i < 256) :
    crc32_top_byte_index.getD (crc32_table_values.getD i 0 >>> 24) 0 = i := by
  have h := List.all_eq_true.mp crc32_top_byte_index_all (i, crc32_table_values.getD i 0)
    (List.mk_mem_enum_iff_getElem?.mpr
      (getElem?_eq_some_getD _ _ (by rw [crc32_table_values_length]; exact hi)))
  simpa using h

theorem shiftRight_xor (a b k : Nat) : (a ^^^ b) >>> k = (a >>> k) ^^^ (b >>> k) := by
  apply Nat.eq_of_testBit_eq
  intro i
  simp [Nat.testBit_shiftRight, Nat.testBit_xor]

theorem xor_mod_two_pow (a b n : Nat) : (a ^^^ b) % 2 ^ n = (a % 2 ^ n) ^^^ (b % 2 ^ n) := by
  apply Nat.eq_of_testBit_eq
  intro i
  simp only [Nat.testBit_mod_two_pow, Nat.testBit_xor]
  cases decide (i < n) <;> simp

theorem xor_right_cancel (a b c : Nat) (h : a ^^^ c = b ^^^ c) : a = b := by
  have := congrArg (fun x => x ^^^ c) h
  simpa [Nat.xor_assoc] using this

theorem xor_left_cancel (a b c : Nat) (h : c ^^^ a = c ^^^ b) : a = b :=
  Nat.xor_right_injective h

theorem crcStep_lt (s b : Nat) (hs : s < 2 ^ 32) : crcStep s b < 2 ^ 32 := by
  unfold crcStep
  apply Nat.xor_lt_two_pow
  · exact crc32_table_values_lt _
  · rw [Nat.shiftRight_eq_div_pow]
    have : s / 2 ^ 8 ≤ s := Nat.div_le_self _ _
    omega

/-- Table entries are determined by their top byte. -/
theorem crc32_table_top_inj (i j : Nat) (hi : i < 256) (hj : j < 256)
    (h : crc32_table_values.getD i 0 >>> 24 = crc32_table_values.getD j 0 >>> 24) : i = j := by
  rw [← crc32_top_byte_index_spec i hi, ← crc32_top_byte_index_spec j hj, h]

/-- For a fixed byte, the step is injective in the running value. -/
theorem crcStep_inj_state (s s' b : Nat) (hs : s < 2 ^ 32) (hs' : s' < 2 ^ 32)
    (h : crcStep s b = crcStep s' b) : s = s' := by
  unfold crcStep at h
  rw [and_255, and_255] at h
  have hi : (s ^^^ b) % 256 < 256 := Nat.mod_lt _ (by omega)
  have hj : (s' ^^^ b) % 256 < 256 := Nat.mod_lt _ (by omega)
  have z : ∀ t, t < 2 ^ 32 → t >>> 8 >>> 24 = 0 := by
    intro t ht
    rw [Nat.shiftRight_eq_div_pow, Nat.shiftRight_eq_div_pow]
    omega
  have htop := congrArg (fun x => x >>> 24) h
  simp only [shiftRight_xor, z s hs, z s' hs', Nat.xor_zero] at htop
  have hidx := crc32_table_top_inj _ _ hi hj htop
  rw [hidx] at h
  have hhigh : s >>> 8 = s' >>> 8 := xor_left_cancel _ _ _ h
  have hlow : s % 256 = s' % 256 := by
    have e := hidx
    rw [show (256 : Nat) = 2 ^ 8 from rfl, xor_mod_two_pow, xor_mod_two_pow] at e
    exact xor_right_cancel _ _ _ e
  rw [Nat.shiftRight_eq_div_pow, Nat.shiftRight_eq_div_pow] at hhigh
  omega

/-- For a fixed running value, the step is injective in the byte. -/
theorem crcStep_inj_byte (s b b' : Nat) (hb : b < 256) (hb' : b' < 256)
    (h : crcStep s b = crcStep s b') : b = b' := by
  unfold crcStep at h
  rw [and_255, and_255] at h
  have hi : (s ^^^ b) % 256 < 256 := Nat.mod_lt _ (by omega)
  have hj : (s ^^^ b') % 256 < 256 := Nat.mod_lt _ (by omega)
  have hT := xor_right_cancel _ _ _ h
  have hidx := crc32_table_top_inj _ _ hi hj (congrArg (fun x => x >>> 24) hT)
  rw [show (256 : Nat) = 2 ^ 8 from rfl, xor_mod_two_pow, xor_mod_two_pow] at hidx
  have e := xor_left_cancel _ _ _ hidx
  rw [Nat.mod_eq_of_lt (by omega), Nat.mod_eq_of_lt (by omega)] at e
  exact e

theorem crcState_lt (data : List Nat) (k : Nat) : crcState data k < 2 ^ 32 := by
  induction k with
  | zero => unfold crcState iterFrom; omega
  | succ k ih => exact crcStep_lt _ _ ih

theorem crcState_succ (data : List Nat) (k : Nat) :
    crcState data (k + 1) = crcStep (crcState data k) (data.getD k 0 % 256) := rfl

/-- The function `crc32_compute` succeeds on every input that has `len` elements. -/
theorem crc32_compute_eq (data : List Nat) (len : Nat) (hlen : len ≤ data.length) :
    crc32_compute data len = some (crcState data len ^^^ 0xFFFFFFFF) := by
  obtain ⟨h1, -⟩ := forLoop_inv (fun _ (_ : Nat) => True)
    (fun j s => crcStep s (data.getD j 0 % 256)) 0 len
    (fun i crc =>
        (data[i]?).bind fun d =>
          (crc32_table_values[(crc ^^^ d % 256) &&& 0xFF]?).bind fun t =>
            some (t ^^^ (crc >>> 8))) 0xFFFFFFFF trivial
    (by
      intro k hk s _
      refine ⟨?_, trivial⟩
      beta_reduce
      rw [Nat.zero_add, getElem?_eq_some_getD data k (by omega), Option.some_bind,
        getElem?_eq_some_getD crc32_table_values _
          (by rw [crc32_table_values_length, and_255]; exact Nat.mod_lt _ (by omega)),
        Option.some_bind]
      rfl)
  rw [crc32_compute_unfold, h1, Option.some_bind]
  rfl

theorem crc32_differs (d₁ d₂ : List Nat) (len i : Nat)
    (h₁ : len ≤ d₁.length) (h₂ : len ≤ d₂.length) (hi : i < len)
    (hne : d₁.getD i 0 % 256 ≠ d₂.getD i 0 % 256)
    (heq : ∀ j, j < len → j ≠ i → d₁.getD j 0 % 256 = d₂.getD j 0 % 256) :
    ∃ c₁ c₂, crc32_compute d₁ len = some c₁ ∧ crc32_compute d₂ len = some c₂ ∧ c₁ ≠ c₂ := by
  refine ⟨_, _, crc32_compute_eq d₁ len h₁, crc32_compute_eq d₂ len h₂, ?_⟩
  have hpre : ∀ k, k ≤ i → crcState d₁ k = crcState d₂ k := by
    intro k
    induction k with
    | zero => intro _; rfl
    | succ k ih =>
      intro hk
      rw [crcState_succ, crcState_succ, ih (by omega), heq k (by omega) (by omega)]
  have hpost : ∀ k, i < k → k ≤ len → crcState d₁ k ≠ crcState d₂ k := by
    intro k
    induction k with
    | zero => intro h; omega
    | succ k ih =>
      intro hk hkl
      rw [crcState_succ, crcState_succ]
      by_cases e : k = i
      · subst e
        rw [hpre k (Nat.le_refl k)]
        intro hc
        exact hne (crcStep_inj_byte _ _ _ (Nat.mod_lt _ (by omega)) (Nat.mod_lt _ (by omega)) hc)
      · rw [heq k (by omega) e]
        intro hc
        exact ih (by omega) (by omega)
          (crcStep_inj_state _ _ _ (crcState_lt d₁ k) (crcState_lt d₂ k) hc)
  intro hc
  exact hpost len hi (Nat.le_refl len) (xor_right_cancel _ _ _ hc)

theorem forLoop_congr {σ : Type} (lo n : Nat) (body body' : Nat → σ → Option σ) (s : σ)
    (h : ∀ k, k < n → ∀ t, body (lo + k) t = body' (lo + k) t) :
    forLoop lo n body s = forLoop lo n body' s := by
  induction n with
  | zero => rfl
  | succ n ih =>
    rw [forLoop_succ, forLoop_succ, ih (fun k hk t => h k (Nat.lt_succ_of_lt hk) t)]
    cases forLoop lo n body' s with
    | none => rfl
    | some t => exact h n (Nat.lt_succ_self n) t

theorem forLoop_fail_first {σ : Type} (lo n : Nat) (body : Nat → σ → Option σ) (s : σ)
    (hn : 0 < n) (h : body lo s = none) : forLoop lo n body s = none := by
  induction n with
  | zero => omega
  | succ n ih =>
    rw [forLoop_succ]
    cases n with
    | zero => exact h
    | succ m => rw [ih (by omega)]; rfl

theorem forLoop_preserves {σ : Type} (P : σ → Prop) (lo n : Nat) (body : Nat → σ → Option σ)
    (s u : σ) (hP : P s) (hbody : ∀ i t v, P t → body i t = some v → P v)
    (h : forLoop lo n body s = some u) : P u := by
  induction n generalizing u with
  | zero => cases h; exact hP
  | succ n ih =>
    rw [forLoop_succ] at h
    cases hl : forLoop lo n body s with
    | none => rw [hl] at h; cases h
    | some t =>
      rw [hl] at h
      exact hbody _ t u (ih t hl) h

/-- Message preparation is rejected when `padded_len` exceeds the scratch buffer: the
first write of the length field is out of range. -/
theorem fillMsg_overflow (cap p : Nat) (data : List Nat) (len : Nat) (hp : cap < p) :
    fillMsg cap p data len = none := by
  unfold fillMsg
  cases h1 : forLoop 0 len (fun i msg => do
      let d ← data[i]?
      arrWrite msg i (d % 256)) (List.replicate cap 0) with
  | none => rfl
  | some m1 =>
    have hl1 : m1.length = cap := by
      have := forLoop_preserves (fun (m : List Nat) => m.length = cap) 0 len _ _ m1
        (by simp) (by
          intro i t v ht hv
          cases hd : data[i]? with
          | none => rw [hd] at hv; cases hv
          | some d =>
            rw [hd] at hv
            rw [arrWrite_length t v i _ hv]; exact ht) h1
      exact this
    show (arrWrite m1 len 0x80).bind (fun msg => forLoop 0 8 (fun i msg =>
      arrWrite msg (p - 1 - i) ((u64 (len * 8) >>> (i * 8)) % 256)) msg) = none
    cases h2 : arrWrite m1 len 0x80 with
    | none => rfl
    | some m2 =>
      have hl2 : m2.length = cap := by rw [arrWrite_length m1 m2 _ _ h2]; exact hl1
      rw [Option.some_bind]
      apply forLoop_fail_first _ _ _ _ (by omega)
      apply arrWrite_out
      omega

/-- Message preparation is rejected when the input does not leave room for the `0x80`
byte. -/
theorem fillMsg_no_room (cap p : Nat) (data : List Nat) (len : Nat) (hlen : cap ≤ len) :
    fillMsg cap p data len = none := by
  unfold fillMsg
  cases h1 : forLoop 0 len (fun i msg => do
      let d ← data[i]?
      arrWrite msg i (d % 256)) (List.replicate cap 0) with
  | none => rfl
  | some m1 =>
    have hl1 : m1.length = cap := by
      have := forLoop_preserves (fun (m : List Nat) => m.length = cap) 0 len _ _ m1
        (by simp) (by
          intro i t v ht hv
          cases hd : data[i]? with
          | none => rw [hd] at hv; cases hv
          | some d =>
            rw [hd] at hv
            rw [arrWrite_length t v i _ hv]; exact ht) h1
      exact this
    have h2 : arrWrite m1 len 0x80 = none := arrWrite_out _ _ _ (by omega)
    show (arrWrite m1 len 0x80).bind _ = none
    rw [h2]; rfl

theorem sha256_prepare_overflow (data : List Nat) (len : Nat) (h : 1016 ≤ len) :
    sha256_prepare data len = none := by
  rw [sha256_prepare_eq]
  by_cases h2 : 1024 ≤ len
  · rw [fillMsg_no_room 1024 _ data len h2]; rfl
  · rw [fillMsg_overflow 1024 _ data len (by unfold u64; omega)]; rfl

theorem sha512_prepare_overflow (data : List Nat) (len : Nat) (h : 2032 ≤ len) :
    sha512_prepare data len = none := by
  rw [sha512_prepare_eq]
  by_cases h2 : 2048 ≤ len
  · rw [fillMsg_no_room 2048 _ data len h2]; rfl
  · rw [fillMsg_overflow 2048 _ data len (by unfold u64; omega)]; rfl

theorem sha256_compute_overflow (data : List Nat) (len : Nat) (h : 1016 ≤ len) :
    sha256_compute data len = none := by
  rw [sha256_compute_unfold, sha256_prepare_overflow data len h]; rfl

theorem sha512_compute_overflow (data : List Nat) (len : Nat) (h : 2032 ≤ len) :
    sha512_compute data len = none := by
  rw [sha512_compute_unfold, sha512_prepare_overflow data len h]; rfl

/-- Message preparation reads the elements only through their conversion to `uint8_t`. -/
theorem fillMsg_low_bytes (cap p : Nat) (d₁ d₂ : List Nat) (len : Nat)
    (h : ∀ i, i < len → (d₁[i]?).map (fun d => d % 256) = (d₂[i]?).map (fun d => d % 256)) :
    fillMsg cap p d₁ len = fillMsg cap p d₂ len := by
  unfold fillMsg
  have e : forLoop 0 len (fun i msg => do
        let d ← d₁[i]?
        arrWrite msg i (d % 256)) (List.replicate cap 0) =
      forLoop 0 len (fun i msg => do
        let d ← d₂[i]?
        arrWrite msg i (d % 256)) (List.replicate cap 0) := by
    apply forLoop_congr
    intro k hk t
    have hk' := h k hk
    rw [Nat.zero_add]
    show (d₁[k]?).bind _ = (d₂[k]?).bind _
    cases e1 : d₁[k]? with
    | none =>
      cases e2 : d₂[k]? with
      | none => rfl
      | some b => rw [e1, e2] at hk'; cases hk'
    | some a =>
      cases e2 : d₂[k]? with
      | none => rw [e1, e2] at hk'; cases hk'
      | some b =>
        rw [e1, e2] at hk'
        simp only [Option.map_some', Option.some.injEq] at hk'
        simp only [Option.some_bind, hk']
  rw [e]

/-! ## Properties of the hash engine -/

/-- C1: for every byte sequence of at most 1015 bytes (`len` elements of `data`, each
below 256), `sha256_compute` returns exactly the FIPS 180-4 SHA-256 digest `fips256`:
padding, parsing, the 64-word schedule with `sigma0`/`sigma1`, 64 rounds with
`Sigma0`/`Sigma1`/`Ch`/`Maj` and addition modulo `2 ^ 32`, the constants and initial values
of the standard, and the eight words written big-endian into 32 bytes. -/
theorem sha256_compute_is_fips180_4 (data : List Nat) (len : Nat) (hlen : len ≤ data.length)
    (hcap : len ≤ 1015) (hbytes : ∀ x ∈ data.take len, x < 256) :
    sha256_compute data len = some (fips256 (data.take len)) := by
  rw [sha256_compute_eq data len hlen hcap, map_mod_of_lt _ hbytes]

theorem sha256_compute_is_fips180_4_witness :
    (3 ≤ [97, 98, 99, 0].length ∧ 3 ≤ 1015 ∧ ∀ x ∈ List.take 3 [97, 98, 99, 0], x < 256) ∧
    sha256_compute [97, 98, 99, 0] 3 = some (fips256 (List.take 3 [97, 98, 99, 0])) :=
  ⟨⟨by decide, by decide, by decide⟩,
   sha256_compute_is_fips180_4 [97, 98, 99, 0] 3 (by decide) (by decide) (by decide)⟩

/-- C2: the SHA-256 digest of the empty string literal, rendered by `ByteStore::hex` and
read back as a C string, is `e3b0c442...7852b855`. -/
theorem sha256_empty_hex :
    ((sha256_logic (FixedString.lit "")).bind ByteStore_hex).map std_string =
      some "e3b0c44298fc1c149afbf4c8996fb92427ae41e4649b934ca495991b7852b855" := by
  decide!

/-- C3: the SHA-256 digest of the literal `"abc"`, rendered by `ByteStore::hex` and read
back as a C string, is `ba7816bf...f20015ad`. -/
theorem sha256_abc_hex :
    ((sha256_logic (FixedString.lit "abc")).bind ByteStore_hex).map std_string =
      some "ba7816bf8f01cfea414140de5dae2223b00361a396177a9cb410ff61f20015ad" := by
  decide!

/-- C4: for every byte sequence of at most 2031 bytes (`len` elements of `data`, each
below 256), `sha512_compute` returns exactly the FIPS 180-4 SHA-512 digest `fips512`:
128-byte blocks whose padding ends with the bit length as a 128-bit big-endian integer,
the 80-word schedule, 80 rounds on 64-bit words, and the eight words written big-endian
into 64 bytes. -/
theorem sha512_compute_is_fips180_4 (data : List Nat) (len : Nat) (hlen : len ≤ data.length)
    (hcap : len ≤ 2031) (hbytes : ∀ x ∈ data.take len, x < 256) :
    sha512_compute data len = some (fips512 (data.take len)) := by
  rw [sha512_compute_eq data len hlen hcap, map_mod_of_lt _ hbytes]

theorem sha512_compute_is_fips180_4_witness :
    (3 ≤ [97, 98, 99, 0].length ∧ 3 ≤ 2031 ∧ ∀ x ∈ List.take 3 [97, 98, 99, 0], x < 256) ∧
    sha512_compute [97, 98, 99, 0] 3 = some (fips512 (List.take 3 [97, 98, 99, 0])) :=
  ⟨⟨by decide, by decide, by decide⟩,
   sha512_compute_is_fips180_4 [97, 98, 99, 0] 3 (by decide) (by decide) (by decide)⟩

/-- C5: the SHA-512 digest of the empty string literal, rendered by `ByteStore::hex` and
read back as a C string, is `cf83e135...f927da3e`. -/
theorem sha512_empty_hex :
    ((sha512_logic (FixedString.lit "")).bind ByteStore_hex).map std_string =
      some ("cf83e1357eefb8bdf1542850d66d8007d620e4050b5715dc83f4a921d36ce9ce" ++
            "47d0d13c5d85f2b0ff8318d2877eec2f63b931bd47417a81a538327af927da3e") := by
  decide!

/-- C6: `crc32<"123456789">()` is `0xCBF43926`. -/
theorem crc32_check_value : crc32 (FixedString.lit "123456789") = some 0xCBF43926 := by
  unfold crc32
  rw [crc32_compute_unfold]
  decide!

/-- C7: `crc32_compute` of a zero-length input is `0x00000000`, whatever `data` points
to. -/
theorem crc32_zero_length (data : List Nat) : crc32_compute data 0 = some 0x00000000 := by
  rw [crc32_compute_unfold]
  rfl

/-- C8: two byte sequences of the same length `len` that differ in exactly one position
`i` have different CRC-32 values (and `crc32_compute` succeeds on both). -/
theorem crc32_single_byte_difference (d₁ d₂ : List Nat) (len i : Nat)
    (h₁ : len ≤ d₁.length) (h₂ : len ≤ d₂.length)
    (hb₁ : ∀ j, j < len → d₁.getD j 0 < 256) (hb₂ : ∀ j, j < len → d₂.getD j 0 < 256)
    (hi : i < len) (hne : d₁.getD i 0 ≠ d₂.getD i 0)
    (heq : ∀ j, j < len → j ≠ i → d₁.getD j 0 = d₂.getD j 0) :
    ∃ c₁ c₂, crc32_compute d₁ len = some c₁ ∧ crc32_compute d₂ len = some c₂ ∧ c₁ ≠ c₂ := by
  apply crc32_differs d₁ d₂ len i h₁ h₂ hi
  · rw [Nat.mod_eq_of_lt (hb₁ i hi), Nat.mod_eq_of_lt (hb₂ i hi)]
    exact hne
  · intro j hj hji
    rw [heq j hj hji]

theorem crc32_single_byte_difference_witness :
    (4 ≤ [116, 101, 115, 116, 0].length ∧ 4 ≤ [84, 101, 115, 116, 0].length ∧
     (∀ j, j < 4 → [116, 101, 115, 116, 0].getD j 0 < 256) ∧
     (∀ j, j < 4 → [84, 101, 115, 116, 0].getD j 0 < 256) ∧ 0 < 4 ∧
     [116, 101, 115, 116, 0].getD 0 0 ≠ [84, 101, 115, 116, 0].getD 0 0 ∧
     (∀ j, j < 4 → j ≠ 0 → [116, 101, 115, 116, 0].getD j 0 = [84, 101, 115, 116, 0].getD j 0)) ∧
    ∃ c₁ c₂, crc32_compute [116, 101, 115, 116, 0] 4 = some c₁ ∧
      crc32_compute [84, 101, 115, 116, 0] 4 = some c₂ ∧ c₁ ≠ c₂ :=
  ⟨⟨by decide, by decide, by decide, by decide, by decide, by decide, by decide⟩,
   crc32_single_byte_difference [116, 101, 115, 116, 0] [84, 101, 115, 116, 0] 4 0
     (by decide) (by decide) (by decide) (by decide) (by decide) (by decide) (by decide)⟩

/-- C9: `sha256_compute` succeeds on every input of exactly 1015 bytes; on an input of 1016
bytes the evaluation is rejected in the message preparation, before any chunk is
processed: `padded_len` is 1088 and the first byte of the length field would be stored
at index 1087 of the 1024-byte buffer, which constant evaluation does not allow.  No
store outside the buffer takes place, nothing is truncated, and no digest is produced. -/
theorem sha256_capacity_boundary (d₁ d₂ : List Nat) (h₁ : 1015 ≤ d₁.length) :
    (∃ digest, sha256_compute d₁ 1015 = some digest) ∧
    sha256_prepare d₂ 1016 = none ∧ sha256_compute d₂ 1016 = none :=
  ⟨⟨_, sha256_compute_eq d₁ 1015 h₁ (Nat.le_refl _)⟩,
   sha256_prepare_overflow d₂ 1016 (Nat.le_refl _),
   sha256_compute_overflow d₂ 1016 (Nat.le_refl _)⟩

theorem sha256_capacity_boundary_witness :
    1015 ≤ (List.replicate 1015 97).length ∧
    ((∃ digest, sha256_compute (List.replicate 1015 97) 1015 = some digest) ∧
     sha256_prepare (List.replicate 1016 97) 1016 = none ∧
     sha256_compute (List.replicate 1016 97) 1016 = none) :=
  ⟨Nat.le_of_eq (List.length_replicate 1015 97).symm,
   sha256_capacity_boundary (List.replicate 1015 97) (List.replicate 1016 97)
     (Nat.le_of_eq (List.length_replicate 1015 97).symm)⟩

/-- Two inputs whose elements agree modulo 256 are hashed alike: `sha256_compute` and
`sha512_compute` read each element only through its conversion to `uint8_t`. -/
theorem sha_compute_low_bytes (d₁ d₂ : List Nat) (len : Nat)
    (hlow : ∀ i, i < len → (d₁[i]?).map (fun d => d % 256) = (d₂[i]?).map (fun d => d % 256)) :
    sha256_compute d₂ len = sha256_compute d₁ len ∧
    sha512_compute d₂ len = sha512_compute d₁ len := by
  constructor
  · rw [sha256_compute_unfold, sha256_compute_unfold, sha256_prepare_eq, sha256_prepare_eq,
      fillMsg_low_bytes 1024 _ d₁ d₂ len hlow]
  · rw [sha512_compute_unfold, sha512_compute_unfold, sha512_prepare_eq, sha512_prepare_eq,
      fillMsg_low_bytes 2048 _ d₁ d₂ len hlow]

/-- C10 (evaluation at the failing input): the one-element 16-bit sequences `0x0141` and
`0x0041` differ only in their high-order byte, yet the message that `sha256_compute` (and
`sha512_compute`) prepares and hashes is the same for both, namely the padding of the
single byte `0x41`, not the padding of the two raw bytes of the element in either byte
order; so both sequences get the same digest.  For all inputs: two sequences whose elements
agree modulo 256 get the same result, and within the capacity of each function the result
is the digest of the elements reduced modulo 256, one byte for each element. -/
theorem sha_wide_elements_are_truncated :
    (sha256_prepare [0x0141, 0] 1).map (fun r => r.1.take r.2) = some (fips_pad 64 8 [0x41]) ∧
    (sha256_prepare [0x0041, 0] 1).map (fun r => r.1.take r.2) = some (fips_pad 64 8 [0x41]) ∧
    (sha512_prepare [0x0141, 0] 1).map (fun r => r.1.take r.2) = some (fips_pad 128 16 [0x41]) ∧
    (sha512_prepare [0x0041, 0] 1).map (fun r => r.1.take r.2) = some (fips_pad 128 16 [0x41]) ∧
    raw_bytes_le 2 [0x0141] = [0x41, 0x01] ∧
    raw_bytes_be 2 [0x0141] = [0x01, 0x41] ∧
    fips_pad 64 8 [0x41] ≠ fips_pad 64 8 (raw_bytes_le 2 [0x0141]) ∧
    fips_pad 64 8 [0x41] ≠ fips_pad 64 8 (raw_bytes_be 2 [0x0141]) ∧
    fips_pad 128 16 [0x41] ≠ fips_pad 128 16 (raw_bytes_le 2 [0x0141]) ∧
    fips_pad 128 16 [0x41] ≠ fips_pad 128 16 (raw_bytes_be 2 [0x0141]) ∧
    sha256_compute [0x0141, 0] 1 = sha256_compute [0x0041, 0] 1 ∧
    sha512_compute [0x0141, 0] 1 = sha512_compute [0x0041, 0] 1 ∧
    (∀ (d₁ d₂ : List Nat) (len : Nat),
      (∀ i, i < len → (d₁[i]?).map (fun d => d % 256) = (d₂[i]?).map (fun d => d % 256)) →
      sha256_compute d₂ len = sha256_compute d₁ len ∧
      sha512_compute d₂ len = sha512_compute d₁ len) ∧
    (∀ (d : List Nat) (len : Nat), len ≤ d.length →
      (len ≤ 1015 →
        sha256_compute d len = some (fips256 ((d.take len).map (fun x => x % 256)))) ∧
      (len ≤ 2031 →
        sha512_compute d len = some (fips512 ((d.take len).map (fun x => x % 256))))) := by
  refine ⟨by decide!, by decide!, by decide!, by decide!, by decide!, by decide!, by decide!,
    by decide!, by decide!, by decide!, ?_, ?_, sha_compute_low_bytes,
    fun d len hlen => ⟨sha256_compute_eq d len hlen, sha512_compute_eq d len hlen⟩⟩
  · exact (sha256_compute_eq [0x0141, 0] 1 (by decide) (by decide)).trans
      (sha256_compute_eq [0x0041, 0] 1 (by decide) (by decide)).symm
  · exact (sha512_compute_eq [0x0141, 0] 1 (by decide) (by decide)).trans
      (sha512_compute_eq [0x0041, 0] 1 (by decide) (by decide)).symm

/-! ## Queries, comparison and hexadecimal rendering -/

/-! ## Loops with an early exit: general facts -/

theorem forUntil_all {σ ρ : Type} (body : Nat → σ → Option (σ ⊕ ρ)) (s : σ) :
    ∀ (n lo : Nat), (∀ k, k < n → body (lo + k) s = some (Sum.inl s)) →
      forUntil lo n body s = some (Sum.inl s) := by
  intro n
  induction n with
  | zero => intro lo _; rfl
  | succ n ih =>
    intro lo h
    have h0 := h 0 (Nat.succ_pos n)
    rw [Nat.add_zero] at h0
    show (match body lo s with
      | none => none
      | some (Sum.inr r) => some (Sum.inr r)
      | some (Sum.inl t) => forUntil (lo + 1) n body t) = _
    rw [h0]
    apply ih
    intro k hk
    have := h (k + 1) (Nat.succ_lt_succ hk)
    rwa [show lo + (k + 1) = lo + 1 + k by omega] at this

theorem forUntil_first {σ ρ : Type} (body : Nat → σ → Option (σ ⊕ ρ)) (s : σ) (r : ρ) :
    ∀ (m n lo : Nat), m < n → (∀ k, k < m → body (lo + k) s = some (Sum.inl s)) →
      body (lo + m) s = some (Sum.inr r) → forUntil lo n body s = some (Sum.inr r) := by
  intro m
  induction m with
  | zero =>
    intro n lo hn _ hm
    obtain ⟨n, rfl⟩ : ∃ p, n = p + 1 := ⟨n - 1, by omega⟩
    rw [Nat.add_zero] at hm
    show (match body lo s with
      | none => none
      | some (Sum.inr r) => some (Sum.inr r)
      | some (Sum.inl t) => forUntil (lo + 1) n body t) = _
    rw [hm]
  | succ m ih =>
    intro n lo hn h hm
    obtain ⟨n, rfl⟩ : ∃ p, n = p + 1 := ⟨n - 1, by omega⟩
    have h0 := h 0 (Nat.succ_pos m)
    rw [Nat.add_zero] at h0
    show (match body lo s with
      | none => none
      | some (Sum.inr r) => some (Sum.inr r)
      | some (Sum.inl t) => forUntil (lo + 1) n body t) = _
    rw [h0]
    apply ih n (lo + 1) (by omega)
    · intro k hk
      have := h (k + 1) (Nat.succ_lt_succ hk)
      rwa [show lo + (k + 1) = lo + 1 + k by omega] at this
    · rwa [show lo + (m + 1) = lo + 1 + m by omega] at hm

/-! ## `FixedString`: general facts -/

theorem FixedString.size_le (s : FixedString) : s.size ≤ s.data.length := by
  unfold FixedString.size; split <;> omega

theorem FixedString.str_length (s : FixedString) : s.str.length = s.size := by
  unfold FixedString.str
  rw [List.length_take]
  exact Nat.min_eq_left s.size_le

theorem FixedString.get_eq (s : FixedString) (i : Nat) (h : i < s.size) :
    s.get i = some (s.str.getD i 0) := by
  have hl : i < s.data.length := Nat.lt_of_lt_of_le h s.size_le
  unfold FixedString.get FixedString.str
  rw [List.getD_eq_getElem?_getD, List.getElem?_take_of_lt h, List.getElem?_eq_getElem hl]
  rfl

theorem FixedString.lit_size (s : String) : (FixedString.lit s).size = s.length := by
  obtain ⟨l⟩ := s
  unfold FixedString.size FixedString.lit
  simp only [List.length_append, List.length_map, List.length_singleton, String.length]
  rw [if_pos (Nat.succ_pos _)]
  rfl

theorem FixedString.lit_str (s : String) : (FixedString.lit s).str = s.toList.map Char.toNat := by
  unfold FixedString.str
  rw [FixedString.lit_size]
  obtain ⟨l⟩ := s
  unfold FixedString.lit
  have : (List.map Char.toNat l).length = l.length := List.length_map _ _
  show List.take l.length (List.map Char.toNat l ++ [0]) = List.map Char.toNat l
  rw [← this, List.take_left]

/-! ## `pattern_match` -/

theorem pattern_match_eq (S P : FixedString) (base : Nat) (h : base + P.size ≤ S.size) :
    pattern_match S P base = some (decide (occurs_at S.str P.str base)) := by
  have hbody : ∀ j, j < P.size → ∀ m : Bool,
      (do
        let a ← S.get (base + j)
        let b ← P.get j
        if a ≠ b then some (Sum.inr false) else some (Sum.inl m) : Option (Bool ⊕ Bool)) =
      if S.str.getD (base + j) 0 ≠ P.str.getD j 0 then some (Sum.inr false) else some (Sum.inl m) := by
    intro j hj m
    rw [S.get_eq (base + j) (by omega), P.get_eq j hj]
    rfl
  unfold pattern_match
  by_cases hocc : occurs_at S.str P.str base
  · rw [forUntil_all _ true P.size 0]
    · simp [hocc]
    · intro k hk
      rw [Nat.zero_add, hbody k hk true]
      have := hocc.2 k (by rw [P.str_length]; exact hk)
      simp only [this, ne_eq, not_true_eq_false, if_false]
  · have hex : ∃ j, j < P.size ∧ S.str.getD (base + j) 0 ≠ P.str.getD j 0 := by
      by_contra hne
      apply hocc
      refine ⟨by rw [P.str_length, S.str_length]; exact h, ?_⟩
      intro j hj
      rw [P.str_length] at hj
      by_contra hx
      exact hne ⟨j, hj, hx⟩
    have hm := Nat.find_spec hex
    rw [forUntil_first _ true false (Nat.find hex) P.size 0 hm.1]
    · simp [hocc]
    · intro k hk
      have hk2 : k < P.size := by omega
      rw [Nat.zero_add, hbody k hk2 true]
      have := Nat.find_min hex hk
      simp only [not_and, not_not] at this
      simp only [this hk2, ne_eq, not_true_eq_false, if_false]
    · rw [Nat.zero_add, hbody _ hm.1 true]
      simp only [hm.2, ne_eq, not_false_eq_true, if_true]

/-! ## `find` and `rfind` -/

theorem occurs_at_bound (S P : FixedString) (i : Nat) (h : occurs_at S.str P.str i) :
    i + P.size ≤ S.size := by
  have := h.1
  rwa [P.str_length, S.str_length] at this

theorem find_body_eq (S P : FixedString) (i : Nat) (h : i + P.size ≤ S.size) :
    (do
      let m ← pattern_match S P i
      if m then some (Sum.inr i) else some (Sum.inl ()) : Option (Unit ⊕ Nat)) =
    if occurs_at S.str P.str i then some (Sum.inr i) else some (Sum.inl ()) := by
  rw [pattern_match_eq S P i h]
  by_cases hocc : occurs_at S.str P.str i
  · simp [hocc]
  · simp [hocc]

theorem find_found (S P : FixedString) (StartPos r : Nat) (hP : 0 < P.size)
    (hr : StartPos ≤ r) (hocc : occurs_at S.str P.str r)
    (hmin : ∀ i, StartPos ≤ i → i < r → ¬ occurs_at S.str P.str i) :
    find S P StartPos = some r := by
  have hb := occurs_at_bound S P r hocc
  unfold find
  simp only []
  rw [if_neg (by omega), if_neg (by omega)]
  rw [forUntil_first _ () r (r - StartPos) _ StartPos (by omega)]
  · rfl
  · intro k hk
    rw [find_body_eq S P _ (by omega), if_neg (hmin _ (by omega) (by omega))]
  · rw [show StartPos + (r - StartPos) = r by omega, find_body_eq S P _ hb, if_pos hocc]

theorem find_not_found (S P : FixedString) (StartPos : Nat) (hP : 0 < P.size)
    (hPS : P.size ≤ S.size) (hS : StartPos < S.size)
    (hno : ∀ i, StartPos ≤ i → ¬ occurs_at S.str P.str i) :
    find S P StartPos = some npos := by
  unfold find
  simp only []
  rw [if_neg (by omega), if_neg (by omega)]
  rw [forUntil_all _ () _ StartPos]
  · rfl
  · intro k hk
    rw [find_body_eq S P _ (by omega), if_neg (hno _ (by omega))]

theorem rfind_found (S P : FixedString) (r : Nat) (hP : 0 < P.size)
    (hocc : occurs_at S.str P.str r)
    (hmax : ∀ i, r < i → ¬ occurs_at S.str P.str i) :
    rfind S P = some r := by
  have hb := occurs_at_bound S P r hocc
  unfold rfind
  simp only []
  rw [if_neg (by omega), if_neg (by omega)]
  rw [forUntil_first _ () r (S.size - P.size - r) _ 0 (by omega)]
  · rfl
  · intro k hk
    rw [Nat.zero_add, find_body_eq S P _ (by omega), if_neg (hmax _ (by omega))]
  · rw [Nat.zero_add, show S.size - P.size + 1 - (S.size - P.size - r) - 1 = r by omega,
      find_body_eq S P _ hb, if_pos hocc]

theorem rfind_not_found (S P : FixedString) (hP : 0 < P.size)
    (hno : ∀ i, ¬ occurs_at S.str P.str i) :
    rfind S P = some npos := by
  unfold rfind
  simp only []
  rw [if_neg (by omega)]
  by_cases hPS : P.size > S.size
  · rw [if_pos hPS]
  · rw [if_neg hPS, forUntil_all _ () _ 0]
    · rfl
    · intro k hk
      rw [Nat.zero_add, find_body_eq S P _ (by omega), if_neg (hno _)]

/-- C15 (evaluation at the failing inputs): `find` does not return `npos` when the pattern
is longer than the string, when the start position is at or past the end of the string, or
when the pattern is empty and the start position is past the end; in each case the pattern
does not occur at any index from the start position on, and the result is the length of the
string (first two cases) or the start position (third case). -/
theorem find_guards_do_not_return_npos :
    (find (FixedString.lit "Hi") (FixedString.lit "Hello") 0 = some 2 ∧
      ¬ ∃ i, 0 ≤ i ∧ occurs_at (FixedString.lit "Hi").str (FixedString.lit "Hello").str i) ∧
    (find (FixedString.lit "abc") (FixedString.lit "x") 3 = some 3 ∧
      ¬ ∃ i, 3 ≤ i ∧ occurs_at (FixedString.lit "abc").str (FixedString.lit "x").str i) ∧
    (find (FixedString.lit "ab") (FixedString.lit "") 5 = some 5 ∧
      ¬ ∃ i, 5 ≤ i ∧ occurs_at (FixedString.lit "ab").str (FixedString.lit "").str i) ∧
    2 ≠ npos ∧ 3 ≠ npos ∧ 5 ≠ npos := by
  refine ⟨⟨by decide, ?_⟩, ⟨by decide, ?_⟩, ⟨by decide, ?_⟩, by decide, by decide, by decide⟩
  · rintro ⟨i, _, h⟩
    have := occurs_at_bound _ _ i h
    rw [FixedString.lit_size, FixedString.lit_size] at this
    have h2 : "Hi".length = 2 := by decide
    have h3 : "Hello".length = 5 := by decide
    omega
  · rintro ⟨i, hi, h⟩
    have := occurs_at_bound _ _ i h
    rw [FixedString.lit_size, FixedString.lit_size] at this
    have h2 : "abc".length = 3 := by decide
    have h3 : "x".length = 1 := by decide
    omega
  · rintro ⟨i, hi, h⟩
    have := occurs_at_bound _ _ i h
    rw [FixedString.lit_size, FixedString.lit_size] at this
    have h2 : "ab".length = 2 := by decide
    have h3 : "".length = 0 := by decide
    omega

/-- C16: for a non-empty pattern that occurs in the string at some index at or after the start
position, `find` returns the least such index. -/
theorem find_returns_least_index (S P : FixedString) (StartPos : Nat) (hP : 0 < P.size)
    (hocc : ∃ i, StartPos ≤ i ∧ occurs_at S.str P.str i) :
    ∃ r, find S P StartPos = some r ∧ StartPos ≤ r ∧ occurs_at S.str P.str r ∧
      ∀ i, StartPos ≤ i → occurs_at S.str P.str i → r ≤ i := by
  have hs := Nat.find_spec hocc
  refine ⟨Nat.find hocc, ?_, hs.1, hs.2, ?_⟩
  · apply find_found S P StartPos _ hP hs.1 hs.2
    intro i hi hlt hi2
    exact Nat.find_min hocc hlt ⟨hi, hi2⟩
  · intro i hi hi2
    exact Nat.find_min' hocc ⟨hi, hi2⟩

theorem find_returns_least_index_witness :
    0 < (FixedString.lit "abc").size ∧
    (∃ i, 1 ≤ i ∧ occurs_at (FixedString.lit "abc abc abc").str (FixedString.lit "abc").str i) ∧
    (∃ r, find (FixedString.lit "abc abc abc") (FixedString.lit "abc") 1 = some r ∧ 1 ≤ r ∧
      occurs_at (FixedString.lit "abc abc abc").str (FixedString.lit "abc").str r ∧
      ∀ i, 1 ≤ i → occurs_at (FixedString.lit "abc abc abc").str (FixedString.lit "abc").str i →
        r ≤ i) ∧
    find (FixedString.lit "abc abc abc") (FixedString.lit "abc") 1 = some 4 ∧
    find (FixedString.lit "abc abc abc") (FixedString.lit "abc") 5 = some 8 :=
  ⟨by decide, ⟨4, by decide, by decide⟩,
    find_returns_least_index (FixedString.lit "abc abc abc") (FixedString.lit "abc") 1
      (by decide) ⟨4, by decide, by decide⟩,
    by decide, by decide⟩

/-- C17: for a non-empty pattern, `rfind` returns the greatest index at which the pattern
occurs in the string, and `npos` when it does not occur; when the pattern occurs, the result
of `find` from the start of the string is at most the result of `rfind`. -/
theorem rfind_returns_greatest_index (S P : FixedString) (hP : 0 < P.size) :
    ((∃ i, occurs_at S.str P.str i) →
      ∃ r f, rfind S P = some r ∧ occurs_at S.str P.str r ∧
        (∀ i, occurs_at S.str P.str i → i ≤ r) ∧ find S P 0 = some f ∧ f ≤ r) ∧
    ((¬ ∃ i, occurs_at S.str P.str i) → rfind S P = some npos) := by
  constructor
  · rintro ⟨i0, h0⟩
    have hb : ∀ i, occurs_at S.str P.str i → i ≤ S.size := fun i h => by
      have := occurs_at_bound S P i h
      omega
    have hg : occurs_at S.str P.str (Nat.findGreatest (fun i => occurs_at S.str P.str i) S.size) :=
      Nat.findGreatest_spec (hb i0 h0) h0
    have hmax : ∀ i, occurs_at S.str P.str i →
        i ≤ Nat.findGreatest (fun i => occurs_at S.str P.str i) S.size :=
      fun i h => Nat.le_findGreatest (hb i h) h
    have hex : ∃ i, 0 ≤ i ∧ occurs_at S.str P.str i := ⟨i0, Nat.zero_le _, h0⟩
    refine ⟨_, Nat.find hex, ?_, hg, hmax, ?_, ?_⟩
    · apply rfind_found S P _ hP hg
      intro i hi h
      exact absurd (hmax i h) (by omega)
    · apply find_found S P 0 _ hP (Nat.zero_le _) (Nat.find_spec hex).2
      intro i hi hlt hi2
      exact Nat.find_min hex hlt ⟨hi, hi2⟩
    · exact hmax _ (Nat.find_spec hex).2
  · intro hno
    apply rfind_not_found S P hP
    intro i h
    exact hno ⟨i, h⟩

theorem rfind_returns_greatest_index_witness :
    0 < (FixedString.lit "abc").size ∧
    (∃ i, occurs_at (FixedString.lit "abc abc abc").str (FixedString.lit "abc").str i) ∧
    (¬ ∃ i, occurs_at (FixedString.lit "").str (FixedString.lit "abc").str i) ∧
    (∃ r f, rfind (FixedString.lit "abc abc abc") (FixedString.lit "abc") = some r ∧
      occurs_at (FixedString.lit "abc abc abc").str (FixedString.lit "abc").str r ∧
      (∀ i, occurs_at (FixedString.lit "abc abc abc").str (FixedString.lit "abc").str i → i ≤ r) ∧
      find (FixedString.lit "abc abc abc") (FixedString.lit "abc") 0 = some f ∧ f ≤ r) ∧
    rfind (FixedString.lit "") (FixedString.lit "abc") = some npos ∧
    rfind (FixedString.lit "abc abc abc") (FixedString.lit "abc") = some 8 :=
  have hno : ¬ ∃ i, occurs_at (FixedString.lit "").str (FixedString.lit "abc").str i := by
    rintro ⟨i, h⟩
    have h1 := h.1
    have e1 : (FixedString.lit "abc").str.length = 3 := by decide
    have e2 : (FixedString.lit "").str.length = 0 := by decide
    omega
  ⟨by decide, ⟨0, by decide⟩, hno,
    (rfind_returns_greatest_index (FixedString.lit "abc abc abc") (FixedString.lit "abc")
      (by decide)).1 ⟨0, by decide⟩,
    (rfind_returns_greatest_index (FixedString.lit "") (FixedString.lit "abc")
      (by decide)).2 hno,
    by decide⟩

theorem contains_eq (S P : FixedString) (hne : 0 < P.size ∨ 0 < S.size) (hS : S.size ≤ npos) :
    ∃ b, contains S P = some b ∧ (b = true ↔ ∃ i, occurs_at S.str P.str i) := by
  unfold contains
  by_cases hP : P.size = 0
  · have hS0 : 0 < S.size := by omega
    have hocc : ∃ i, occurs_at S.str P.str i := by
      refine ⟨0, ?_, ?_⟩
      · rw [P.str_length, S.str_length]; omega
      · intro j hj; rw [P.str_length] at hj; omega
    have hf : find S P 0 = some 0 := by
      unfold find
      simp only []
      rw [if_pos hP]
    rw [hf]
    exact ⟨_, rfl, by simp [hocc, hS0]⟩
  · have hP0 : 0 < P.size := Nat.pos_of_ne_zero hP
    by_cases hocc : ∃ i, occurs_at S.str P.str i
    · have hex : ∃ i, 0 ≤ i ∧ occurs_at S.str P.str i := by
        obtain ⟨i, hi⟩ := hocc
        exact ⟨i, Nat.zero_le _, hi⟩
      have hs := Nat.find_spec hex
      have hb := occurs_at_bound S P _ hs.2
      rw [find_found S P 0 (Nat.find hex) hP0 (Nat.zero_le _) hs.2
        (fun i hi hlt hi2 => Nat.find_min hex hlt ⟨hi, hi2⟩)]
      have : Nat.find hex < S.size := by omega
      exact ⟨_, rfl, fun _ => hocc, fun _ => decide_eq_true this⟩
    · have hno : ∀ i, 0 ≤ i → ¬ occurs_at S.str P.str i := fun i _ h => hocc ⟨i, h⟩
      by_cases hPS : P.size ≤ S.size
      · rw [find_not_found S P 0 hP0 hPS (by omega) hno]
        have : ¬ npos < S.size := by omega
        exact ⟨_, rfl, by simp [hocc, this]⟩
      · have hf : find S P 0 = some S.size := by
          unfold find
          simp only []
          rw [if_neg hP, if_pos (Or.inl (by omega))]
        rw [hf]
        exact ⟨_, rfl, by simp [hocc]⟩

/-- C18 (evaluation at the failing input): for the empty string and the empty pattern,
`contains` is false, although the pattern occurs at index 0 and both `starts_with` and
`ends_with` are true. -/
theorem contains_empty_in_empty_is_false :
    contains (FixedString.lit "") (FixedString.lit "") = some false ∧
    occurs_at (FixedString.lit "").str (FixedString.lit "").str 0 ∧
    starts_with (FixedString.lit "") (FixedString.lit "") = some true ∧
    ends_with (FixedString.lit "") (FixedString.lit "") = some true := by
  refine ⟨by decide, by decide, by decide, by decide⟩

/-- C19: `at` returns the element at position `Pos` of the string when `Pos` is less than the
size, and the instantiation is rejected exactly when `Pos` is at least the size; no value
is returned for an out-of-range position. -/
theorem at_returns_element_or_is_rejected (S : FixedString) (Pos : Nat) :
    (Pos < S.size → ∃ v, at_ S Pos = some v ∧ S.str[Pos]? = some v ∧ S.data[Pos]? = some v) ∧
    (at_ S Pos = none ↔ S.size ≤ Pos) := by
  have hin : Pos < S.size →
      ∃ v, at_ S Pos = some v ∧ S.str[Pos]? = some v ∧ S.data[Pos]? = some v := by
    intro h
    have hl : Pos < S.data.length := Nat.lt_of_lt_of_le h S.size_le
    refine ⟨S.data[Pos], ?_, ?_, List.getElem?_eq_getElem hl⟩
    · unfold at_ FixedString.get
      rw [if_pos h, List.getElem?_eq_getElem hl]
    · unfold FixedString.str
      rw [List.getElem?_take_of_lt h, List.getElem?_eq_getElem hl]
  refine ⟨hin, ?_, ?_⟩
  · intro hn
    by_contra hlt
    obtain ⟨v, hv, _⟩ := hin (by omega)
    rw [hn] at hv
    exact Option.noConfusion hv
  · intro h
    unfold at_
    rw [if_neg (by omega)]

theorem at_returns_element_or_is_rejected_witness :
    2 < (FixedString.lit "abc").size ∧
    (∃ v, at_ (FixedString.lit "abc") 2 = some v ∧ (FixedString.lit "abc").str[2]? = some v ∧
      (FixedString.lit "abc").data[2]? = some v) ∧
    at_ (FixedString.lit "abc") 3 = none ∧
    at_ (FixedString.lit "abc") 2 = some 99 :=
  ⟨by decide,
    (at_returns_element_or_is_rejected (FixedString.lit "abc") 2).1 (by decide),
    (at_returns_element_or_is_rejected (FixedString.lit "abc") 3).2.2 (by decide),
    by decide⟩

/-! ## `ByteStore::hex` -/

theorem hex_chars_get : ∀ n, n < 16 → hex_chars[n]? = some (lower_hex_digit n) := by decide

theorem hex_digit_value_digit : ∀ n, n < 16 → hex_digit_value (lower_hex_digit n) = some n := by
  decide

theorem lower_hex_digit_is_hex (n : Nat) (h : n < 16) : is_lower_hex (lower_hex_digit n) := by
  unfold is_lower_hex lower_hex_digit
  split <;> omega

theorem and_15 (x : Nat) : x &&& 0x0F = x % 16 := Nat.and_pow_two_sub_one_eq_mod x 4

theorem hex_char_at_is_hex (Bytes : List Nat) (j : Nat) : is_lower_hex (hex_char_at Bytes j) := by
  unfold hex_char_at
  split
  · exact lower_hex_digit_is_hex _ (Nat.mod_lt _ (by decide))
  · exact lower_hex_digit_is_hex _ (Nat.mod_lt _ (by decide))

/-- The array built by `ByteStore::hex`, element by element. -/
theorem ByteStore_hex_tab (Bytes : List Nat) :
    ByteStore_hex Bytes = some (tab (Bytes.length * 2 + 1)
      (fun j => if j < Bytes.length * 2 then hex_char_at Bytes j else 0)) := by
  obtain ⟨u, hu, hI⟩ := forLoop_inv_ex
    (fun k (data : List Nat) => data = tab (Bytes.length * 2 + 1)
      (fun j => if j < k * 2 then hex_char_at Bytes j else 0))
    0 Bytes.length (fun i data => do
      let b ← Bytes[i]?
      let hi ← hex_chars[(b >>> 4) &&& 0x0F]?
      let lo ← hex_chars[b &&& 0x0F]?
      let data ← arrWrite data (i * 2) hi
      arrWrite data (i * 2 + 1) lo) (List.replicate (Bytes.length * 2 + 1) 0)
    (by
      rw [replicate_zero_eq_tab]
      apply tab_congr
      intro j _
      rw [if_neg (by omega)])
    (by
      intro k hk t ht
      subst ht
      refine ⟨_, ?_, rfl⟩
      simp only [Option.bind_eq_bind, Nat.zero_add]
      rw [getElem?_eq_some_getD Bytes k hk, Option.some_bind, and_15, and_15,
        Nat.shiftRight_eq_div_pow,
        hex_chars_get _ (Nat.mod_lt _ (by decide)), Option.some_bind,
        hex_chars_get _ (Nat.mod_lt _ (by decide)), Option.some_bind,
        arrWrite_tab _ _ _ _ (by omega), Option.some_bind, arrWrite_tab _ _ _ _ (by omega)]
      apply congrArg some
      apply tab_congr
      intro j _
      beta_reduce
      by_cases h1 : j = k * 2 + 1
      · subst h1
        rw [if_pos rfl, if_pos (by omega)]
        unfold hex_char_at
        rw [if_neg (by omega), show (k * 2 + 1) / 2 = k by omega]
      · rw [if_neg h1]
        by_cases h2 : j = k * 2
        · subst h2
          rw [if_pos rfl, if_pos (by omega)]
          unfold hex_char_at
          rw [if_pos (by omega), show (k * 2) / 2 = k by omega]
        · rw [if_neg h2]
          by_cases h3 : j < k * 2
          · rw [if_pos h3, if_pos (by omega)]
          · rw [if_neg h3, if_neg (by omega)])
  unfold ByteStore_hex
  simp only [Option.bind_eq_bind] at hu ⊢
  rw [hu, Option.some_bind, hI, arrWrite_tab _ _ _ _ (by omega)]
  apply congrArg some
  apply tab_congr
  intro j _
  beta_reduce
  by_cases h : j = Bytes.length * 2
  · rw [if_pos h, if_neg (by omega)]
  · rw [if_neg h]

theorem hex_pairs_length (Bytes : List Nat) :
    (Bytes.flatMap hex_pair).length = Bytes.length * 2 := by
  induction Bytes with
  | nil => rfl
  | cons b bs ih =>
    rw [List.flatMap_cons, List.length_append, ih, List.length_cons]
    show 2 + bs.length * 2 = _
    omega

theorem hex_pairs_getD (Bytes : List Nat) :
    ∀ j, j < Bytes.length * 2 → (Bytes.flatMap hex_pair).getD j 0 = hex_char_at Bytes j := by
  induction Bytes with
  | nil => intro j hj; exact absurd hj (by simp)
  | cons b bs ih =>
    intro j hj
    rw [List.flatMap_cons]
    show (lower_hex_digit (b / 16 % 16) :: lower_hex_digit (b % 16) ::
      bs.flatMap hex_pair).getD j 0 = _
    match j, hj with
    | 0, _ => rfl
    | 1, _ => rfl
    | j + 2, hj =>
      rw [List.getD_cons_succ, List.getD_cons_succ, ih j (by rw [List.length_cons] at hj; omega)]
      unfold hex_char_at
      rw [show (j + 2) % 2 = j % 2 by omega, show (j + 2) / 2 = j / 2 + 1 by omega,
        List.getD_cons_succ]

theorem hex_pairs_ne_zero (Bytes : List Nat) : ∀ c ∈ Bytes.flatMap hex_pair, c ≠ 0 := by
  intro c hc
  obtain ⟨b, _, hb⟩ := List.mem_flatMap.mp hc
  have h16 : ∀ n, n < 16 → lower_hex_digit n ≠ 0 := by decide
  unfold hex_pair at hb
  rcases List.mem_cons.mp hb with h | h
  · rw [h]; exact h16 _ (Nat.mod_lt _ (by decide))
  · rw [List.mem_singleton.mp h]; exact h16 _ (Nat.mod_lt _ (by decide))

/-- The array built by `ByteStore::hex`, as a list: the digit pairs of the bytes, then the
terminator. -/
theorem ByteStore_hex_eq (Bytes : List Nat) :
    ByteStore_hex Bytes = some (Bytes.flatMap hex_pair ++ [0]) := by
  rw [ByteStore_hex_tab]
  apply congrArg some
  have hl : (Bytes.flatMap hex_pair ++ [0]).length = Bytes.length * 2 + 1 := by
    rw [List.length_append, hex_pairs_length]; rfl
  rw [eq_tab_getD (Bytes.flatMap hex_pair ++ [0]), hl]
  apply tab_congr
  intro j hj
  by_cases h : j < Bytes.length * 2
  · rw [if_pos h, List.getD_append _ _ _ _ (by rw [hex_pairs_length]; exact h),
      hex_pairs_getD Bytes j h]
  · rw [if_neg h, List.getD_append_right _ _ _ _ (by rw [hex_pairs_length]; omega),
      hex_pairs_length, show j - Bytes.length * 2 = 0 by omega]
    rfl

theorem c_str_chars_hex (Bytes : List Nat) :
    c_str_chars (Bytes.flatMap hex_pair ++ [0]) = Bytes.flatMap hex_pair := by
  unfold c_str_chars
  rw [List.takeWhile_append_of_pos
    (fun a ha => decide_eq_true (hex_pairs_ne_zero Bytes a ha))]
  show Bytes.flatMap hex_pair ++ [] = _
  rw [List.append_nil]

theorem hex_decode_pairs (Bytes : List Nat) (hb : ∀ b ∈ Bytes, b < 256) :
    hex_decode (Bytes.flatMap hex_pair) = some Bytes := by
  induction Bytes with
  | nil => rfl
  | cons b bs ih =>
    have hlt := hb b (List.mem_cons_self b bs)
    rw [List.flatMap_cons]
    show hex_decode (lower_hex_digit (b / 16 % 16) :: lower_hex_digit (b % 16) ::
      bs.flatMap hex_pair) = _
    unfold hex_decode
    simp only [Option.bind_eq_bind]
    rw [hex_digit_value_digit _ (Nat.mod_lt _ (by decide)), Option.some_bind,
      hex_digit_value_digit _ (Nat.mod_lt _ (by decide)), Option.some_bind,
      ih (fun c hc => hb c (List.mem_cons_of_mem b hc)), Option.some_bind,
      show b / 16 % 16 * 16 + b % 16 = b by omega]

/-- C11: for `N` bytes, `ByteStore::hex` yields `2 * N` characters followed by a terminating
zero; character `2 * i` is the lowercase hexadecimal digit of the high nibble of byte `i`,
character `2 * i + 1` that of its low nibble, and every character before the terminator is
one of 0 to 9 or a to f. -/
theorem hex_has_two_digits_per_byte (Bytes : List Nat) (hb : ∀ b ∈ Bytes, b < 256) :
    ∃ r, ByteStore_hex Bytes = some r ∧
      r.length = 2 * Bytes.length + 1 ∧
      r[2 * Bytes.length]? = some 0 ∧
      (c_str_chars r).length = 2 * Bytes.length ∧
      (∀ i, i < Bytes.length →
        r[2 * i]? = some (lower_hex_digit (Bytes.getD i 0 / 16)) ∧
        r[2 * i + 1]? = some (lower_hex_digit (Bytes.getD i 0 % 16))) ∧
      (∀ j, j < 2 * Bytes.length → is_lower_hex (r.getD j 0)) := by
  refine ⟨_, ByteStore_hex_tab Bytes, ?_, ?_, ?_, ?_, ?_⟩
  · rw [tab_length]; omega
  · rw [tab_get _ _ _ (by omega), if_neg (by omega)]
  · have h := ByteStore_hex_tab Bytes
    rw [ByteStore_hex_eq] at h
    rw [← Option.some.inj h, c_str_chars_hex, hex_pairs_length]
    omega
  · intro i hi
    have hlt : Bytes.getD i 0 < 256 := by
      rw [List.getD_eq_getElem?_getD, List.getElem?_eq_getElem hi]
      exact hb _ (List.getElem_mem hi)
    constructor
    · rw [tab_get _ _ _ (by omega), if_pos (by omega)]
      unfold hex_char_at
      rw [if_pos (by omega), show 2 * i / 2 = i by omega,
        Nat.mod_eq_of_lt (show Bytes.getD i 0 / 16 < 16 by omega)]
    · rw [tab_get _ _ _ (by omega), if_pos (by omega)]
      unfold hex_char_at
      rw [if_neg (by omega), show (2 * i + 1) / 2 = i by omega]
  · intro j hj
    rw [tab_getD _ _ _ (by omega), if_pos (by omega)]
    exact hex_char_at_is_hex Bytes j

theorem hex_has_two_digits_per_byte_witness :
    (∀ b ∈ [0x01, 0xAB, 0xFF], b < 256) ∧
    (∃ r, ByteStore_hex [0x01, 0xAB, 0xFF] = some r ∧
      r.length = 2 * [0x01, 0xAB, 0xFF].length + 1 ∧
      r[2 * [0x01, 0xAB, 0xFF].length]? = some 0 ∧
      (c_str_chars r).length = 2 * [0x01, 0xAB, 0xFF].length ∧
      (∀ i, i < [0x01, 0xAB, 0xFF].length →
        r[2 * i]? = some (lower_hex_digit ([0x01, 0xAB, 0xFF].getD i 0 / 16)) ∧
        r[2 * i + 1]? = some (lower_hex_digit ([0x01, 0xAB, 0xFF].getD i 0 % 16))) ∧
      (∀ j, j < 2 * [0x01, 0xAB, 0xFF].length → is_lower_hex (r.getD j 0))) ∧
    (ByteStore_hex [0x01, 0xAB, 0xFF]).map std_string = some "01abff" :=
  ⟨by decide, hex_has_two_digits_per_byte [0x01, 0xAB, 0xFF] (by decide), by decide⟩

/-- C12: decoding the string returned by `ByteStore::hex` two hexadecimal digits at a time
yields the original bytes, so the rendering is injective. -/
theorem hex_decodes_to_the_bytes (Bytes Other : List Nat) (hb : ∀ b ∈ Bytes, b < 256)
    (ho : ∀ b ∈ Other, b < 256) :
    (∃ r, ByteStore_hex Bytes = some r ∧ hex_decode (c_str_chars r) = some Bytes) ∧
    (ByteStore_hex Bytes = ByteStore_hex Other → Bytes = Other) := by
  constructor
  · exact ⟨_, ByteStore_hex_eq Bytes, by rw [c_str_chars_hex, hex_decode_pairs Bytes hb]⟩
  · intro h
    rw [ByteStore_hex_eq, ByteStore_hex_eq] at h
    have h2 := congrArg (fun l => hex_decode (c_str_chars l)) (Option.some.inj h)
    beta_reduce at h2
    rw [c_str_chars_hex, c_str_chars_hex, hex_decode_pairs Bytes hb,
      hex_decode_pairs Other ho] at h2
    exact Option.some.inj h2

theorem hex_decodes_to_the_bytes_witness :
    (∀ b ∈ [0x01, 0xAB, 0xFF], b < 256) ∧ (∀ b ∈ [0x01, 0xAB, 0xFE], b < 256) ∧
    (∃ r, ByteStore_hex [0x01, 0xAB, 0xFF] = some r ∧
      hex_decode (c_str_chars r) = some [0x01, 0xAB, 0xFF]) ∧
    (ByteStore_hex [0x01, 0xAB, 0xFF] = ByteStore_hex [0x01, 0xAB, 0xFE] →
      [0x01, 0xAB, 0xFF] = [0x01, 0xAB, 0xFE]) :=
  ⟨by decide, by decide,
    hex_decodes_to_the_bytes [0x01, 0xAB, 0xFF] [0x01, 0xAB, 0xFE] (by decide) (by decide)⟩

/-- C13: a digest produced by `sha256` has 32 bytes and one produced by `sha512` has 64 bytes,
whatever the input, and `ByteStore::size()` reports these numbers; a digest is produced
for every string of at most 1015 (respectively 2031) elements, the empty one included. -/
theorem sha_digest_sizes (Str : FixedString) :
    (∀ d, sha256_logic Str = some d → d.length = 32 ∧ ByteStore_size d = 32) ∧
    (∀ d, sha512_logic Str = some d → d.length = 64 ∧ ByteStore_size d = 64) ∧
    (Str.size ≤ 1015 → ∃ d, sha256_logic Str = some d ∧ ByteStore_size d = 32) ∧
    (Str.size ≤ 2031 → ∃ d, sha512_logic Str = some d ∧ ByteStore_size d = 64) := by
  have h256 : ∀ d, sha256_logic Str = some d → d.length = 32 ∧ ByteStore_size d = 32 := by
    intro d hd
    unfold sha256_logic at hd
    rw [sha256_compute_unfold] at hd
    obtain ⟨r, _, hd⟩ := Option.bind_eq_some.mp hd
    obtain ⟨H, _, hd⟩ := Option.bind_eq_some.mp hd
    rw [sha256_output_eq] at hd
    have hl : d.length = 32 := by
      rw [← Option.some.inj hd]
      simp only [List.length_append, toBE_length]
    exact ⟨hl, hl⟩
  have h512 : ∀ d, sha512_logic Str = some d → d.length = 64 ∧ ByteStore_size d = 64 := by
    intro d hd
    unfold sha512_logic at hd
    rw [sha512_compute_unfold] at hd
    obtain ⟨r, _, hd⟩ := Option.bind_eq_some.mp hd
    obtain ⟨H, _, hd⟩ := Option.bind_eq_some.mp hd
    rw [sha512_output_eq] at hd
    have hl : d.length = 64 := by
      rw [← Option.some.inj hd]
      simp only [List.length_append, toBE_length]
    exact ⟨hl, hl⟩
  refine ⟨h256, h512, ?_, ?_⟩
  · intro h
    have he : sha256_logic Str = some _ := sha256_compute_eq Str.data Str.size Str.size_le h
    exact ⟨_, he, (h256 _ he).2⟩
  · intro h
    have he : sha512_logic Str = some _ := sha512_compute_eq Str.data Str.size Str.size_le h
    exact ⟨_, he, (h512 _ he).2⟩

theorem sha_digest_sizes_witness :
    (FixedString.lit "").size ≤ 1015 ∧ (FixedString.lit "").size ≤ 2031 ∧
    (∃ d, sha256_logic (FixedString.lit "") = some d ∧ ByteStore_size d = 32) ∧
    (∃ d, sha512_logic (FixedString.lit "") = some d ∧ ByteStore_size d = 64) :=
  ⟨by decide, by decide,
    (sha_digest_sizes (FixedString.lit "")).2.2.1 (by decide),
    (sha_digest_sizes (FixedString.lit "")).2.2.2 (by decide)⟩

/-! ## `compare` -/

theorem lex_compare_values (a b : List Int) :
    lex_compare a b = -1 ∨ lex_compare a b = 0 ∨ lex_compare a b = 1 := by
  induction a generalizing b with
  | nil => cases b with
    | nil => exact Or.inr (Or.inl rfl)
    | cons y ys => exact Or.inl rfl
  | cons x xs ih => cases b with
    | nil => exact Or.inr (Or.inr rfl)
    | cons y ys =>
      unfold lex_compare
      split
      · exact Or.inl rfl
      · split
        · exact Or.inr (Or.inr rfl)
        · exact ih ys

theorem lex_compare_lt (a b : List Int) :
    lex_compare a b = -1 ↔ List.Lex (fun x y => x < y) a b := by
  induction a generalizing b with
  | nil => cases b with
    | nil => exact ⟨fun h => absurd h (by decide), fun h => by cases h⟩
    | cons y ys => exact ⟨fun _ => List.Lex.nil, fun _ => rfl⟩
  | cons x xs ih => cases b with
    | nil => exact ⟨fun h => absurd (show (1 : Int) = -1 from h) (by decide), fun h => by cases h⟩
    | cons y ys =>
      unfold lex_compare
      by_cases h1 : x < y
      · rw [if_pos h1]
        exact ⟨fun _ => List.Lex.rel h1, fun _ => rfl⟩
      · rw [if_neg h1]
        by_cases h2 : x > y
        · rw [if_pos h2]
          refine ⟨fun h => absurd h (by decide), fun h => ?_⟩
          cases h with
          | cons h => exact absurd h2 (lt_irrefl _)
          | rel h => exact absurd h h1
        · rw [if_neg h2]
          have hxy : x = y := by omega
          subst hxy
          rw [ih ys]
          refine ⟨fun h => List.Lex.cons h, fun h => ?_⟩
          cases h with
          | cons h => exact h
          | rel h => exact absurd h h1

theorem lex_compare_eq (a b : List Int) : lex_compare a b = 0 ↔ a = b := by
  induction a generalizing b with
  | nil => cases b with
    | nil => exact ⟨fun _ => rfl, fun _ => rfl⟩
    | cons y ys => exact ⟨fun h => absurd (show (-1 : Int) = 0 from h) (by decide), fun h => by cases h⟩
  | cons x xs ih => cases b with
    | nil => exact ⟨fun h => absurd (show (1 : Int) = 0 from h) (by decide), fun h => by cases h⟩
    | cons y ys =>
      unfold lex_compare
      by_cases h1 : x < y
      · rw [if_pos h1]
        refine ⟨fun h => absurd h (by decide), fun h => ?_⟩
        injection h with hx _
        omega
      · rw [if_neg h1]
        by_cases h2 : x > y
        · rw [if_pos h2]
          refine ⟨fun h => absurd h (by decide), fun h => ?_⟩
          injection h with hx _
          omega
        · rw [if_neg h2]
          have hxy : x = y := by omega
          subst hxy
          rw [ih ys]
          exact ⟨fun h => by rw [h], fun h => by injection h⟩

theorem lex_compare_swap (a b : List Int) : lex_compare b a = -lex_compare a b := by
  induction a generalizing b with
  | nil => cases b with
    | nil => rfl
    | cons y ys => rfl
  | cons x xs ih => cases b with
    | nil => rfl
    | cons y ys =>
      unfold lex_compare
      rcases lt_trichotomy x y with h | h | h
      · have h2 : ¬ y < x := by omega
        simp only [gt_iff_lt, h, h2, if_true, if_false]
        rfl
      · subst h
        simp only [gt_iff_lt, lt_irrefl, if_false]
        exact ih ys
      · have h2 : ¬ x < y := by omega
        simp only [gt_iff_lt, h, h2, if_true, if_false]

theorem lex_compare_proper_start (a t : List Int) (ht : t ≠ []) :
    lex_compare a (a ++ t) = -1 := by
  induction a with
  | nil =>
    cases t with
    | nil => exact absurd rfl ht
    | cons y ys => rfl
  | cons x xs ih =>
    show lex_compare (x :: xs) (x :: (xs ++ t)) = -1
    unfold lex_compare
    rw [if_neg (lt_irrefl x), if_neg (lt_irrefl x)]
    exact ih

theorem drop_eq_getD_cons (l : List Nat) (i : Nat) (h : i < l.length) :
    l.drop i = l.getD i 0 :: l.drop (i + 1) := by
  rw [List.drop_eq_getElem_cons h, List.getD_eq_getElem l 0 h]

theorem forUntil_succ {σ ρ : Type} (lo n : Nat) (body : Nat → σ → Option (σ ⊕ ρ)) (s : σ) :
    forUntil lo (n + 1) body s =
      match body lo s with
      | none => none
      | some (Sum.inr r) => some (Sum.inr r)
      | some (Sum.inl t) => forUntil (lo + 1) n body t := rfl

theorem lex_compare_cons (a b : Int) (as bs : List Int) :
    lex_compare (a :: as) (b :: bs) =
      if a < b then -1 else if a > b then 1 else lex_compare as bs := rfl

theorem compare_loop (key : Nat → Int) (A B : FixedString)
    (body : Nat → Unit → Option (Unit ⊕ Int))
    (hbody : ∀ i, i < A.size → i < B.size → body i () =
      if key (A.str.getD i 0) < key (B.str.getD i 0) then some (Sum.inr (-1))
      else if key (A.str.getD i 0) > key (B.str.getD i 0) then some (Sum.inr 1)
      else some (Sum.inl ())) :
    ∀ n lo, lo + n = (if A.size < B.size then A.size else B.size) →
      (forUntil lo n body ()).map (fun r => match r with
        | Sum.inl _ => if A.size < B.size then -1 else if A.size > B.size then 1 else 0
        | Sum.inr c => c) =
      some (lex_compare ((A.str.drop lo).map key) ((B.str.drop lo).map key)) := by
  intro n
  induction n with
  | zero =>
    intro lo hlo
    show some (if A.size < B.size then (-1 : Int) else if A.size > B.size then 1 else 0) = _
    apply congrArg some
    by_cases h1 : A.size < B.size
    · rw [if_pos h1] at hlo
      rw [if_pos h1, List.drop_of_length_le (by rw [A.str_length]; omega),
        drop_eq_getD_cons B.str lo (by rw [B.str_length]; omega)]
      rfl
    · rw [if_neg h1] at hlo
      rw [if_neg h1]
      by_cases h2 : A.size > B.size
      · rw [if_pos h2, List.drop_of_length_le (l := B.str) (by rw [B.str_length]; omega),
          drop_eq_getD_cons A.str lo (by rw [A.str_length]; omega)]
        rfl
      · rw [if_neg h2, List.drop_of_length_le (l := B.str) (by rw [B.str_length]; omega),
          List.drop_of_length_le (l := A.str) (by rw [A.str_length]; omega)]
        rfl
  | succ n ih =>
    intro lo hlo
    have hA : lo < A.size := by split at hlo <;> omega
    have hB : lo < B.size := by split at hlo <;> omega
    rw [drop_eq_getD_cons A.str lo (by rw [A.str_length]; exact hA),
      drop_eq_getD_cons B.str lo (by rw [B.str_length]; exact hB)]
    rw [List.map_cons, List.map_cons, lex_compare_cons, forUntil_succ, hbody lo hA hB]
    by_cases h1 : key (A.str.getD lo 0) < key (B.str.getD lo 0)
    · rw [if_pos h1, if_pos h1]
      rfl
    · rw [if_neg h1, if_neg h1]
      by_cases h2 : key (A.str.getD lo 0) > key (B.str.getD lo 0)
      · rw [if_pos h2, if_pos h2]
        rfl
      · rw [if_neg h2, if_neg h2]
        exact ih (lo + 1) (by omega)

/-- The result of `compare` is the three-way lexicographic comparison of the logical
contents, element values taken through `key`. -/
theorem compare_eq (key : Nat → Int) (A B : FixedString) :
    compare key A B = some (lex_compare (A.str.map key) (B.str.map key)) := by
  have h := compare_loop key A B (fun i (_ : Unit) => do
      let a ← A.get i
      let b ← B.get i
      if key a < key b then some (Sum.inr (-1))
      else if key a > key b then some (Sum.inr 1)
      else some (Sum.inl ()))
    (by
      intro i hA hB
      simp only [Option.bind_eq_bind]
      rw [A.get_eq i hA, B.get_eq i hB]
      rfl) _ 0 (Nat.zero_add _)
  rw [List.drop_zero, List.drop_zero] at h
  exact h

/-- C20: `compare` returns -1, 0 or 1 as the first string is lexicographically less than, equal
to, or greater than the second over their logical lengths, a proper prefix being less; the
result is 0 exactly when the strings have the same length and the same elements; and swapping
the arguments negates the result. -/
theorem compare_is_three_way_lexicographic (key : Nat → Int) (hkey : Function.Injective key)
    (A B : FixedString) :
    ∃ c, compare key A B = some c ∧ (c = -1 ∨ c = 0 ∨ c = 1) ∧
      (c = -1 ↔ List.Lex (fun x y => x < y) (A.str.map key) (B.str.map key)) ∧
      (c = 1 ↔ List.Lex (fun x y => x < y) (B.str.map key) (A.str.map key)) ∧
      (c = 0 ↔ A.size = B.size ∧ A.str = B.str) ∧
      (∀ t, t ≠ [] → B.str = A.str ++ t → c = -1) ∧
      compare key B A = some (-c) := by
  refine ⟨_, compare_eq key A B, lex_compare_values _ _, lex_compare_lt _ _, ?_, ?_, ?_, ?_⟩
  · rw [← lex_compare_lt, lex_compare_swap (A.str.map key) (B.str.map key)]
    omega
  · rw [lex_compare_eq, (List.map_injective_iff.mpr hkey).eq_iff]
    constructor
    · intro h
      refine ⟨?_, h⟩
      rw [← A.str_length, ← B.str_length, h]
    · intro h
      exact h.2
  · intro t ht hB
    rw [hB, List.map_append]
    exact lex_compare_proper_start _ _ (by
      intro h
      exact ht (List.map_eq_nil_iff.mp h))
  · rw [compare_eq, lex_compare_swap (A.str.map key) (B.str.map key)]

theorem compare_is_three_way_lexicographic_witness :
    Function.Injective (fun c : Nat => (c : Int)) ∧
    (∃ c, compare (fun c : Nat => (c : Int)) (FixedString.lit "abc") (FixedString.lit "abd") =
        some c ∧ (c = -1 ∨ c = 0 ∨ c = 1) ∧
      (c = -1 ↔ List.Lex (fun x y => x < y)
        ((FixedString.lit "abc").str.map (fun c : Nat => (c : Int)))
        ((FixedString.lit "abd").str.map (fun c : Nat => (c : Int)))) ∧
      (c = 1 ↔ List.Lex (fun x y => x < y)
        ((FixedString.lit "abd").str.map (fun c : Nat => (c : Int)))
        ((FixedString.lit "abc").str.map (fun c : Nat => (c : Int)))) ∧
      (c = 0 ↔ (FixedString.lit "abc").size = (FixedString.lit "abd").size ∧
        (FixedString.lit "abc").str = (FixedString.lit "abd").str) ∧
      (∀ t, t ≠ [] → (FixedString.lit "abd").str = (FixedString.lit "abc").str ++ t → c = -1) ∧
      compare (fun c : Nat => (c : Int)) (FixedString.lit "abd") (FixedString.lit "abc") =
        some (-c)) ∧
    compare (fun c : Nat => (c : Int)) (FixedString.lit "abc") (FixedString.lit "abd") =
      some (-1) ∧
    compare (fun c : Nat => (c : Int)) (FixedString.lit "abc") (FixedString.lit "ab") = some 1 ∧
    compare (fun c : Nat => (c : Int)) (FixedString.lit "ab") (FixedString.lit "abc") =
      some (-1) ∧
    compare (fun c : Nat => (c : Int)) (FixedString.lit "abc") (FixedString.lit "abc") = some 0 :=
  ⟨fun _ _ h => Int.ofNat.inj h,
    compare_is_three_way_lexicographic (fun c : Nat => (c : Int)) (fun _ _ h => Int.ofNat.inj h)
      (FixedString.lit "abc") (FixedString.lit "abd"),
    by decide, by decide, by decide, by decide⟩

/-! ## Transformations, path functions and refinements of the hash engine -/

/-! ## `while` loops, copying loops and the buffer constructor -/

/-- Loop rule for `whileLoop`: an invariant kept by the body together with a measure that the
body decreases and the fuel exceeds make the loop end, with the invariant and the negated
condition. -/
theorem whileLoop_inv {σ : Type} (I : σ → Prop) (m : σ → Nat) (cond : σ → Bool)
    (body : σ → Option σ)
    (hstep : ∀ s, I s → cond s = true → ∃ t, body s = some t ∧ I t ∧ m t < m s) :
    ∀ fuel s, I s → m s < fuel →
      ∃ t, whileLoop fuel cond body s = some t ∧ I t ∧ cond t = false := by
  intro fuel
  induction fuel with
  | zero => intro s _ h; exact absurd h (Nat.not_lt_zero _)
  | succ fuel ih =>
    intro s hI hm
    show ∃ t, (if cond s then (body s).bind (whileLoop fuel cond body) else some s) = some t ∧ _
    by_cases hc : cond s = true
    · obtain ⟨t, ht, hIt, hmt⟩ := hstep s hI hc
      rw [if_pos hc, ht, Option.some_bind]
      exact ih t hIt (by omega)
    · rw [if_neg hc]
      exact ⟨s, rfl, hI, by simpa using hc⟩

theorem size_sub_eq (a b : Nat) (hb : b ≤ a) (ha : a < 2 ^ 64) : size_sub a b = a - b := by
  unfold size_sub
  omega

/-- A loop storing `f (src[soff + i])` at `dst[doff + i]` for `i < len`. -/
theorem copy_loop (f : Nat → Nat) (src : List Nat) (soff doff : Nat) (dst : List Nat) :
    ∀ len, soff + len ≤ src.length → doff + len ≤ dst.length →
      forLoop 0 len (fun i buf => (src[soff + i]?).bind (fun c => arrWrite buf (doff + i) (f c)))
        dst =
      some (dst.take doff ++ ((src.drop soff).take len).map f ++ dst.drop (doff + len)) := by
  intro len
  induction len with
  | zero =>
    intro _ _
    rw [forLoop_zero, List.take_zero, List.map_nil, List.append_nil, Nat.add_zero,
      List.take_append_drop]
  | succ len ih =>
    intro hs hd
    have hsl : soff + len < src.length := by omega
    have hdl : doff + len < dst.length := by omega
    rw [forLoop_succ, ih (by omega) (by omega), Option.some_bind, Nat.zero_add,
      List.getElem?_eq_getElem hsl, Option.some_bind]
    have hlen1 : (dst.take doff).length = doff := by rw [List.length_take]; omega
    have hlen2 : (((src.drop soff).take len).map f).length = len := by
      rw [List.length_map, List.length_take, List.length_drop]; omega
    unfold arrWrite
    rw [if_pos (by
      rw [List.length_append, List.length_append, hlen1, hlen2, List.length_drop]; omega)]
    apply congrArg some
    rw [List.take_succ, List.map_append, List.getElem?_drop, List.getElem?_eq_getElem hsl]
    rw [List.drop_eq_getElem_cons hdl]
    rw [List.set_append_right _ _ (by
      rw [List.length_append, hlen1, hlen2])]
    rw [List.length_append, hlen1, hlen2, Nat.sub_self]
    simp only [List.set_cons_zero, Option.toList, List.map_cons, List.map_nil, List.append_assoc,
      List.singleton_append, Nat.add_assoc]

theorem take_drop_str (Str : FixedString) (pos len : Nat) (h : pos + len ≤ Str.size) :
    (Str.data.drop pos).take len = (Str.str.drop pos).take len := by
  unfold FixedString.str
  rw [List.drop_take, List.take_take, Nat.min_eq_left (by omega)]

/-- The copying loop of the transformations: `buf[i] = f(Str[pos + i])` for `i < len`, on a
zeroed buffer of `n` elements. -/
theorem copy_from_str (f : Nat → Nat) (Str : FixedString) (pos len n : Nat)
    (h : pos + len ≤ Str.size) (hn : len ≤ n) :
    forLoop 0 len (fun i buf => do
      let c ← Str.get (pos + i)
      arrWrite buf i (f c)) (List.replicate n 0) =
    some (((Str.str.drop pos).take len).map f ++ List.replicate (n - len) 0) := by
  have hcongr := forLoop_congr 0 len
    (fun i buf => do
      let c ← Str.get (pos + i)
      arrWrite buf i (f c))
    (fun i buf => (Str.data[pos + i]?).bind (fun c => arrWrite buf (0 + i) (f c)))
    (List.replicate n 0)
    (by
      intro k _ t
      simp only [Option.bind_eq_bind, FixedString.get, Nat.zero_add])
  rw [hcongr, copy_loop f Str.data pos 0 (List.replicate n 0) len
    (by have := Str.size_le; omega) (by rw [List.length_replicate]; omega),
    List.take_zero, List.nil_append, Nat.zero_add, List.drop_replicate, take_drop_str Str pos len h]

theorem from_buffer_eq (N : Nat) (str : List Nat) (len : Nat) (h1 : len ≤ str.length)
    (h2 : len < N) :
    FixedString.from_buffer N str len =
      some ⟨str.take len ++ List.replicate (N - len) 0⟩ := by
  have hcongr := forLoop_congr 0 len
    (fun i data => do
      let c ← str[i]?
      arrWrite data i c)
    (fun i buf => (str[0 + i]?).bind (fun c => arrWrite buf (0 + i) (id c)))
    (List.replicate N 0)
    (by
      intro k _ t
      simp only [Option.bind_eq_bind, Nat.zero_add, id])
  unfold FixedString.from_buffer
  simp only [Option.bind_eq_bind] at hcongr ⊢
  rw [hcongr, copy_loop id str 0 0 (List.replicate N 0) len (by omega)
    (by rw [List.length_replicate]; omega), Option.some_bind,
    List.take_zero, List.nil_append, Nat.zero_add, List.drop_replicate, List.drop_zero,
    List.map_id]
  have hl : (str.take len).length = len := by rw [List.length_take]; omega
  unfold arrWrite
  rw [if_pos (by rw [List.length_append, hl, List.length_replicate]; omega), Option.some_bind]
  apply congrArg some
  apply congrArg FixedString.mk
  rw [List.set_append_right _ _ (by rw [hl]), hl, Nat.sub_self]
  obtain ⟨k, hk⟩ : ∃ k, N - len = k + 1 := ⟨N - len - 1, by omega⟩
  rw [hk]
  rfl

theorem str_of_content (c : List Nat) : (FixedString.mk (c ++ [0])).str = c := by
  unfold FixedString.str FixedString.size
  simp

theorem size_of_content (c : List Nat) : (FixedString.mk (c ++ [0])).size = c.length := by
  rw [← FixedString.str_length, str_of_content]

/-- A transformation that copies `f(Str[pos + i])`, `i < len`, into a buffer of `len + 1`
elements and builds the result from it yields these elements and the terminator. -/
theorem build_string (f : Nat → Nat) (Str : FixedString) (pos len : Nat)
    (h : pos + len ≤ Str.size) :
    (forLoop 0 len (fun i buf => do
      let c ← Str.get (pos + i)
      arrWrite buf i (f c)) (List.replicate (len + 1) 0)).bind
      (fun buf => FixedString.from_buffer (len + 1) buf len) =
    some ⟨((Str.str.drop pos).take len).map f ++ [0]⟩ := by
  have hl : (((Str.str.drop pos).take len).map f).length = len := by
    rw [List.length_map, List.length_take, List.length_drop, Str.str_length]; omega
  rw [copy_from_str f Str pos len (len + 1) h (by omega), Option.some_bind,
    from_buffer_eq _ _ _ (by rw [List.length_append, hl]; omega) (by omega)]
  apply congrArg some
  apply congrArg FixedString.mk
  rw [List.take_left' hl, Nat.add_sub_cancel_left]
  rfl

/-! ## `substr`, `to_upper`, `to_lower` -/

theorem build_copy (Str : FixedString) (pos len : Nat) (h : pos + len ≤ Str.size) :
    (forLoop 0 len (fun i buf => do
      let c ← Str.get (pos + i)
      arrWrite buf i c) (List.replicate (len + 1) 0)).bind
      (fun buf => FixedString.from_buffer (len + 1) buf len) =
    some ⟨(Str.str.drop pos).take len ++ [0]⟩ := by
  have h1 := build_string (fun c => c) Str pos len h
  rw [List.map_id'] at h1
  exact h1

theorem substr_logic_eq (S : FixedString) (Start Length : Nat) :
    substr_logic S Start Length =
      some ⟨(S.str.drop (min Start S.size)).take (min Length (S.size - min Start S.size)) ++
        [0]⟩ := by
  have hs : (if Start < S.size then Start else S.size) = min Start S.size := by
    split <;> omega
  have hl : ∀ m, (if Length < m then Length else m) = min Length m := by
    intro m; split <;> omega
  unfold substr_logic
  simp only [Option.bind_eq_bind, hs, hl]
  exact build_copy S _ _ (by omega)

theorem case_map_eq (f : Nat → Nat) (S : FixedString) (h : 0 < S.data.length) :
    (forLoop 0 S.size (fun i buf => do
      let c ← S.get i
      arrWrite buf i (f c)) (List.replicate S.data.length 0)).bind
      (fun buf => FixedString.from_buffer S.data.length buf S.size) =
    some ⟨S.str.map f ++ [0]⟩ := by
  have hN : S.data.length = S.size + 1 := by
    unfold FixedString.size; rw [if_pos h]; omega
  have hb := build_string f S 0 S.size (by omega)
  simp only [Nat.zero_add, List.drop_zero] at hb
  rw [List.take_of_length_le (by rw [S.str_length])] at hb
  rw [hN]
  exact hb

theorem to_upper_logic_eq (S : FixedString) (h : 0 < S.data.length) :
    to_upper_logic S = some ⟨S.str.map ascii_upper ++ [0]⟩ :=
  case_map_eq ascii_upper S h

theorem to_lower_logic_eq (S : FixedString) (h : 0 < S.data.length) :
    to_lower_logic S = some ⟨S.str.map ascii_lower ++ [0]⟩ :=
  case_map_eq ascii_lower S h

theorem ascii_upper_twice (c : Nat) : ascii_upper (ascii_upper c) = ascii_upper c := by
  unfold ascii_upper
  split
  · rw [if_neg (by omega)]
  · rfl

theorem ascii_lower_twice (c : Nat) : ascii_lower (ascii_lower c) = ascii_lower c := by
  unfold ascii_lower
  split
  · rw [if_neg (by omega)]
  · rfl

/-- C27: `substr<S, Start, Length>` is the elements of `S` at the indices from
`min(Start, |S|)` up to `min(Start, |S|) + min(Length, |S| - min(Start, |S|))`: a length
running past the end is clamped, a start at or past the end gives the empty string, and the
result depends on the elements of `S` before its terminator only. -/
theorem substr_is_clamped_slice (S : FixedString) (Start Length : Nat) :
    ∃ r, substr_logic S Start Length = some r ∧ r.data = r.str ++ [0] ∧
      r.size = min Length (S.size - min Start S.size) ∧
      r.str = (S.str.drop (min Start S.size)).take (min Length (S.size - min Start S.size)) ∧
      (∀ i, i < r.size → r.str[i]? = S.str[min Start S.size + i]?) ∧
      (S.size ≤ Start → r.str = []) ∧
      (∀ T : FixedString, T.str = S.str →
        substr_logic T Start Length = substr_logic S Start Length) := by
  have hlen : ((S.str.drop (min Start S.size)).take
      (min Length (S.size - min Start S.size))).length =
      min Length (S.size - min Start S.size) := by
    rw [List.length_take, List.length_drop, S.str_length]; omega
  refine ⟨_, substr_logic_eq S Start Length, ?_, ?_, str_of_content _, ?_, ?_, ?_⟩
  · rw [str_of_content]
  · rw [size_of_content, hlen]
  · intro i hi
    rw [size_of_content, hlen] at hi
    rw [str_of_content, List.getElem?_take_of_lt hi, List.getElem?_drop]
  · intro h
    rw [str_of_content, Nat.min_eq_right h, Nat.sub_self, Nat.min_eq_right (Nat.zero_le _),
      List.take_zero]
  · intro T hT
    have hsz : T.size = S.size := by rw [← T.str_length, ← S.str_length, hT]
    rw [substr_logic_eq, substr_logic_eq, hT, hsz]

theorem substr_is_clamped_slice_witness :
    (∃ r, substr_logic (FixedString.lit "Hello World") 6 100 = some r ∧
      r.data = r.str ++ [0] ∧
      r.size = min 100 ((FixedString.lit "Hello World").size -
        min 6 (FixedString.lit "Hello World").size) ∧
      r.str = ((FixedString.lit "Hello World").str.drop
        (min 6 (FixedString.lit "Hello World").size)).take
        (min 100 ((FixedString.lit "Hello World").size -
          min 6 (FixedString.lit "Hello World").size)) ∧
      (∀ i, i < r.size →
        r.str[i]? = (FixedString.lit "Hello World").str[
          min 6 (FixedString.lit "Hello World").size + i]?) ∧
      ((FixedString.lit "Hello World").size ≤ 6 → r.str = []) ∧
      (∀ T : FixedString, T.str = (FixedString.lit "Hello World").str →
        substr_logic T 6 100 = substr_logic (FixedString.lit "Hello World") 6 100)) ∧
    substr_logic (FixedString.lit "Hello World") 6 100 = some (FixedString.lit "World") ∧
    substr_logic (FixedString.lit "Hello World") 11 3 = some (FixedString.lit "") :=
  ⟨substr_is_clamped_slice (FixedString.lit "Hello World") 6 100, by decide, by decide⟩

/-- C28: `to_upper<S>` has the length of `S`, maps each element from `'a'` to `'z'` (97 to
122) to the corresponding element from `'A'` to `'Z'` (65 to 90) and leaves every other
element unchanged; `to_lower` is the mirror image; and applying `to_upper` (or `to_lower`) to
its own result changes nothing. -/
theorem to_upper_maps_letters_only (S : FixedString) (h : 0 < S.data.length) :
    ∃ u l, to_upper_logic S = some u ∧ to_lower_logic S = some l ∧
      u.size = S.size ∧ l.size = S.size ∧
      u.data.length = S.data.length ∧ l.data.length = S.data.length ∧
      (∀ i, i < S.size → ∃ c, S.str[i]? = some c ∧
        u.str[i]? = some (if 97 ≤ c ∧ c ≤ 122 then c - 97 + 65 else c) ∧
        l.str[i]? = some (if 65 ≤ c ∧ c ≤ 90 then c - 65 + 97 else c)) ∧
      to_upper_logic u = some u ∧ to_lower_logic l = some l := by
  have hN : S.data.length = S.size + 1 := by
    unfold FixedString.size; rw [if_pos h]; omega
  have hup : ∀ c, ascii_upper c = if 97 ≤ c ∧ c ≤ 122 then c - 97 + 65 else c := by
    intro c; unfold ascii_upper; split <;> omega
  have hlo : ∀ c, ascii_lower c = if 65 ≤ c ∧ c ≤ 90 then c - 65 + 97 else c := by
    intro c; unfold ascii_lower; split <;> omega
  refine ⟨_, _, to_upper_logic_eq S h, to_lower_logic_eq S h, ?_, ?_, ?_, ?_, ?_, ?_, ?_⟩
  · rw [size_of_content, List.length_map, S.str_length]
  · rw [size_of_content, List.length_map, S.str_length]
  · rw [List.length_append, List.length_map, S.str_length, hN]; rfl
  · rw [List.length_append, List.length_map, S.str_length, hN]; rfl
  · intro i hi
    have hi2 : i < S.str.length := by rw [S.str_length]; exact hi
    refine ⟨S.str[i], List.getElem?_eq_getElem hi2, ?_, ?_⟩
    · rw [str_of_content, List.getElem?_map, List.getElem?_eq_getElem hi2, Option.map_some', hup]
    · rw [str_of_content, List.getElem?_map, List.getElem?_eq_getElem hi2, Option.map_some', hlo]
  · rw [to_upper_logic_eq _ (by rw [List.length_append]; exact Nat.succ_pos _), str_of_content,
      List.map_map]
    have : ascii_upper ∘ ascii_upper = ascii_upper := funext ascii_upper_twice
    rw [this]
  · rw [to_lower_logic_eq _ (by rw [List.length_append]; exact Nat.succ_pos _), str_of_content,
      List.map_map]
    have : ascii_lower ∘ ascii_lower = ascii_lower := funext ascii_lower_twice
    rw [this]

theorem to_upper_maps_letters_only_witness :
    0 < (FixedString.lit "Hello, World 123!").data.length ∧
    (∃ u l, to_upper_logic (FixedString.lit "Hello, World 123!") = some u ∧
      to_lower_logic (FixedString.lit "Hello, World 123!") = some l ∧
      u.size = (FixedString.lit "Hello, World 123!").size ∧
      l.size = (FixedString.lit "Hello, World 123!").size ∧
      u.data.length = (FixedString.lit "Hello, World 123!").data.length ∧
      l.data.length = (FixedString.lit "Hello, World 123!").data.length ∧
      (∀ i, i < (FixedString.lit "Hello, World 123!").size →
        ∃ c, (FixedString.lit "Hello, World 123!").str[i]? = some c ∧
          u.str[i]? = some (if 97 ≤ c ∧ c ≤ 122 then c - 97 + 65 else c) ∧
          l.str[i]? = some (if 65 ≤ c ∧ c ≤ 90 then c - 65 + 97 else c)) ∧
      to_upper_logic u = some u ∧ to_lower_logic l = some l) ∧
    to_upper_logic (FixedString.lit "Hello, World 123!") =
      some (FixedString.lit "HELLO, WORLD 123!") ∧
    to_lower_logic (FixedString.lit "Hello, World 123!") =
      some (FixedString.lit "hello, world 123!") :=
  ⟨by decide, to_upper_maps_letters_only (FixedString.lit "Hello, World 123!") (by decide),
    by decide, by decide⟩

/-! ## Scans -/

theorem scan_back_spec (Str : FixedString) (p : Nat → Prop) [DecidablePred p] (g : Nat → Nat)
    (dflt lo : Nat) (hlo : lo ≤ Str.size) :
    (scan_back Str p g dflt lo = some dflt ∧
      ∀ j, lo ≤ j → j < Str.size → ¬ p (Str.str.getD j 0)) ∨
    (∃ i, lo < i ∧ i ≤ Str.size ∧ scan_back Str p g dflt lo = some (g i) ∧
      p (Str.str.getD (i - 1) 0) ∧ ∀ j, i ≤ j → j < Str.size → ¬ p (Str.str.getD j 0)) := by
  have hbody : ∀ k, k < Str.size - lo →
      (do
        let i := Str.size - k
        let c ← Str.get (i - 1)
        if p c then some (Sum.inr (g i)) else some (Sum.inl ()) : Option (Unit ⊕ Nat)) =
      if p (Str.str.getD (Str.size - k - 1) 0) then some (Sum.inr (g (Str.size - k)))
      else some (Sum.inl ()) := by
    intro k hk
    simp only [Option.bind_eq_bind]
    rw [Str.get_eq _ (by omega), Option.some_bind]
  by_cases hex : ∃ j, lo ≤ j ∧ j < Str.size ∧ p (Str.str.getD j 0)
  · right
    obtain ⟨j0, hj0⟩ := hex
    have hJ := Nat.findGreatest_spec (P := fun j => lo ≤ j ∧ j < Str.size ∧ p (Str.str.getD j 0))
      (Nat.le_of_lt hj0.2.1) hj0
    have hmax : ∀ j, Nat.findGreatest (fun j => lo ≤ j ∧ j < Str.size ∧
        p (Str.str.getD j 0)) Str.size < j → j < Str.size → ¬ p (Str.str.getD j 0) := by
      intro j hj hjs hp
      have := Nat.findGreatest_is_greatest (P := fun j => lo ≤ j ∧ j < Str.size ∧
        p (Str.str.getD j 0)) hj (Nat.le_of_lt hjs)
      exact this ⟨by omega, hjs, hp⟩
    generalize Nat.findGreatest (fun j => lo ≤ j ∧ j < Str.size ∧
      p (Str.str.getD j 0)) Str.size = J at hJ hmax
    refine ⟨J + 1, by omega, by omega, ?_, by rw [Nat.add_sub_cancel]; exact hJ.2.2,
      fun j hj hjs => hmax j (by omega) hjs⟩
    unfold scan_back
    rw [forUntil_first _ () (g (J + 1)) (Str.size - (J + 1)) _ 0 (by omega)]
    · rfl
    · intro k hk
      rw [Nat.zero_add, hbody k (by omega), if_neg (hmax _ (by omega) (by omega))]
    · rw [Nat.zero_add, hbody _ (by omega),
        show Str.size - (Str.size - (J + 1)) - 1 = J by omega, if_pos hJ.2.2,
        show Str.size - (Str.size - (J + 1)) = J + 1 by omega]
  · left
    have hno : ∀ j, lo ≤ j → j < Str.size → ¬ p (Str.str.getD j 0) :=
      fun j h1 h2 h3 => hex ⟨j, h1, h2, h3⟩
    refine ⟨?_, hno⟩
    unfold scan_back
    rw [forUntil_all _ () _ 0]
    · rfl
    · intro k hk
      rw [Nat.zero_add, hbody k hk, if_neg (hno _ (by omega) (by omega))]

theorem find_last_separator_eq (Path : FixedString) :
    find_last_separator Path = scan_back Path is_separator (fun i => i) 0 0 := rfl

/-- The result of `find_last_separator`: a position with no separator at or after it, which
is `0` or just after a separator. -/
theorem find_last_separator_spec (Path : FixedString) :
    ∃ pos, find_last_separator Path = some pos ∧ pos ≤ Path.size ∧
      (pos = 0 ∨ is_separator (Path.str.getD (pos - 1) 0)) ∧
      ∀ j, pos ≤ j → j < Path.size → ¬ is_separator (Path.str.getD j 0) := by
  rw [find_last_separator_eq]
  rcases scan_back_spec Path is_separator (fun i => i) 0 0 (Nat.zero_le _) with
    ⟨h1, h2⟩ | ⟨i, h1, h2, h3, h4, h5⟩
  · exact ⟨0, h1, Nat.zero_le _, Or.inl rfl, fun j _ hj => h2 j (Nat.zero_le _) hj⟩
  · exact ⟨i, h3, h2, Or.inr h4, h5⟩

/-- The result of `find_last_dot`, given the position found by `find_last_separator`: the
index of the last `'.'` at or after that position, or `Path.size()` when there is none. -/
theorem find_last_dot_spec (Path : FixedString) (pos : Nat)
    (hpos : find_last_separator Path = some pos) (hle : pos ≤ Path.size) :
    ∃ dot, find_last_dot Path = some dot ∧
      ((dot = Path.size ∧ ∀ j, pos ≤ j → j < Path.size → Path.str.getD j 0 ≠ 46) ∨
       (pos ≤ dot ∧ dot < Path.size ∧ Path.str.getD dot 0 = 46 ∧
         ∀ j, dot < j → j < Path.size → Path.str.getD j 0 ≠ 46)) := by
  have heq : find_last_dot Path =
      scan_back Path (fun c => c = 46) (fun i => i - 1) Path.size pos := by
    unfold find_last_dot
    rw [hpos]
    rfl
  rw [heq]
  rcases scan_back_spec Path (fun c => c = 46) (fun i => i - 1) Path.size pos hle with
    ⟨h1, h2⟩ | ⟨i, h1, h2, h3, h4, h5⟩
  · exact ⟨_, h1, Or.inl ⟨rfl, h2⟩⟩
  · exact ⟨_, h3, Or.inr ⟨by omega, by omega, h4, fun j hj hjs => h5 j (by omega) hjs⟩⟩

/-! ## `filename`, `stem`, `extension` -/

theorem filename_logic_eq (Path : FixedString) (pos : Nat)
    (hpos : find_last_separator Path = some pos) (hle : pos ≤ Path.size) :
    filename_logic Path = some ⟨Path.str.drop pos ++ [0]⟩ := by
  unfold filename_logic
  simp only [Option.bind_eq_bind]
  have hb := build_copy Path pos (Path.size - pos) (by omega)
  rw [List.take_of_length_le (by rw [List.length_drop, Path.str_length])] at hb
  rw [hpos, Option.some_bind]
  exact hb

theorem stem_logic_eq (Path : FixedString) (pos dot : Nat)
    (hpos : find_last_separator Path = some pos) (hdot : find_last_dot Path = some dot)
    (hle : pos ≤ Path.size) (hd : dot ≤ Path.size) :
    stem_logic Path = some ⟨(Path.str.drop pos).take
      ((if dot > pos ∧ dot ≠ Path.size then dot else Path.size) - pos) ++ [0]⟩ := by
  unfold stem_logic
  simp only [Option.bind_eq_bind]
  rw [hpos, Option.some_bind, hdot, Option.some_bind]
  exact build_copy Path pos _ (by split <;> omega)

/-- The result of `extension_logic` for a path with the element type `T`: the part of the
path from the dot that starts the extension; in the branch without extension the empty
string when `T` is `char`, and no value otherwise. -/
theorem extension_logic_eq (T : CharT) (Path : FixedString) (pos dot : Nat)
    (hpos : find_last_separator Path = some pos) (hdot : find_last_dot Path = some dot)
    (hd : dot ≤ Path.size) :
    extension_logic T Path =
      if dot = Path.size ∨ dot ≤ pos then (if T = CharT.char then some ⟨[0]⟩ else none)
      else some ⟨Path.str.drop dot ++ [0]⟩ := by
  unfold extension_logic
  simp only [Option.bind_eq_bind]
  rw [hdot, Option.some_bind, hpos, Option.some_bind]
  by_cases h : dot = Path.size ∨ dot ≤ pos
  · rw [if_pos h, if_pos h]
    by_cases hT : T = CharT.char
    · rw [if_pos hT, if_pos hT]
      exact from_buffer_eq 1 [0] 0 (Nat.zero_le _) (by decide)
    · rw [if_neg hT, if_neg hT]
  · have hb := build_copy Path dot (Path.size - dot) (by omega)
    rw [List.take_of_length_le (by rw [List.length_drop, Path.str_length])] at hb
    rw [if_neg h, if_neg h]
    exact hb

/-- The result of `extension_logic` for a path of `char`. -/
theorem extension_logic_char_eq (Path : FixedString) (pos dot : Nat)
    (hpos : find_last_separator Path = some pos) (hdot : find_last_dot Path = some dot)
    (hd : dot ≤ Path.size) :
    extension_logic CharT.char Path = some ⟨(if dot = Path.size ∨ dot ≤ pos then []
      else Path.str.drop dot) ++ [0]⟩ := by
  rw [extension_logic_eq CharT.char Path pos dot hpos hdot hd]
  by_cases h : dot = Path.size ∨ dot ≤ pos
  · rw [if_pos h, if_pos h, if_pos rfl]
    rfl
  · rw [if_neg h, if_neg h]

/-- The result of `extension_logic` for every element type, in terms of the extension part
of the path: it has a value when the element type is `char` or the extension is not
empty. -/
theorem extension_logic_any (T : CharT) (Path : FixedString) (pos dot : Nat)
    (hpos : find_last_separator Path = some pos) (hdot : find_last_dot Path = some dot)
    (hd : dot ≤ Path.size) :
    extension_logic T Path =
      if T = CharT.char ∨
          (if dot = Path.size ∨ dot ≤ pos then [] else Path.str.drop dot) ≠ [] then
        some ⟨(if dot = Path.size ∨ dot ≤ pos then [] else Path.str.drop dot) ++ [0]⟩
      else none := by
  rw [extension_logic_eq T Path pos dot hpos hdot hd]
  by_cases h : dot = Path.size ∨ dot ≤ pos
  · simp only [if_pos h, ne_eq, not_true_eq_false, or_false]
    by_cases hT : T = CharT.char
    · rw [if_pos hT, if_pos hT]
      rfl
    · rw [if_neg hT, if_neg hT]
  · have hne : Path.str.drop dot ≠ [] := by
      intro hnil
      have := congrArg List.length hnil
      rw [List.length_drop, Path.str_length, List.length_nil] at this
      omega
    rw [if_neg h, if_neg h, if_pos (Or.inr hne)]

theorem getD_drop_eq (l : List Nat) (n i : Nat) : (l.drop n).getD i 0 = l.getD (n + i) 0 := by
  rw [List.getD_eq_getElem?_getD, List.getD_eq_getElem?_getD, List.getElem?_drop]

theorem mem_getD (l : List Nat) (c : Nat) (h : c ∈ l) : ∃ i, i < l.length ∧ l.getD i 0 = c := by
  obtain ⟨i, hi, hc⟩ := List.mem_iff_getElem.mp h
  exact ⟨i, hi, by rw [List.getD_eq_getElem l 0 hi, hc]⟩

theorem getD_mem (l : List Nat) (i : Nat) (h : i < l.length) : l.getD i 0 ∈ l := by
  rw [List.getD_eq_getElem l 0 h]
  exact List.getElem_mem h

/-- C22: `filename<P>` is the part of `P` after its last separator (`'/'` or `'\\'`): `P` is a
part that is empty or ends with a separator, followed by the filename, which has no
separator; it is the whole of `P` when `P` has no separator and empty when `P` ends with a
separator. -/
theorem filename_is_after_last_separator (P : FixedString) :
    ∃ fn pos, filename_logic P = some fn ∧ fn.data = fn.str ++ [0] ∧ pos ≤ P.size ∧
      P.str = P.str.take pos ++ fn.str ∧
      (pos = 0 ∨ is_separator (P.str.getD (pos - 1) 0)) ∧
      (∀ c ∈ fn.str, ¬ is_separator c) ∧
      ((∀ c ∈ P.str, ¬ is_separator c) → fn.str = P.str) ∧
      (∀ c, P.str.getLast? = some c → is_separator c → fn.str = []) := by
  obtain ⟨pos, hpos, hle, hsep, hno⟩ := find_last_separator_spec P
  have hmem : ∀ c ∈ P.str.drop pos, ¬ is_separator c := by
    intro c hc
    obtain ⟨i, hi, hci⟩ := mem_getD _ c hc
    rw [List.length_drop, P.str_length] at hi
    rw [getD_drop_eq] at hci
    rw [← hci]
    exact hno _ (by omega) (by omega)
  refine ⟨_, pos, filename_logic_eq P pos hpos hle, ?_, hle, ?_, hsep, ?_, ?_, ?_⟩
  · rw [str_of_content]
  · rw [str_of_content, List.take_append_drop]
  · rw [str_of_content]; exact hmem
  · intro h
    rw [str_of_content]
    rcases hsep with h0 | h1
    · rw [h0, List.drop_zero]
    · by_cases hp : pos = 0
      · rw [hp, List.drop_zero]
      · exact absurd h1 (h _ (getD_mem _ _ (by rw [P.str_length]; omega)))
  · intro c hc hs
    rw [str_of_content]
    by_contra hne
    have hlt : pos < P.size := by
      by_contra hge
      exact hne (List.drop_of_length_le (by rw [P.str_length]; omega))
    rw [List.getLast?_eq_getElem?, P.str_length,
      List.getElem?_eq_getElem (by rw [P.str_length]; omega)] at hc
    have hc2 : P.str.getD (P.size - 1) 0 = c := by
      rw [List.getD_eq_getElem _ 0 (by rw [P.str_length]; omega)]
      exact Option.some.inj hc
    rw [← hc2] at hs
    exact hno _ (by omega) (by omega) hs

theorem filename_is_after_last_separator_witness :
    (∃ fn pos, filename_logic (FixedString.lit "/usr/local\\bin/program") = some fn ∧
      fn.data = fn.str ++ [0] ∧ pos ≤ (FixedString.lit "/usr/local\\bin/program").size ∧
      (FixedString.lit "/usr/local\\bin/program").str =
        (FixedString.lit "/usr/local\\bin/program").str.take pos ++ fn.str ∧
      (pos = 0 ∨
        is_separator ((FixedString.lit "/usr/local\\bin/program").str.getD (pos - 1) 0)) ∧
      (∀ c ∈ fn.str, ¬ is_separator c) ∧
      ((∀ c ∈ (FixedString.lit "/usr/local\\bin/program").str, ¬ is_separator c) →
        fn.str = (FixedString.lit "/usr/local\\bin/program").str) ∧
      (∀ c, (FixedString.lit "/usr/local\\bin/program").str.getLast? = some c →
        is_separator c → fn.str = [])) ∧
    filename_logic (FixedString.lit "/usr/local\\bin/program") =
      some (FixedString.lit "program") ∧
    filename_logic (FixedString.lit "document.pdf") = some (FixedString.lit "document.pdf") ∧
    filename_logic (FixedString.lit "/path/to/") = some (FixedString.lit "") :=
  ⟨filename_is_after_last_separator (FixedString.lit "/usr/local\\bin/program"),
    by decide, by decide, by decide⟩

/-- The positions computed by `find_last_separator` and `find_last_dot`, with the results of
`filename_logic`, `stem_logic` and `extension_logic` (for a path of `char`) in terms of
them. -/
theorem path_parts (P : FixedString) :
    ∃ pos dot, find_last_separator P = some pos ∧ find_last_dot P = some dot ∧
      pos ≤ P.size ∧ dot ≤ P.size ∧
      ((dot = P.size ∧ ∀ j, pos ≤ j → j < P.size → P.str.getD j 0 ≠ 46) ∨
       (pos ≤ dot ∧ dot < P.size ∧ P.str.getD dot 0 = 46 ∧
         ∀ j, dot < j → j < P.size → P.str.getD j 0 ≠ 46)) ∧
      filename_logic P = some ⟨P.str.drop pos ++ [0]⟩ ∧
      stem_logic P = some ⟨(P.str.drop pos).take
        ((if dot > pos ∧ dot ≠ P.size then dot else P.size) - pos) ++ [0]⟩ ∧
      extension_logic CharT.char P = some ⟨(if dot = P.size ∨ dot ≤ pos then []
        else P.str.drop dot) ++ [0]⟩ := by
  obtain ⟨pos, hpos, hle, -, -⟩ := find_last_separator_spec P
  obtain ⟨dot, hdot, hspec⟩ := find_last_dot_spec P pos hpos hle
  have hd : dot ≤ P.size := by
    rcases hspec with ⟨h, -⟩ | ⟨-, h, -⟩ <;> omega
  exact ⟨pos, dot, hpos, hdot, hle, hd, hspec, filename_logic_eq P pos hpos hle,
    stem_logic_eq P pos dot hpos hdot hle hd, extension_logic_char_eq P pos dot hpos hdot hd⟩

/-- Stem, extension and filename of a path.  For a path of `char`, `stem<P>` followed by
`extension<P>` is `filename<P>`; the extension starts at the last `'.'` (46) of the filename
when that dot is not the first character of the filename, and is empty otherwise (also when
the filename has no dot).  For a path of another element type `extension<P>` is the same
string when it is not empty, and has no value when it is empty. -/
theorem stem_extension_parts (P : FixedString) :
    ∃ st ex fn, stem_logic P = some st ∧ extension_logic CharT.char P = some ex ∧
      filename_logic P = some fn ∧
      st.str ++ ex.str = fn.str ∧
      ((∀ c ∈ fn.str, c ≠ 46) → ex.str = []) ∧
      (∀ d, d < fn.size → fn.str.getD d 0 = 46 →
        (∀ j, d < j → j < fn.size → fn.str.getD j 0 ≠ 46) →
        (d = 0 → ex.str = []) ∧
        (0 < d → ex.str = fn.str.drop d ∧ st.str = fn.str.take d)) ∧
      (∀ T, extension_logic T P = if T = CharT.char ∨ ex.str ≠ [] then some ex else none) := by
  obtain ⟨pos, dot, hpos, hdot, hle, hd, hspec, hfn, hst, hex⟩ := path_parts P
  refine ⟨_, _, _, hst, hex, hfn, ?_, ?_, ?_, fun T => by
    rw [str_of_content]; exact extension_logic_any T P pos dot hpos hdot hd⟩
  · rw [str_of_content, str_of_content, str_of_content]
    by_cases h : dot > pos ∧ dot ≠ P.size
    · rw [if_pos h, if_neg (by omega)]
      have : P.str.drop dot = (P.str.drop pos).drop (dot - pos) := by
        rw [List.drop_drop]; congr 1; omega
      rw [this, List.take_append_drop]
    · rw [if_neg h, if_pos (by omega), List.append_nil,
        List.take_of_length_le (by rw [List.length_drop, P.str_length])]
  · intro hno
    rw [str_of_content] at hno ⊢
    rcases hspec with ⟨h, -⟩ | ⟨h1, h2, h3, -⟩
    · rw [if_pos (Or.inl h)]
    · have hm : P.str.getD dot 0 ∈ P.str.drop pos := by
        have := getD_mem (P.str.drop pos) (dot - pos)
          (by rw [List.length_drop, P.str_length]; omega)
        rwa [getD_drop_eq, show pos + (dot - pos) = dot by omega] at this
      exact absurd h3 (hno _ hm)
  · intro d hd1 hd2 hd3
    rw [size_of_content, List.length_drop, P.str_length] at hd1
    rw [str_of_content, getD_drop_eq] at hd2
    have hd3 : ∀ j, pos + d < j → j < P.size → P.str.getD j 0 ≠ 46 := by
      intro j hj hjs
      have := hd3 (j - pos) (by omega)
        (by rw [size_of_content, List.length_drop, P.str_length]; omega)
      rwa [str_of_content, getD_drop_eq, show pos + (j - pos) = j by omega] at this
    have hdot : dot = pos + d := by
      rcases hspec with ⟨-, h⟩ | ⟨h1, h2, h3, h4⟩
      · exact absurd hd2 (h _ (by omega) (by omega))
      · by_contra hne
        rcases Nat.lt_or_gt_of_ne hne with hlt | hgt
        · exact h4 _ hlt (by omega) hd2
        · exact hd3 _ hgt h2 h3
    rw [str_of_content, str_of_content, str_of_content]
    constructor
    · intro h0
      rw [if_pos (Or.inr (by omega))]
    · intro h0
      rw [if_neg (by omega), if_pos (by omega), List.drop_drop, hdot,
        Nat.add_sub_cancel_left]
      exact ⟨by rw [Nat.add_comm], rfl⟩

/-- C21 (evaluation at the failing input): for a path whose element type is not `char` and
whose filename has no extension (`L"Makefile"`, `u8".gitignore"`: the elements of these
literals with the element types `wchar_t` and `char8_t`), `extension_logic` has no value,
while `stem_logic` and `filename_logic` have theirs; so there is no extension that, after
the stem, gives the filename.  For every path of `char`, stem followed by extension is the
filename, the extension starting at the last `'.'` of the filename when that dot is not its
first character and being empty otherwise; for a path of another element type the
extension is the same string when it is not empty. -/
theorem extension_of_wide_path_without_extension_is_rejected :
    (extension_logic CharT.wchar_t (FixedString.lit "Makefile") = none ∧
      stem_logic (FixedString.lit "Makefile") = some (FixedString.lit "Makefile") ∧
      filename_logic (FixedString.lit "Makefile") = some (FixedString.lit "Makefile")) ∧
    (extension_logic CharT.char8_t (FixedString.lit ".gitignore") = none ∧
      stem_logic (FixedString.lit ".gitignore") = some (FixedString.lit ".gitignore") ∧
      filename_logic (FixedString.lit ".gitignore") = some (FixedString.lit ".gitignore")) ∧
    (extension_logic CharT.char (FixedString.lit "Makefile") = some (FixedString.lit "") ∧
      extension_logic CharT.char (FixedString.lit ".gitignore") = some (FixedString.lit "")) ∧
    (extension_logic CharT.wchar_t (FixedString.lit "file.txt") = some (FixedString.lit ".txt") ∧
      extension_logic CharT.char (FixedString.lit ".config.ini") =
        some (FixedString.lit ".ini") ∧
      stem_logic (FixedString.lit "archive.tar.gz") = some (FixedString.lit "archive.tar") ∧
      extension_logic CharT.char32_t (FixedString.lit "/a.b/archive.tar.gz") =
        some (FixedString.lit ".gz")) ∧
    (∀ P : FixedString, ∃ st ex fn, stem_logic P = some st ∧
      extension_logic CharT.char P = some ex ∧
      filename_logic P = some fn ∧
      st.str ++ ex.str = fn.str ∧
      ((∀ c ∈ fn.str, c ≠ 46) → ex.str = []) ∧
      (∀ d, d < fn.size → fn.str.getD d 0 = 46 →
        (∀ j, d < j → j < fn.size → fn.str.getD j 0 ≠ 46) →
        (d = 0 → ex.str = []) ∧
        (0 < d → ex.str = fn.str.drop d ∧ st.str = fn.str.take d)) ∧
      (∀ T, extension_logic T P = if T = CharT.char ∨ ex.str ≠ [] then some ex else none)) :=
  ⟨⟨by decide, by decide, by decide⟩, ⟨by decide, by decide, by decide⟩,
    ⟨by decide, by decide⟩, ⟨by decide, by decide, by decide, by decide⟩,
    stem_extension_parts⟩

/-! ## `replace_extension` -/

theorem write_after (B : List Nat) (k v : Nat) :
    arrWrite (B ++ List.replicate (k + 1) 0) B.length v = some (B ++ v :: List.replicate k 0) := by
  unfold arrWrite
  rw [if_pos (by rw [List.length_append, List.length_replicate]; omega)]
  apply congrArg some
  rw [List.set_append_right _ _ (Nat.le_refl _), Nat.sub_self]
  rfl

theorem append_loop (E : FixedString) (B : List Nat) :
    forLoop 0 E.size (fun i buf => do
      let c ← E.get i
      arrWrite buf (B.length + i) c) (B ++ List.replicate (E.size + 1) 0) =
    some (B ++ E.str ++ [0]) := by
  have hcongr := forLoop_congr 0 E.size
    (fun i buf => do
      let c ← E.get i
      arrWrite buf (B.length + i) c)
    (fun i buf => (E.data[0 + i]?).bind (fun c => arrWrite buf (B.length + i) (id c)))
    (B ++ List.replicate (E.size + 1) 0)
    (by
      intro k _ t
      simp only [Option.bind_eq_bind, FixedString.get, Nat.zero_add, id])
  rw [hcongr, copy_loop id E.data 0 B.length _ E.size (by have := E.size_le; omega)
    (by rw [List.length_append, List.length_replicate]; omega)]
  apply congrArg some
  rw [List.take_left, List.drop_zero, List.map_id, List.drop_append, List.drop_replicate,
    Nat.add_sub_cancel_left]
  rfl

theorem from_buffer_content (C : List Nat) (len : Nat) (h : C.length = len) :
    FixedString.from_buffer (len + 1) (C ++ [0]) len = some ⟨C ++ [0]⟩ := by
  rw [from_buffer_eq _ _ _ (by rw [List.length_append, h]; omega) (by omega)]
  apply congrArg some
  apply congrArg FixedString.mk
  rw [List.take_left' h, Nat.add_sub_cancel_left]
  rfl

theorem replace_extension_tail (P E : FixedString) (bl : Nat) (hbl : bl ≤ P.size) (y : Bool) :
    (forLoop 0 bl (fun i buf => (P.get i).bind fun c => arrWrite buf i c)
      (List.replicate ((bl + if y = true then 1 else 0) + E.size + 1) 0)).bind
      (fun buf =>
        if y = true then
          (Option.map (fun b => (bl + 1, b)) (arrWrite buf bl 46)).bind fun w =>
            (forLoop 0 E.size (fun i buf => (E.get i).bind fun c => arrWrite buf (w.1 + i) c)
              w.2).bind fun buf =>
              FixedString.from_buffer ((bl + if y = true then 1 else 0) + E.size + 1) buf
                ((bl + if y = true then 1 else 0) + E.size)
        else
          (some (bl, buf)).bind fun w =>
            (forLoop 0 E.size (fun i buf => (E.get i).bind fun c => arrWrite buf (w.1 + i) c)
              w.2).bind fun buf =>
              FixedString.from_buffer ((bl + if y = true then 1 else 0) + E.size + 1) buf
                ((bl + if y = true then 1 else 0) + E.size)) =
    some ⟨P.str.take bl ++ (if y = true then [46] else []) ++ E.str ++ [0]⟩ := by
  have hB : (P.str.take bl).length = bl := by rw [List.length_take, P.str_length]; omega
  have h1 : ∀ n, bl ≤ n →
      forLoop 0 bl (fun i buf => (P.get i).bind fun c => arrWrite buf i c)
        (List.replicate n 0) = some (P.str.take bl ++ List.replicate (n - bl) 0) := by
    intro n hn
    have := copy_from_str (fun c => c) P 0 bl n (by omega) hn
    simp only [Option.bind_eq_bind, Nat.zero_add, List.drop_zero, List.map_id'] at this
    exact this
  have h2 : ∀ (B : List Nat) (k : Nat), B.length = k →
      forLoop 0 E.size (fun i buf => (E.get i).bind fun c => arrWrite buf (k + i) c)
        (B ++ List.replicate (E.size + 1) 0) = some (B ++ E.str ++ [0]) := by
    intro B k hk
    subst hk
    have := append_loop E B
    simp only [Option.bind_eq_bind] at this
    exact this
  cases y with
  | false =>
    simp only [Bool.false_eq_true, if_false, Nat.add_zero, List.append_nil]
    rw [h1 _ (by omega), Option.some_bind, Option.some_bind,
      show bl + E.size + 1 - bl = E.size + 1 by omega]
    simp only []
    rw [h2 _ bl hB, Option.some_bind]
    exact from_buffer_content _ _ (by rw [List.length_append, hB, E.str_length])
  | true =>
    simp only [if_true]
    rw [h1 _ (by omega), Option.some_bind,
      show bl + 1 + E.size + 1 - bl = (E.size + 1) + 1 by omega]
    have hw := write_after (P.str.take bl) (E.size + 1) 46
    rw [hB] at hw
    rw [hw, Option.map_some', Option.some_bind]
    simp only []
    rw [show P.str.take bl ++ 46 :: List.replicate (E.size + 1) 0 =
        (P.str.take bl ++ [46]) ++ List.replicate (E.size + 1) 0 by
      rw [List.append_assoc]; rfl]
    rw [h2 _ (bl + 1) (by rw [List.length_append, hB]; rfl), Option.some_bind]
    exact from_buffer_content _ _ (by
      rw [List.length_append, List.length_append, hB, E.str_length]; rfl)

theorem replace_extension_logic_eq (P E : FixedString) (pos dot : Nat)
    (hpos : find_last_separator P = some pos) (hdot : find_last_dot P = some dot)
    (hd : dot ≤ P.size) :
    replace_extension_logic P E =
      some ⟨P.str.take (if dot > pos ∧ dot ≠ P.size then dot else P.size) ++
        (if 0 < E.size ∧ E.str.getD 0 0 ≠ 46 then [46] else []) ++ E.str ++ [0]⟩ := by
  unfold replace_extension_logic
  simp only [Option.bind_eq_bind]
  rw [hdot, Option.some_bind, hpos, Option.some_bind]
  have hbl : (if dot > pos ∧ dot ≠ P.size then dot else P.size) ≤ P.size := by
    split <;> omega
  generalize (if dot > pos ∧ dot ≠ P.size then dot else P.size) = bl at hbl ⊢
  by_cases hE : E.size > 0
  · rw [if_pos hE, E.get_eq 0 hE, Option.map_some', Option.some_bind]
    have ht := replace_extension_tail P E bl hbl (decide (E.str.getD 0 0 ≠ 46))
    simp only [decide_eq_true_eq] at ht ⊢
    rw [ht]
    by_cases h46 : E.str.getD 0 0 = 46
    · rw [if_neg (not_not.mpr h46), if_neg (fun h => h.2 h46)]
    · rw [if_pos h46, if_pos ⟨hE, h46⟩]
  · rw [if_neg hE, Option.some_bind]
    have ht := replace_extension_tail P E bl hbl false
    simp only [Bool.false_eq_true, if_false] at ht ⊢
    rw [ht, if_neg (by omega)]

/-- C23: `replace_extension<P, E>` is `P` with its extension removed, followed by `E`, with
one `'.'` (46) before `E` exactly when `E` is not empty and does not begin with `'.'`.  The
extension `ex` of `P` is the part of the filename after the stem; it is the value of
`extension<P>` for a path of `char` and, when it is not empty, for every element type.
With `E` empty the result is `P` without its extension, and a path without an extension
gets `E` (after the dot, if one is needed) appended. -/
theorem replace_extension_swaps_extension (P E : FixedString) :
    ∃ r st fn ex base, replace_extension_logic P E = some r ∧
      stem_logic P = some st ∧ filename_logic P = some fn ∧ st.str ++ ex = fn.str ∧
      (∀ T, extension_logic T P =
        if T = CharT.char ∨ ex ≠ [] then some ⟨ex ++ [0]⟩ else none) ∧
      r.data = r.str ++ [0] ∧
      P.str = base ++ ex ∧
      r.str = base ++ (if 0 < E.size ∧ E.str.getD 0 0 ≠ 46 then [46] else []) ++ E.str ∧
      (E.size = 0 → r.str = base) ∧
      (ex = [] →
        r.str = P.str ++ (if 0 < E.size ∧ E.str.getD 0 0 ≠ 46 then [46] else []) ++ E.str) := by
  obtain ⟨pos, dot, hpos, hdot, hle, hd, hspec, hfn, hst, -⟩ := path_parts P
  have hbase : P.str = P.str.take (if dot > pos ∧ dot ≠ P.size then dot else P.size) ++
      (if dot = P.size ∨ dot ≤ pos then [] else P.str.drop dot) := by
    by_cases h : dot > pos ∧ dot ≠ P.size
    · rw [if_pos h, if_neg (by omega), List.take_append_drop]
    · rw [if_neg h, if_pos (by omega), List.append_nil,
        List.take_of_length_le (by rw [P.str_length])]
  refine ⟨_, _, _, (if dot = P.size ∨ dot ≤ pos then [] else P.str.drop dot),
    P.str.take (if dot > pos ∧ dot ≠ P.size then dot else P.size),
    replace_extension_logic_eq P E pos dot hpos hdot hd, hst, hfn, ?_,
    fun T => extension_logic_any T P pos dot hpos hdot hd, ?_, hbase, ?_, ?_, ?_⟩
  · rw [str_of_content, str_of_content]
    by_cases h : dot > pos ∧ dot ≠ P.size
    · rw [if_pos h, if_neg (by omega)]
      have : P.str.drop dot = (P.str.drop pos).drop (dot - pos) := by
        rw [List.drop_drop]; congr 1; omega
      rw [this, List.take_append_drop]
    · rw [if_neg h, if_pos (by omega), List.append_nil,
        List.take_of_length_le (by rw [List.length_drop, P.str_length])]
  · rw [str_of_content]
  · rw [str_of_content]
  · intro hE
    have hnil : E.str = [] := List.eq_nil_of_length_eq_zero (by rw [E.str_length]; exact hE)
    have hc : ¬ (0 < E.size ∧ E.str.getD 0 0 ≠ 46) := fun h => by omega
    rw [str_of_content, if_neg hc, hnil, List.append_nil, List.append_nil]
  · intro hx
    rw [hx, List.append_nil] at hbase
    rw [str_of_content, ← hbase]

theorem replace_extension_swaps_extension_witness :
    (∃ r st fn ex base, replace_extension_logic (FixedString.lit "/path/to/file.txt")
        (FixedString.lit "md") = some r ∧
      stem_logic (FixedString.lit "/path/to/file.txt") = some st ∧
      filename_logic (FixedString.lit "/path/to/file.txt") = some fn ∧
      st.str ++ ex = fn.str ∧
      (∀ T, extension_logic T (FixedString.lit "/path/to/file.txt") =
        if T = CharT.char ∨ ex ≠ [] then some ⟨ex ++ [0]⟩ else none) ∧
      r.data = r.str ++ [0] ∧
      (FixedString.lit "/path/to/file.txt").str = base ++ ex ∧
      r.str = base ++ (if 0 < (FixedString.lit "md").size ∧
        (FixedString.lit "md").str.getD 0 0 ≠ 46 then [46] else []) ++
        (FixedString.lit "md").str ∧
      ((FixedString.lit "md").size = 0 → r.str = base) ∧
      (ex = [] →
        r.str = (FixedString.lit "/path/to/file.txt").str ++
          (if 0 < (FixedString.lit "md").size ∧
            (FixedString.lit "md").str.getD 0 0 ≠ 46 then [46] else []) ++
          (FixedString.lit "md").str)) ∧
    replace_extension_logic (FixedString.lit "/path/to/file.txt") (FixedString.lit "md") =
      some (FixedString.lit "/path/to/file.md") ∧
    replace_extension_logic (FixedString.lit "file.txt") (FixedString.lit ".cpp") =
      some (FixedString.lit "file.cpp") ∧
    replace_extension_logic (FixedString.lit "file.txt") (FixedString.lit "") =
      some (FixedString.lit "file") ∧
    replace_extension_logic (FixedString.lit "Makefile") (FixedString.lit ".bak") =
      some (FixedString.lit "Makefile.bak") :=
  ⟨replace_extension_swaps_extension (FixedString.lit "/path/to/file.txt")
      (FixedString.lit "md"),
    by decide, by decide, by decide, by decide⟩

/-! ## `trim` -/

theorem not_space_iff (c : Nat) : (c ≠ 32 ∧ c ≠ 9 ∧ c ≠ 10 ∧ c ≠ 13) ↔ ¬ is_space c := by
  unfold is_space
  omega

theorem find_first_non_space_spec (Str : FixedString) :
    (find_first_non_space Str = some Str.size ∧
      ∀ j, j < Str.size → is_space (Str.str.getD j 0)) ∨
    (∃ i, i < Str.size ∧ find_first_non_space Str = some i ∧ ¬ is_space (Str.str.getD i 0) ∧
      ∀ j, j < i → is_space (Str.str.getD j 0)) := by
  have hbody : ∀ k, k < Str.size →
      (do
        let c ← Str.get k
        if c ≠ 32 ∧ c ≠ 9 ∧ c ≠ 10 ∧ c ≠ 13 then some (Sum.inr k) else some (Sum.inl ()) :
          Option (Unit ⊕ Nat)) =
      if ¬ is_space (Str.str.getD k 0) then some (Sum.inr k) else some (Sum.inl ()) := by
    intro k hk
    simp only [Option.bind_eq_bind]
    rw [Str.get_eq _ hk, Option.some_bind]
    by_cases h : is_space (Str.str.getD k 0)
    · rw [if_neg (fun hc => (not_space_iff _).mp hc h), if_neg (not_not.mpr h)]
    · rw [if_pos ((not_space_iff _).mpr h), if_pos h]
  by_cases hex : ∃ i, i < Str.size ∧ ¬ is_space (Str.str.getD i 0)
  · right
    have hs := Nat.find_spec hex
    refine ⟨Nat.find hex, hs.1, ?_, hs.2, ?_⟩
    · unfold find_first_non_space
      rw [forUntil_first _ () (Nat.find hex) (Nat.find hex) _ 0 hs.1]
      · rfl
      · intro k hk
        have := Nat.find_min hex hk
        rw [Nat.zero_add, hbody k (by omega), if_neg (fun hc => this ⟨by omega, hc⟩)]
      · rw [Nat.zero_add, hbody _ hs.1, if_pos hs.2]
    · intro j hj
      by_contra hc
      exact Nat.find_min hex hj ⟨by omega, hc⟩
  · left
    have hall : ∀ j, j < Str.size → is_space (Str.str.getD j 0) := by
      intro j hj
      by_contra hc
      exact hex ⟨j, hj, hc⟩
    refine ⟨?_, hall⟩
    unfold find_first_non_space
    rw [forUntil_all _ () _ 0]
    · rfl
    · intro k hk
      rw [Nat.zero_add, hbody k hk, if_neg (not_not.mpr (hall k hk))]

theorem find_last_non_space_spec (Str : FixedString) :
    (find_last_non_space Str = some 0 ∧ ∀ j, j < Str.size → is_space (Str.str.getD j 0)) ∨
    (∃ i, 0 < i ∧ i ≤ Str.size ∧ find_last_non_space Str = some i ∧
      ¬ is_space (Str.str.getD (i - 1) 0) ∧
      ∀ j, i ≤ j → j < Str.size → is_space (Str.str.getD j 0)) := by
  have heq : find_last_non_space Str =
      scan_back Str (fun c => c ≠ 32 ∧ c ≠ 9 ∧ c ≠ 10 ∧ c ≠ 13) (fun i => i) 0 0 := rfl
  rw [heq]
  rcases scan_back_spec Str (fun c => c ≠ 32 ∧ c ≠ 9 ∧ c ≠ 10 ∧ c ≠ 13) (fun i => i) 0 0
    (Nat.zero_le _) with ⟨h1, h2⟩ | ⟨i, h1, h2, h3, h4, h5⟩
  · left
    refine ⟨h1, fun j hj => ?_⟩
    by_contra hc
    exact h2 j (Nat.zero_le _) hj ((not_space_iff _).mpr hc)
  · right
    refine ⟨i, h1, h2, h3, (not_space_iff _).mp h4, fun j hj hjs => ?_⟩
    by_contra hc
    exact h5 j hj hjs ((not_space_iff _).mpr hc)

theorem rdropWhile_append_of_pos (p : Nat → Bool) (l : List Nat) :
    ∀ B : List Nat, (∀ c ∈ B, p c = true) → (l ++ B).rdropWhile p = l.rdropWhile p := by
  intro B
  induction B using List.reverseRecOn with
  | nil => intro _; rw [List.append_nil]
  | append_singleton B b ih =>
    intro h
    rw [← List.append_assoc, List.rdropWhile_concat_pos _ _ _ (h b (by simp))]
    exact ih (fun c hc => h c (by simp [hc]))

/-- Removing the leading and the trailing elements that satisfy `p` from `A ++ M ++ B`, where
`A` and `B` satisfy `p` throughout and `M` is empty or starts and ends with elements that do
not. -/
theorem drop_both_ends (p : Nat → Bool) (A M B : List Nat) (hA : ∀ c ∈ A, p c = true)
    (hB : ∀ c ∈ B, p c = true)
    (hM : M = [] ∨ ((∃ x t, M = x :: t ∧ p x = false) ∧ (∃ t y, M = t ++ [y] ∧ p y = false))) :
    ((A ++ M ++ B).dropWhile p).rdropWhile p = M := by
  rw [List.append_assoc, List.dropWhile_append_of_pos hA]
  rcases hM with h | ⟨⟨x, t, hx, hpx⟩, ⟨t2, y, hy, hpy⟩⟩
  · rw [h, List.nil_append, List.dropWhile_eq_nil_iff.mpr hB, List.rdropWhile_nil]
  · have h1 : (M ++ B).dropWhile p = M ++ B := by
      rw [hx, List.cons_append, List.dropWhile_cons_of_neg (by rw [hpx]; decide)]
    rw [h1, rdropWhile_append_of_pos p M B hB, hy,
      List.rdropWhile_concat_neg _ _ _ (by rw [hpy]; decide)]

/-- The result of `trim_logic`: the part `M` of `S = A ++ M ++ B`, where `A` and `B` are
whitespace and `M` is empty or starts and ends with an element that is not. -/
theorem trim_logic_spec (S : FixedString) :
    ∃ A M B, trim_logic S = some ⟨M ++ [0]⟩ ∧ S.str = A ++ M ++ B ∧
      (∀ c ∈ A, is_space c) ∧ (∀ c ∈ B, is_space c) ∧
      (M = [] ∨ ((∃ x t, M = x :: t ∧ ¬ is_space x) ∧ (∃ t y, M = t ++ [y] ∧ ¬ is_space y))) := by
  have hval : ∀ start e, find_first_non_space S = some start → find_last_non_space S = some e →
      start + (if e > start then e - start else 0) ≤ S.size →
      trim_logic S =
        some ⟨(S.str.drop start).take (if e > start then e - start else 0) ++ [0]⟩ := by
    intro start e h1 h2 h3
    unfold trim_logic
    simp only [Option.bind_eq_bind]
    rw [h1, Option.some_bind, h2, Option.some_bind]
    exact build_copy S start _ h3
  have hmem_take : ∀ k, (∀ j, j < k → j < S.size → is_space (S.str.getD j 0)) →
      ∀ c ∈ S.str.take k, is_space c := by
    intro k h c hc
    obtain ⟨i, hi, hci⟩ := mem_getD _ c hc
    rw [List.length_take, S.str_length] at hi
    rw [List.getD_eq_getElem?_getD, List.getElem?_take_of_lt (by omega),
      ← List.getD_eq_getElem?_getD] at hci
    rw [← hci]
    exact h i (by omega) (by omega)
  have hmem_drop : ∀ k, (∀ j, k ≤ j → j < S.size → is_space (S.str.getD j 0)) →
      ∀ c ∈ S.str.drop k, is_space c := by
    intro k h c hc
    obtain ⟨i, hi, hci⟩ := mem_getD _ c hc
    rw [List.length_drop, S.str_length] at hi
    rw [getD_drop_eq] at hci
    rw [← hci]
    exact h _ (by omega) (by omega)
  rcases find_first_non_space_spec S with ⟨hs, hall⟩ | ⟨start, hlt, hs, hns, hbefore⟩
  · obtain ⟨e, he, hele⟩ : ∃ e, find_last_non_space S = some e ∧ e ≤ S.size := by
      rcases find_last_non_space_spec S with ⟨h, -⟩ | ⟨i, -, h2, h3, -⟩
      · exact ⟨0, h, Nat.zero_le _⟩
      · exact ⟨i, h3, h2⟩
    refine ⟨S.str, [], [], ?_, by simp, ?_, by simp, Or.inl rfl⟩
    · rw [hval _ _ hs he (by rw [if_neg (by omega)]; omega), if_neg (by omega), List.take_zero]
    · exact fun c hc => hmem_take S.size (fun j hj _ => hall j hj) c
        (by rwa [List.take_of_length_le (by rw [S.str_length])])
  · rcases find_last_non_space_spec S with ⟨-, hall⟩ | ⟨e, he0, hele, he, hne, hafter⟩
    · exact absurd (hall start hlt) hns
    · have hse : start < e := by
        by_contra hge
        exact hns (hafter start (by omega) hlt)
      have hM : (S.str.drop start).take (e - start) =
          S.str.getD start 0 :: (S.str.drop (start + 1)).take (e - start - 1) := by
        rw [drop_eq_getD_cons S.str start (by rw [S.str_length]; exact hlt)]
        obtain ⟨k, hk⟩ : ∃ k, e - start = k + 1 := ⟨e - start - 1, by omega⟩
        rw [hk, List.take_succ_cons, Nat.add_sub_cancel]
      have hM2 : (S.str.drop start).take (e - start) =
          (S.str.drop start).take (e - start - 1) ++ [S.str.getD (e - 1) 0] := by
        obtain ⟨k, hk⟩ : ∃ k, e - start = k + 1 := ⟨e - start - 1, by omega⟩
        rw [hk, List.take_succ, Nat.add_sub_cancel, List.getElem?_drop,
          getElem?_eq_some_getD S.str _ (by rw [S.str_length]; omega),
          show start + k = e - 1 by omega]
        rfl
      refine ⟨S.str.take start, (S.str.drop start).take (e - start), S.str.drop e, ?_, ?_,
        hmem_take start (fun j hj _ => hbefore j hj), hmem_drop e hafter,
        Or.inr ⟨⟨_, _, hM, hns⟩, ⟨_, _, hM2, hne⟩⟩⟩
      · rw [hval _ _ hs he (by rw [if_pos hse]; omega), if_pos hse]
      · have : S.str.drop e = (S.str.drop start).drop (e - start) := by
          rw [List.drop_drop]; congr 1; omega
        rw [this, List.append_assoc, List.take_append_drop, List.take_append_drop]

/-- C26: `trim<S>` is `S` without its longest leading and longest trailing run of whitespace
characters (space, tab, line feed, carriage return): the result is a part of `S` between two
whitespace parts, it neither starts nor ends with a whitespace character, and a string made
only of whitespace trims to the empty string. -/
theorem trim_removes_outer_whitespace (S : FixedString) :
    ∃ r, trim_logic S = some r ∧ r.data = r.str ++ [0] ∧
      r.str = (S.str.dropWhile (fun c => decide (is_space c))).rdropWhile
        (fun c => decide (is_space c)) ∧
      (∃ A B, S.str = A ++ r.str ++ B ∧ (∀ c ∈ A, is_space c) ∧ (∀ c ∈ B, is_space c)) ∧
      (∀ c, r.str.head? = some c → ¬ is_space c) ∧
      (∀ c, r.str.getLast? = some c → ¬ is_space c) ∧
      ((∀ c ∈ S.str, is_space c) → r.str = []) := by
  obtain ⟨A, M, B, hr, hS, hA, hB, hM⟩ := trim_logic_spec S
  have hdrop := drop_both_ends (fun c => decide (is_space c)) A M B
    (fun c hc => decide_eq_true (hA c hc)) (fun c hc => decide_eq_true (hB c hc))
    (by
      rcases hM with h | ⟨⟨x, t, hx, hpx⟩, ⟨t2, y, hy, hpy⟩⟩
      · exact Or.inl h
      · exact Or.inr ⟨⟨x, t, hx, decide_eq_false hpx⟩, ⟨t2, y, hy, decide_eq_false hpy⟩⟩)
  refine ⟨_, hr, ?_, ?_, ?_, ?_, ?_, ?_⟩
  · rw [str_of_content]
  · rw [str_of_content, hS, hdrop]
  · rw [str_of_content]; exact ⟨A, B, hS, hA, hB⟩
  · intro c hc
    rw [str_of_content] at hc
    rcases hM with h | ⟨⟨x, t, hx, hpx⟩, -⟩
    · rw [h] at hc; cases hc
    · rw [hx, List.head?_cons] at hc
      rw [← Option.some.inj hc]; exact hpx
  · intro c hc
    rw [str_of_content] at hc
    rcases hM with h | ⟨-, ⟨t, y, hy, hpy⟩⟩
    · rw [h] at hc; cases hc
    · rw [hy, List.getLast?_concat] at hc
      rw [← Option.some.inj hc]; exact hpy
  · intro hall
    rw [str_of_content]
    rcases hM with h | ⟨⟨x, t, hx, hpx⟩, -⟩
    · exact h
    · exact absurd (hall x (by rw [hS, hx]; simp)) hpx

theorem trim_removes_outer_whitespace_witness :
    (∃ r, trim_logic (FixedString.lit "\t\n a b \r\n") = some r ∧ r.data = r.str ++ [0] ∧
      r.str = ((FixedString.lit "\t\n a b \r\n").str.dropWhile
        (fun c => decide (is_space c))).rdropWhile (fun c => decide (is_space c)) ∧
      (∃ A B, (FixedString.lit "\t\n a b \r\n").str = A ++ r.str ++ B ∧
        (∀ c ∈ A, is_space c) ∧ (∀ c ∈ B, is_space c)) ∧
      (∀ c, r.str.head? = some c → ¬ is_space c) ∧
      (∀ c, r.str.getLast? = some c → ¬ is_space c) ∧
      ((∀ c ∈ (FixedString.lit "\t\n a b \r\n").str, is_space c) → r.str = [])) ∧
    trim_logic (FixedString.lit "\t\n a b \r\n") = some (FixedString.lit "a b") ∧
    trim_logic (FixedString.lit "     ") = some (FixedString.lit "") ∧
    trim_logic (FixedString.lit "hello") = some (FixedString.lit "hello") :=
  ⟨trim_removes_outer_whitespace (FixedString.lit "\t\n a b \r\n"),
    by decide, by decide, by decide⟩

/-! ## CRC-32: the table against the bit-serial computation -/

theorem crc_bit_step_eq (v : Nat) :
    crc_bit_step v = (v >>> 1) ^^^ (if v % 2 = 1 then 0xEDB88320 else 0) := by
  unfold crc_bit_step
  split
  · rfl
  · rw [Nat.xor_zero]

theorem crc_bit_step_xor (a b : Nat) :
    crc_bit_step (a ^^^ b) = crc_bit_step a ^^^ crc_bit_step b := by
  rw [crc_bit_step_eq, crc_bit_step_eq a, crc_bit_step_eq b, shiftRight_xor]
  have hmod := xor_mod_two_pow a b 1
  rw [Nat.pow_one] at hmod
  have ha : a % 2 = 0 ∨ a % 2 = 1 := by omega
  have hb : b % 2 = 0 ∨ b % 2 = 1 := by omega
  rcases ha with ha | ha <;> rcases hb with hb | hb <;> rw [hmod, ha, hb] <;>
    simp only [Nat.zero_xor, Nat.xor_zero, Nat.xor_self, if_true, if_false,
      Nat.zero_ne_one, Nat.one_ne_zero, Nat.reduceXor, Nat.reduceEqDiff]
  · rw [Nat.xor_assoc]
  · rw [Nat.xor_assoc, Nat.xor_assoc, Nat.xor_comm (b >>> 1)]
  · rw [Nat.xor_assoc, Nat.xor_comm (b >>> 1), ← Nat.xor_assoc 0xEDB88320, Nat.xor_self,
      Nat.zero_xor]

theorem crc_bit_steps_xor (k a b : Nat) :
    Nat.iterate crc_bit_step k (a ^^^ b) =
      Nat.iterate crc_bit_step k a ^^^ Nat.iterate crc_bit_step k b := by
  induction k generalizing a b with
  | zero => rfl
  | succ k ih =>
    rw [Function.iterate_succ_apply, Function.iterate_succ_apply, Function.iterate_succ_apply,
      crc_bit_step_xor, ih]

theorem crc_bit_steps_shifted (k y : Nat) : Nat.iterate crc_bit_step k (y <<< k) = y := by
  induction k with
  | zero => rfl
  | succ k ih =>
    rw [Function.iterate_succ_apply]
    have h : crc_bit_step (y <<< (k + 1)) = y <<< k := by
      unfold crc_bit_step
      rw [Nat.shiftLeft_succ, if_neg (by omega), Nat.shiftRight_eq_div_pow]
      omega
    rw [h, ih]

theorem low_high_xor (x k : Nat) : x = (x % 2 ^ k) ^^^ ((x >>> k) <<< k) := by
  apply Nat.eq_of_testBit_eq
  intro i
  rw [Nat.testBit_xor, Nat.testBit_mod_two_pow, Nat.testBit_shiftLeft, Nat.testBit_shiftRight]
  by_cases h : i < k
  · have h2 : ¬ (i ≥ k) := by omega
    simp [h, h2]
  · have h2 : i ≥ k := by omega
    rw [show k + (i - k) = i by omega]
    simp [h, h2]

/-- Eight bit steps on `x` are the eight bit steps on the low byte of `x`, XORed with the
rest of `x` shifted down: the table look-up of the table-driven computation. -/
theorem crc_bit_steps_split (x : Nat) :
    Nat.iterate crc_bit_step 8 x = Nat.iterate crc_bit_step 8 (x % 256) ^^^ (x >>> 8) := by
  have h := low_high_xor x 8
  rw [show (2 : Nat) ^ 8 = 256 by decide] at h
  conv => lhs; rw [h]
  rw [crc_bit_steps_xor, crc_bit_steps_shifted]

theorem crc32_table_values_bitwise :
    ∀ i, i < 256 → crc32_table_values.getD i 0 = Nat.iterate crc_bit_step 8 i := by decide!

theorem crcStep_bitwise (s b : Nat) (hb : b < 256) : crcStep s b = crc_bitwise_byte s b := by
  unfold crcStep crc_bitwise_byte
  rw [crc_bit_steps_split (s ^^^ b), and_255,
    crc32_table_values_bitwise _ (Nat.mod_lt _ (by decide)), shiftRight_xor,
    show b >>> 8 = 0 by rw [Nat.shiftRight_eq_div_pow]; omega, Nat.xor_zero]

theorem crcState_bitwise (data : List Nat) :
    ∀ len, len ≤ data.length →
      crcState data len =
        ((data.take len).map (fun d => d % 256)).foldl crc_bitwise_byte 0xFFFFFFFF := by
  intro len
  induction len with
  | zero => intro _; rfl
  | succ len ih =>
    intro h
    rw [crcState_succ, ih (by omega), List.take_succ, List.map_append, List.foldl_append,
      getElem?_eq_some_getD data len (by omega),
      crcStep_bitwise _ _ (Nat.mod_lt _ (by decide))]
    rfl

/-- C29: the table-driven `crc32_compute` equals the bit-serial reflected CRC-32 of the input
bytes (start from `0xFFFFFFFF`; per byte, XOR it into the low 8 bits and make eight steps
`v := (v >> 1) ^ 0xEDB88320` if the low bit of `v` is set, `v := v >> 1` otherwise; finally
XOR with `0xFFFFFFFF`), and entry `i` of the table is the result of the eight steps on `i`. -/
theorem crc32_table_driven_is_bit_serial (data : List Nat) (len : Nat)
    (hlen : len ≤ data.length) :
    crc32_compute data len = some (crc32_bitwise ((data.take len).map (fun d => d % 256))) ∧
    ∃ T, crc32_table = some T ∧ T.length = 256 ∧
      ∀ i, i < 256 → T[i]? = some (Nat.iterate crc_bit_step 8 i) := by
  refine ⟨?_, crc32_table_values, crc32_table_eq, crc32_table_values_length, ?_⟩
  · rw [crc32_compute_eq data len hlen, crcState_bitwise data len hlen]
    rfl
  · intro i hi
    rw [getElem?_eq_some_getD _ _ (by rw [crc32_table_values_length]; exact hi),
      crc32_table_values_bitwise i hi]

theorem crc32_table_driven_is_bit_serial_witness :
    9 ≤ (FixedString.lit "123456789").data.length ∧
    (crc32_compute (FixedString.lit "123456789").data 9 =
      some (crc32_bitwise (((FixedString.lit "123456789").data.take 9).map
        (fun d => d % 256))) ∧
     ∃ T, crc32_table = some T ∧ T.length = 256 ∧
       ∀ i, i < 256 → T[i]? = some (Nat.iterate crc_bit_step 8 i)) ∧
    crc32_bitwise (((FixedString.lit "123456789").data.take 9).map (fun d => d % 256)) =
      0xCBF43926 :=
  ⟨by decide, crc32_table_driven_is_bit_serial (FixedString.lit "123456789").data 9 (by decide),
    by decide⟩

/-! ## SHA-256: the padded message -/

theorem take_tab (n k : Nat) (f : Nat → Nat) (h : k ≤ n) : (tab n f).take k = tab k f := by
  unfold tab
  rw [← List.map_take, List.take_range, Nat.min_eq_left h]

theorem take_tab_getD (l : List Nat) (n : Nat) (h : l.length ≤ n) :
    (tab n (fun j => l.getD j 0)).take l.length = l := by
  rw [take_tab n l.length _ h]
  exact (eq_tab_getD l).symm

/-- C30: for an input of `len ≤ 1015` elements, the message `sha256_compute` processes has
the length `padded_len`, the least multiple of 64 that is at least `len + 9`, and consists
of the `len` input bytes, the byte `0x80`, zero bytes, and in its last 8 bytes the value
`8 * len` as a 64-bit big-endian integer. -/
theorem sha256_padded_message (data : List Nat) (len : Nat) (hlen : len ≤ data.length)
    (hcap : len ≤ 1015) :
    ∃ msg padded_len, sha256_prepare data len = some (msg, padded_len) ∧
      msg.length = 1024 ∧ padded_len ≤ 1024 ∧
      padded_len % 64 = 0 ∧ len + 9 ≤ padded_len ∧
      (∀ m, m % 64 = 0 → len + 9 ≤ m → padded_len ≤ m) ∧
      msg.take padded_len =
        (data.take len).map (fun d => d % 256) ++ [0x80] ++
          List.replicate (padded_len - len - 9) 0 ++ toBE 8 (8 * len) ∧
      (∀ j, j < 8 → msg[padded_len - 8 + j]? = some (8 * len / 256 ^ (7 - j) % 256)) := by
  have hm : ((data.take len).map (fun d => d % 256)).length = len := by
    rw [List.length_map, List.length_take]; omega
  obtain ⟨h1, h2, h3⟩ := sha256_padded_len len hcap
  have hL : (fips_pad 64 8 ((data.take len).map (fun d => d % 256))).length =
      len + 1 + (fips_zero_bits 64 8 (8 * len) - 7) / 8 + 8 := by
    unfold fips_pad
    rw [pad_length, hm]
  have hmin : ∀ m, m % 64 = 0 → len + 9 ≤ m →
      len + 1 + (fips_zero_bits 64 8 (8 * len) - 7) / 8 + 8 ≤ m := by
    intro m hm1 hm2
    rw [← h1]
    unfold u64
    omega
  have htake : (tab 1024 (fun j =>
        (fips_pad 64 8 ((data.take len).map (fun d => d % 256))).getD j 0)).take
      (fips_pad 64 8 ((data.take len).map (fun d => d % 256))).length =
      (data.take len).map (fun d => d % 256) ++ [0x80] ++
        List.replicate ((fips_pad 64 8 ((data.take len).map (fun d => d % 256))).length -
          len - 9) 0 ++ toBE 8 (8 * len) := by
    rw [take_tab_getD _ 1024 (by rw [hL, ← h1]; exact h2)]
    conv => lhs; unfold fips_pad
    rw [hm, hL, show len + 1 + (fips_zero_bits 64 8 (8 * len) - 7) / 8 + 8 - len - 9 =
      (fips_zero_bits 64 8 (8 * len) - 7) / 8 by omega]
  refine ⟨_, _, sha256_prepare_ok data len hlen hcap, tab_length _ _, ?_, ?_, ?_, ?_, htake, ?_⟩
  · rw [hL, ← h1]; exact h2
  · rw [hL, ← h1]; exact h3
  · rw [hL]; omega
  · rw [hL]; exact hmin
  · intro j hj
    have hlt : (fips_pad 64 8 ((data.take len).map (fun d => d % 256))).length - 8 + j <
        (fips_pad 64 8 ((data.take len).map (fun d => d % 256))).length := by
      rw [hL]; omega
    have hget := congrArg (fun l => l[(fips_pad 64 8
      ((data.take len).map (fun d => d % 256))).length - 8 + j]?) htake
    beta_reduce at hget
    rw [List.getElem?_take_of_lt hlt] at hget
    rw [hget, List.getElem?_append_right (by
      rw [List.length_append, List.length_append, List.length_replicate, hm, hL,
        List.length_singleton]; omega)]
    rw [List.length_append, List.length_append, List.length_replicate, hm, hL,
      List.length_singleton,
      show len + 1 + (fips_zero_bits 64 8 (8 * len) - 7) / 8 + 8 - 8 + j -
        (len + 1 + (len + 1 + (fips_zero_bits 64 8 (8 * len) - 7) / 8 + 8 - len - 9)) = j
        by omega,
      getElem?_eq_some_getD _ _ (by rw [toBE_length]; exact hj), toBE_getD 8 _ j hj,
      show 8 - 1 - j = 7 - j by omega]

theorem sha256_padded_message_witness :
    3 ≤ (FixedString.lit "abc").data.length ∧ 3 ≤ 1015 ∧
    (∃ msg padded_len, sha256_prepare (FixedString.lit "abc").data 3 = some (msg, padded_len) ∧
      msg.length = 1024 ∧ padded_len ≤ 1024 ∧
      padded_len % 64 = 0 ∧ 3 + 9 ≤ padded_len ∧
      (∀ m, m % 64 = 0 → 3 + 9 ≤ m → padded_len ≤ m) ∧
      msg.take padded_len =
        ((FixedString.lit "abc").data.take 3).map (fun d => d % 256) ++ [0x80] ++
          List.replicate (padded_len - 3 - 9) 0 ++ toBE 8 (8 * 3) ∧
      (∀ j, j < 8 → msg[padded_len - 8 + j]? = some (8 * 3 / 256 ^ (7 - j) % 256))) :=
  ⟨by decide, by decide,
    sha256_padded_message (FixedString.lit "abc").data 3 (by decide) (by decide)⟩

/-! ## The rewrite functions: general facts -/

theorem rewrite_first_nil (P R : List Nat) (n k : Nat) : rewrite_first P R n k [] = [] := by
  cases n <;> cases k <;> rfl

theorem rewrite_first_skip_cons (P R : List Nat) (n k c : Nat) (t : List Nat) :
    rewrite_first P R n (k + 1) (c :: t) = rewrite_first P R n k t := by
  cases n <;> rfl

theorem rewrite_first_zero (P R : List Nat) (c : Nat) (t : List Nat) :
    rewrite_first P R 0 0 (c :: t) = c :: t := rfl

theorem rewrite_first_succ (P R : List Nat) (n c : Nat) (t : List Nat) :
    rewrite_first P R (n + 1) 0 (c :: t) =
      if P.isPrefixOf (c :: t) then R ++ rewrite_first P R n (P.length - 1) t
      else c :: rewrite_first P R (n + 1) 0 t := rfl

theorem count_first_nil (P : List Nat) (n k : Nat) : count_first P n k [] = 0 := by
  cases n <;> cases k <;> rfl

theorem count_first_skip_cons (P : List Nat) (n k c : Nat) (t : List Nat) :
    count_first P n (k + 1) (c :: t) = count_first P n k t := by
  cases n <;> rfl

theorem count_first_zero (P : List Nat) (c : Nat) (t : List Nat) :
    count_first P 0 0 (c :: t) = 0 := rfl

theorem count_first_succ (P : List Nat) (n c : Nat) (t : List Nat) :
    count_first P (n + 1) 0 (c :: t) =
      if P.isPrefixOf (c :: t) then count_first P n (P.length - 1) t + 1
      else count_first P (n + 1) 0 t := rfl

theorem rewrite_all_nil (P R : List Nat) (k : Nat) : rewrite_all P R k [] = [] := by
  cases k <;> rfl

theorem rewrite_all_skip_cons (P R : List Nat) (k c : Nat) (t : List Nat) :
    rewrite_all P R (k + 1) (c :: t) = rewrite_all P R k t := rfl

theorem rewrite_all_zero (P R : List Nat) (c : Nat) (t : List Nat) :
    rewrite_all P R 0 (c :: t) =
      if P.isPrefixOf (c :: t) then R ++ rewrite_all P R (P.length - 1) t
      else c :: rewrite_all P R 0 t := rfl

theorem count_matches_nil (P : List Nat) (k : Nat) : count_matches P k [] = 0 := by
  cases k <;> rfl

theorem count_matches_skip_cons (P : List Nat) (k c : Nat) (t : List Nat) :
    count_matches P (k + 1) (c :: t) = count_matches P k t := rfl

theorem count_matches_zero (P : List Nat) (c : Nat) (t : List Nat) :
    count_matches P 0 (c :: t) =
      if P.isPrefixOf (c :: t) then count_matches P (P.length - 1) t + 1
      else count_matches P 0 t := rfl

theorem rewrite_first_skip (P R : List Nat) (n : Nat) (l : List Nat) :
    ∀ k, rewrite_first P R n k l = rewrite_first P R n 0 (l.drop k) := by
  induction l with
  | nil => intro k; rw [List.drop_nil, rewrite_first_nil, rewrite_first_nil]
  | cons c t ih =>
    intro k
    cases k with
    | zero => rfl
    | succ k => rw [List.drop_succ_cons, ← ih k, rewrite_first_skip_cons]

theorem count_first_skip (P : List Nat) (n : Nat) (l : List Nat) :
    ∀ k, count_first P n k l = count_first P n 0 (l.drop k) := by
  induction l with
  | nil => intro k; rw [List.drop_nil, count_first_nil, count_first_nil]
  | cons c t ih =>
    intro k
    cases k with
    | zero => rfl
    | succ k => rw [List.drop_succ_cons, ← ih k, count_first_skip_cons]

theorem rewrite_all_skip (P R : List Nat) (l : List Nat) :
    ∀ k, rewrite_all P R k l = rewrite_all P R 0 (l.drop k) := by
  induction l with
  | nil => intro k; rw [List.drop_nil, rewrite_all_nil, rewrite_all_nil]
  | cons c t ih =>
    intro k
    cases k with
    | zero => rfl
    | succ k => rw [List.drop_succ_cons, ← ih k, rewrite_all_skip_cons]

theorem count_matches_skip (P : List Nat) (l : List Nat) :
    ∀ k, count_matches P k l = count_matches P 0 (l.drop k) := by
  induction l with
  | nil => intro k; rw [List.drop_nil, count_matches_nil, count_matches_nil]
  | cons c t ih =>
    intro k
    cases k with
    | zero => rfl
    | succ k => rw [List.drop_succ_cons, ← ih k, count_matches_skip_cons]

theorem drop_tail_eq (s : List Nat) (i m : Nat) (hm : 0 < m) :
    (s.drop (i + 1)).drop (m - 1) = s.drop (i + m) := by
  rw [List.drop_drop]
  congr 1
  omega

/-- The rewrite at a position where the pattern matches. -/
theorem rewrite_first_match (P R s : List Nat) (n i : Nat) (hP : 0 < P.length)
    (hi : i < s.length) (hm : P.isPrefixOf (s.drop i) = true) :
    rewrite_first P R (n + 1) 0 (s.drop i) =
      R ++ rewrite_first P R n 0 (s.drop (i + P.length)) := by
  rw [drop_eq_getD_cons s i hi] at hm ⊢
  rw [rewrite_first_succ, if_pos hm, rewrite_first_skip, drop_tail_eq s i P.length hP]

theorem count_first_match (P s : List Nat) (n i : Nat) (hP : 0 < P.length)
    (hi : i < s.length) (hm : P.isPrefixOf (s.drop i) = true) :
    count_first P (n + 1) 0 (s.drop i) = count_first P n 0 (s.drop (i + P.length)) + 1 := by
  rw [drop_eq_getD_cons s i hi] at hm ⊢
  rw [count_first_succ, if_pos hm, count_first_skip, drop_tail_eq s i P.length hP]

theorem rewrite_all_match (P R s : List Nat) (i : Nat) (hP : 0 < P.length)
    (hi : i < s.length) (hm : P.isPrefixOf (s.drop i) = true) :
    rewrite_all P R 0 (s.drop i) = R ++ rewrite_all P R 0 (s.drop (i + P.length)) := by
  rw [drop_eq_getD_cons s i hi] at hm ⊢
  rw [rewrite_all_zero, if_pos hm, rewrite_all_skip, drop_tail_eq s i P.length hP]

theorem count_matches_match (P s : List Nat) (i : Nat) (hP : 0 < P.length)
    (hi : i < s.length) (hm : P.isPrefixOf (s.drop i) = true) :
    count_matches P 0 (s.drop i) = count_matches P 0 (s.drop (i + P.length)) + 1 := by
  rw [drop_eq_getD_cons s i hi] at hm ⊢
  rw [count_matches_zero, if_pos hm, count_matches_skip, drop_tail_eq s i P.length hP]

/-- The rewrite at a position where nothing is replaced. -/
theorem rewrite_first_copy (P R s : List Nat) (n i : Nat) (hi : i < s.length)
    (hm : n = 0 ∨ P.isPrefixOf (s.drop i) = false) :
    rewrite_first P R n 0 (s.drop i) =
      s.getD i 0 :: rewrite_first P R n 0 (s.drop (i + 1)) := by
  rw [drop_eq_getD_cons s i hi] at hm ⊢
  cases n with
  | zero =>
    rw [rewrite_first_zero]
    cases s.drop (i + 1) <;> rfl
  | succ n =>
    have h : P.isPrefixOf (s.getD i 0 :: s.drop (i + 1)) = false := by
      rcases hm with h | h
      · exact absurd h (Nat.succ_ne_zero n)
      · exact h
    rw [rewrite_first_succ, if_neg (by rw [h]; decide)]

theorem count_first_copy (P s : List Nat) (n i : Nat) (hi : i < s.length)
    (hm : n = 0 ∨ P.isPrefixOf (s.drop i) = false) :
    count_first P n 0 (s.drop i) = count_first P n 0 (s.drop (i + 1)) := by
  rw [drop_eq_getD_cons s i hi] at hm ⊢
  cases n with
  | zero =>
    rw [count_first_zero]
    cases s.drop (i + 1) <;> rfl
  | succ n =>
    have h : P.isPrefixOf (s.getD i 0 :: s.drop (i + 1)) = false := by
      rcases hm with h | h
      · exact absurd h (Nat.succ_ne_zero n)
      · exact h
    rw [count_first_succ, if_neg (by rw [h]; decide)]

theorem rewrite_all_copy (P R s : List Nat) (i : Nat) (hi : i < s.length)
    (hm : P.isPrefixOf (s.drop i) = false) :
    rewrite_all P R 0 (s.drop i) = s.getD i 0 :: rewrite_all P R 0 (s.drop (i + 1)) := by
  rw [drop_eq_getD_cons s i hi] at hm ⊢
  rw [rewrite_all_zero, if_neg (by rw [hm]; decide)]

theorem count_matches_copy (P s : List Nat) (i : Nat) (hi : i < s.length)
    (hm : P.isPrefixOf (s.drop i) = false) :
    count_matches P 0 (s.drop i) = count_matches P 0 (s.drop (i + 1)) := by
  rw [drop_eq_getD_cons s i hi] at hm ⊢
  rw [count_matches_zero, if_neg (by rw [hm]; decide)]

theorem isPrefixOf_iff_occurs (s p : List Nat) (i : Nat) (hp : 0 < p.length) :
    p.isPrefixOf (s.drop i) = true ↔ occurs_at s p i := by
  rw [List.isPrefixOf_iff_prefix, List.prefix_iff_eq_take]
  constructor
  · intro h
    have hlen : p.length ≤ s.length - i := by
      have := congrArg List.length h
      rw [List.length_take, List.length_drop] at this
      omega
    refine ⟨by omega, fun j hj => ?_⟩
    have h2 : p.getD j 0 = ((s.drop i).take p.length).getD j 0 := by rw [← h]
    rw [h2]
    simp only [List.getD_eq_getElem?_getD]
    rw [List.getElem?_take_of_lt hj, List.getElem?_drop]
  · intro h
    apply List.ext_getElem?
    intro j
    by_cases hj : j < p.length
    · rw [List.getElem?_take_of_lt hj, List.getElem?_drop,
        getElem?_eq_some_getD p j hj, getElem?_eq_some_getD s (i + j) (by have := h.1; omega),
        h.2 j hj]
    · rw [List.getElem?_eq_none (by omega), List.getElem?_eq_none (by
        rw [List.length_take]; omega)]

theorem not_isPrefixOf_of_short (p l : List Nat) (h : l.length < p.length) :
    p.isPrefixOf l = false := by
  cases hc : p.isPrefixOf l with
  | false => rfl
  | true =>
    have := (List.isPrefixOf_iff_prefix.mp hc).length_le
    omega

theorem count_first_short (P : List Nat) (n : Nat) (l : List Nat) (h : l.length < P.length) :
    count_first P n 0 l = 0 := by
  induction l with
  | nil => exact count_first_nil P n 0
  | cons c t ih =>
    cases n with
    | zero => rfl
    | succ n =>
      rw [count_first_succ, if_neg (by rw [not_isPrefixOf_of_short P _ h]; decide)]
      exact ih (by rw [List.length_cons] at h; omega)

theorem count_matches_short (P : List Nat) (l : List Nat) (h : l.length < P.length) :
    count_matches P 0 l = 0 := by
  induction l with
  | nil => exact count_matches_nil P 0
  | cons c t ih =>
    rw [count_matches_zero, if_neg (by rw [not_isPrefixOf_of_short P _ h]; decide)]
    exact ih (by rw [List.length_cons] at h; omega)

theorem count_first_budget_zero (P : List Nat) (l : List Nat) : count_first P 0 0 l = 0 := by
  cases l <;> rfl

theorem rewrite_first_budget_zero (P R : List Nat) (l : List Nat) :
    rewrite_first P R 0 0 l = l := by
  cases l <;> rfl

/-- The length of the rewrite: each replaced match takes `P.length` elements away and puts
`R.length` elements in. -/
theorem rewrite_first_length (P R : List Nat) (hP : 0 < P.length) (l : List Nat) :
    ∀ n k, (rewrite_first P R n k l).length + count_first P n k l * P.length + min k l.length =
      l.length + count_first P n k l * R.length := by
  induction l with
  | nil => intro n k; rw [rewrite_first_nil, count_first_nil]; simp
  | cons c t ih =>
    intro n k
    cases k with
    | succ k =>
      rw [rewrite_first_skip_cons, count_first_skip_cons, List.length_cons]
      have := ih n k
      omega
    | zero =>
      cases n with
      | zero => rw [rewrite_first_zero, count_first_zero]; simp
      | succ n =>
        rw [rewrite_first_succ, count_first_succ]
        by_cases hm : P.isPrefixOf (c :: t) = true
        · rw [if_pos hm, if_pos hm, List.length_append, List.length_cons, Nat.add_mul,
            Nat.add_mul, Nat.one_mul, Nat.one_mul]
          have hle := (List.isPrefixOf_iff_prefix.mp hm).length_le
          rw [List.length_cons] at hle
          have := ih n (P.length - 1)
          omega
        · rw [if_neg hm, if_neg hm, List.length_cons, List.length_cons]
          have := ih (n + 1) 0
          omega

theorem count_first_eq_min (P : List Nat) (l : List Nat) :
    ∀ n k, count_first P n k l = min n (count_matches P k l) := by
  induction l with
  | nil => intro n k; rw [count_first_nil, count_matches_nil]; simp
  | cons c t ih =>
    intro n k
    cases k with
    | succ k => rw [count_first_skip_cons, count_matches_skip_cons, ih]
    | zero =>
      cases n with
      | zero => rw [count_first_zero]; simp
      | succ n =>
        rw [count_first_succ, count_matches_zero]
        by_cases hm : P.isPrefixOf (c :: t) = true
        · rw [if_pos hm, if_pos hm, ih]; omega
        · rw [if_neg hm, if_neg hm, ih]

theorem rewrite_first_eq_all (P R : List Nat) (l : List Nat) :
    ∀ n k, count_matches P k l ≤ n → rewrite_first P R n k l = rewrite_all P R k l := by
  induction l with
  | nil => intro n k _; rw [rewrite_first_nil, rewrite_all_nil]
  | cons c t ih =>
    intro n k h
    cases k with
    | succ k =>
      rw [rewrite_first_skip_cons, rewrite_all_skip_cons]
      exact ih n k (by rwa [count_matches_skip_cons] at h)
    | zero =>
      rw [count_matches_zero] at h
      rw [rewrite_all_zero]
      by_cases hm : P.isPrefixOf (c :: t) = true
      · rw [if_pos hm] at h ⊢
        cases n with
        | zero => omega
        | succ n => rw [rewrite_first_succ, if_pos hm, ih n _ (by omega)]
      · rw [if_neg hm] at h ⊢
        cases n with
        | zero =>
          rw [rewrite_first_zero, ← ih 0 0 h, rewrite_first_budget_zero]
        | succ n => rw [rewrite_first_succ, if_neg hm, ih (n + 1) 0 h]

/-- The matches take at most the whole list. -/
theorem count_first_mul_le (P : List Nat) (hP : 0 < P.length) (n : Nat) (l : List Nat) :
    count_first P n 0 l * P.length ≤ l.length := by
  have := rewrite_first_length P [] hP l n 0
  rw [List.length_nil, Nat.mul_zero, Nat.min_eq_left (Nat.zero_le _)] at this
  omega

/-! ## `count_occurrences` and `count_n_occurrences` -/

theorem data_length_of_size_pos (S : FixedString) (h : 0 < S.size) :
    S.data.length = S.size + 1 := by
  unfold FixedString.size at h ⊢
  split at h
  · rename_i hl; rw [if_pos hl]; omega
  · omega

theorem occurs_of_isPrefixOf (S P : FixedString) (i : Nat) (hP : 0 < P.size) :
    P.str.isPrefixOf (S.str.drop i) = decide (occurs_at S.str P.str i) := by
  have h := isPrefixOf_iff_occurs S.str P.str i (by rw [P.str_length]; exact hP)
  by_cases ho : occurs_at S.str P.str i
  · rw [h.mpr ho, decide_eq_true ho]
  · rw [decide_eq_false ho]
    cases hc : P.str.isPrefixOf (S.str.drop i) with
    | false => rfl
    | true => exact absurd (h.mp hc) ho

theorem count_n_occurrences_eq (S P : FixedString) (N : Nat) (hP : 0 < P.size)
    (hPS : P.size ≤ S.size) (hS : S.size < 2 ^ 64) :
    count_n_occurrences S P N = some (count_first P.str N 0 S.str) := by
  have hsub : size_sub S.size P.size = S.size - P.size := size_sub_eq _ _ hPS hS
  have hplen : P.str.length = P.size := P.str_length
  have hslen : S.str.length = S.size := S.str_length
  obtain ⟨t, ht, hI, hc⟩ := whileLoop_inv
    (fun (st : Nat × Nat) => st.2 ≤ S.size ∧ st.1 ≤ N ∧
      st.1 + count_first P.str (N - st.1) 0 (S.str.drop st.2) = count_first P.str N 0 S.str)
    (fun (st : Nat × Nat) => S.size + 1 - st.2)
    (fun (st : Nat × Nat) => decide (st.2 ≤ size_sub S.size P.size) && decide (st.1 < N))
    (fun (st : Nat × Nat) => (pattern_match S P st.2).bind fun m =>
      if m = true then some (st.1 + 1, st.2 + P.size) else some (st.1, st.2 + 1))
    (by
      rintro ⟨c, pos⟩ ⟨h1, h2, h3⟩ hcond
      simp only [Bool.and_eq_true, decide_eq_true_eq, hsub] at hcond
      simp only [] at h1 h2 h3 ⊢
      rw [pattern_match_eq S P pos (by omega), Option.some_bind]
      have hpre := occurs_of_isPrefixOf S P pos hP
      by_cases ho : occurs_at S.str P.str pos
      · rw [decide_eq_true ho] at hpre ⊢
        rw [if_pos rfl]
        refine ⟨_, rfl, ⟨by omega, by omega, ?_⟩, by simp only []; omega⟩
        have := count_first_match P.str S.str (N - c - 1) pos (by omega) (by omega) hpre
        rw [show N - c - 1 + 1 = N - c by omega, hplen] at this
        simp only []
        rw [show N - (c + 1) = N - c - 1 by omega]
        omega
      · rw [decide_eq_false ho] at hpre ⊢
        rw [if_neg (by decide)]
        refine ⟨_, rfl, ⟨by omega, h2, ?_⟩, by simp only []; omega⟩
        have := count_first_copy P.str S.str (N - c) pos (by omega) (Or.inr hpre)
        simp only []
        omega)
    (S.data.length + 1) (0, 0)
    ⟨Nat.zero_le _, Nat.zero_le _, by simp only [Nat.zero_add, Nat.sub_zero, List.drop_zero]⟩
    (by
      have := data_length_of_size_pos S (by omega)
      simp only []
      omega)
  have hres : t.1 = count_first P.str N 0 S.str := by
    obtain ⟨c, pos⟩ := t
    obtain ⟨h1, h2, h3⟩ := hI
    simp only [] at h1 h2 h3 hc ⊢
    have hz : count_first P.str (N - c) 0 (S.str.drop pos) = 0 := by
      by_cases hcN : c < N
      · have hpos : ¬ pos ≤ S.size - P.size := by
          intro hle
          have : (decide (pos ≤ size_sub S.size P.size) && decide (c < N)) = true := by
            simp only [Bool.and_eq_true, decide_eq_true_eq, hsub]
            exact ⟨hle, hcN⟩
          rw [this] at hc
          exact Bool.noConfusion hc
        exact count_first_short _ _ _ (by rw [List.length_drop, hslen, hplen]; omega)
      · rw [show N - c = 0 by omega]
        exact count_first_budget_zero _ _
    omega
  unfold count_n_occurrences
  simp only []
  rw [if_neg (by omega)]
  exact (congrArg (Option.map (fun st => st.1)) ht).trans (congrArg some hres)

theorem count_matches_eq_first (P l : List Nat) :
    count_matches P 0 l = count_first P (count_matches P 0 l) 0 l := by
  rw [count_first_eq_min, Nat.min_self]

theorem count_occurrences_eq (S P : FixedString) (hP : 0 < P.size)
    (hPS : P.size ≤ S.size) (hS : S.size < 2 ^ 64) :
    count_occurrences S P = some (count_matches P.str 0 S.str) := by
  have hsub : size_sub S.size P.size = S.size - P.size := size_sub_eq _ _ hPS hS
  have hplen : P.str.length = P.size := P.str_length
  have hslen : S.str.length = S.size := S.str_length
  obtain ⟨t, ht, hI, hc⟩ := whileLoop_inv
    (fun (st : Nat × Nat) => st.2 ≤ S.size ∧
      st.1 + count_matches P.str 0 (S.str.drop st.2) = count_matches P.str 0 S.str)
    (fun (st : Nat × Nat) => S.size + 1 - st.2)
    (fun (st : Nat × Nat) => decide (st.2 ≤ size_sub S.size P.size))
    (fun (st : Nat × Nat) => (pattern_match S P st.2).bind fun m =>
      if m = true then some (st.1 + 1, st.2 + P.size) else some (st.1, st.2 + 1))
    (by
      rintro ⟨c, pos⟩ ⟨h1, h3⟩ hcond
      simp only [decide_eq_true_eq, hsub] at hcond
      simp only [] at h1 h3 ⊢
      rw [pattern_match_eq S P pos (by omega), Option.some_bind]
      have hpre := occurs_of_isPrefixOf S P pos hP
      by_cases ho : occurs_at S.str P.str pos
      · rw [decide_eq_true ho] at hpre ⊢
        rw [if_pos rfl]
        refine ⟨_, rfl, ⟨by omega, ?_⟩, by simp only []; omega⟩
        have := count_matches_match P.str S.str pos (by omega) (by omega) hpre
        rw [hplen] at this
        simp only []
        omega
      · rw [decide_eq_false ho] at hpre ⊢
        rw [if_neg (by decide)]
        refine ⟨_, rfl, ⟨by omega, ?_⟩, by simp only []; omega⟩
        have := count_matches_copy P.str S.str pos (by omega) hpre
        simp only []
        omega)
    (S.data.length + 1) (0, 0)
    ⟨Nat.zero_le _, by simp only [Nat.zero_add, List.drop_zero]⟩
    (by
      have := data_length_of_size_pos S (by omega)
      simp only []
      omega)
  have hres : t.1 = count_matches P.str 0 S.str := by
    obtain ⟨c, pos⟩ := t
    obtain ⟨h1, h3⟩ := hI
    simp only [decide_eq_false_iff_not, hsub] at h1 h3 hc ⊢
    have hz : count_matches P.str 0 (S.str.drop pos) = 0 :=
      count_matches_short _ _ (by rw [List.length_drop, hslen, hplen]; omega)
    omega
  unfold count_occurrences
  simp only []
  rw [if_neg (by omega)]
  exact (congrArg (Option.map (fun st => st.1)) ht).trans (congrArg some hres)

/-- The loop `buf[dst_pos++] = Replacement[i]` of the replacing functions. -/
theorem write_loop (R : FixedString) (acc : List Nat) (k : Nat) (hk : R.size ≤ k) :
    forLoop 0 R.size (fun i (w : Nat × List Nat) =>
      (R.get i).bind fun c => (arrWrite w.2 w.1 c).bind fun b => some (w.1 + 1, b))
      (acc.length, acc ++ List.replicate k 0) =
    some (acc.length + R.size, acc ++ R.str ++ List.replicate (k - R.size) 0) := by
  obtain ⟨u, hu, hI⟩ := forLoop_inv_ex
    (fun j (w : Nat × List Nat) =>
      w = (acc.length + j, acc ++ R.str.take j ++ List.replicate (k - j) 0))
    0 R.size
    (fun i (w : Nat × List Nat) =>
      (R.get i).bind fun c => (arrWrite w.2 w.1 c).bind fun b => some (w.1 + 1, b))
    (acc.length, acc ++ List.replicate k 0)
    (by simp only [Nat.add_zero, List.take_zero, List.append_nil, Nat.sub_zero])
    (by
      intro j hj w hw
      subst hw
      refine ⟨_, ?_, rfl⟩
      simp only [Nat.zero_add]
      have hB : (acc ++ R.str.take j).length = acc.length + j := by
        rw [List.length_append, List.length_take, R.str_length]; omega
      have hw := write_after (acc ++ R.str.take j) (k - j - 1) (R.str.getD j 0)
      rw [hB, show k - j - 1 + 1 = k - j by omega] at hw
      rw [R.get_eq j hj, Option.some_bind, hw, Option.some_bind]
      have ht : R.str.take (j + 1) = R.str.take j ++ [R.str.getD j 0] := by
        rw [List.take_succ, getElem?_eq_some_getD R.str j (by rw [R.str_length]; exact hj)]
        rfl
      rw [ht, show k - (j + 1) = k - j - 1 by omega]
      simp only [List.append_assoc, List.singleton_append, Nat.add_assoc])
  rw [hu, hI, List.take_of_length_le (by rw [R.str_length])]

theorem u64_of_lt (x : Nat) (h : x < 2 ^ 64) : u64 x = x := Nat.mod_eq_of_lt h

/-- The length computed for the result buffer of the replacing functions. -/
theorem result_len_eq (n m rl cnt full : Nat) (h1 : cnt * m ≤ n) (hm : 0 < m)
    (h2 : full + cnt * m = n + cnt * rl) (h3 : n + n * rl < 2 ^ 64) :
    u64 (size_sub n (u64 (cnt * m)) + u64 (cnt * rl)) = full := by
  have hc : cnt ≤ n := Nat.le_trans (Nat.le_mul_of_pos_right cnt hm) h1
  have h4 : cnt * rl ≤ n * rl := Nat.mul_le_mul_right rl hc
  rw [u64_of_lt (cnt * m) (by omega), u64_of_lt (cnt * rl) (by omega),
    size_sub_eq n _ h1 (by omega), u64_of_lt _ (by omega)]
  omega

/-! ## `replace_n` and `replace_all` -/

/-- The result of `replace_n_logic` for a non-empty pattern that is not longer than the
string. -/
theorem replace_n_logic_eq (S P R : FixedString) (N : Nat) (hP : 0 < P.size)
    (hPS : P.size ≤ S.size) (hsz : S.size + S.size * R.size < 2 ^ 64) :
    replace_n_logic S P R N = some ⟨rewrite_first P.str R.str N 0 S.str ++ [0]⟩ := by
  have hS : S.size < 2 ^ 64 := by omega
  have hsub : size_sub S.size P.size = S.size - P.size := size_sub_eq _ _ hPS hS
  have hplen : P.str.length = P.size := P.str_length
  have hslen : S.str.length = S.size := S.str_length
  have hrlen : R.str.length = R.size := R.str_length
  obtain ⟨full, hfull⟩ : ∃ f, f = rewrite_first P.str R.str N 0 S.str := ⟨_, rfl⟩
  have hlen := rewrite_first_length P.str R.str (by omega) S.str N 0
  rw [← hfull, hplen, hslen, hrlen, Nat.min_eq_left (Nat.zero_le _), Nat.add_zero] at hlen
  have hmul := count_first_mul_le P.str (by omega) N S.str
  rw [hplen, hslen] at hmul
  have hRL := result_len_eq S.size P.size R.size (count_first P.str N 0 S.str) full.length
    hmul hP hlen hsz
  obtain ⟨t, ht, hI, hc⟩ := whileLoop_inv
    (fun (st : Nat × Nat × Nat × List Nat) => st.1 ≤ S.size ∧ st.2.2.1 ≤ N ∧
      ∃ acc : List Nat, st.2.1 = acc.length ∧
        st.2.2.2 = acc ++ List.replicate (full.length + 1 - acc.length) 0 ∧
        acc ++ rewrite_first P.str R.str (N - st.2.2.1) 0 (S.str.drop st.1) = full)
    (fun (st : Nat × Nat × Nat × List Nat) => S.size - st.1)
    (fun (st : Nat × Nat × Nat × List Nat) => decide (st.1 < S.size))
    (fun (st : Nat × Nat × Nat × List Nat) =>
      if P.size > 0 ∧ st.1 ≤ size_sub S.size P.size ∧ st.2.2.1 < N then
        (pattern_match S P st.1).bind fun m =>
          if m = true then
            (forLoop 0 R.size (fun i (w : Nat × List Nat) =>
              (R.get i).bind fun c => (arrWrite w.2 w.1 c).bind fun b => some (w.1 + 1, b))
              (st.2.1, st.2.2.2)).bind fun w => some (st.1 + P.size, w.1, st.2.2.1 + 1, w.2)
          else
            (S.get st.1).bind fun c => (arrWrite st.2.2.2 st.2.1 c).bind fun b =>
              some (st.1 + 1, st.2.1 + 1, st.2.2.1, b)
      else
        (some false).bind fun m =>
          if m = true then
            (forLoop 0 R.size (fun i (w : Nat × List Nat) =>
              (R.get i).bind fun c => (arrWrite w.2 w.1 c).bind fun b => some (w.1 + 1, b))
              (st.2.1, st.2.2.2)).bind fun w => some (st.1 + P.size, w.1, st.2.2.1 + 1, w.2)
          else
            (S.get st.1).bind fun c => (arrWrite st.2.2.2 st.2.1 c).bind fun b =>
              some (st.1 + 1, st.2.1 + 1, st.2.2.1, b))
    (by
      rintro ⟨src, dst, reps, buf⟩ ⟨h1, h2, acc, hdst, hbuf, hacc⟩ hcond
      simp only [decide_eq_true_eq] at hcond
      simp only [] at h1 h2 hdst hbuf hacc ⊢
      subst hdst hbuf
      have hcopy : (N - reps = 0 ∨ P.str.isPrefixOf (S.str.drop src) = false) →
          ∃ t : Nat × Nat × Nat × List Nat,
            ((S.get src).bind fun c =>
              (arrWrite (acc ++ List.replicate (full.length + 1 - acc.length) 0)
                acc.length c).bind fun b => some (src + 1, acc.length + 1, reps, b)) = some t ∧
            (t.1 ≤ S.size ∧ t.2.2.1 ≤ N ∧
              ∃ acc2 : List Nat, t.2.1 = acc2.length ∧
                t.2.2.2 = acc2 ++ List.replicate (full.length + 1 - acc2.length) 0 ∧
                acc2 ++ rewrite_first P.str R.str (N - t.2.2.1) 0 (S.str.drop t.1) = full) ∧
            S.size - t.1 < S.size - src := by
        intro hno
        have hsp := rewrite_first_copy P.str R.str S.str (N - reps) src (by omega) hno
        rw [hsp] at hacc
        have hl : acc.length + 1 ≤ full.length := by
          rw [← hacc, List.length_append, List.length_cons]; omega
        have hw := write_after acc (full.length - acc.length) (S.str.getD src 0)
        rw [show full.length - acc.length + 1 = full.length + 1 - acc.length by omega] at hw
        rw [S.get_eq src hcond, Option.some_bind, hw, Option.some_bind]
        refine ⟨_, rfl, ⟨by simp only []; omega, h2, acc ++ [S.str.getD src 0], ?_, ?_, ?_⟩,
          by simp only []; omega⟩
        · simp only [List.length_append, List.length_singleton]
        · simp only [List.length_append, List.length_singleton, List.append_assoc,
            List.singleton_append]
          rw [show full.length + 1 - (acc.length + 1) = full.length - acc.length by omega]
        · simp only [List.append_assoc, List.singleton_append]
          exact hacc
      have hpre := occurs_of_isPrefixOf S P src hP
      by_cases hcm : P.size > 0 ∧ src ≤ size_sub S.size P.size ∧ reps < N
      · rw [if_pos hcm]
        rw [hsub] at hcm
        rw [pattern_match_eq S P src (by omega), Option.some_bind]
        by_cases ho : occurs_at S.str P.str src
        · rw [decide_eq_true ho] at hpre ⊢
          rw [if_pos rfl]
          have hsp := rewrite_first_match P.str R.str S.str (N - reps - 1) src (by omega)
            (by omega) hpre
          rw [show N - reps - 1 + 1 = N - reps by omega, hplen] at hsp
          rw [hsp] at hacc
          have hl : acc.length + R.size ≤ full.length := by
            rw [← hacc, List.length_append, List.length_append, hrlen]; omega
          rw [write_loop R acc _ (by omega), Option.some_bind]
          refine ⟨_, rfl, ⟨by simp only []; omega, by simp only []; omega, acc ++ R.str, ?_, ?_,
            ?_⟩, by simp only []; omega⟩
          · simp only [List.length_append, hrlen]
          · simp only [List.length_append, hrlen]
            rw [show full.length + 1 - acc.length - R.size =
              full.length + 1 - (acc.length + R.size) by omega]
          · simp only []
            rw [List.append_assoc, show N - (reps + 1) = N - reps - 1 by omega]
            exact hacc
        · rw [decide_eq_false ho] at hpre ⊢
          rw [if_neg (by decide)]
          exact hcopy (Or.inr hpre)
      · rw [if_neg hcm, Option.some_bind, if_neg (by decide)]
        apply hcopy
        rw [hsub] at hcm
        by_cases hr : reps < N
        · right
          exact not_isPrefixOf_of_short _ _ (by
            rw [List.length_drop, hslen, hplen]; omega)
        · left; omega)
    (S.size + 1) (0, 0, 0, List.replicate (full.length + 1) 0)
    ⟨Nat.zero_le _, Nat.zero_le _, [], rfl, rfl, by
      simp only [Nat.sub_zero, List.drop_zero, List.nil_append]; exact hfull.symm⟩
    (by simp only []; omega)
  have hres : t.2.2.2 = full ++ [0] := by
    obtain ⟨src, dst, reps, buf⟩ := t
    obtain ⟨h1, h2, acc, hdst, hbuf, hacc⟩ := hI
    simp only [decide_eq_false_iff_not] at h1 h2 hdst hbuf hacc hc ⊢
    rw [List.drop_of_length_le (by rw [hslen]; omega), rewrite_first_nil,
      List.append_nil] at hacc
    rw [hbuf, hacc, show full.length + 1 - full.length = 1 by omega]
    rfl
  unfold replace_n_logic
  simp only [Option.bind_eq_bind]
  rw [count_n_occurrences_eq S P N hP hPS hS, Option.some_bind, hRL]
  refine (congrArg (fun o => Option.bind o
    (fun st => FixedString.from_buffer (full.length + 1) st.2.2.2 full.length)) ht).trans ?_
  rw [Option.some_bind, hres, ← hfull]
  exact from_buffer_content full full.length rfl

theorem rewrite_all_length (P R : List Nat) (hP : 0 < P.length) (l : List Nat) :
    (rewrite_all P R 0 l).length + count_matches P 0 l * P.length =
      l.length + count_matches P 0 l * R.length := by
  have h := rewrite_first_length P R hP l (count_matches P 0 l) 0
  rw [rewrite_first_eq_all P R l _ 0 (Nat.le_refl _), ← count_matches_eq_first,
    Nat.min_eq_left (Nat.zero_le _), Nat.add_zero] at h
  exact h

theorem count_matches_mul_le (P : List Nat) (hP : 0 < P.length) (l : List Nat) :
    count_matches P 0 l * P.length ≤ l.length := by
  have h := count_first_mul_le P hP (count_matches P 0 l) l
  rwa [← count_matches_eq_first] at h

/-- The result of `replace_all_logic` for a non-empty pattern that is not longer than the
string. -/
theorem replace_all_logic_eq (S P R : FixedString) (hP : 0 < P.size)
    (hPS : P.size ≤ S.size) (hsz : S.size + S.size * R.size < 2 ^ 64) :
    replace_all_logic S P R = some ⟨rewrite_all P.str R.str 0 S.str ++ [0]⟩ := by
  have hS : S.size < 2 ^ 64 := by omega
  have hsub : size_sub S.size P.size = S.size - P.size := size_sub_eq _ _ hPS hS
  have hplen : P.str.length = P.size := P.str_length
  have hslen : S.str.length = S.size := S.str_length
  have hrlen : R.str.length = R.size := R.str_length
  obtain ⟨full, hfull⟩ : ∃ f, f = rewrite_all P.str R.str 0 S.str := ⟨_, rfl⟩
  have hlen := rewrite_all_length P.str R.str (by omega) S.str
  rw [← hfull, hplen, hslen, hrlen] at hlen
  have hmul := count_matches_mul_le P.str (by omega) S.str
  rw [hplen, hslen] at hmul
  have hRL := result_len_eq S.size P.size R.size (count_matches P.str 0 S.str) full.length
    hmul hP hlen hsz
  obtain ⟨t, ht, hI, hc⟩ := whileLoop_inv
    (fun (st : Nat × Nat × List Nat) => st.1 ≤ S.size ∧
      ∃ acc : List Nat, st.2.1 = acc.length ∧
        st.2.2 = acc ++ List.replicate (full.length + 1 - acc.length) 0 ∧
        acc ++ rewrite_all P.str R.str 0 (S.str.drop st.1) = full)
    (fun (st : Nat × Nat × List Nat) => S.size - st.1)
    (fun (st : Nat × Nat × List Nat) => decide (st.1 < S.size))
    (fun (st : Nat × Nat × List Nat) =>
      if P.size > 0 ∧ st.1 ≤ size_sub S.size P.size then
        (pattern_match S P st.1).bind fun m =>
          if m = true then
            (forLoop 0 R.size (fun i (w : Nat × List Nat) =>
              (R.get i).bind fun c => (arrWrite w.2 w.1 c).bind fun b => some (w.1 + 1, b))
              (st.2.1, st.2.2)).bind fun w => some (st.1 + P.size, w.1, w.2)
          else
            (S.get st.1).bind fun c => (arrWrite st.2.2 st.2.1 c).bind fun b =>
              some (st.1 + 1, st.2.1 + 1, b)
      else
        (some false).bind fun m =>
          if m = true then
            (forLoop 0 R.size (fun i (w : Nat × List Nat) =>
              (R.get i).bind fun c => (arrWrite w.2 w.1 c).bind fun b => some (w.1 + 1, b))
              (st.2.1, st.2.2)).bind fun w => some (st.1 + P.size, w.1, w.2)
          else
            (S.get st.1).bind fun c => (arrWrite st.2.2 st.2.1 c).bind fun b =>
              some (st.1 + 1, st.2.1 + 1, b))
    (by
      rintro ⟨src, dst, buf⟩ ⟨h1, acc, hdst, hbuf, hacc⟩ hcond
      simp only [decide_eq_true_eq] at hcond
      simp only [] at h1 hdst hbuf hacc ⊢
      subst hdst hbuf
      have hcopy : P.str.isPrefixOf (S.str.drop src) = false →
          ∃ t : Nat × Nat × List Nat,
            ((S.get src).bind fun c =>
              (arrWrite (acc ++ List.replicate (full.length + 1 - acc.length) 0)
                acc.length c).bind fun b => some (src + 1, acc.length + 1, b)) = some t ∧
            (t.1 ≤ S.size ∧
              ∃ acc2 : List Nat, t.2.1 = acc2.length ∧
                t.2.2 = acc2 ++ List.replicate (full.length + 1 - acc2.length) 0 ∧
                acc2 ++ rewrite_all P.str R.str 0 (S.str.drop t.1) = full) ∧
            S.size - t.1 < S.size - src := by
        intro hno
        have hsp := rewrite_all_copy P.str R.str S.str src (by omega) hno
        rw [hsp] at hacc
        have hl : acc.length + 1 ≤ full.length := by
          rw [← hacc, List.length_append, List.length_cons]; omega
        have hw := write_after acc (full.length - acc.length) (S.str.getD src 0)
        rw [show full.length - acc.length + 1 = full.length + 1 - acc.length by omega] at hw
        rw [S.get_eq src hcond, Option.some_bind, hw, Option.some_bind]
        refine ⟨_, rfl, ⟨by simp only []; omega, acc ++ [S.str.getD src 0], ?_, ?_, ?_⟩,
          by simp only []; omega⟩
        · simp only [List.length_append, List.length_singleton]
        · simp only [List.length_append, List.length_singleton, List.append_assoc,
            List.singleton_append]
          rw [show full.length + 1 - (acc.length + 1) = full.length - acc.length by omega]
        · simp only [List.append_assoc, List.singleton_append]
          exact hacc
      have hpre := occurs_of_isPrefixOf S P src hP
      by_cases hcm : P.size > 0 ∧ src ≤ size_sub S.size P.size
      · rw [if_pos hcm]
        rw [hsub] at hcm
        rw [pattern_match_eq S P src (by omega), Option.some_bind]
        by_cases ho : occurs_at S.str P.str src
        · rw [decide_eq_true ho] at hpre ⊢
          rw [if_pos rfl]
          have hsp := rewrite_all_match P.str R.str S.str src (by omega) (by omega) hpre
          rw [hplen] at hsp
          rw [hsp] at hacc
          have hl : acc.length + R.size ≤ full.length := by
            rw [← hacc, List.length_append, List.length_append, hrlen]; omega
          rw [write_loop R acc _ (by omega), Option.some_bind]
          refine ⟨_, rfl, ⟨by simp only []; omega, acc ++ R.str, ?_, ?_, ?_⟩,
            by simp only []; omega⟩
          · simp only [List.length_append, hrlen]
          · simp only [List.length_append, hrlen]
            rw [show full.length + 1 - acc.length - R.size =
              full.length + 1 - (acc.length + R.size) by omega]
          · simp only []
            rw [List.append_assoc]
            exact hacc
        · rw [decide_eq_false ho] at hpre ⊢
          rw [if_neg (by decide)]
          exact hcopy hpre
      · rw [if_neg hcm, Option.some_bind, if_neg (by decide)]
        apply hcopy
        rw [hsub] at hcm
        exact not_isPrefixOf_of_short _ _ (by
          rw [List.length_drop, hslen, hplen]; omega))
    (S.size + 1) (0, 0, List.replicate (full.length + 1) 0)
    ⟨Nat.zero_le _, [], rfl, rfl, by
      simp only [List.drop_zero, List.nil_append]; exact hfull.symm⟩
    (by simp only []; omega)
  have hres : t.2.2 = full ++ [0] := by
    obtain ⟨src, dst, buf⟩ := t
    obtain ⟨h1, acc, hdst, hbuf, hacc⟩ := hI
    simp only [decide_eq_false_iff_not] at h1 hdst hbuf hacc hc ⊢
    rw [List.drop_of_length_le (by rw [hslen]; omega), rewrite_all_nil,
      List.append_nil] at hacc
    rw [hbuf, hacc, show full.length + 1 - full.length = 1 by omega]
    rfl
  unfold replace_all_logic
  simp only [Option.bind_eq_bind]
  rw [count_occurrences_eq S P hP hPS hS, Option.some_bind, hRL]
  refine (congrArg (fun o => Option.bind o
    (fun st => FixedString.from_buffer (full.length + 1) st.2.2 full.length)) ht).trans ?_
  rw [Option.some_bind, hres, ← hfull]
  exact from_buffer_content full full.length rfl

/-- The rewrite limited to `n` matches rewrites a first part of the list completely, with
`min n k` matches (`k` the number of matches of the unlimited rewrite), and keeps the rest
of the list as it is. -/
theorem rewrite_first_splits (P R : List Nat) (l : List Nat) :
    ∀ n k, ∃ j, min k l.length ≤ j ∧ j ≤ l.length ∧
      rewrite_first P R n k l = rewrite_all P R k (l.take j) ++ l.drop j ∧
      count_matches P k (l.take j) = min n (count_matches P k l) := by
  induction l with
  | nil =>
    intro n k
    exact ⟨0, by simp, by simp,
      by rw [rewrite_first_nil, List.take_nil, rewrite_all_nil, List.drop_nil, List.append_nil],
      by rw [List.take_nil, count_matches_nil]; simp⟩
  | cons c t ih =>
    intro n k
    cases k with
    | succ k =>
      obtain ⟨j, h1, h2, h3, h4⟩ := ih n k
      refine ⟨j + 1, by rw [List.length_cons]; omega, by rw [List.length_cons]; omega, ?_, ?_⟩
      · rw [rewrite_first_skip_cons, List.take_succ_cons, List.drop_succ_cons,
          rewrite_all_skip_cons, h3]
      · rw [List.take_succ_cons, count_matches_skip_cons, count_matches_skip_cons, h4]
    | zero =>
      cases n with
      | zero =>
        exact ⟨0, by simp, by simp,
          by rw [rewrite_first_zero, List.take_zero, rewrite_all_nil, List.drop_zero,
            List.nil_append],
          by rw [List.take_zero, count_matches_nil]; simp⟩
      | succ n =>
        by_cases hm : P.isPrefixOf (c :: t) = true
        · obtain ⟨j, h1, h2, h3, h4⟩ := ih n (P.length - 1)
          have hle := (List.isPrefixOf_iff_prefix.mp hm).length_le
          rw [List.length_cons] at hle
          have hm2 : P.isPrefixOf (c :: t.take j) = true := by
            rw [List.isPrefixOf_iff_prefix] at hm ⊢
            rw [← List.take_succ_cons, List.prefix_take_iff]
            exact ⟨hm, by omega⟩
          refine ⟨j + 1, by simp, by rw [List.length_cons]; omega, ?_, ?_⟩
          · rw [rewrite_first_succ, if_pos hm, List.take_succ_cons, List.drop_succ_cons,
              rewrite_all_zero, if_pos hm2, h3, List.append_assoc]
          · rw [List.take_succ_cons, count_matches_zero, if_pos hm2, count_matches_zero,
              if_pos hm, h4]
            omega
        · obtain ⟨j, h1, h2, h3, h4⟩ := ih (n + 1) 0
          have hm2 : ¬ P.isPrefixOf (c :: t.take j) = true := by
            intro hc
            apply hm
            rw [List.isPrefixOf_iff_prefix] at hc ⊢
            exact hc.trans (List.prefix_cons_inj c |>.mpr (List.take_prefix j t))
          refine ⟨j + 1, by simp, by rw [List.length_cons]; omega, ?_, ?_⟩
          · rw [rewrite_first_succ, if_neg hm, List.take_succ_cons, List.drop_succ_cons,
              rewrite_all_zero, if_neg hm2, h3, List.cons_append]
          · rw [List.take_succ_cons, count_matches_zero, if_neg hm2, count_matches_zero,
              if_neg hm, h4]

/-- C24: for a non-empty pattern `P` no longer than `S`, `replace_all<S, P, R>` is the
left-to-right non-overlapping rewrite of `S`: at each position, if `P` matches there, `R` is
emitted and the match is skipped, otherwise the current element is emitted; the emitted
replacement is not scanned again. -/
theorem replace_all_is_left_to_right_rewrite (S P R : FixedString) (hP : 0 < P.size)
    (hPS : P.size ≤ S.size) (hsz : S.size + S.size * R.size < 2 ^ 64) :
    ∃ r, replace_all_logic S P R = some r ∧ r.data = r.str ++ [0] ∧
      r.str = rewrite_all P.str R.str 0 S.str ∧
      count_occurrences S P = some (count_matches P.str 0 S.str) ∧
      r.size + count_matches P.str 0 S.str * P.size =
        S.size + count_matches P.str 0 S.str * R.size := by
  have hS : S.size < 2 ^ 64 := by omega
  refine ⟨_, replace_all_logic_eq S P R hP hPS hsz, ?_, str_of_content _,
    count_occurrences_eq S P hP hPS hS, ?_⟩
  · rw [str_of_content]
  · have h := rewrite_all_length P.str R.str (by rw [P.str_length]; exact hP) S.str
    rw [P.str_length, S.str_length, R.str_length] at h
    rw [size_of_content]
    exact h

theorem replace_all_is_left_to_right_rewrite_witness :
    0 < (FixedString.lit "aa").size ∧
    (FixedString.lit "aa").size ≤ (FixedString.lit "aaa").size ∧
    (FixedString.lit "aaa").size + (FixedString.lit "aaa").size * (FixedString.lit "b").size <
      2 ^ 64 ∧
    (∃ r, replace_all_logic (FixedString.lit "aaa") (FixedString.lit "aa")
        (FixedString.lit "b") = some r ∧ r.data = r.str ++ [0] ∧
      r.str = rewrite_all (FixedString.lit "aa").str (FixedString.lit "b").str 0
        (FixedString.lit "aaa").str ∧
      count_occurrences (FixedString.lit "aaa") (FixedString.lit "aa") =
        some (count_matches (FixedString.lit "aa").str 0 (FixedString.lit "aaa").str) ∧
      r.size + count_matches (FixedString.lit "aa").str 0 (FixedString.lit "aaa").str *
          (FixedString.lit "aa").size =
        (FixedString.lit "aaa").size +
          count_matches (FixedString.lit "aa").str 0 (FixedString.lit "aaa").str *
            (FixedString.lit "b").size) ∧
    replace_all_logic (FixedString.lit "aaa") (FixedString.lit "aa") (FixedString.lit "b") =
      some (FixedString.lit "ba") ∧
    replace_all_logic (FixedString.lit "ab") (FixedString.lit "a") (FixedString.lit "aa") =
      some (FixedString.lit "aab") :=
  ⟨by decide, by decide, by decide,
    replace_all_is_left_to_right_rewrite (FixedString.lit "aaa") (FixedString.lit "aa")
      (FixedString.lit "b") (by decide) (by decide) (by decide),
    by decide, by decide⟩

/-- C25: for a non-empty pattern `P` no longer than `S`, `replace_n<S, P, R, N>` replaces the
first `min(N, k)` left-to-right non-overlapping occurrences of `P`, where `k` is the number
`replace_all` replaces, and leaves the rest of `S` unchanged: the result is the complete
rewrite of a first part of `S`, which has `min(N, k)` matches, followed by the rest of `S`;
with `N = 0` the result is `S`, and with `N >= k` it is the result of `replace_all`. -/
theorem replace_n_replaces_first_matches (S P R : FixedString) (N : Nat) (hP : 0 < P.size)
    (hPS : P.size ≤ S.size) (hsz : S.size + S.size * R.size < 2 ^ 64) :
    ∃ r a, replace_n_logic S P R N = some r ∧ replace_all_logic S P R = some a ∧
      r.data = r.str ++ [0] ∧
      r.str = rewrite_first P.str R.str N 0 S.str ∧
      count_n_occurrences S P N = some (min N (count_matches P.str 0 S.str)) ∧
      (∃ j, j ≤ S.size ∧
        r.str = rewrite_all P.str R.str 0 (S.str.take j) ++ S.str.drop j ∧
        count_matches P.str 0 (S.str.take j) = min N (count_matches P.str 0 S.str)) ∧
      (N = 0 → r.str = S.str) ∧
      (count_matches P.str 0 S.str ≤ N → r = a) := by
  have hS : S.size < 2 ^ 64 := by omega
  refine ⟨_, _, replace_n_logic_eq S P R N hP hPS hsz, replace_all_logic_eq S P R hP hPS hsz,
    ?_, str_of_content _, ?_, ?_, ?_, ?_⟩
  · rw [str_of_content]
  · rw [count_n_occurrences_eq S P N hP hPS hS, count_first_eq_min]
  · obtain ⟨j, -, h2, h3, h4⟩ := rewrite_first_splits P.str R.str S.str N 0
    rw [S.str_length] at h2
    exact ⟨j, h2, by rw [str_of_content]; exact h3, h4⟩
  · intro h0
    rw [str_of_content, h0, rewrite_first_budget_zero]
  · intro hk
    rw [rewrite_first_eq_all P.str R.str S.str N 0 hk]

theorem replace_n_replaces_first_matches_witness :
    0 < (FixedString.lit "_").size ∧
    (FixedString.lit "_").size ≤ (FixedString.lit "a_b_c_d").size ∧
    (FixedString.lit "a_b_c_d").size +
      (FixedString.lit "a_b_c_d").size * (FixedString.lit "-").size < 2 ^ 64 ∧
    (∃ r a, replace_n_logic (FixedString.lit "a_b_c_d") (FixedString.lit "_")
        (FixedString.lit "-") 2 = some r ∧
      replace_all_logic (FixedString.lit "a_b_c_d") (FixedString.lit "_")
        (FixedString.lit "-") = some a ∧
      r.data = r.str ++ [0] ∧
      r.str = rewrite_first (FixedString.lit "_").str (FixedString.lit "-").str 2 0
        (FixedString.lit "a_b_c_d").str ∧
      count_n_occurrences (FixedString.lit "a_b_c_d") (FixedString.lit "_") 2 =
        some (min 2 (count_matches (FixedString.lit "_").str 0
          (FixedString.lit "a_b_c_d").str)) ∧
      (∃ j, j ≤ (FixedString.lit "a_b_c_d").size ∧
        r.str = rewrite_all (FixedString.lit "_").str (FixedString.lit "-").str 0
          ((FixedString.lit "a_b_c_d").str.take j) ++ (FixedString.lit "a_b_c_d").str.drop j ∧
        count_matches (FixedString.lit "_").str 0 ((FixedString.lit "a_b_c_d").str.take j) =
          min 2 (count_matches (FixedString.lit "_").str 0
            (FixedString.lit "a_b_c_d").str)) ∧
      (2 = 0 → r.str = (FixedString.lit "a_b_c_d").str) ∧
      (count_matches (FixedString.lit "_").str 0 (FixedString.lit "a_b_c_d").str ≤ 2 →
        r = a)) ∧
    replace_n_logic (FixedString.lit "a_b_c_d") (FixedString.lit "_") (FixedString.lit "-") 2 =
      some (FixedString.lit "a-b-c_d") ∧
    replace_n_logic (FixedString.lit "a_b_c") (FixedString.lit "_") (FixedString.lit "-") 0 =
      some (FixedString.lit "a_b_c") ∧
    replace_n_logic (FixedString.lit "a_b") (FixedString.lit "_") (FixedString.lit "-") 10 =
      some (FixedString.lit "a-b") :=
  ⟨by decide, by decide, by decide,
    replace_n_replaces_first_matches (FixedString.lit "a_b_c_d") (FixedString.lit "_")
      (FixedString.lit "-") 2 (by decide) (by decide) (by decide),
    by decide, by decide, by decide⟩

/-! ## Further transformations, path queries and the bounds of the loops -/

/-! ### Path queries -/

/-- The loop of `replace_all_logic` is `replace_all_pass` on the zero-initialised buffer. -/
theorem replace_all_logic_pass (S P R : FixedString) :
    replace_all_logic S P R =
      (count_occurrences S P).bind (fun count =>
        (replace_all_pass S P R (List.replicate
          (u64 (size_sub S.size (u64 (count * P.size)) + u64 (count * R.size)) + 1) 0)).bind
          (fun st => FixedString.from_buffer
            (u64 (size_sub S.size (u64 (count * P.size)) + u64 (count * R.size)) + 1) st.2.2
            (u64 (size_sub S.size (u64 (count * P.size)) + u64 (count * R.size))))) := rfl

/-- Reads below `size()` succeed. -/
theorem FixedString.get_some (S : FixedString) (i : Nat) (h : i < S.size) :
    ∃ c, S.get i = some c := ⟨_, S.get_eq i h⟩

theorem has_drive_letter_some (P : FixedString) : ∃ d, has_drive_letter P = some d := by
  unfold has_drive_letter
  split
  · rename_i h
    obtain ⟨c0, h0⟩ := P.get_some 0 (by omega)
    obtain ⟨c1, h1⟩ := P.get_some 1 (by omega)
    simp only [Option.bind_eq_bind, h0, h1, Option.some_bind]
    split <;> exact ⟨_, rfl⟩
  · exact ⟨_, rfl⟩

theorem first_is_separator_some (P : FixedString) :
    ∃ b, (if P.size > 0 then (P.get 0).bind (fun c => some (decide (c = 47 ∨ c = 92)))
      else some false) = some b := by
  split
  · rename_i h
    obtain ⟨c0, h0⟩ := P.get_some 0 h
    rw [h0]; exact ⟨_, rfl⟩
  · exact ⟨_, rfl⟩

theorem has_root_directory_some (P : FixedString) : ∃ b, has_root_directory P = some b := by
  obtain ⟨d, hd⟩ := has_drive_letter_some P
  unfold has_root_directory
  simp only [Option.bind_eq_bind, hd, Option.some_bind]
  cases d
  · simp only [Bool.false_eq_true, if_false]
    exact first_is_separator_some P
  · simp only [if_true]
    split
    · rename_i h
      obtain ⟨c, hc⟩ := P.get_some 2 h
      rw [hc]; exact ⟨_, rfl⟩
    · exact ⟨_, rfl⟩

theorem is_absolute_eq (P : FixedString) : is_absolute P = has_root_directory P := by
  obtain ⟨d, hd⟩ := has_drive_letter_some P
  unfold is_absolute
  simp only [Option.bind_eq_bind, hd, Option.some_bind]
  cases d
  · unfold has_root_directory
    simp only [Option.bind_eq_bind, hd, Option.some_bind, Bool.false_eq_true, if_false]
  · simp only [if_true]

theorem has_root_path_eq (P : FixedString) (d a : Bool) (hd : has_drive_letter P = some d)
    (ha : has_root_directory P = some a) : has_root_path P = some (d || a) := by
  unfold has_root_path
  unfold has_root_directory at ha
  simp only [Option.bind_eq_bind, hd, Option.some_bind] at ha ⊢
  cases d
  · simp only [Bool.false_eq_true, if_false, Bool.false_or] at ha ⊢
    exact ha
  · simp only [if_true, Bool.true_or]

/-- C39: `is_absolute<P>` is `has_root_directory<P>`, `is_relative<P>` is its negation, and
`has_root_path<P>` is `has_root_name<P> || has_root_directory<P>`; all four queries have a
value for every path.  A path with a drive letter and no separator after the colon
(`"C:relative"`) has a root name, no root directory, and is relative. -/
theorem is_absolute_is_has_root_directory (P : FixedString) :
    is_absolute P = has_root_directory P ∧
    (∃ n d, has_root_name P = some n ∧ has_root_directory P = some d ∧
      is_absolute P = some d ∧ is_relative P = some (!d) ∧
      has_root_path P = some (n || d)) ∧
    (has_root_name (FixedString.lit "C:relative") = some true ∧
      has_root_directory (FixedString.lit "C:relative") = some false ∧
      is_absolute (FixedString.lit "C:relative") = some false ∧
      is_relative (FixedString.lit "C:relative") = some true ∧
      has_root_path (FixedString.lit "C:relative") = some true) := by
  obtain ⟨n, hn⟩ := has_drive_letter_some P
  obtain ⟨d, hd⟩ := has_root_directory_some P
  refine ⟨is_absolute_eq P, ⟨n, d, hn, hd, ?_, ?_, has_root_path_eq P n d hn hd⟩,
    by decide, by decide, by decide, by decide, by decide⟩
  · rw [is_absolute_eq, hd]
  · unfold is_relative
    rw [is_absolute_eq, hd]
    rfl

theorem is_absolute_is_has_root_directory_witness :
    is_absolute (FixedString.lit "C:\\Windows") = some true ∧
    is_absolute (FixedString.lit "/usr/bin") = some true ∧
    is_relative (FixedString.lit "relative/path") = some true ∧
    is_relative (FixedString.lit "") = some true ∧
    (is_absolute (FixedString.lit "C:/x") = has_root_directory (FixedString.lit "C:/x") ∧
    (∃ n d, has_root_name (FixedString.lit "C:/x") = some n ∧
      has_root_directory (FixedString.lit "C:/x") = some d ∧
      is_absolute (FixedString.lit "C:/x") = some d ∧
      is_relative (FixedString.lit "C:/x") = some (!d) ∧
      has_root_path (FixedString.lit "C:/x") = some (n || d)) ∧
    (has_root_name (FixedString.lit "C:relative") = some true ∧
      has_root_directory (FixedString.lit "C:relative") = some false ∧
      is_absolute (FixedString.lit "C:relative") = some false ∧
      is_relative (FixedString.lit "C:relative") = some true ∧
      has_root_path (FixedString.lit "C:relative") = some true)) :=
  ⟨by decide, by decide, by decide, by decide,
    is_absolute_is_has_root_directory (FixedString.lit "C:/x")⟩

/-! ### `remove_filename`, `replace_filename`, `append` -/

/-- A loop that writes one computed element per pass at consecutive indices. -/
theorem fill_loop (g : Nat → Option Nat) (f : Nat → Nat) (doff : Nat) (dst : List Nat) :
    ∀ len, (∀ i, i < len → g i = some (f i)) → doff + len ≤ dst.length →
      forLoop 0 len (fun i buf => (g i).bind (fun c => arrWrite buf (doff + i) c)) dst =
      some (dst.take doff ++ (List.range len).map f ++ dst.drop (doff + len)) := by
  intro len
  induction len with
  | zero =>
    intro _ _
    rw [forLoop_zero, List.range_zero, List.map_nil, List.append_nil, Nat.add_zero,
      List.take_append_drop]
  | succ len ih =>
    intro hg hd
    have hdl : doff + len < dst.length := by omega
    rw [forLoop_succ, ih (fun i hi => hg i (by omega)) (by omega), Option.some_bind,
      Nat.zero_add, hg len (by omega), Option.some_bind]
    have hlen1 : (dst.take doff).length = doff := by rw [List.length_take]; omega
    have hlen2 : ((List.range len).map f).length = len := by
      rw [List.length_map, List.length_range]
    unfold arrWrite
    rw [if_pos (by
      rw [List.length_append, List.length_append, hlen1, hlen2, List.length_drop]; omega)]
    apply congrArg some
    rw [List.range_succ, List.map_append]
    rw [List.drop_eq_getElem_cons hdl]
    rw [List.set_append_right _ _ (by
      rw [List.length_append, hlen1, hlen2])]
    rw [List.length_append, hlen1, hlen2, Nat.sub_self]
    simp only [List.set_cons_zero, List.map_cons, List.map_nil, List.append_assoc,
      List.singleton_append, Nat.add_assoc]

/-- A loop from `lo` is a loop from `0` with the index shifted. -/
theorem forLoop_shift {σ : Type} (lo n : Nat) (body : Nat → σ → Option σ) (s : σ) :
    forLoop lo n body s = forLoop 0 n (fun i t => body (lo + i) t) s := by
  induction n with
  | zero => rfl
  | succ n ih => rw [forLoop_succ, forLoop_succ, ih, Nat.zero_add]

/-- The copy of the first `len` elements of a string into a zero-initialised buffer. -/
theorem copy_head (S : FixedString) (len n : Nat) (h : len ≤ S.size) (hn : len ≤ n) :
    forLoop 0 len (fun i buf => (S.get i).bind fun c => arrWrite buf i c)
      (List.replicate n 0) = some (S.str.take len ++ List.replicate (n - len) 0) := by
  have := copy_from_str (fun c => c) S 0 len n (by omega) hn
  simp only [Option.bind_eq_bind, Nat.zero_add, List.drop_zero, List.map_id'] at this
  exact this

/-- A string built from the first `len` elements of `S`. -/
theorem build_head (S : FixedString) (len : Nat) (h : len ≤ S.size) :
    (forLoop 0 len (fun i buf => (S.get i).bind fun c => arrWrite buf i c)
      (List.replicate (len + 1) 0)).bind
      (fun buf => FixedString.from_buffer (len + 1) buf len) =
    some ⟨S.str.take len ++ [0]⟩ := by
  rw [copy_head S len (len + 1) h (by omega), Option.some_bind,
    show len + 1 - len = 1 by omega]
  exact from_buffer_content _ _ (by rw [List.length_take, S.str_length]; omega)

theorem remove_filename_logic_eq (P : FixedString) (pos : Nat)
    (hpos : find_last_separator P = some pos) (hle : pos ≤ P.size) :
    remove_filename_logic P = some ⟨P.str.take pos ++ [0]⟩ := by
  unfold remove_filename_logic
  simp only [Option.bind_eq_bind]
  rw [hpos, Option.some_bind]
  exact build_head P pos hle

theorem replace_filename_logic_eq (P F : FixedString) (pos : Nat)
    (hpos : find_last_separator P = some pos) (hle : pos ≤ P.size) :
    replace_filename_logic P F = some ⟨P.str.take pos ++ F.str ++ [0]⟩ := by
  have hB : (P.str.take pos).length = pos := by rw [List.length_take, P.str_length]; omega
  unfold replace_filename_logic
  simp only [Option.bind_eq_bind]
  rw [hpos, Option.some_bind, copy_head P pos _ hle (by omega), Option.some_bind,
    show pos + F.size + 1 - pos = F.size + 1 by omega]
  have h2 := append_loop F (P.str.take pos)
  simp only [Option.bind_eq_bind, hB] at h2
  rw [h2, Option.some_bind]
  exact from_buffer_content _ _ (by rw [List.length_append, hB, F.str_length])

/-- The loop `append_one` on a buffer whose written part is `acc`. -/
theorem append_one_eq (S : FixedString) (acc : List Nat) (k : Nat) (hk : S.size ≤ k) :
    append_one S (acc.length, acc ++ List.replicate k 0) =
      some (acc.length + S.size, acc ++ S.str ++ List.replicate (k - S.size) 0) :=
  write_loop S acc k hk

theorem append_each_eq : ∀ (Strs : List FixedString) (acc : List Nat) (k : Nat),
    (Strs.map FixedString.size).sum ≤ k →
    append_each Strs (acc.length, acc ++ List.replicate k 0) =
      some (acc.length + (Strs.map FixedString.size).sum,
        acc ++ (Strs.map FixedString.str).flatten ++
          List.replicate (k - (Strs.map FixedString.size).sum) 0)
  | [], acc, k, _ => by
    simp only [append_each, List.map_nil, List.sum_nil, List.flatten_nil, List.append_nil,
      Nat.add_zero, Nat.sub_zero]
  | S :: rest, acc, k, h => by
    simp only [List.map_cons, List.sum_cons] at h
    have h1 := append_one_eq S acc k (by omega)
    have h2 := append_each_eq rest (acc ++ S.str) (k - S.size) (by omega)
    rw [List.length_append, S.str_length] at h2
    simp only [append_each, List.map_cons, List.sum_cons, List.flatten_cons]
    rw [h1, Option.some_bind, h2]
    simp only [List.append_assoc, Nat.add_assoc, Nat.sub_sub]

/-- The result of `append_logic`: the contents of the strings, one after the other. -/
theorem append_logic_eq (Strs : List FixedString) (h : Strs ≠ []) :
    append_logic Strs = some ⟨(Strs.map FixedString.str).flatten ++ [0]⟩ := by
  unfold append_logic
  rw [if_neg (by simpa using h)]
  have h2 := append_each_eq Strs [] ((Strs.map FixedString.size).sum + 1) (by omega)
  simp only [List.length_nil, List.nil_append, Nat.zero_add] at h2
  simp only [Option.bind_eq_bind]
  rw [h2, Option.some_bind, show (Strs.map FixedString.size).sum + 1 -
    (Strs.map FixedString.size).sum = 1 by omega]
  refine from_buffer_content _ _ ?_
  clear h h2
  induction Strs with
  | nil => rfl
  | cons S rest ih =>
    simp only [List.map_cons, List.flatten_cons, List.length_append, List.sum_cons, ih,
      S.str_length]

/-- C36: `remove_filename<P>` followed by `filename<P>` is `P`, `replace_filename<P, F>` is
`remove_filename<P>` followed by `F`, and so `replace_filename<P, filename<P>>` is `P`.
"Followed by" is stated on the contents and, as well, with `append_logic`. -/
theorem remove_filename_then_filename (P F : FixedString) :
    ∃ d f, remove_filename_logic P = some d ∧ filename_logic P = some f ∧
      d.str ++ f.str = P.str ∧
      append_logic [d, f] = some ⟨P.str ++ [0]⟩ ∧
      replace_filename_logic P F = some ⟨d.str ++ F.str ++ [0]⟩ ∧
      replace_filename_logic P F = append_logic [d, F] ∧
      replace_filename_logic P f = some ⟨P.str ++ [0]⟩ ∧
      (null_terminated P → replace_filename_logic P f = some P) := by
  obtain ⟨pos, hpos, hle, -, -⟩ := find_last_separator_spec P
  have hcat : P.str.take pos ++ P.str.drop pos = P.str := List.take_append_drop _ _
  have hf : replace_filename_logic P ⟨P.str.drop pos ++ [0]⟩ = some ⟨P.str ++ [0]⟩ := by
    rw [replace_filename_logic_eq P _ pos hpos hle, str_of_content, hcat]
  refine ⟨_, _, remove_filename_logic_eq P pos hpos hle, filename_logic_eq P pos hpos hle,
    ?_, ?_, ?_, ?_, hf, ?_⟩
  · rw [str_of_content, str_of_content, hcat]
  · rw [append_logic_eq _ (by simp)]
    simp only [List.map_cons, List.map_nil, List.flatten_cons, List.flatten_nil,
      List.append_nil, str_of_content, hcat]
  · rw [replace_filename_logic_eq P F pos hpos hle, str_of_content]
  · rw [replace_filename_logic_eq P F pos hpos hle, append_logic_eq _ (by simp)]
    simp only [List.map_cons, List.map_nil, List.flatten_cons, List.flatten_nil,
      List.append_nil, str_of_content]
  · intro hnt
    rw [hf]
    congr 1
    obtain ⟨d⟩ := P
    obtain ⟨h1, h2⟩ := hnt
    simp only [FixedString.str] at h1 h2 ⊢
    congr 1
    apply List.ext_getElem?
    intro i
    by_cases hi : i < (FixedString.mk d).size
    · rw [List.getElem?_append_left (by rw [List.length_take]; omega),
        List.getElem?_take_of_lt hi]
    · by_cases hi2 : i = (FixedString.mk d).size
      · rw [List.getElem?_append_right (by rw [List.length_take]; omega), List.length_take,
          Nat.min_eq_left (by omega), hi2, Nat.sub_self, h2]
        rfl
      · rw [List.getElem?_eq_none (by
          rw [List.length_append, List.length_take, List.length_singleton]; omega),
          List.getElem?_eq_none (by omega)]

theorem remove_filename_then_filename_witness :
    null_terminated (FixedString.lit "/usr/local\\bin/program.exe") ∧
    remove_filename_logic (FixedString.lit "/usr/local\\bin/program.exe") =
      some (FixedString.lit "/usr/local\\bin/") ∧
    replace_filename_logic (FixedString.lit "/usr/bin/old.txt") (FixedString.lit "new.cpp") =
      some (FixedString.lit "/usr/bin/new.cpp") ∧
    (∃ d f, remove_filename_logic (FixedString.lit "/usr/bin/old.txt") = some d ∧
      filename_logic (FixedString.lit "/usr/bin/old.txt") = some f ∧
      d.str ++ f.str = (FixedString.lit "/usr/bin/old.txt").str ∧
      append_logic [d, f] = some ⟨(FixedString.lit "/usr/bin/old.txt").str ++ [0]⟩ ∧
      replace_filename_logic (FixedString.lit "/usr/bin/old.txt") (FixedString.lit "new.cpp") =
        some ⟨d.str ++ (FixedString.lit "new.cpp").str ++ [0]⟩ ∧
      replace_filename_logic (FixedString.lit "/usr/bin/old.txt") (FixedString.lit "new.cpp") =
        append_logic [d, FixedString.lit "new.cpp"] ∧
      replace_filename_logic (FixedString.lit "/usr/bin/old.txt") f =
        some ⟨(FixedString.lit "/usr/bin/old.txt").str ++ [0]⟩ ∧
      (null_terminated (FixedString.lit "/usr/bin/old.txt") →
        replace_filename_logic (FixedString.lit "/usr/bin/old.txt") f =
          some (FixedString.lit "/usr/bin/old.txt"))) :=
  ⟨by decide, by decide, by decide,
    remove_filename_then_filename (FixedString.lit "/usr/bin/old.txt")
      (FixedString.lit "new.cpp")⟩

/-! ### `replace_extension` with the extension of the path; `has_stem`, `has_extension` -/

/-- A null-terminated string is its content followed by the zero element. -/
theorem null_terminated_eq (P : FixedString) (h : null_terminated P) : P = ⟨P.str ++ [0]⟩ := by
  obtain ⟨d⟩ := P
  obtain ⟨h1, h2⟩ := h
  simp only [FixedString.str] at h1 h2 ⊢
  congr 1
  apply List.ext_getElem?
  intro i
  by_cases hi : i < (FixedString.mk d).size
  · rw [List.getElem?_append_left (by rw [List.length_take]; omega),
      List.getElem?_take_of_lt hi]
  · by_cases hi2 : i = (FixedString.mk d).size
    · rw [List.getElem?_append_right (by rw [List.length_take]; omega), List.length_take,
        Nat.min_eq_left (by omega), hi2, Nat.sub_self, h2]
      rfl
    · rw [List.getElem?_eq_none (by omega), List.getElem?_eq_none (by
        rw [List.length_append, List.length_take, List.length_singleton]; omega)]

/-- A string made of a content and the zero element is null-terminated. -/
theorem null_terminated_content (c : List Nat) : null_terminated ⟨c ++ [0]⟩ := by
  refine ⟨?_, ?_⟩
  · rw [size_of_content, List.length_append, List.length_singleton]
  · rw [size_of_content, List.getElem?_append_right (Nat.le_refl _), Nat.sub_self]
    rfl

theorem has_stem_eq (P : FixedString) (pos dot : Nat)
    (hpos : find_last_separator P = some pos) (hdot : find_last_dot P = some dot) :
    has_stem P = some (decide (pos < P.size ∧ (dot = P.size ∨ dot > pos))) := by
  unfold has_stem
  simp only [Option.bind_eq_bind]
  rw [hpos, Option.some_bind, hdot, Option.some_bind]

theorem has_extension_eq (P : FixedString) (pos dot : Nat)
    (hpos : find_last_separator P = some pos) (hdot : find_last_dot P = some dot) :
    has_extension P = some (decide (dot ≠ P.size ∧ dot > pos)) := by
  unfold has_extension
  simp only [Option.bind_eq_bind]
  rw [hdot, Option.some_bind, hpos, Option.some_bind]

/-- Replacing the extension of a path with the value of `extension<P>`, for the element
type `T`: the result has the content of the path when `T` is `char` or the path has an
extension, and there is no result otherwise, as `extension<P>` has no value then. -/
theorem replace_extension_own (T : CharT) (P : FixedString) :
    (extension_logic T P).bind (replace_extension_logic P) =
      if T = CharT.char ∨ has_extension P = some true then some ⟨P.str ++ [0]⟩ else none := by
  obtain ⟨pos, dot, hpos, hdot, hle, hd, hcase, -, -, -⟩ := path_parts P
  rw [extension_logic_eq T P pos dot hpos hdot hd, has_extension_eq P pos dot hpos hdot]
  by_cases hc : dot = P.size ∨ dot ≤ pos
  · have hdec : decide (dot ≠ P.size ∧ dot > pos) = false := decide_eq_false (by omega)
    rw [if_pos hc, hdec]
    by_cases hT : T = CharT.char
    · rw [if_pos hT, if_pos (Or.inl hT), Option.some_bind,
        replace_extension_logic_eq P _ pos dot hpos hdot hd]
      have hs : (FixedString.mk [0]).str = [] := rfl
      have hz : (FixedString.mk [0]).size = 0 := rfl
      rw [hs, hz, if_neg (by omega), if_neg (by simp), List.take_of_length_le
        (by rw [P.str_length]), List.append_nil, List.append_nil]
    · rw [if_neg hT, if_neg (by
        rintro (h | h)
        · exact hT h
        · cases h)]
      rfl
  · have hdec : decide (dot ≠ P.size ∧ dot > pos) = true := decide_eq_true (by omega)
    rw [if_neg hc, hdec, if_pos (Or.inr rfl), Option.some_bind,
      replace_extension_logic_eq P _ pos dot hpos hdot hd, str_of_content, size_of_content,
      if_pos (by omega)]
    have h46 : (P.str.drop dot).getD 0 0 = 46 := by
      rw [getD_drop_eq, Nat.add_zero]
      rcases hcase with ⟨h, -⟩ | ⟨-, -, h, -⟩
      · omega
      · exact h
    rw [if_neg (fun h => h.2 h46), List.append_nil, List.take_append_drop]

/-- C37 (evaluation at the failing input): for a path whose element type is not `char` and
that has no extension (`L"Makefile"`, `u"/home/.gitignore"`: the elements of these literals
with the element types `wchar_t` and `char16_t`), `extension<P>` has no value, so
`replace_extension<P, extension<P>>` has none either.  For every path of `char` (without an
extension, with a filename that starts with its only dot, or with an extension), and for
every path of another element type that has an extension, the result has the content of
the path; it is the path itself when the path is null-terminated. -/
theorem replace_extension_with_own_extension_of_wide_path :
    (extension_logic CharT.wchar_t (FixedString.lit "Makefile") = none ∧
      (extension_logic CharT.wchar_t (FixedString.lit "Makefile")).bind
        (replace_extension_logic (FixedString.lit "Makefile")) = none) ∧
    (extension_logic CharT.char16_t (FixedString.lit "/home/.gitignore") = none ∧
      (extension_logic CharT.char16_t (FixedString.lit "/home/.gitignore")).bind
        (replace_extension_logic (FixedString.lit "/home/.gitignore")) = none) ∧
    ((extension_logic CharT.char (FixedString.lit "Makefile")).bind
        (replace_extension_logic (FixedString.lit "Makefile")) =
        some (FixedString.lit "Makefile") ∧
      (extension_logic CharT.char (FixedString.lit "/home/.gitignore")).bind
        (replace_extension_logic (FixedString.lit "/home/.gitignore")) =
        some (FixedString.lit "/home/.gitignore") ∧
      (extension_logic CharT.wchar_t (FixedString.lit "/path/archive.tar.gz")).bind
        (replace_extension_logic (FixedString.lit "/path/archive.tar.gz")) =
        some (FixedString.lit "/path/archive.tar.gz")) ∧
    (∀ (T : CharT) (P : FixedString),
      (extension_logic T P).bind (replace_extension_logic P) =
        if T = CharT.char ∨ has_extension P = some true then some ⟨P.str ++ [0]⟩ else none) ∧
    (∀ (T : CharT) (P : FixedString), null_terminated P →
      T = CharT.char ∨ has_extension P = some true →
      (extension_logic T P).bind (replace_extension_logic P) = some P) :=
  ⟨⟨by decide, by decide⟩, ⟨by decide, by decide⟩, ⟨by decide, by decide, by decide⟩,
    replace_extension_own,
    fun T P hnt hT => by
      rw [replace_extension_own T P, if_pos hT]
      exact congrArg some (null_terminated_eq P hnt).symm⟩

/-- The queries `has_stem` and `has_extension` against the results of `stem_logic` and
`extension_logic`: `has_extension` is true exactly when the extension is not empty, and
`has_stem` is true exactly when the stem is not empty and the filename does not start with
its only dot.  The extension is the value of `extension_logic` for a path of `char`; for
another element type `extension_logic` has the same value when the extension is not empty
and none when it is empty. -/
theorem has_stem_has_extension_spec (P : FixedString) :
    ∃ s e f hs he, stem_logic P = some s ∧ extension_logic CharT.char P = some e ∧
      filename_logic P = some f ∧ has_stem P = some hs ∧ has_extension P = some he ∧
      (he = true ↔ e.str ≠ []) ∧
      (hs = true ↔ s.str ≠ [] ∧ ¬ (f.str.head? = some 46 ∧ 46 ∉ f.str.tail)) ∧
      (∀ T, extension_logic T P = if T = CharT.char ∨ e.str ≠ [] then some e else none) := by
  obtain ⟨pos, dot, hpos, hdot, hle, hd, hcase, hfn, hst, hext⟩ := path_parts P
  have hlen := P.str_length
  refine ⟨_, _, _, _, _, hst, hext, hfn, has_stem_eq P pos dot hpos hdot,
    has_extension_eq P pos dot hpos hdot, ?_, ?_, fun T => by
      rw [str_of_content]; exact extension_logic_any T P pos dot hpos hdot hd⟩
  · rw [str_of_content, decide_eq_true_iff]
    by_cases hc : dot = P.size ∨ dot ≤ pos
    · rw [if_pos hc]
      constructor
      · intro h; omega
      · intro h; exact absurd rfl h
    · rw [if_neg hc]
      constructor
      · intro _ h
        have := congrArg List.length h
        rw [List.length_drop, hlen, List.length_nil] at this
        omega
      · intro _; omega
  · rw [str_of_content, str_of_content, decide_eq_true_iff]
    have hne : ∀ (l : List Nat), l ≠ [] ↔ 0 < l.length := by
      intro l; cases l <;> simp
    rw [hne, List.length_take, List.length_drop, hlen]
    rcases hcase with ⟨h1, h2⟩ | ⟨h1, h2, h3, h4⟩
    · rw [if_neg (by omega)]
      constructor
      · intro h
        refine ⟨by omega, ?_⟩
        rintro ⟨hh, -⟩
        rw [drop_eq_getD_cons P.str pos (by omega), List.head?_cons] at hh
        exact h2 pos (Nat.le_refl _) h.1 (Option.some.inj hh)
      · intro h
        exact ⟨by omega, Or.inl h1⟩
    · by_cases hdp : dot > pos
      · rw [if_pos ⟨hdp, by omega⟩]
        constructor
        · intro _
          refine ⟨by omega, ?_⟩
          rintro ⟨-, hh⟩
          apply hh
          rw [List.tail_drop]
          have hm := getD_mem (P.str.drop (pos + 1)) (dot - pos - 1) (by
            rw [List.length_drop, hlen]; omega)
          rw [getD_drop_eq, show pos + 1 + (dot - pos - 1) = dot by omega, h3] at hm
          exact hm
        · intro _
          exact ⟨by omega, Or.inr hdp⟩
      · have hdp2 : dot = pos := by omega
        subst hdp2
        rw [if_neg (by omega)]
        constructor
        · intro h; omega
        · rintro ⟨-, hh⟩
          exfalso
          apply hh
          refine ⟨?_, ?_⟩
          · rw [drop_eq_getD_cons P.str dot (by omega), List.head?_cons, h3]
          · rw [List.tail_drop]
            intro hm
            obtain ⟨i, hi, hci⟩ := mem_getD _ _ hm
            rw [List.length_drop, hlen] at hi
            rw [getD_drop_eq] at hci
            exact h4 (dot + 1 + i) (by omega) (by omega) hci

/-- C33 (evaluation at the failing input): for `".gitignore"` and `"/home/user/.bashrc"`
the stem is not empty (`".gitignore"`, `".bashrc"`) and `has_stem` is false.  For every
path, `has_extension` is true exactly when the extension is not empty, and `has_stem` is
true exactly when the stem is not empty and the filename does not start with its only
dot.  The extension is the value of `extension_logic` for a path of `char`; for a path of
another element type `extension_logic` has that value when it is not empty and no value
when it is empty. -/
theorem has_stem_false_with_nonempty_stem :
    (has_stem (FixedString.lit ".gitignore") = some false ∧
      stem_logic (FixedString.lit ".gitignore") = some (FixedString.lit ".gitignore") ∧
      (FixedString.lit ".gitignore").str ≠ []) ∧
    (has_stem (FixedString.lit "/home/user/.bashrc") = some false ∧
      stem_logic (FixedString.lit "/home/user/.bashrc") = some (FixedString.lit ".bashrc") ∧
      (FixedString.lit ".bashrc").str ≠ []) ∧
    (∀ P : FixedString, ∃ s e f hs he, stem_logic P = some s ∧
      extension_logic CharT.char P = some e ∧
      filename_logic P = some f ∧ has_stem P = some hs ∧ has_extension P = some he ∧
      (he = true ↔ e.str ≠ []) ∧
      (hs = true ↔ s.str ≠ [] ∧ ¬ (f.str.head? = some 46 ∧ 46 ∉ f.str.tail)) ∧
      (∀ T, extension_logic T P = if T = CharT.char ∨ e.str ≠ [] then some e else none)) :=
  ⟨⟨by decide, by decide, by decide⟩, ⟨by decide, by decide, by decide⟩,
    has_stem_has_extension_spec⟩

/-! ### `trim_left`, `trim_right` and `trim` -/

/-- The parts of a string for the trimming functions: leading whitespace `A`, trailing
whitespace `B`, and a middle `M` that is empty or starts and ends with an element that is
not whitespace; together with the results of the two scans. -/
theorem trim_parts (S : FixedString) :
    ∃ A M B start e, S.str = A ++ M ++ B ∧
      (∀ c ∈ A, ws c = true) ∧ (∀ c ∈ B, ws c = true) ∧
      (M = [] ∨ ((∃ x t, M = x :: t ∧ ws x = false) ∧ (∃ t y, M = t ++ [y] ∧ ws y = false))) ∧
      find_first_non_space S = some start ∧ find_last_non_space S = some e ∧
      start ≤ S.size ∧ e ≤ S.size ∧
      S.str.drop start = S.str.dropWhile ws ∧ S.str.take e = S.str.rdropWhile ws := by
  have hlen := S.str_length
  have hmem_take : ∀ k, (∀ j, j < k → j < S.size → is_space (S.str.getD j 0)) →
      ∀ c ∈ S.str.take k, ws c = true := by
    intro k h c hc
    obtain ⟨i, hi, hci⟩ := mem_getD _ c hc
    rw [List.length_take, S.str_length] at hi
    rw [List.getD_eq_getElem?_getD, List.getElem?_take_of_lt (by omega),
      ← List.getD_eq_getElem?_getD] at hci
    rw [← hci]
    exact decide_eq_true (h i (by omega) (by omega))
  have hmem_drop : ∀ k, (∀ j, k ≤ j → j < S.size → is_space (S.str.getD j 0)) →
      ∀ c ∈ S.str.drop k, ws c = true := by
    intro k h c hc
    obtain ⟨i, hi, hci⟩ := mem_getD _ c hc
    rw [List.length_drop, S.str_length] at hi
    rw [getD_drop_eq] at hci
    rw [← hci]
    exact decide_eq_true (h _ (by omega) (by omega))
  rcases find_first_non_space_spec S with ⟨hs, hall⟩ | ⟨start, hlt, hs, hns, hbefore⟩
  · have hallS : ∀ c ∈ S.str, ws c = true := fun c hc =>
      hmem_take S.size (fun j hj _ => hall j hj) c
        (by rwa [List.take_of_length_le (by rw [S.str_length])])
    obtain ⟨e, he, hele, hte⟩ : ∃ e, find_last_non_space S = some e ∧ e ≤ S.size ∧
        S.str.take e = [] := by
      rcases find_last_non_space_spec S with ⟨h, -⟩ | ⟨i, h1, h2, h3, h4, -⟩
      · exact ⟨0, h, Nat.zero_le _, List.take_zero _⟩
      · exact absurd (hall (i - 1) (by omega)) h4
    refine ⟨S.str, [], [], S.size, e, by simp, hallS, by simp, Or.inl rfl, hs, he,
      Nat.le_refl _, hele, ?_, ?_⟩
    · rw [List.drop_of_length_le (by rw [hlen]), List.dropWhile_eq_nil_iff.mpr hallS]
    · rw [hte, List.rdropWhile_eq_nil_iff.mpr hallS]
  · rcases find_last_non_space_spec S with ⟨-, hall⟩ | ⟨e, he0, hele, he, hne, hafter⟩
    · exact absurd (hall start hlt) hns
    · have hse : start < e := by
        by_contra hge
        exact hns (hafter start (by omega) hlt)
      have hM : (S.str.drop start).take (e - start) =
          S.str.getD start 0 :: (S.str.drop (start + 1)).take (e - start - 1) := by
        rw [drop_eq_getD_cons S.str start (by rw [S.str_length]; exact hlt)]
        obtain ⟨k, hk⟩ : ∃ k, e - start = k + 1 := ⟨e - start - 1, by omega⟩
        rw [hk, List.take_succ_cons, Nat.add_sub_cancel]
      have hM2 : (S.str.drop start).take (e - start) =
          (S.str.drop start).take (e - start - 1) ++ [S.str.getD (e - 1) 0] := by
        obtain ⟨k, hk⟩ : ∃ k, e - start = k + 1 := ⟨e - start - 1, by omega⟩
        rw [hk, List.take_succ, Nat.add_sub_cancel, List.getElem?_drop,
          getElem?_eq_some_getD S.str _ (by rw [S.str_length]; omega),
          show start + k = e - 1 by omega]
        rfl
      have hA := hmem_take start (fun j hj _ => hbefore j hj)
      have hB := hmem_drop e hafter
      have hdrop : S.str.drop start = S.str.dropWhile ws := by
        conv_rhs => rw [← List.take_append_drop start S.str]
        rw [List.dropWhile_append_of_pos hA,
          drop_eq_getD_cons S.str start (by rw [S.str_length]; exact hlt),
          List.dropWhile_cons_of_neg (by rw [ws, decide_eq_false hns]; decide)]
      have htake : S.str.take e = S.str.rdropWhile ws := by
        conv_rhs => rw [← List.take_append_drop e S.str]
        rw [rdropWhile_append_of_pos ws _ _ hB]
        obtain ⟨k, hk⟩ : ∃ k, e = k + 1 := ⟨e - 1, by omega⟩
        rw [hk, List.take_succ, getElem?_eq_some_getD S.str _ (by rw [S.str_length]; omega)]
        simp only [Option.toList]
        rw [List.rdropWhile_concat_neg _ _ _ (by
          rw [hk, Nat.add_sub_cancel] at hne
          rw [ws, decide_eq_false hne]; decide)]
      refine ⟨S.str.take start, (S.str.drop start).take (e - start), S.str.drop e, start, e, ?_,
        hA, hB, Or.inr ⟨⟨_, _, hM, decide_eq_false hns⟩, ⟨_, _, hM2, decide_eq_false hne⟩⟩,
        hs, he, by omega, hele, hdrop, htake⟩
      have : S.str.drop e = (S.str.drop start).drop (e - start) := by
        rw [List.drop_drop]; congr 1; omega
      rw [this, List.append_assoc, List.take_append_drop, List.take_append_drop]

theorem trim_logic_eq (S : FixedString) :
    trim_logic S = some ⟨(S.str.dropWhile ws).rdropWhile ws ++ [0]⟩ := by
  obtain ⟨A, M, B, hr, hS, hA, hB, hM⟩ := trim_logic_spec S
  have hdrop := drop_both_ends ws A M B
    (fun c hc => decide_eq_true (hA c hc)) (fun c hc => decide_eq_true (hB c hc))
    (by
      rcases hM with h | ⟨⟨x, t, hx, hpx⟩, ⟨t2, y, hy, hpy⟩⟩
      · exact Or.inl h
      · exact Or.inr ⟨⟨x, t, hx, decide_eq_false hpx⟩, ⟨t2, y, hy, decide_eq_false hpy⟩⟩)
  rw [hr, hS, hdrop]

theorem trim_left_logic_eq (S : FixedString) :
    trim_left_logic S = some ⟨S.str.dropWhile ws ++ [0]⟩ := by
  obtain ⟨A, M, B, start, e, -, -, -, -, hs, -, hle, -, hd, -⟩ := trim_parts S
  unfold trim_left_logic
  simp only [Option.bind_eq_bind]
  rw [hs, Option.some_bind]
  have hb := build_copy S start (S.size - start) (by omega)
  rw [List.take_of_length_le (by rw [List.length_drop, S.str_length])] at hb
  rw [← hd]
  exact hb

theorem trim_right_logic_eq (S : FixedString) :
    trim_right_logic S = some ⟨S.str.rdropWhile ws ++ [0]⟩ := by
  obtain ⟨A, M, B, start, e, -, -, -, -, -, he, -, hle, -, ht⟩ := trim_parts S
  unfold trim_right_logic
  simp only [Option.bind_eq_bind]
  rw [he, Option.some_bind, ← ht]
  exact build_head S e hle

/-- Removing the leading and the trailing run of elements that satisfy `p`, in either
order. -/
theorem drop_ends_comm (p : Nat → Bool) (A M B : List Nat) (hA : ∀ c ∈ A, p c = true)
    (hB : ∀ c ∈ B, p c = true)
    (hM : M = [] ∨ ((∃ x t, M = x :: t ∧ p x = false) ∧ (∃ t y, M = t ++ [y] ∧ p y = false))) :
    ((A ++ M ++ B).rdropWhile p).dropWhile p = M := by
  rw [rdropWhile_append_of_pos p _ B hB]
  rcases hM with h | ⟨⟨x, t, hx, hpx⟩, ⟨t2, y, hy, hpy⟩⟩
  · rw [h, List.append_nil, List.rdropWhile_eq_nil_iff.mpr hA, List.dropWhile_nil]
  · have h1 : (A ++ M).rdropWhile p = A ++ M := by
      rw [hy, ← List.append_assoc, List.rdropWhile_concat_neg _ _ _ (by rw [hpy]; decide)]
    rw [h1, List.dropWhile_append_of_pos hA, hx,
      List.dropWhile_cons_of_neg (by rw [hpx]; decide)]

/-- C38: `trim<S>` is `trim_left` of `trim_right<S>` and `trim_right` of `trim_left<S>`,
and trimming the result of `trim<S>` gives the same string again. -/
theorem trim_is_trim_left_and_trim_right (S : FixedString) :
    ∃ t l r, trim_logic S = some t ∧ trim_left_logic S = some l ∧
      trim_right_logic S = some r ∧
      trim_left_logic r = some t ∧ trim_right_logic l = some t ∧
      trim_logic t = some t ∧
      t.str = (S.str.dropWhile ws).rdropWhile ws ∧ l.str = S.str.dropWhile ws ∧
      r.str = S.str.rdropWhile ws := by
  obtain ⟨A, M, B, start, e, hS, hA, hB, hM, -⟩ := trim_parts S
  have h1 := drop_both_ends ws A M B hA hB hM
  have h2 := drop_ends_comm ws A M B hA hB hM
  have h3 := drop_both_ends ws [] M [] (by simp) (by simp) hM
  rw [List.nil_append, List.append_nil] at h3
  rw [← hS] at h1 h2
  refine ⟨_, _, _, trim_logic_eq S, trim_left_logic_eq S, trim_right_logic_eq S, ?_, ?_, ?_,
    str_of_content _, str_of_content _, str_of_content _⟩
  · rw [trim_left_logic_eq, str_of_content, h2, h1]
  · rw [trim_right_logic_eq, str_of_content]
  · rw [trim_logic_eq, str_of_content, h1, h3]

theorem trim_is_trim_left_and_trim_right_witness :
    trim_logic (FixedString.lit "  \t hello world \r\n") = some (FixedString.lit "hello world") ∧
    trim_left_logic (FixedString.lit "  \t hello world \r\n") =
      some (FixedString.lit "hello world \r\n") ∧
    trim_right_logic (FixedString.lit "  \t hello world \r\n") =
      some (FixedString.lit "  \t hello world") ∧
    trim_left_logic (FixedString.lit "  \t hello world") =
      some (FixedString.lit "hello world") ∧
    trim_right_logic (FixedString.lit "hello world \r\n") =
      some (FixedString.lit "hello world") ∧
    trim_logic (FixedString.lit "hello world") = some (FixedString.lit "hello world") ∧
    (∃ t l r, trim_logic (FixedString.lit " \n ") = some t ∧
      trim_left_logic (FixedString.lit " \n ") = some l ∧
      trim_right_logic (FixedString.lit " \n ") = some r ∧
      trim_left_logic r = some t ∧ trim_right_logic l = some t ∧
      trim_logic t = some t ∧
      t.str = ((FixedString.lit " \n ").str.dropWhile ws).rdropWhile ws ∧
      l.str = (FixedString.lit " \n ").str.dropWhile ws ∧
      r.str = (FixedString.lit " \n ").str.rdropWhile ws) :=
  ⟨by decide, by decide, by decide, by decide, by decide, by decide,
    trim_is_trim_left_and_trim_right (FixedString.lit " \n ")⟩

/-! ### The hash functions within their capacity -/

/-- Within the capacity, every stage of `sha256_compute` has a value: no read or write of
`msg`, `w`, `K` or the result array is out of range. -/
theorem sha256_stages_ok (data : List Nat) (len : Nat) (hlen : len ≤ data.length)
    (hcap : len ≤ 1015) :
    ∃ msg padded_len, sha256_prepare data len = some (msg, padded_len) ∧
      msg.length = 1024 ∧ padded_len ≤ 1024 ∧
      (∀ chunk H, chunk < padded_len / 64 →
        ∃ w₁ w₂ H₂, sha256_copy_chunk msg chunk = some w₁ ∧ sha256_extend w₁ = some w₂ ∧
          sha256_compress w₂ H = some H₂) ∧
      (∀ H, ∃ r, sha256_output H = some r ∧ r.length = 32) ∧
      ∃ r, sha256_compute data len = some r ∧ r.length = 32 := by
  have hm : ((data.take len).map (fun d => d % 256)).length = len := by
    simp [List.length_take]; omega
  have hpl := fips_pad_length_256 ((data.take len).map (fun d => d % 256)) (by omega)
  have hb : ∀ j, (fips_pad 64 8 ((data.take len).map (fun d => d % 256))).getD j 0 < 256 :=
    fun j => fips_pad_getD_lt 64 8 _ j (map_mod_lt _)
  have hout : ∀ H, ∃ r, sha256_output H = some r ∧ r.length = 32 := by
    intro H
    refine ⟨_, sha256_output_eq H, ?_⟩
    simp only [List.length_append, toBE_length]
  refine ⟨_, _, sha256_prepare_ok data len hlen hcap, tab_length _ _, hpl, ?_, hout, ?_⟩
  · intro chunk H hc
    have h := sha256_chunk_eq _ chunk H (by omega) hb
    unfold sha256_chunk at h
    simp only [Option.bind_eq_bind] at h
    obtain ⟨w₁, h1, h⟩ := Option.bind_eq_some.mp h
    obtain ⟨w₂, h2, h⟩ := Option.bind_eq_some.mp h
    exact ⟨w₁, w₂, _, h1, h2, h⟩
  · have he := sha256_compute_eq data len hlen hcap
    have h := he
    rw [sha256_compute_unfold] at h
    obtain ⟨r, _, h⟩ := Option.bind_eq_some.mp h
    obtain ⟨H, _, h⟩ := Option.bind_eq_some.mp h
    obtain ⟨r2, h3, h4⟩ := hout H
    rw [h3] at h
    rw [Option.some.inj h] at h4
    exact ⟨_, he, h4⟩

/-- Within the capacity, every stage of `sha512_compute` has a value. -/
theorem sha512_stages_ok (data : List Nat) (len : Nat) (hlen : len ≤ data.length)
    (hcap : len ≤ 2031) :
    ∃ msg padded_len, sha512_prepare data len = some (msg, padded_len) ∧
      msg.length = 2048 ∧ padded_len ≤ 2048 ∧
      (∀ chunk H, chunk < padded_len / 128 →
        ∃ w₁ w₂ H₂, sha512_copy_chunk msg chunk = some w₁ ∧ sha512_extend w₁ = some w₂ ∧
          sha512_compress w₂ H = some H₂) ∧
      (∀ H, ∃ r, sha512_output H = some r ∧ r.length = 64) ∧
      ∃ r, sha512_compute data len = some r ∧ r.length = 64 := by
  have hm : ((data.take len).map (fun d => d % 256)).length = len := by
    simp [List.length_take]; omega
  have hpl := fips_pad_length_512 ((data.take len).map (fun d => d % 256)) (by omega)
  have hb : ∀ j, (fips_pad 128 16 ((data.take len).map (fun d => d % 256))).getD j 0 < 256 :=
    fun j => fips_pad_getD_lt 128 16 _ j (map_mod_lt _)
  have hout : ∀ H, ∃ r, sha512_output H = some r ∧ r.length = 64 := by
    intro H
    refine ⟨_, sha512_output_eq H, ?_⟩
    simp only [List.length_append, toBE_length]
  refine ⟨_, _, sha512_prepare_ok data len hlen hcap, tab_length _ _, hpl, ?_, hout, ?_⟩
  · intro chunk H hc
    have h := sha512_chunk_eq _ chunk H (by omega) hb
    unfold sha512_chunk at h
    simp only [Option.bind_eq_bind] at h
    obtain ⟨w₁, h1, h⟩ := Option.bind_eq_some.mp h
    obtain ⟨w₂, h2, h⟩ := Option.bind_eq_some.mp h
    exact ⟨w₁, w₂, _, h1, h2, h⟩
  · have he := sha512_compute_eq data len hlen hcap
    have h := he
    rw [sha512_compute_unfold] at h
    obtain ⟨r, _, h⟩ := Option.bind_eq_some.mp h
    obtain ⟨H, _, h⟩ := Option.bind_eq_some.mp h
    obtain ⟨r2, h3, h4⟩ := hout H
    rw [h3] at h
    rw [Option.some.inj h] at h4
    exact ⟨_, he, h4⟩

/-- C31: under the precondition `len <= 1015` for `sha256_compute` (`len <= 2031` for
`sha512_compute`) no index is out of range.  In the embedding every read and every write of
the scratch buffer `msg`, the schedule `w`, the table `K` and the result array is
bounds-checked and an out-of-range index rejects the evaluation, so the statement is that
every stage has a value: the preparation of `msg` (1024 or 2048 elements, `padded_len`
within them), for every chunk below `padded_len / 64` (or `/ 128`) and every hash state the
copy into `w`, the extension of `w` and the compression with `K`, the output loop, and the
whole function. -/
theorem sha_indices_within_bounds (data : List Nat) (len : Nat) (hlen : len ≤ data.length) :
    (len ≤ 1015 →
      ∃ msg padded_len, sha256_prepare data len = some (msg, padded_len) ∧
        msg.length = 1024 ∧ padded_len ≤ 1024 ∧
        (∀ chunk H, chunk < padded_len / 64 →
          ∃ w₁ w₂ H₂, sha256_copy_chunk msg chunk = some w₁ ∧ sha256_extend w₁ = some w₂ ∧
            sha256_compress w₂ H = some H₂) ∧
        (∀ H, ∃ r, sha256_output H = some r ∧ r.length = 32) ∧
        ∃ r, sha256_compute data len = some r ∧ r.length = 32) ∧
    (len ≤ 2031 →
      ∃ msg padded_len, sha512_prepare data len = some (msg, padded_len) ∧
        msg.length = 2048 ∧ padded_len ≤ 2048 ∧
        (∀ chunk H, chunk < padded_len / 128 →
          ∃ w₁ w₂ H₂, sha512_copy_chunk msg chunk = some w₁ ∧ sha512_extend w₁ = some w₂ ∧
            sha512_compress w₂ H = some H₂) ∧
        (∀ H, ∃ r, sha512_output H = some r ∧ r.length = 64) ∧
        ∃ r, sha512_compute data len = some r ∧ r.length = 64) :=
  ⟨sha256_stages_ok data len hlen, sha512_stages_ok data len hlen⟩

theorem sha_indices_within_bounds_witness :
    3 ≤ [97, 98, 99, 0].length ∧ 3 ≤ 1015 ∧ 3 ≤ 2031 ∧
    (∃ r, sha256_compute [97, 98, 99, 0] 3 = some r ∧ r.length = 32) ∧
    (∃ r, sha512_compute [97, 98, 99, 0] 3 = some r ∧ r.length = 64) :=
  ⟨by decide, by decide, by decide,
    match (sha_indices_within_bounds [97, 98, 99, 0] 3 (by decide)).1 (by decide) with
    | ⟨_, _, _, _, _, _, _, h⟩ => h,
    match (sha_indices_within_bounds [97, 98, 99, 0] 3 (by decide)).2 (by decide) with
    | ⟨_, _, _, _, _, _, _, h⟩ => h⟩

/-! ### Counting with a pattern that is longer than the string -/

theorem get_some_lt (S : FixedString) (i a : Nat) (h : S.get i = some a) :
    i < S.data.length := by
  unfold FixedString.get at h
  by_contra hc
  rw [List.getElem?_eq_none (by omega)] at h
  cases h

/-- The loop of `pattern_match`: if it has a value after `n` passes from `lo`, the first
element it compares is inside the array of `S`, and if it did not stop at a mismatch, all
`n` elements are. -/
theorem match_loop_reads (S P : FixedString) (base : Nat) :
    ∀ (n lo : Nat) (m : Bool) (r : Bool ⊕ Bool),
      forUntil lo n (fun j (m : Bool) => do
        let a ← S.get (base + j)
        let b ← P.get j
        if a ≠ b then some (Sum.inr false) else some (Sum.inl m)) m = some r →
      (0 < n → base + lo < S.data.length) ∧
      (r = Sum.inl m ∨ r = Sum.inr false) ∧
      (r ≠ Sum.inr false → ∀ k, k < n → base + lo + k < S.data.length) := by
  intro n
  induction n with
  | zero =>
    intro lo m r h
    exact ⟨fun h0 => absurd h0 (Nat.lt_irrefl 0), Or.inl (Option.some.inj h).symm,
      fun _ k hk => absurd hk (Nat.not_lt_zero k)⟩
  | succ n ih =>
    intro lo m r h
    rw [forUntil_succ] at h
    simp only [Option.bind_eq_bind] at h
    cases hg : S.get (base + lo) with
    | none =>
      rw [hg] at h
      cases h
    | some a =>
      have hlt := get_some_lt S _ a hg
      rw [hg, Option.some_bind] at h
      cases hp : P.get lo with
      | none =>
        rw [hp] at h
        cases h
      | some b =>
        rw [hp, Option.some_bind] at h
        by_cases hab : a ≠ b
        · rw [if_pos hab] at h
          have hr : r = Sum.inr false := (Option.some.inj h).symm
          exact ⟨fun _ => hlt, Or.inr hr, fun hne => absurd hr hne⟩
        · rw [if_neg hab] at h
          obtain ⟨-, h2, h3⟩ := ih (lo + 1) m r h
          refine ⟨fun _ => hlt, h2, fun hne k hk => ?_⟩
          cases k with
          | zero => exact hlt
          | succ k =>
            have := h3 hne k (by omega)
            omega

/-- A value of `pattern_match` for a non-empty pattern means that the element at `base` is
inside the array of `S`; the value `true` means that the whole pattern fits there. -/
theorem pattern_match_reads (S P : FixedString) (base : Nat) (b : Bool) (hP : 0 < P.size)
    (h : pattern_match S P base = some b) :
    base < S.data.length ∧ (b = true → base + P.size ≤ S.data.length) := by
  unfold pattern_match at h
  obtain ⟨r, hr, hb⟩ := Option.map_eq_some'.mp h
  obtain ⟨h1, h2, h3⟩ := match_loop_reads S P base P.size 0 true r hr
  refine ⟨h1 hP, fun hbt => ?_⟩
  have hne : r ≠ Sum.inr false := by
    intro hc
    rw [hc] at hb
    rw [hbt] at hb
    cases hb
  have := h3 hne (P.size - 1) (by omega)
  omega

/-- The value of `str_len - pat_len` in `std::size_t` when the pattern is the longer one. -/
theorem size_sub_wraps (a b : Nat) (hab : a < b) (hb : b < 2 ^ 64) :
    size_sub a b = 2 ^ 64 - (b - a) := by
  unfold size_sub
  rw [Nat.mod_eq_of_lt (by omega)]
  omega

/-- The counting loop for a pattern longer than the string never ends with a value: with
whatever bound on the number of passes, the loop goes on, as `pos` stays below the wrapped
bound `str_len - pat_len`, until it reads an element outside the array. -/
theorem count_loop_rejected (S P : FixedString) (hPS : S.size < P.size) (hP : P.size < 2 ^ 64) :
    ∀ (fuel : Nat) (st : Nat × Nat), st.2 ≤ S.data.length →
      whileLoop fuel
        (fun (st : Nat × Nat) => decide (st.2 ≤ size_sub S.size P.size))
        (fun (st : Nat × Nat) => do
          let m ← pattern_match S P st.2
          if m then some (st.1 + 1, st.2 + P.size) else some (st.1, st.2 + 1))
        st = none := by
  have hdl : S.data.length ≤ S.size + 1 := by
    unfold FixedString.size; split <;> omega
  have hsub := size_sub_wraps S.size P.size hPS hP
  intro fuel
  induction fuel with
  | zero => intro st _; rfl
  | succ fuel ih =>
    intro st hst
    unfold whileLoop
    rw [if_pos (by rw [decide_eq_true_iff, hsub]; omega)]
    simp only [Option.bind_eq_bind]
    cases hm : pattern_match S P st.2 with
    | none => rfl
    | some m =>
      obtain ⟨h1, h2⟩ := pattern_match_reads S P st.2 m (by omega) hm
      rw [Option.some_bind]
      cases m with
      | true =>
        rw [if_pos rfl, Option.some_bind]
        exact ih _ (h2 rfl)
      | false =>
        rw [if_neg (by decide), Option.some_bind]
        exact ih _ h1

theorem count_occurrences_rejected (S P : FixedString) (hPS : S.size < P.size)
    (hP : P.size < 2 ^ 64) : count_occurrences S P = none := by
  unfold count_occurrences
  simp only []
  rw [if_neg (by omega)]
  have := count_loop_rejected S P hPS hP (S.data.length + 1) (0, 0) (Nat.zero_le _)
  simp only [Option.bind_eq_bind] at this ⊢
  rw [this]
  rfl

theorem replace_all_logic_rejected (S P R : FixedString) (hPS : S.size < P.size)
    (hP : P.size < 2 ^ 64) : replace_all_logic S P R = none := by
  rw [replace_all_logic_pass, count_occurrences_rejected S P hPS hP]
  rfl

/-- C32 (evaluation at the failing input): for `S = "ab"` and the longer pattern `"abc"`
the bound `str_len - pat_len` of the counting loops wraps around to `2 ^ 64 - 1`, and
`count_occurrences`, `count_n_occurrences` (`N = 1`), `replace_all_logic` and
`replace_n_logic` (`N = 1`) have no value: the loop runs past the end of `S` and reads an
element outside its array.  Only `replace_n` with `N = 0` returns `S`.  The same holds of
`count_occurrences` and `replace_all_logic` for every string and every longer pattern,
whatever bound is put on the number of passes of the loop. -/
theorem replace_all_longer_pattern_is_rejected :
    size_sub (FixedString.lit "ab").size (FixedString.lit "abc").size = 2 ^ 64 - 1 ∧
    count_occurrences (FixedString.lit "ab") (FixedString.lit "abc") = none ∧
    count_n_occurrences (FixedString.lit "ab") (FixedString.lit "abc") 1 = none ∧
    replace_all_logic (FixedString.lit "ab") (FixedString.lit "abc") (FixedString.lit "x") =
      none ∧
    replace_n_logic (FixedString.lit "ab") (FixedString.lit "abc") (FixedString.lit "x") 1 =
      none ∧
    replace_n_logic (FixedString.lit "ab") (FixedString.lit "abc") (FixedString.lit "x") 0 =
      some (FixedString.lit "ab") ∧
    (∀ S P R : FixedString, S.size < P.size → P.size < 2 ^ 64 →
      count_occurrences S P = none ∧ replace_all_logic S P R = none ∧
      ∀ fuel : Nat, whileLoop fuel
        (fun (st : Nat × Nat) => decide (st.2 ≤ size_sub S.size P.size))
        (fun (st : Nat × Nat) => do
          let m ← pattern_match S P st.2
          if m then some (st.1 + 1, st.2 + P.size) else some (st.1, st.2 + 1))
        (0, 0) = none) :=
  ⟨by decide, by decide, by decide, by decide, by decide, by decide,
    fun S P R hPS hP => ⟨count_occurrences_rejected S P hPS hP,
      replace_all_logic_rejected S P R hPS hP,
      fun fuel => count_loop_rejected S P hPS hP fuel (0, 0) (Nat.zero_le _)⟩⟩

/-! ### The two passes of `replace_all` -/

/-- The loop of `replace_all_logic` on a zero-initialised buffer with room for the result and
`e` more elements: it ends with `src_pos = str_len`, `dst_pos` the length of the result,
and the result in the first `dst_pos` elements of the buffer. -/
theorem replace_all_pass_eq (S P R : FixedString) (hP : 0 < P.size)
    (hPS : P.size ≤ S.size) (hS : S.size < 2 ^ 64) (e : Nat) :
    replace_all_pass S P R
      (List.replicate ((rewrite_all P.str R.str 0 S.str).length + e) 0) =
    some (S.size, (rewrite_all P.str R.str 0 S.str).length,
      rewrite_all P.str R.str 0 S.str ++ List.replicate e 0) := by
  have hsub : size_sub S.size P.size = S.size - P.size := size_sub_eq _ _ hPS hS
  have hplen : P.str.length = P.size := P.str_length
  have hslen : S.str.length = S.size := S.str_length
  have hrlen : R.str.length = R.size := R.str_length
  obtain ⟨full, hfull⟩ : ∃ f, f = rewrite_all P.str R.str 0 S.str := ⟨_, rfl⟩
  rw [← hfull]
  obtain ⟨t, ht, hI, hc⟩ := whileLoop_inv
    (fun (st : Nat × Nat × List Nat) => st.1 ≤ S.size ∧
      ∃ acc : List Nat, st.2.1 = acc.length ∧
        st.2.2 = acc ++ List.replicate (full.length + e - acc.length) 0 ∧
        acc ++ rewrite_all P.str R.str 0 (S.str.drop st.1) = full)
    (fun (st : Nat × Nat × List Nat) => S.size - st.1)
    (fun (st : Nat × Nat × List Nat) => decide (st.1 < S.size))
    (fun (st : Nat × Nat × List Nat) =>
      if P.size > 0 ∧ st.1 ≤ size_sub S.size P.size then
        (pattern_match S P st.1).bind fun m =>
          if m = true then
            (forLoop 0 R.size (fun i (w : Nat × List Nat) =>
              (R.get i).bind fun c => (arrWrite w.2 w.1 c).bind fun b => some (w.1 + 1, b))
              (st.2.1, st.2.2)).bind fun w => some (st.1 + P.size, w.1, w.2)
          else
            (S.get st.1).bind fun c => (arrWrite st.2.2 st.2.1 c).bind fun b =>
              some (st.1 + 1, st.2.1 + 1, b)
      else
        (some false).bind fun m =>
          if m = true then
            (forLoop 0 R.size (fun i (w : Nat × List Nat) =>
              (R.get i).bind fun c => (arrWrite w.2 w.1 c).bind fun b => some (w.1 + 1, b))
              (st.2.1, st.2.2)).bind fun w => some (st.1 + P.size, w.1, w.2)
          else
            (S.get st.1).bind fun c => (arrWrite st.2.2 st.2.1 c).bind fun b =>
              some (st.1 + 1, st.2.1 + 1, b))
    (by
      rintro ⟨src, dst, buf⟩ ⟨h1, acc, hdst, hbuf, hacc⟩ hcond
      simp only [decide_eq_true_eq] at hcond
      simp only [] at h1 hdst hbuf hacc ⊢
      subst hdst hbuf
      have hcopy : P.str.isPrefixOf (S.str.drop src) = false →
          ∃ t : Nat × Nat × List Nat,
            ((S.get src).bind fun c =>
              (arrWrite (acc ++ List.replicate (full.length + e - acc.length) 0)
                acc.length c).bind fun b => some (src + 1, acc.length + 1, b)) = some t ∧
            (t.1 ≤ S.size ∧
              ∃ acc2 : List Nat, t.2.1 = acc2.length ∧
                t.2.2 = acc2 ++ List.replicate (full.length + e - acc2.length) 0 ∧
                acc2 ++ rewrite_all P.str R.str 0 (S.str.drop t.1) = full) ∧
            S.size - t.1 < S.size - src := by
        intro hno
        have hsp := rewrite_all_copy P.str R.str S.str src (by omega) hno
        rw [hsp] at hacc
        have hl : acc.length + 1 ≤ full.length := by
          rw [← hacc, List.length_append, List.length_cons]; omega
        have hw := write_after acc (full.length + e - acc.length - 1) (S.str.getD src 0)
        rw [show full.length + e - acc.length - 1 + 1 = full.length + e - acc.length by
          omega] at hw
        rw [S.get_eq src hcond, Option.some_bind, hw, Option.some_bind]
        refine ⟨_, rfl, ⟨by simp only []; omega, acc ++ [S.str.getD src 0], ?_, ?_, ?_⟩,
          by simp only []; omega⟩
        · simp only [List.length_append, List.length_singleton]
        · simp only [List.length_append, List.length_singleton, List.append_assoc,
            List.singleton_append]
          rw [show full.length + e - (acc.length + 1) = full.length + e - acc.length - 1 by
            omega]
        · simp only [List.append_assoc, List.singleton_append]
          exact hacc
      have hpre := occurs_of_isPrefixOf S P src hP
      by_cases hcm : P.size > 0 ∧ src ≤ size_sub S.size P.size
      · rw [if_pos hcm]
        rw [hsub] at hcm
        rw [pattern_match_eq S P src (by omega), Option.some_bind]
        by_cases ho : occurs_at S.str P.str src
        · rw [decide_eq_true ho] at hpre ⊢
          rw [if_pos rfl]
          have hsp := rewrite_all_match P.str R.str S.str src (by omega) (by omega) hpre
          rw [hplen] at hsp
          rw [hsp] at hacc
          have hl : acc.length + R.size ≤ full.length := by
            rw [← hacc, List.length_append, List.length_append, hrlen]; omega
          rw [write_loop R acc _ (by omega), Option.some_bind]
          refine ⟨_, rfl, ⟨by simp only []; omega, acc ++ R.str, ?_, ?_, ?_⟩,
            by simp only []; omega⟩
          · simp only [List.length_append, hrlen]
          · simp only [List.length_append, hrlen]
            rw [show full.length + e - acc.length - R.size =
              full.length + e - (acc.length + R.size) by omega]
          · simp only []
            rw [List.append_assoc]
            exact hacc
        · rw [decide_eq_false ho] at hpre ⊢
          rw [if_neg (by decide)]
          exact hcopy hpre
      · rw [if_neg hcm, Option.some_bind, if_neg (by decide)]
        apply hcopy
        rw [hsub] at hcm
        exact not_isPrefixOf_of_short _ _ (by
          rw [List.length_drop, hslen, hplen]; omega))
    (S.size + 1) (0, 0, List.replicate (full.length + e) 0)
    ⟨Nat.zero_le _, [], rfl, rfl, by
      simp only [List.drop_zero, List.nil_append]; exact hfull.symm⟩
    (by simp only []; omega)
  have hres : t = (S.size, full.length, full ++ List.replicate e 0) := by
    obtain ⟨src, dst, buf⟩ := t
    obtain ⟨h1, acc, hdst, hbuf, hacc⟩ := hI
    simp only [decide_eq_false_iff_not] at h1 hdst hbuf hacc hc ⊢
    have hsrc : src = S.size := by omega
    subst hsrc
    rw [List.drop_of_length_le (by rw [hslen]), rewrite_all_nil,
      List.append_nil] at hacc
    rw [hbuf, hdst, hacc, show full.length + e - full.length = e by omega]
  rw [← hres]
  exact ht

/-- C34: for a non-empty pattern no longer than the string, the counting pass and the
rewrite pass of `replace_all_logic` agree.  With `k` the result of `count_occurrences`,
which is the number of matches the rewrite replaces, the computed `result_len` is
`|S| - k * |P| + k * |R|` and is the length of the rewritten string; the rewrite loop ends
with `src_pos = |S|` and `dst_pos = result_len`, and it runs as well on a buffer of exactly
`result_len` elements, where a write at an index of `result_len` or more would be
rejected. -/
theorem replace_all_writes_result_len (S P R : FixedString) (hP : 0 < P.size)
    (hPS : P.size ≤ S.size) (hsz : S.size + S.size * R.size < 2 ^ 64) :
    ∃ k result_len out,
      count_occurrences S P = some k ∧ k = count_matches P.str 0 S.str ∧
      out = rewrite_all P.str R.str 0 S.str ∧
      k * P.size ≤ S.size ∧
      u64 (size_sub S.size (u64 (k * P.size)) + u64 (k * R.size)) = result_len ∧
      result_len = S.size - k * P.size + k * R.size ∧
      out.length = result_len ∧
      replace_all_pass S P R (List.replicate (result_len + 1) 0) =
        some (S.size, result_len, out ++ [0]) ∧
      replace_all_pass S P R (List.replicate result_len 0) = some (S.size, result_len, out) ∧
      replace_all_logic S P R = some ⟨out ++ [0]⟩ := by
  have hS : S.size < 2 ^ 64 := by omega
  have hlen := rewrite_all_length P.str R.str (by rw [P.str_length]; exact hP) S.str
  rw [P.str_length, S.str_length, R.str_length] at hlen
  have hmul := count_matches_mul_le P.str (by rw [P.str_length]; exact hP) S.str
  rw [P.str_length, S.str_length] at hmul
  have hRL := result_len_eq S.size P.size R.size (count_matches P.str 0 S.str)
    (rewrite_all P.str R.str 0 S.str).length hmul hP hlen hsz
  refine ⟨_, _, _, count_occurrences_eq S P hP hPS hS, rfl, rfl, hmul, hRL, by omega, rfl,
    ?_, ?_, replace_all_logic_eq S P R hP hPS hsz⟩
  · exact replace_all_pass_eq S P R hP hPS hS 1
  · have := replace_all_pass_eq S P R hP hPS hS 0
    rw [Nat.add_zero, List.replicate_zero, List.append_nil] at this
    exact this

theorem replace_all_writes_result_len_witness :
    0 < (FixedString.lit "ab").size ∧
    (FixedString.lit "ab").size ≤ (FixedString.lit "abcabcab").size ∧
    (FixedString.lit "abcabcab").size +
      (FixedString.lit "abcabcab").size * (FixedString.lit "xyz").size < 2 ^ 64 ∧
    count_occurrences (FixedString.lit "abcabcab") (FixedString.lit "ab") = some 3 ∧
    replace_all_pass (FixedString.lit "abcabcab") (FixedString.lit "ab")
      (FixedString.lit "xyz") (List.replicate 11 0) =
      some (8, 11, (FixedString.lit "xyzcxyzcxyz").str) ∧
    replace_all_pass (FixedString.lit "abcabcab") (FixedString.lit "ab")
      (FixedString.lit "xyz") (List.replicate 10 0) = none ∧
    (∃ k result_len out,
      count_occurrences (FixedString.lit "abcabcab") (FixedString.lit "ab") = some k ∧
      k = count_matches (FixedString.lit "ab").str 0 (FixedString.lit "abcabcab").str ∧
      out = rewrite_all (FixedString.lit "ab").str (FixedString.lit "xyz").str 0
        (FixedString.lit "abcabcab").str ∧
      k * (FixedString.lit "ab").size ≤ (FixedString.lit "abcabcab").size ∧
      u64 (size_sub (FixedString.lit "abcabcab").size (u64 (k * (FixedString.lit "ab").size)) +
        u64 (k * (FixedString.lit "xyz").size)) = result_len ∧
      result_len = (FixedString.lit "abcabcab").size - k * (FixedString.lit "ab").size +
        k * (FixedString.lit "xyz").size ∧
      out.length = result_len ∧
      replace_all_pass (FixedString.lit "abcabcab") (FixedString.lit "ab")
        (FixedString.lit "xyz") (List.replicate (result_len + 1) 0) =
        some ((FixedString.lit "abcabcab").size, result_len, out ++ [0]) ∧
      replace_all_pass (FixedString.lit "abcabcab") (FixedString.lit "ab")
        (FixedString.lit "xyz") (List.replicate result_len 0) =
        some ((FixedString.lit "abcabcab").size, result_len, out) ∧
      replace_all_logic (FixedString.lit "abcabcab") (FixedString.lit "ab")
        (FixedString.lit "xyz") = some ⟨out ++ [0]⟩) :=
  ⟨by decide, by decide, by decide, by decide, by decide, by decide,
    replace_all_writes_result_len (FixedString.lit "abcabcab") (FixedString.lit "ab")
      (FixedString.lit "xyz") (by decide) (by decide) (by decide)⟩

/-! ### `replace` and `replace_n` with `N = 1` -/

/-- The copy of a whole string `X` into a buffer, after the part `A` already written. -/
theorem write_at (X : FixedString) (A : List Nat) (k : Nat) (hk : X.size ≤ k) :
    forLoop 0 X.size (fun i buf => (X.get i).bind fun c => arrWrite buf (A.length + i) c)
      (A ++ List.replicate k 0) = some (A ++ X.str ++ List.replicate (k - X.size) 0) := by
  have h := copy_loop (fun c => c) X.data 0 A.length (A ++ List.replicate k 0) X.size
    (by have := X.size_le; omega) (by rw [List.length_append, List.length_replicate]; omega)
  simp only [Nat.zero_add, List.drop_zero, List.map_id'] at h
  rw [List.take_left' rfl, List.drop_append, List.drop_replicate] at h
  exact h

/-- The third copy loop of `replace_logic`: the rest of the string after the match. -/
theorem copy_tail (S : FixedString) (A : List Nat) (pos m rl k : Nat)
    (hA : A.length = pos + rl) (hm : pos + m ≤ S.size) (hk : S.size - (pos + m) ≤ k)
    (hsz : S.size + rl < 2 ^ 64) :
    forLoop (pos + m) (S.size - (pos + m)) (fun i buf =>
      (S.get i).bind fun c => arrWrite buf (u64 (size_sub i m + rl)) c)
      (A ++ List.replicate k 0) =
    some (A ++ S.str.drop (pos + m) ++ List.replicate (k - (S.size - (pos + m))) 0) := by
  have h := copy_loop (fun c => c) S.data (pos + m) A.length (A ++ List.replicate k 0)
    (S.size - (pos + m)) (by have := S.size_le; omega)
    (by rw [List.length_append, List.length_replicate]; omega)
  rw [List.take_left' rfl, List.drop_append, List.drop_replicate, List.map_id',
    take_drop_str S (pos + m) _ (by omega),
    List.take_of_length_le (by rw [List.length_drop, S.str_length])] at h
  rw [forLoop_shift, ← h]
  apply forLoop_congr
  intro j hj t
  rw [Nat.zero_add, size_sub_eq _ _ (by omega) (by omega), u64_of_lt _ (by omega), hA,
    show pos + m + j - m + rl = pos + rl + j by omega]
  rfl

/-- The result of `find_first_occurrence` for a non-empty pattern that is not longer than
the string: the least index of an occurrence, or `str_len` when there is none. -/
theorem find_first_occurrence_spec (S P : FixedString) (hP : 0 < P.size)
    (hPS : P.size ≤ S.size) :
    (∃ pos, find_first_occurrence S P = some pos ∧ pos + P.size ≤ S.size ∧
      occurs_at S.str P.str pos ∧ ∀ j, j < pos → ¬ occurs_at S.str P.str j) ∨
    (find_first_occurrence S P = some S.size ∧ ∀ j, ¬ occurs_at S.str P.str j) := by
  by_cases hex : ∃ j, occurs_at S.str P.str j
  · left
    refine ⟨Nat.find hex, ?_, occurs_at_bound S P _ (Nat.find_spec hex), Nat.find_spec hex,
      fun j hj => Nat.find_min hex hj⟩
    have hb := occurs_at_bound S P _ (Nat.find_spec hex)
    unfold find_first_occurrence
    simp only []
    rw [if_neg (by omega)]
    rw [forUntil_first _ () (Nat.find hex) (Nat.find hex) _ 0 (by omega)]
    · rfl
    · intro k hk
      rw [Nat.zero_add, find_body_eq S P _ (by omega), if_neg (Nat.find_min hex hk)]
    · rw [Nat.zero_add, find_body_eq S P _ hb, if_pos (Nat.find_spec hex)]
  · right
    have hno : ∀ j, ¬ occurs_at S.str P.str j := fun j hj => hex ⟨j, hj⟩
    refine ⟨?_, hno⟩
    unfold find_first_occurrence
    simp only []
    rw [if_neg (by omega)]
    rw [forUntil_all _ () _ 0]
    · rfl
    · intro k hk
      rw [find_body_eq S P _ (by omega), if_neg (hno _)]

/-- The limited rewrite copies the elements before the first match. -/
theorem rewrite_first_until (P R s : List Nat) (n pos : Nat) (hpos : pos ≤ s.length) :
    ∀ d i, pos - i = d → i ≤ pos →
      (∀ j, i ≤ j → j < pos → P.isPrefixOf (s.drop j) = false) →
      rewrite_first P R n 0 (s.drop i) =
        (s.drop i).take (pos - i) ++ rewrite_first P R n 0 (s.drop pos) := by
  intro d
  induction d with
  | zero =>
    intro i hd hi _
    have : i = pos := by omega
    subst this
    rw [Nat.sub_self, List.take_zero, List.nil_append]
  | succ d ih =>
    intro i hd hi hno
    have hlt : i < s.length := by omega
    rw [rewrite_first_copy P R s n i hlt (Or.inr (hno i (Nat.le_refl _) (by omega))),
      ih (i + 1) (by omega) (by omega) (fun j h1 h2 => hno j (by omega) h2)]
    conv_rhs => rw [drop_eq_getD_cons s i hlt, show pos - i = (pos - (i + 1)) + 1 by omega,
      List.take_succ_cons]
    rfl

/-- The rewrite limited to one match, for a non-empty pattern: the first occurrence of the
pattern is replaced, and a list without an occurrence is unchanged. -/
theorem rewrite_first_one (P R s : List Nat) (hP : 0 < P.length) :
    (∀ pos, occurs_at s P pos → (∀ j, j < pos → ¬ occurs_at s P j) →
      rewrite_first P R 1 0 s = s.take pos ++ R ++ s.drop (pos + P.length)) ∧
    ((∀ j, ¬ occurs_at s P j) → rewrite_first P R 1 0 s = s) := by
  have hfalse : ∀ j, ¬ occurs_at s P j → P.isPrefixOf (s.drop j) = false := by
    intro j hj
    cases h : P.isPrefixOf (s.drop j) with
    | false => rfl
    | true => exact absurd ((isPrefixOf_iff_occurs s P j hP).mp h) hj
  constructor
  · intro pos hocc hmin
    have hb : pos + P.length ≤ s.length := hocc.1
    have h := rewrite_first_until P R s 1 pos (by omega) pos 0 rfl (Nat.zero_le _)
      (fun j _ hj => hfalse j (hmin j hj))
    rw [List.drop_zero, Nat.sub_zero] at h
    rw [h, rewrite_first_match P R s 0 pos hP (by omega)
      ((isPrefixOf_iff_occurs s P pos hP).mpr hocc), rewrite_first_budget_zero,
      List.append_assoc]
  · intro hno
    have h := rewrite_first_until P R s 1 s.length (Nat.le_refl _) s.length 0 rfl
      (Nat.zero_le _) (fun j _ _ => hfalse j (hno j))
    rw [List.drop_zero, Nat.sub_zero, List.drop_length, rewrite_first_nil, List.append_nil,
      List.take_length] at h
    exact h

/-- The result of `replace_logic` for a non-empty pattern that is not longer than the
string. -/
theorem replace_logic_eq (S P R : FixedString) (hP : 0 < P.size) (hPS : P.size ≤ S.size)
    (hsz : S.size + R.size < 2 ^ 64) :
    replace_logic S P R = some ⟨rewrite_first P.str R.str 1 0 S.str ++ [0]⟩ := by
  have hplen : P.str.length = P.size := P.str_length
  have hslen : S.str.length = S.size := S.str_length
  have hrlen : R.str.length = R.size := R.str_length
  obtain ⟨h1, h2⟩ := rewrite_first_one P.str R.str S.str (by omega)
  unfold replace_logic
  simp only [Option.bind_eq_bind]
  rcases find_first_occurrence_spec S P hP hPS with ⟨pos, hf, hb, hocc, hmin⟩ | ⟨hf, hno⟩
  · rw [hf, Option.some_bind, if_pos (by omega), if_pos (by omega)]
    rw [size_sub_eq _ _ hPS (by omega), u64_of_lt _ (by omega)]
    rw [h1 pos hocc hmin, hplen]
    have hT : (S.str.take pos).length = pos := by rw [List.length_take, hslen]; omega
    rw [copy_head S pos _ (by omega) (by omega), Option.some_bind]
    have hw := write_at R (S.str.take pos) (S.size - P.size + R.size + 1 - pos) (by omega)
    rw [hT] at hw
    rw [hw, Option.some_bind]
    have ht := copy_tail S (S.str.take pos ++ R.str) pos P.size R.size
      (S.size - P.size + R.size + 1 - pos - R.size)
      (by rw [List.length_append, hT, hrlen]) hb (by omega) hsz
    rw [ht, Option.some_bind,
      show S.size - P.size + R.size + 1 - pos - R.size - (S.size - (pos + P.size)) = 1 by omega]
    exact from_buffer_content _ _ (by
      rw [List.length_append, List.length_append, hT, hrlen, List.length_drop, hslen]; omega)
  · rw [hf, Option.some_bind, if_neg (Nat.lt_irrefl _), if_neg (Nat.lt_irrefl _), h2 hno]
    have := build_head S S.size (Nat.le_refl _)
    rw [List.take_of_length_le (by rw [hslen])] at this
    exact this

/-- C35: for a non-empty pattern no longer than the string, `replace_n<S, P, R, 1>` and
`replace<S, P, R>` give the same string: the first occurrence of `P` is replaced by `R`,
and `S` is returned unchanged when `P` does not occur. -/
theorem replace_n_one_is_replace (S P R : FixedString) (hP : 0 < P.size)
    (hPS : P.size ≤ S.size) (hsz : S.size + S.size * R.size < 2 ^ 64) :
    ∃ r, replace_logic S P R = some r ∧ replace_n_logic S P R 1 = some r ∧
      (∀ i, occurs_at S.str P.str i → (∀ j, j < i → ¬ occurs_at S.str P.str j) →
        r.str = S.str.take i ++ R.str ++ S.str.drop (i + P.size)) ∧
      ((∀ i, ¬ occurs_at S.str P.str i) → r.str = S.str) := by
  have hsz2 : S.size + R.size < 2 ^ 64 := by
    have : R.size ≤ S.size * R.size := Nat.le_mul_of_pos_left _ (by omega)
    omega
  obtain ⟨h1, h2⟩ := rewrite_first_one P.str R.str S.str (by rw [P.str_length]; exact hP)
  refine ⟨_, replace_logic_eq S P R hP hPS hsz2, replace_n_logic_eq S P R 1 hP hPS hsz, ?_, ?_⟩
  · intro i hocc hmin
    rw [str_of_content, h1 i hocc hmin, P.str_length]
  · intro hno
    rw [str_of_content, h2 hno]

theorem replace_n_one_is_replace_witness :
    replace_logic (FixedString.lit "one two one") (FixedString.lit "one")
      (FixedString.lit "three") = some (FixedString.lit "three two one") ∧
    replace_n_logic (FixedString.lit "one two one") (FixedString.lit "one")
      (FixedString.lit "three") 1 = some (FixedString.lit "three two one") ∧
    replace_logic (FixedString.lit "hello") (FixedString.lit "xyz") (FixedString.lit "q") =
      some (FixedString.lit "hello") ∧
    replace_n_logic (FixedString.lit "hello") (FixedString.lit "xyz") (FixedString.lit "q") 1 =
      some (FixedString.lit "hello") ∧
    (∃ r, replace_logic (FixedString.lit "aXbXc") (FixedString.lit "X")
        (FixedString.lit "") = some r ∧
      replace_n_logic (FixedString.lit "aXbXc") (FixedString.lit "X")
        (FixedString.lit "") 1 = some r ∧
      (∀ i, occurs_at (FixedString.lit "aXbXc").str (FixedString.lit "X").str i →
        (∀ j, j < i → ¬ occurs_at (FixedString.lit "aXbXc").str (FixedString.lit "X").str j) →
        r.str = (FixedString.lit "aXbXc").str.take i ++ (FixedString.lit "").str ++
          (FixedString.lit "aXbXc").str.drop (i + (FixedString.lit "X").size)) ∧
      ((∀ i, ¬ occurs_at (FixedString.lit "aXbXc").str (FixedString.lit "X").str i) →
        r.str = (FixedString.lit "aXbXc").str)) :=
  ⟨by decide, by decide, by decide, by decide,
    replace_n_one_is_replace (FixedString.lit "aXbXc") (FixedString.lit "X")
      (FixedString.lit "") (by decide) (by decide) (by decide)⟩

/-! ### Null-terminated results -/

/-- The constructor from a buffer, with `len + 1` elements for a length of `len`, gives a
null-terminated string. -/
theorem from_buffer_null_terminated (N : Nat) (buf : List Nat) (len : Nat) (r : FixedString)
    (hN : N = len + 1) (h : FixedString.from_buffer N buf len = some r) :
    null_terminated r := by
  unfold FixedString.from_buffer at h
  simp only [Option.bind_eq_bind] at h
  obtain ⟨d₁, h1, h⟩ := Option.bind_eq_some.mp h
  obtain ⟨d₂, h2, h⟩ := Option.bind_eq_some.mp h
  have hl1 : d₁.length = N :=
    forLoop_preserves (fun d : List Nat => d.length = N) 0 len _ _ d₁
      (List.length_replicate N 0)
      (fun i t v ht hv => by
        obtain ⟨c, -, hv⟩ := Option.bind_eq_some.mp hv
        rw [arrWrite_length t v i c hv, ht]) h1
  have hl2 : d₂.length = N := by rw [arrWrite_length d₁ d₂ len 0 h2, hl1]
  unfold arrWrite at h2
  rw [if_pos (by omega)] at h2
  have hr : r = ⟨d₂⟩ := (Option.some.inj h).symm
  have hsz : r.size = len := by
    rw [hr]
    unfold FixedString.size
    rw [if_pos (by simp only []; omega)]
    simp only []
    omega
  refine ⟨by rw [hsz, hr]; simp only []; omega, ?_⟩
  rw [hsz, hr]
  simp only []
  rw [← Option.some.inj h2, List.getElem?_set_self (by omega)]

theorem bind_from_buffer_null_terminated {σ : Type} (o : Option σ) (g : σ → List Nat)
    (len : Nat) (r : FixedString)
    (h : o.bind (fun st => FixedString.from_buffer (len + 1) (g st) len) = some r) :
    null_terminated r := by
  obtain ⟨st, -, h⟩ := Option.bind_eq_some.mp h
  exact from_buffer_null_terminated _ _ _ r rfl h

theorem range_map_reverse (l : List Nat) :
    (List.range l.length).map (fun i => l.getD (l.length - 1 - i) 0) = l.reverse := by
  apply List.ext_getElem?
  intro i
  by_cases hi : i < l.length
  · rw [List.getElem?_map, List.getElem?_range hi, Option.map_some',
      List.getElem?_reverse hi, List.getD_eq_getElem?_getD,
      List.getElem?_eq_getElem (by omega)]
    rfl
  · rw [List.getElem?_eq_none (by rw [List.length_map, List.length_range]; omega),
      List.getElem?_eq_none (by rw [List.length_reverse]; omega)]

theorem reverse_logic_eq (S : FixedString) (h : 0 < S.data.length) :
    reverse_logic S = some ⟨S.str.reverse ++ [0]⟩ := by
  have hN : S.data.length = S.size + 1 := by
    unfold FixedString.size; rw [if_pos h]; omega
  have hf := fill_loop (fun i => S.get (S.size - 1 - i))
    (fun i => S.str.getD (S.size - 1 - i) 0) 0 (List.replicate S.data.length 0) S.size
    (fun i hi => S.get_eq _ (by omega)) (by rw [List.length_replicate]; omega)
  simp only [Nat.zero_add, List.take_zero, List.nil_append, List.drop_replicate] at hf
  have hr := range_map_reverse S.str
  rw [S.str_length] at hr
  rw [hr] at hf
  unfold reverse_logic
  simp only [Option.bind_eq_bind]
  rw [hf, Option.some_bind, hN, show S.size + 1 - S.size = 1 by omega]
  exact from_buffer_content _ _ (by rw [List.length_reverse, S.str_length])

theorem left_logic_eq (S : FixedString) (NChars : Nat) :
    left_logic S NChars = some ⟨S.str.take (min NChars S.size) ++ [0]⟩ := by
  have hmin : (if NChars < S.size then NChars else S.size) = min NChars S.size := by
    split <;> omega
  unfold left_logic
  simp only [Option.bind_eq_bind]
  rw [hmin]
  exact build_head S _ (Nat.min_le_right _ _)

theorem right_logic_eq (S : FixedString) (NChars : Nat) :
    right_logic S NChars = some ⟨S.str.drop (S.size - min NChars S.size) ++ [0]⟩ := by
  have hmin : (if NChars < S.size then NChars else S.size) = min NChars S.size := by
    split <;> omega
  unfold right_logic
  simp only [Option.bind_eq_bind]
  rw [hmin]
  have hb := build_copy S (S.size - min NChars S.size) (min NChars S.size) (by omega)
  rw [List.take_of_length_le (by rw [List.length_drop, S.str_length]; omega)] at hb
  exact hb

theorem replace_logic_null_terminated (S P R r : FixedString)
    (h : replace_logic S P R = some r) : null_terminated r := by
  unfold replace_logic at h
  simp only [Option.bind_eq_bind] at h
  obtain ⟨pos, -, h⟩ := Option.bind_eq_some.mp h
  split at h
  · obtain ⟨b₁, -, h⟩ := Option.bind_eq_some.mp h
    obtain ⟨b₂, -, h⟩ := Option.bind_eq_some.mp h
    exact bind_from_buffer_null_terminated _ (fun b => b) _ r h
  · exact bind_from_buffer_null_terminated _ (fun b => b) _ r h

theorem replace_all_logic_null_terminated (S P R r : FixedString)
    (h : replace_all_logic S P R = some r) : null_terminated r := by
  unfold replace_all_logic at h
  simp only [Option.bind_eq_bind] at h
  obtain ⟨count, -, h⟩ := Option.bind_eq_some.mp h
  exact bind_from_buffer_null_terminated _ (fun (st : Nat × Nat × List Nat) => st.2.2) _ r h

theorem replace_n_logic_null_terminated (S P R r : FixedString) (N : Nat)
    (h : replace_n_logic S P R N = some r) : null_terminated r := by
  unfold replace_n_logic at h
  simp only [Option.bind_eq_bind] at h
  obtain ⟨count, -, h⟩ := Option.bind_eq_some.mp h
  exact bind_from_buffer_null_terminated _
    (fun (st : Nat × Nat × Nat × List Nat) => st.2.2.2) _ r h

/-- C40: null-termination invariant.  For a null-terminated `S` (and any strings `P`, `R`,
`F`, `E`, any non-empty pack `Strs`), the result `r` of each transform has `r.size() + 1`
elements with the zero element at index `r.size()`, so it can be the input of a further
transform.  The functions `substr`, `to_upper`, `to_lower`, `reverse`, `left`, `right`,
`append`, the three trimming functions and the six path transforms have a result for every
input, but `extension` only when the element type is `char` or the path has an extension;
for `replace`, `replace_all`, `replace_n` and `extension` every result is null-terminated,
and the three replacing functions have a result for a non-empty pattern that is not longer
than the string. -/
theorem results_are_null_terminated (S P R F E : FixedString) (Strs : List FixedString)
    (Start Length NChars N : Nat) (hS : null_terminated S) :
    (∃ r, substr_logic S Start Length = some r ∧ null_terminated r) ∧
    (∃ r, to_upper_logic S = some r ∧ null_terminated r) ∧
    (∃ r, to_lower_logic S = some r ∧ null_terminated r) ∧
    (∃ r, reverse_logic S = some r ∧ null_terminated r) ∧
    (∃ r, left_logic S NChars = some r ∧ null_terminated r) ∧
    (∃ r, right_logic S NChars = some r ∧ null_terminated r) ∧
    (Strs ≠ [] → ∃ r, append_logic Strs = some r ∧ null_terminated r) ∧
    (∃ r, trim_left_logic S = some r ∧ null_terminated r) ∧
    (∃ r, trim_right_logic S = some r ∧ null_terminated r) ∧
    (∃ r, trim_logic S = some r ∧ null_terminated r) ∧
    ((∀ r, replace_logic S P R = some r → null_terminated r) ∧
      (∀ r, replace_all_logic S P R = some r → null_terminated r) ∧
      (∀ r, replace_n_logic S P R N = some r → null_terminated r) ∧
      (0 < P.size → P.size ≤ S.size → S.size + S.size * R.size < 2 ^ 64 →
        (∃ r, replace_logic S P R = some r ∧ null_terminated r) ∧
        (∃ r, replace_all_logic S P R = some r ∧ null_terminated r) ∧
        (∃ r, replace_n_logic S P R N = some r ∧ null_terminated r))) ∧
    (∃ r, filename_logic S = some r ∧ null_terminated r) ∧
    (∃ r, stem_logic S = some r ∧ null_terminated r) ∧
    ((∀ T r, extension_logic T S = some r → null_terminated r) ∧
      (∀ T, T = CharT.char ∨ has_extension S = some true →
        ∃ r, extension_logic T S = some r ∧ null_terminated r)) ∧
    (∃ r, remove_filename_logic S = some r ∧ null_terminated r) ∧
    (∃ r, replace_filename_logic S F = some r ∧ null_terminated r) ∧
    (∃ r, replace_extension_logic S E = some r ∧ null_terminated r) := by
  have hN : 0 < S.data.length := by have := hS.1; omega
  obtain ⟨pos, dot, hpos, hdot, hle, hd, -, hfn, hst, -⟩ := path_parts S
  refine ⟨⟨_, substr_logic_eq S Start Length, null_terminated_content _⟩,
    ⟨_, to_upper_logic_eq S hN, null_terminated_content _⟩,
    ⟨_, to_lower_logic_eq S hN, null_terminated_content _⟩,
    ⟨_, reverse_logic_eq S hN, null_terminated_content _⟩,
    ⟨_, left_logic_eq S NChars, null_terminated_content _⟩,
    ⟨_, right_logic_eq S NChars, null_terminated_content _⟩,
    fun hne => ⟨_, append_logic_eq Strs hne, null_terminated_content _⟩,
    ⟨_, trim_left_logic_eq S, null_terminated_content _⟩,
    ⟨_, trim_right_logic_eq S, null_terminated_content _⟩,
    ⟨_, trim_logic_eq S, null_terminated_content _⟩,
    ⟨replace_logic_null_terminated S P R, replace_all_logic_null_terminated S P R,
      fun r => replace_n_logic_null_terminated S P R r N, ?_⟩,
    ⟨_, hfn, null_terminated_content _⟩,
    ⟨_, hst, null_terminated_content _⟩,
    ⟨fun T r hr => ?_, fun T hT => ?_⟩,
    ⟨_, remove_filename_logic_eq S pos hpos hle, null_terminated_content _⟩,
    ⟨_, replace_filename_logic_eq S F pos hpos hle, null_terminated_content _⟩,
    ⟨_, replace_extension_logic_eq S E pos dot hpos hdot hd, null_terminated_content _⟩⟩
  · intro hP hPS hsz
    have hsz2 : S.size + R.size < 2 ^ 64 := by
      have : R.size ≤ S.size * R.size := Nat.le_mul_of_pos_left _ (by omega)
      omega
    exact ⟨⟨_, replace_logic_eq S P R hP hPS hsz2, null_terminated_content _⟩,
      ⟨_, replace_all_logic_eq S P R hP hPS hsz, null_terminated_content _⟩,
      ⟨_, replace_n_logic_eq S P R N hP hPS hsz, null_terminated_content _⟩⟩
  · rw [extension_logic_any T S pos dot hpos hdot hd] at hr
    by_cases hc : T = CharT.char ∨
        (if dot = S.size ∨ dot ≤ pos then [] else S.str.drop dot) ≠ []
    · rw [if_pos hc] at hr
      rw [← Option.some.inj hr]
      exact null_terminated_content _
    · rw [if_neg hc] at hr
      cases hr
  · have hc : T = CharT.char ∨
        (if dot = S.size ∨ dot ≤ pos then [] else S.str.drop dot) ≠ [] := by
      rcases hT with hT | hT
      · exact Or.inl hT
      · right
        rw [has_extension_eq S pos dot hpos hdot] at hT
        have hc := of_decide_eq_true (Option.some.inj hT)
        rw [if_neg (by omega)]
        intro hnil
        have := congrArg List.length hnil
        rw [List.length_drop, S.str_length, List.length_nil] at this
        omega
    refine ⟨⟨(if dot = S.size ∨ dot ≤ pos then [] else S.str.drop dot) ++ [0]⟩, ?_,
      null_terminated_content _⟩
    rw [extension_logic_any T S pos dot hpos hdot hd, if_pos hc]

theorem results_are_null_terminated_witness :
    null_terminated (FixedString.lit "  foo_bar  ") ∧
    replace_all_logic (FixedString.lit "  foo_bar  ") (FixedString.lit "_")
      (FixedString.lit " ") = some (FixedString.lit "  foo bar  ") ∧
    trim_logic (FixedString.lit "  foo bar  ") = some (FixedString.lit "foo bar") ∧
    to_upper_logic (FixedString.lit "foo bar") = some (FixedString.lit "FOO BAR") ∧
    reverse_logic (FixedString.lit "HELLO") = some (FixedString.lit "OLLEH") ∧
    left_logic (FixedString.lit "Hello World") 5 = some (FixedString.lit "Hello") ∧
    right_logic (FixedString.lit "Hello World") 5 = some (FixedString.lit "World") ∧
    append_logic [FixedString.lit "One", FixedString.lit "", FixedString.lit "Three"] =
      some (FixedString.lit "OneThree") ∧
    append_logic [] = none ∧
    (∃ r, substr_logic (FixedString.lit "  foo_bar  ") 2 3 = some r ∧ null_terminated r) ∧
    (∃ r, to_upper_logic (FixedString.lit "  foo_bar  ") = some r ∧ null_terminated r) :=
  ⟨by decide, by decide, by decide, by decide, by decide, by decide, by decide, by decide,
    by decide,
    (results_are_null_terminated (FixedString.lit "  foo_bar  ") (FixedString.lit "_")
      (FixedString.lit " ") (FixedString.lit "x") (FixedString.lit "y") [] 2 3 0 0
      (by decide)).1,
    (results_are_null_terminated (FixedString.lit "  foo_bar  ") (FixedString.lit "_")
      (FixedString.lit " ") (FixedString.lit "x") (FixedString.lit "y") [] 2 3 0 0
      (by decide)).2.1⟩

end CtStr
